import Mathlib

/-!
# FAT volume of `OS_PROJECT` (mysh): shallow embedding and verified properties

The C sources `src/fat_fs.c`, `src/fat_ops.c` and `src/shell_builtins.c` keep the
whole volume in one global `fat_fs` structure.  Here that structure is an
explicit value threaded through every operation.

Conventions of the embedding:

* C arrays (`fat_table`, `dir_entries`, `blocks`) are total functions of the
  index; the code only ever indexes them inside their bounds on the inputs the
  theorems talk about.
* C strings are `List Char` (the bytes before the terminating NUL); a `NULL`
  pointer is `none`.
* `uint16_t` / `uint32_t` / `size_t` values are `Nat`; a reduction modulo
  `2 ^ w` is written out where the C arithmetic can wrap.
* `time(NULL)` is the parameter `now` of the operation that reads the clock.
* Loops whose termination depends on the volume contents (`fat_free_chain`)
  take an explicit iteration budget `fuel` and return `none` when it runs out.
-/

namespace OsProject

/-! ## Constants of `include/fat_fs.h` -/

def BLOCK_SIZE : Nat := 512
def MAX_BLOCKS : Nat := 1024
def MAX_FILENAME : Nat := 255
def FAT_EOC : Nat := 0xFFFF
def FAT_FREE : Nat := 0x0000

/-- The value `(uint32_t)-1` that `fat_find_entry` and `fat_resolve_path` return for "not found". -/
def NOT_FOUND : Nat := 4294967295

/-- Capacity of `dir_entries` (the literal `256` of the sources). -/
def MAX_ENTRIES : Nat := 256

/-- The NUL byte. -/
def NUL : Char := Char.ofNat 0

/-! ## Data structures -/

/-- Record `dir_entry` of `fat_fs.h`; `name` holds the bytes before the NUL. -/
structure dir_entry where
  name : List Char
  size : Nat
  first_block : Nat
  is_dir : Bool
  is_used : Bool
  created : Nat
  modified : Nat
  parent_entry : Nat
deriving DecidableEq

/-- Record `fat_fs` of `fat_fs.h`. -/
structure fat_fs where
  fat_table : Nat → Nat
  dir_entries : Nat → dir_entry
  blocks : Nat → Nat → Char
  num_entries : Nat
  current_dir : Nat

/-- The `errno` values the volume operations set. -/
inductive errno_t where
  | ENOENT | EEXIST | ENOTDIR | EISDIR | ENOSPC
deriving DecidableEq

/-- Outcome of an operation: its `int` return value, the `errno` it stored (if
any) and the volume afterwards. -/
structure result where
  ret : Int
  err : Option errno_t
  fs : fat_fs

/-- Array store `a[i] = v`. -/
def store {α : Type} (a : Nat → α) (i : Nat) (v : α) : Nat → α :=
  fun j => if j = i then v else a j

/-- A slot of the `calloc`-ed table that was never written. -/
def zero_entry : dir_entry :=
  { name := [], size := 0, first_block := 0, is_dir := false, is_used := false,
    created := 0, modified := 0, parent_entry := 0 }

/-! ## `fat_init` (fresh volume) -/

/-- Text of the sample `readme.txt`. -/
def readme_content : List Char :=
  "This is a virtual FAT file system.\nWelcome to mysh!\n".toList

/-- The branch of `fat_init` taken when no image can be loaded: a zeroed volume
with the root directory in slot 0 and `readme.txt` in slot 1, block 0. -/
def fat_init (now : Nat) : fat_fs :=
  { fat_table := store (fun _ => FAT_FREE) 0 FAT_EOC
    dir_entries :=
      store
        (store (fun _ => zero_entry) 0
          { name := ['/'], size := 0, first_block := FAT_EOC, is_dir := true,
            is_used := true, created := now, modified := now, parent_entry := 0 })
        1
        { name := "readme.txt".toList, size := readme_content.length, first_block := 0,
          is_dir := false, is_used := true, created := now, modified := now,
          parent_entry := 0 }
    blocks := store (fun _ _ => NUL) 0 (fun j => readme_content.getD j NUL)
    num_entries := 2
    current_dir := 0 }

/-! ## Block allocation and reclamation (`fat_fs.c`) -/

/-- The scan of `fat_alloc_block`: `n` cells remain to be inspected from index `i`. -/
def alloc_scan (fat : Nat → Nat) : Nat → Nat → Nat
  | 0, _ => FAT_EOC
  | n + 1, i => if fat i = FAT_FREE then i else alloc_scan fat n (i + 1)

/-- Function `fat_alloc_block`: the returned block and the volume afterwards. -/
def fat_alloc_block (s : fat_fs) : Nat × fat_fs :=
  let b := alloc_scan s.fat_table MAX_BLOCKS 0
  if b = FAT_EOC then (FAT_EOC, s)
  else (b, { s with fat_table := store s.fat_table b FAT_EOC })

/-- The `while` loop of `fat_free_chain`, cut off after `fuel` iterations. -/
def free_loop : Nat → fat_fs → Nat → Option fat_fs
  | 0, _, _ => none
  | fuel + 1, s, current =>
    if current ≠ FAT_EOC ∧ current < MAX_BLOCKS then
      let next := s.fat_table current
      free_loop fuel
        { s with fat_table := store s.fat_table current FAT_FREE
                 blocks := store s.blocks current (fun _ => NUL) }
        next
    else some s

/-- Function `fat_free_chain`; `none` when the loop is still running after `fuel` iterations. -/
def fat_free_chain (fuel : Nat) (s : fat_fs) (start_block : Nat) : Option fat_fs :=
  free_loop fuel s start_block

/-! ## Directory lookup and path resolution (`fat_fs.c`) -/

/-- The `for` loop of `fat_find_entry`: `n` slots remain from index `i`. -/
def find_scan (s : fat_fs) (name : List Char) (parent : Nat) : Nat → Nat → Nat
  | 0, _ => NOT_FOUND
  | n + 1, i =>
    if (s.dir_entries i).is_used = true ∧ (s.dir_entries i).parent_entry = parent ∧
        (s.dir_entries i).name = name then i
    else find_scan s name parent n (i + 1)

/-- Function `fat_find_entry`. -/
def fat_find_entry (s : fat_fs) (name : List Char) (parent : Nat) : Nat :=
  find_scan s name parent s.num_entries 0

/-- First phase of `strtok`: skip the leading delimiters. -/
def skip_delims (d : Char) : List Char → List Char
  | [] => []
  | c :: cs => if c = d then skip_delims d cs else c :: cs

/-- Second phase of `strtok`: the token up to the next delimiter, and the text
after that delimiter (where the next call resumes). -/
def scan_token (d : Char) : List Char → List Char × List Char
  | [] => ([], [])
  | c :: cs => if c = d then ([], cs) else ((scan_token d cs).1.cons c, (scan_token d cs).2)

/-- One call of `strtok` on the text that is left: `none` is the `NULL` result. -/
def strtok (d : Char) (str : List Char) : Option (List Char × List Char) :=
  match skip_delims d str with
  | [] => none
  | c :: cs => some (scan_token d (c :: cs))

/-- The token loop of `fat_resolve_path`; `rest` is the text `strtok` has not consumed yet. -/
def resolve_loop (s : fat_fs) : Nat → List Char → Nat → Nat
  | 0, _, current => current
  | fuel + 1, rest, current =>
    match strtok '/' rest with
    | none => current
    | some (tok, rest1) =>
      if tok = ['.'] then resolve_loop s fuel rest1 current
      else if tok = ['.', '.'] then
        resolve_loop s fuel rest1 (s.dir_entries current).parent_entry
      else
        let next := fat_find_entry s tok current
        if next = NOT_FOUND then NOT_FOUND
        else resolve_loop s fuel rest1 next

/-- Function `fat_resolve_path`.  Every `strtok` call that yields a token consumes
at least one character, so `path.length + 1` iterations are never exceeded. -/
def fat_resolve_path (s : fat_fs) (path : Option (List Char)) : Nat :=
  match path with
  | none => s.current_dir
  | some [] => s.current_dir
  | some (c :: cs) =>
    if c :: cs = ['/'] then 0
    else
      resolve_loop s ((c :: cs).length + 1) (c :: cs) (if c = '/' then 0 else s.current_dir)

/-! ## File contents (`fat_fs.c`) -/

/-- Assignment through the pointer `entry = &fs->dir_entries[entry_idx]`. -/
def set_entry (s : fat_fs) (idx : Nat) (e : dir_entry) : fat_fs :=
  { s with dir_entries := store s.dir_entries idx e }

/-- Number of bytes the loop body copies for the block at byte offset `offset`. -/
def chunk_len (size offset : Nat) : Nat :=
  if size - offset > BLOCK_SIZE then BLOCK_SIZE else size - offset

/-- The call `memcpy(fs->blocks[block], data + offset, to_copy)`. -/
def copy_in (s : fat_fs) (block : Nat) (data : List Char) (offset to_copy : Nat) : fat_fs :=
  let bytes : Nat → Char :=
    fun j => if j < to_copy then data.getD (offset + j) NUL else s.blocks block j
  { s with blocks := store s.blocks block bytes }

/-- The allocation loop of `fat_write_file`: `n` blocks remain to be written, `i`
is the loop counter.  The result is `(ok, first, volume)`; `ok = false` is the
out-of-space exit, taken after the blocks allocated so far were released. -/
def write_loop (fuel : Nat) (data : List Char) (size : Nat) :
    Nat → Nat → fat_fs → Nat → Nat → Option (Bool × Nat × fat_fs)
  | 0, _, s, first, _ => some (true, first, s)
  | n + 1, i, s, first, prev =>
    if (fat_alloc_block s).1 = FAT_EOC then
      if first ≠ FAT_EOC then
        (fat_free_chain fuel (fat_alloc_block s).2 first).map (fun s2 => (false, first, s2))
      else some (false, first, (fat_alloc_block s).2)
    else
      let block := (fat_alloc_block s).1
      let s2 := copy_in (fat_alloc_block s).2 block data (i * BLOCK_SIZE)
        (chunk_len size (i * BLOCK_SIZE))
      if first = FAT_EOC then write_loop fuel data size n (i + 1) s2 block block
      else
        write_loop fuel data size n (i + 1)
          { s2 with fat_table := store s2.fat_table prev block } first block

/-- The step "free existing blocks" of `fat_write_file` (and of `fat_rm`). -/
def release_chain (fuel : Nat) (s : fat_fs) (entry_idx : Nat) : Option fat_fs :=
  if (s.dir_entries entry_idx).first_block ≠ FAT_EOC then
    fat_free_chain fuel s (s.dir_entries entry_idx).first_block
  else some s

/-- Function `fat_write_file`.  `size` is a `size_t`, so the rounding-up sum wraps
modulo `2 ^ 64`, and the stored `uint32_t` size is `size` modulo `2 ^ 32`. -/
def fat_write_file (fuel : Nat) (s : fat_fs) (entry_idx : Nat) (data : List Char)
    (size : Nat) (now : Nat) : Option result :=
  if entry_idx ≥ s.num_entries ∨ (s.dir_entries entry_idx).is_used = false then
    some ⟨-1, none, s⟩
  else if (s.dir_entries entry_idx).is_dir = true then some ⟨-1, none, s⟩
  else
    match release_chain fuel s entry_idx with
    | none => none
    | some s1 =>
      if size = 0 then
        some ⟨0, none, set_entry s1 entry_idx
          { s1.dir_entries entry_idx with first_block := FAT_EOC, size := 0, modified := now }⟩
      else
        let blocks_needed := ((size + BLOCK_SIZE - 1) % 2 ^ 64) / BLOCK_SIZE
        match write_loop fuel data size blocks_needed 0 s1 FAT_EOC FAT_EOC with
        | none => none
        | some (false, _, s2) => some ⟨-1, none, s2⟩
        | some (true, first, s2) =>
          some ⟨0, none, set_entry s2 entry_idx
            { s2.dir_entries entry_idx with
              first_block := first, size := size % 2 ^ 32, modified := now }⟩

/-- The copy loop of `fat_read_file`; `buf` is the buffer under construction. -/
def read_loop (s : fat_fs) (size : Nat) : Nat → Nat → Nat → (Nat → Char) → (Nat → Char)
  | 0, _, _, buf => buf
  | fuel + 1, current, offset, buf =>
    if current ≠ FAT_EOC ∧ offset < size then
      read_loop s size fuel (s.fat_table current) (offset + chunk_len size offset)
        (fun k =>
          if offset ≤ k ∧ k < offset + chunk_len size offset then s.blocks current (k - offset)
          else buf k)
    else buf

/-- Function `fat_read_file`: `none` is the `NULL` result, otherwise the `size + 1`
bytes of the returned buffer.  `junk` is the content `malloc` hands out.  Each
iteration advances `offset` by at least one byte, so `size` iterations suffice. -/
def fat_read_file (s : fat_fs) (junk : Nat → Char) (entry_idx : Nat) : Option (List Char) :=
  if entry_idx ≥ s.num_entries ∨ (s.dir_entries entry_idx).is_used = false then none
  else if (s.dir_entries entry_idx).is_dir = true then none
  else if (s.dir_entries entry_idx).size = 0 then some [NUL]
  else
    let size := (s.dir_entries entry_idx).size
    let buf := read_loop s size size (s.dir_entries entry_idx).first_block 0 junk
    some ((List.range (size + 1)).map (store buf size NUL))

/-! ## Namespace operations (`fat_ops.c`, `shell_builtins.c`) -/

/-- The split at `strrchr(copy, sep)`: `none` when `sep` does not occur, else the
text before the last `sep` and the text after it. -/
def split_last (sep : Char) : List Char → Option (List Char × List Char)
  | [] => none
  | c :: cs =>
    match split_last sep cs with
    | some (pre, suf) => some (c :: pre, suf)
    | none => if c = sep then some ([], cs) else none

/-- Parent-and-name step shared by `fat_mkdir` and `fat_touch`: `none` when the
parent does not resolve. -/
def parent_and_name (s : fat_fs) (path : List Char) : Option (Nat × List Char) :=
  match split_last '/' path with
  | none => some (s.current_dir, path)
  | some (pre, name) =>
    if fat_resolve_path s (some pre) = NOT_FOUND then none
    else some (fat_resolve_path s (some pre), name)

/-- The entry `fat_mkdir` / `fat_touch` store in slot `num_entries`; `strncpy`
keeps at most `MAX_FILENAME` bytes of the name. -/
def new_entry (name : List Char) (parent : Nat) (dir : Bool) (now : Nat) : dir_entry :=
  { name := name.take MAX_FILENAME, size := 0, first_block := FAT_EOC, is_dir := dir,
    is_used := true, created := now, modified := now, parent_entry := parent }

/-- Function `fat_mkdir`. -/
def fat_mkdir (s : fat_fs) (now : Nat) (path : Option (List Char)) : result :=
  match path with
  | none => ⟨-1, none, s⟩
  | some p =>
    match parent_and_name s p with
    | none => ⟨-1, none, s⟩
    | some (parent, name) =>
      if fat_find_entry s name parent ≠ NOT_FOUND then ⟨-1, some errno_t.EEXIST, s⟩
      else if s.num_entries ≥ MAX_ENTRIES then ⟨-1, some errno_t.ENOSPC, s⟩
      else
        ⟨0, none,
          { set_entry s s.num_entries (new_entry name parent true now) with
            num_entries := s.num_entries + 1 }⟩

/-- Function `fat_touch`. -/
def fat_touch (s : fat_fs) (now : Nat) (path : Option (List Char)) : result :=
  match path with
  | none => ⟨-1, none, s⟩
  | some p =>
    match parent_and_name s p with
    | none => ⟨-1, none, s⟩
    | some (parent, name) =>
      let existing := fat_find_entry s name parent
      if existing ≠ NOT_FOUND then
        if (s.dir_entries existing).is_dir = true then ⟨-1, some errno_t.EISDIR, s⟩
        else ⟨0, none, set_entry s existing { s.dir_entries existing with modified := now }⟩
      else if s.num_entries ≥ MAX_ENTRIES then ⟨-1, some errno_t.ENOSPC, s⟩
      else
        ⟨0, none,
          { set_entry s s.num_entries (new_entry name parent false now) with
            num_entries := s.num_entries + 1 }⟩

/-- Function `fat_cd`. -/
def fat_cd (s : fat_fs) (path : Option (List Char)) : result :=
  match path with
  | none => ⟨0, none, { s with current_dir := 0 }⟩
  | some p =>
    let dir_idx := fat_resolve_path s (some p)
    if dir_idx = NOT_FOUND then ⟨-1, some errno_t.ENOENT, s⟩
    else if (s.dir_entries dir_idx).is_dir = false then ⟨-1, some errno_t.ENOTDIR, s⟩
    else ⟨0, none, { s with current_dir := dir_idx }⟩

/-- Destination parsing of `fat_mv`: `none` when the destination parent does not resolve. -/
def mv_parent_and_name (s : fat_fs) (dest : List Char) : Option (Nat × List Char) :=
  match split_last '/' dest with
  | none => some (s.current_dir, dest)
  | some (pre, new_name) =>
    if pre.length = 0 then some (0, new_name)
    else if fat_resolve_path s (some pre) = NOT_FOUND then none
    else some (fat_resolve_path s (some pre), new_name)

/-- The three stores that perform the move in `fat_mv`. -/
def mv_apply (s : fat_fs) (now src_idx dest_parent_idx : Nat) (new_name : List Char) : fat_fs :=
  set_entry s src_idx
    { s.dir_entries src_idx with
      parent_entry := dest_parent_idx, name := new_name.take MAX_FILENAME, modified := now }

/-- Function `fat_mv` (the `rename` on the host file system is not part of the volume). -/
def fat_mv (s : fat_fs) (now : Nat) (source dest : Option (List Char)) : result :=
  match source, dest with
  | some src, some dst =>
    let src_idx := fat_resolve_path s (some src)
    if src_idx = NOT_FOUND then ⟨-1, none, s⟩
    else if src_idx = 0 then ⟨-1, none, s⟩
    else
      match mv_parent_and_name s dst with
      | none => ⟨-1, none, s⟩
      | some (dest_parent_idx, new_name) =>
        if (s.dir_entries dest_parent_idx).is_dir = false then ⟨-1, none, s⟩
        else
          let existing := fat_find_entry s new_name dest_parent_idx
          if existing ≠ NOT_FOUND then
            if (s.dir_entries existing).is_dir = true then
              if fat_find_entry s (s.dir_entries src_idx).name existing ≠ NOT_FOUND then
                ⟨-1, none, s⟩
              else ⟨0, none, mv_apply s now src_idx existing (s.dir_entries src_idx).name⟩
            else ⟨-1, none, s⟩
          else ⟨0, none, mv_apply s now src_idx dest_parent_idx new_name⟩
  | _, _ => ⟨-1, none, s⟩

/-- The emptiness loop of `fat_rmdir`: is some in-use slot among the `n` slots
from `i` a child of `idx`? -/
def child_scan (s : fat_fs) (idx : Nat) : Nat → Nat → Bool
  | 0, _ => false
  | n + 1, i =>
    if (s.dir_entries i).is_used = true ∧ (s.dir_entries i).parent_entry = idx then true
    else child_scan s idx n (i + 1)

/-- Function `fat_rmdir`. -/
def fat_rmdir (s : fat_fs) (path : Option (List Char)) : result :=
  match path with
  | none => ⟨-1, none, s⟩
  | some p =>
    let entry_idx := fat_resolve_path s (some p)
    if entry_idx = NOT_FOUND then ⟨-1, none, s⟩
    else if (s.dir_entries entry_idx).is_dir = false then ⟨-1, none, s⟩
    else if entry_idx = 0 then ⟨-1, none, s⟩
    else if child_scan s entry_idx s.num_entries 0 = true then ⟨-1, none, s⟩
    else if entry_idx = s.current_dir then ⟨-1, none, s⟩
    else ⟨0, none, set_entry s entry_idx { s.dir_entries entry_idx with is_used := false }⟩

/-- Function `fat_rm`; `none` when releasing the chain does not finish within `fuel`. -/
def fat_rm (fuel : Nat) (s : fat_fs) (path : Option (List Char)) : Option result :=
  match path with
  | none => some ⟨-1, none, s⟩
  | some p =>
    let entry_idx := fat_resolve_path s (some p)
    if entry_idx = NOT_FOUND then some ⟨-1, none, s⟩
    else if (s.dir_entries entry_idx).is_dir = true then some ⟨-1, none, s⟩
    else
      match release_chain fuel s entry_idx with
      | none => none
      | some s1 =>
        some ⟨0, none, set_entry s1 entry_idx
          { s1.dir_entries entry_idx with is_used := false, first_block := FAT_EOC, size := 0 }⟩

/-! ## Specification-side definitions -/

/-- Reference resolver, following the specification text: the non-empty
`/`-separated segments of a path. -/
def path_segments (path : List Char) : List (List Char) :=
  (path.splitOn '/').filter (fun seg => !seg.isEmpty)

/-- Reference resolver, following the specification text: fold over the segments,
where `.` keeps the index, `..` moves to the parent and any other segment is
looked up with `fat_find_entry`; the first failed lookup ends the walk. -/
def resolve_segments (s : fat_fs) : List (List Char) → Nat → Nat
  | [], idx => idx
  | seg :: rest, idx =>
    if seg = ['.'] then resolve_segments s rest idx
    else if seg = ['.', '.'] then resolve_segments s rest (s.dir_entries idx).parent_entry
    else if fat_find_entry s seg idx = NOT_FOUND then NOT_FOUND
    else resolve_segments s rest (fat_find_entry s seg idx)

/-- Reference resolver, following the specification text (section 4.C). -/
def reference_resolve (s : fat_fs) (path : List Char) : Nat :=
  if path = [] then s.current_dir
  else resolve_segments s (path_segments path) (if path.head? = some '/' then 0 else s.current_dir)

/-- The block reached from `b` after following the FAT cells `n` times. -/
def fat_walk (fat : Nat → Nat) : Nat → Nat → Nat
  | 0, b => b
  | n + 1, b => fat_walk fat n (fat b)

/-- The entry reached from `idx` after following `parent_entry` `n` times. -/
def ancestor (s : fat_fs) : Nat → Nat → Nat
  | 0, idx => idx
  | n + 1, idx => ancestor s n (s.dir_entries idx).parent_entry

/-! ## Concrete volumes used as test inputs -/

/-- The fresh volume after `mkdir /a`. -/
def vol_mkdir_a : result := fat_mkdir (fat_init 0) 0 (some "/a".toList)

/-- The volume after `mkdir /a` followed by `mv /a /a`. -/
def vol_mv_a_a : result := fat_mv vol_mkdir_a.fs 0 (some "/a".toList) (some "/a".toList)

/-- The fresh volume after `mkdir /readme.txt/d`. -/
def vol_mkdir_under_file : result := fat_mkdir (fat_init 0) 0 (some "/readme.txt/d".toList)

/-- A file name of 256 bytes: 255 times `a`, then `c`. -/
def long_name (c : Char) : List Char := List.replicate 255 'a' ++ [c]

/-- The fresh volume after `mkdir` of the 256-byte name ending in `x`. -/
def vol_long_x : result := fat_mkdir (fat_init 0) 0 (some (long_name 'x'))

/-- The volume after a second `mkdir`, of the 256-byte name ending in `y`. -/
def vol_long_xy : result := fat_mkdir vol_long_x.fs 0 (some (long_name 'y'))

/-! ## Chains and free cells (specification vocabulary) -/

/-- The indices of the FREE cells of a FAT, in increasing order. -/
def free_list (fat : Nat → Nat) : List Nat :=
  (List.range' 0 MAX_BLOCKS).filter (fun i => decide (fat i = FAT_FREE))

/-- The number of FREE cells of a FAT. -/
def free_count (fat : Nat → Nat) : Nat := (free_list fat).length

/-- Predicate `is_chain fat l b`: following the FAT cells from `b` visits exactly the
blocks of `l`, in this order, each a valid block index with a non-FREE cell, and
then reaches the EOC marker. -/
def is_chain (fat : Nat → Nat) : List Nat → Nat → Prop
  | [], b => b = FAT_EOC
  | x :: l, b => b = x ∧ x < MAX_BLOCKS ∧ fat x ≠ FAT_FREE ∧ is_chain fat l (fat x)

instance is_chain_decidable (fat : Nat → Nat) :
    (l : List Nat) → (b : Nat) → Decidable (is_chain fat l b)
  | [], b => inferInstanceAs (Decidable (b = FAT_EOC))
  | x :: l, b =>
    have := is_chain_decidable fat l (fat x)
    inferInstanceAs
      (Decidable (b = x ∧ x < MAX_BLOCKS ∧ fat x ≠ FAT_FREE ∧ is_chain fat l (fat x)))

/-- The volume in which the blocks of `l` have been released: their FAT cells are
FREE and their data is zeroed. -/
def clear_chain (s : fat_fs) (l : List Nat) : fat_fs :=
  { s with
    fat_table := fun x => if x ∈ l then FAT_FREE else s.fat_table x
    blocks := fun x => if x ∈ l then (fun _ => NUL) else s.blocks x }

/-- The body of the allocation loop of `fat_write_file`, run on a given list of
blocks instead of the blocks that `fat_alloc_block` finds. -/
def write_steps (data : List Char) (size : Nat) :
    List Nat → Nat → fat_fs → Nat → Nat → Nat × fat_fs
  | [], _, s, first, _ => (first, s)
  | b :: bs, i, s, first, prev =>
    let s2 := copy_in { s with fat_table := store s.fat_table b FAT_EOC } b data
      (i * BLOCK_SIZE) (chunk_len size (i * BLOCK_SIZE))
    if first = FAT_EOC then write_steps data size bs (i + 1) s2 b b
    else
      write_steps data size bs (i + 1)
        { s2 with fat_table := store s2.fat_table prev b } first b

/-- The out-of-space exit of the allocation loop of `fat_write_file`. -/
def rollback (fuel : Nat) (p : Nat × fat_fs) : Option (Bool × Nat × fat_fs) :=
  if p.1 ≠ FAT_EOC then (fat_free_chain fuel p.2 p.1).map (fun s2 => (false, p.1, s2))
  else some (false, p.1, p.2)

/-- Predicate `holds_data blocks data size l off`: the blocks of `l`, in order, hold
the bytes of `data` from byte offset `off` on, `BLOCK_SIZE` bytes per block and
the remaining bytes of `size` in the last one. -/
def holds_data (blocks : Nat → Nat → Char) (data : List Char) (size : Nat) :
    List Nat → Nat → Prop
  | [], _ => True
  | b :: l, off =>
    (∀ k, k < chunk_len size off → blocks b k = data.getD (off + k) NUL) ∧
      holds_data blocks data size l (off + BLOCK_SIZE)

/-! ## Concrete volumes for the write path -/

/-- The result of writing the two bytes `hi` to `readme.txt` on the fresh volume. -/
def written_hi : result :=
  (fat_write_file 1025 (fat_init 0) 1 "hi".toList 2 0).getD ⟨-1, none, fat_init 0⟩

/-- A buffer of `1024 * 512 + 1` bytes, one more than the volume can hold. -/
def big_data : List Char := List.replicate (MAX_BLOCKS * BLOCK_SIZE + 1) 'x'

/-- The fresh volume with the chain of `readme.txt` released and every block
zeroed, but the entry of `readme.txt` left as it was. -/
def stale_volume : fat_fs :=
  { fat_table := fun _ => FAT_FREE
    dir_entries := (fat_init 0).dir_entries
    blocks := fun _ _ => NUL
    num_entries := 2
    current_dir := 0 }

/-- The volume `stale_volume` after `touch b`. -/
def vol_stale_touch : result := fat_touch stale_volume 0 (some ['b'])

/-- The volume `vol_stale_touch` after writing one byte to the new entry 2. -/
def vol_shared : result :=
  (fat_write_file 1025 vol_stale_touch.fs 2 ['y'] 1 0).getD ⟨-1, none, fat_init 0⟩

/-! ## Sequences of volume operations -/

/-- One call of a volume operation, with its arguments. -/
inductive op where
  | mkdir (now : Nat) (path : Option (List Char))
  | touch (now : Nat) (path : Option (List Char))
  | write_file (fuel entry_idx : Nat) (data : List Char) (size now : Nat)
  | rm (fuel : Nat) (path : Option (List Char))
  | rmdir (path : Option (List Char))
  | mv (now : Nat) (source dest : Option (List Char))
  | cd (path : Option (List Char))

/-- The volume after one call, whatever the call returned; `none` when the call
does not return within its `fuel`. -/
def step (s : fat_fs) : op → Option fat_fs
  | op.mkdir now path => some (fat_mkdir s now path).fs
  | op.touch now path => some (fat_touch s now path).fs
  | op.write_file fuel e data size now =>
    (fat_write_file fuel s e data size now).map (fun r => r.fs)
  | op.rm fuel path => (fat_rm fuel s path).map (fun r => r.fs)
  | op.rmdir path => some (fat_rmdir s path).fs
  | op.mv now source dest => some (fat_mv s now source dest).fs
  | op.cd path => some (fat_cd s path).fs

/-- The volume after a sequence of calls. -/
def run : fat_fs → List op → Option fat_fs
  | s, [] => some s
  | s, o :: os =>
    match step s o with
    | none => none
    | some s1 => run s1 os

/-- Predicate `child_free s e`: no in-use slot below `num_entries` has `e` as its
`parent_entry`. -/
def child_free (s : fat_fs) (e : Nat) : Prop :=
  ∀ i, i < s.num_entries →
    ¬ ((s.dir_entries i).is_used = true ∧ (s.dir_entries i).parent_entry = e)

/-- Predicate `root_ok s`: slot 0 holds the root directory. -/
def root_ok (s : fat_fs) : Prop :=
  (s.dir_entries 0).is_used = true ∧ (s.dir_entries 0).is_dir = true ∧
    (s.dir_entries 0).name = ['/'] ∧ (s.dir_entries 0).parent_entry = 0

/-- A volume whose entry table holds 255 slots, all but the first two never used. -/
def vol_255 : fat_fs := { fat_init 0 with num_entries := 255 }

/-- The result of `rm /readme.txt` on the fresh volume. -/
def vol_rm_readme : result :=
  (fat_rm 2 (fat_init 0) (some "/readme.txt".toList)).getD ⟨-1, none, fat_init 0⟩

/-! ## Concrete volumes for the namespace operations -/

/-- The fresh volume after `mkdir /d`. -/
def vol_mkdir_d : result := fat_mkdir (fat_init 0) 0 (some "/d".toList)

/-- The volume `vol_mkdir_d` after `cd /d`. -/
def vol_cd_d : result := fat_cd vol_mkdir_d.fs (some "/d".toList)

/-- The volume `vol_cd_d` (current directory `/d`) after `mkdir /x`. -/
def vol_mkdir_x : result := fat_mkdir vol_cd_d.fs 0 (some "/x".toList)

/-- The volume `vol_cd_d` (current directory `/d`) after `touch /x`. -/
def vol_touch_x : result := fat_touch vol_cd_d.fs 0 (some "/x".toList)

/-- The volume `vol_mkdir_d` after `mv /readme.txt /d/`. -/
def vol_mv_trailing : result :=
  fat_mv vol_mkdir_d.fs 0 (some "/readme.txt".toList) (some "/d/".toList)

/-- The volume `vol_cd_d` (current directory `/d`) after `touch f`. -/
def vol_touch_f : result := fat_touch vol_cd_d.fs 0 (some "f".toList)

/-- The volume `vol_touch_f` (current directory `/d`) after `mv f ..`. -/
def vol_mv_dotdot : result := fat_mv vol_touch_f.fs 0 (some "f".toList) (some "..".toList)

/-- The volume `vol_mkdir_d` after `mv /d/. /b`. -/
def vol_mv_dot_b : result :=
  fat_mv vol_mkdir_d.fs 0 (some "/d/.".toList) (some "/b".toList)

/-- The volume `vol_mv_dot_b` after `mv /b /d/.`. -/
def vol_mv_b_dot : result :=
  fat_mv vol_mv_dot_b.fs 0 (some "/b".toList) (some "/d/.".toList)

/-- Record `command` of `include/shell.h`; `argv` is the 64-slot array, a `NULL`
slot is `none`. -/
structure command where
  argv : Nat → Option (List Char)
  argc : Nat
  input_file : Option (List Char)
  output_file : Option (List Char)
  append : Nat

/-- The `isspace` test of the "C" locale: space, `\t`, `\n`, `\v`, `\f`, `\r`. -/
def isspace (c : Char) : Bool :=
  c == ' ' || c == '\t' || c == '\n' || c == Char.ofNat 11 || c == Char.ofNat 12 ||
    c == '\r'

/-- The C string that starts at the head of a buffer: the bytes before the first NUL. -/
def cstr : List Char → List Char
  | [] => []
  | c :: cs => if c = NUL then [] else c :: cstr cs

/-- Function `ltrim`: `while (*s && isspace(*s)) s++`. -/
def ltrim : List Char → List Char
  | [] => []
  | c :: cs => if c ≠ NUL ∧ isspace c = true then ltrim cs else c :: cs

/-- The loop of `rtrim_inplace`: `while (n > 0 && isspace(s[n-1])) s[--n] = 0`. -/
def rtrim_loop : Nat → List Char → List Char
  | 0, s => s
  | n + 1, s => if isspace (s.getD n NUL) = true then rtrim_loop n (s.set n NUL) else s

/-- Function `rtrim_inplace`, with `n = strlen(s)`. -/
def rtrim_inplace (s : List Char) : List Char := rtrim_loop (cstr s).length s

/-- Library function `strchr (s, c)`: the index of the first `c` in the C string `s`. -/
def strchr (c : Char) : List Char → Option Nat
  | [] => if c = NUL then some 0 else none
  | x :: xs =>
    if x = c then some 0 else if x = NUL then none else (strchr c xs).map (· + 1)

/-- Library function `strstr (s, needle)`: the index of the first occurrence of
`needle` in the C string `s`. -/
def strstr (needle : List Char) : List Char → Option Nat
  | [] => if needle = [] then some 0 else none
  | x :: xs =>
    if needle.isPrefixOf (cstr (x :: xs)) = true then some 0
    else if x = NUL then none else (strstr needle xs).map (· + 1)

/-- The argument of a redirection marker, for the text from index `start` on:
`arg` skips the white space, `end` runs to the next white space or NUL, the
byte at `end` is set to NUL, and `strdup (arg)` is the result.  The second
component is the buffer afterwards. -/
def redir_arg (s : List Char) (start : Nat) : List Char × List Char :=
  let arg := start + ((s.drop start).takeWhile (fun c => c ≠ NUL ∧ isspace c = true)).length
  let e := arg + ((s.drop arg).takeWhile (fun c => c ≠ NUL ∧ isspace c = false)).length
  (cstr ((s.set e NUL).drop arg), s.set e NUL)

/-- First phase of `strtok_r`: skip the leading bytes that are in `delim`. -/
def skip_delims_r (delim : List Char) : List Char → List Char
  | [] => []
  | c :: cs => if c ∈ delim then skip_delims_r delim cs else c :: cs

/-- Second phase of `strtok_r`: the token up to the next byte of `delim`, and the
text after that byte. -/
def scan_token_r (delim : List Char) : List Char → List Char × List Char
  | [] => ([], [])
  | c :: cs =>
    if c ∈ delim then ([], cs)
    else ((scan_token_r delim cs).1.cons c, (scan_token_r delim cs).2)

/-- One call of `strtok_r` on the C string that is left: `none` is the `NULL` result. -/
def strtok_r (delim : List Char) (str : List Char) : Option (List Char × List Char) :=
  match skip_delims_r delim str with
  | [] => none
  | c :: cs => some (scan_token_r delim (c :: cs))

/-- The token loop of `parse_pipeline`:
`while (tk && a < 63) { argv[a++] = strdup(tk); tk = strtok_r(NULL, " \t", ..); }`. -/
def argv_loop : Nat → List Char → Nat → (Nat → Option (List Char)) →
    (Nat → Option (List Char)) × Nat
  | 0, _, a, argv => (argv, a)
  | fuel + 1, rest, a, argv =>
    match strtok_r [' ', '\t'] rest with
    | none => (argv, a)
    | some (tk, rest1) =>
      if a < 63 then argv_loop fuel rest1 (a + 1) (store argv a (some tk)) else (argv, a)

/-- The part "detect redirections" of the stage loop of `parse_pipeline` for the
text `cmd_str` of one stage: `input_file`, `output_file`, `append` and the
buffer `s` afterwards. -/
def stage_redirs (cmd_str : List Char) :
    Option (List Char) × Option (List Char) × Nat × List Char :=
  let s := rtrim_inplace (ltrim cmd_str)
  let in_pos := strchr '<' s
  let append_pos := strstr ['>', '>'] s
  let out_pos := strchr '>' s
  let r1 : Option (List Char) × List Char :=
    match in_pos with
    | some i =>
      (some (redir_arg (s.set i NUL) (i + 1)).1,
        rtrim_inplace (redir_arg (s.set i NUL) (i + 1)).2)
    | none => (none, s)
  let r2 : Option (List Char) × Nat × List Char :=
    match append_pos with
    | some i =>
      (some (redir_arg (r1.2.set i NUL) (i + 2)).1, 1,
        rtrim_inplace (redir_arg (r1.2.set i NUL) (i + 2)).2)
    | none =>
      match out_pos with
      | some i =>
        (some (redir_arg (r1.2.set i NUL) (i + 1)).1, 0,
          rtrim_inplace (redir_arg (r1.2.set i NUL) (i + 1)).2)
      | none => (none, 0, r1.2)
  (r1.1, r2.1, r2.2.1, r2.2.2)

/-- The body of the stage loop of `parse_pipeline` for the text `cmd_str` of one
stage, up to and including `argv[a] = NULL; argc = a`.  `slot` is what the
`argv` array of the slot holds before.  Every token consumes at least one byte,
so `strlen (s) + 1` iterations of the token loop are never exceeded. -/
def parse_stage (slot : Nat → Option (List Char)) (cmd_str : List Char) : command :=
  let r := stage_redirs cmd_str
  let av := argv_loop ((cstr r.2.2.2).length + 1) (cstr r.2.2.2) 0 slot
  { argv := store av.1 av.2 none, argc := av.2, input_file := r.1, output_file := r.2.1,
    append := r.2.2.1 }

/-- The stage loop of `parse_pipeline`: `rest` is the text `strtok_r (.., "|", ..)`
has not consumed yet, `cmds` the caller's array and `n` the value of `*num_cmds`.
A stage without tokens leaves its slot to the next stage, with the redirection
strings freed. -/
def pipeline_loop : Nat → List Char → (Nat → command) → Nat → (Nat → command) × Nat
  | 0, _, cmds, n => (cmds, n)
  | fuel + 1, rest, cmds, n =>
    match strtok_r ['|'] rest with
    | none => (cmds, n)
    | some (cmd_str, rest1) =>
      if n < 10 then
        if (parse_stage (cmds n).argv cmd_str).argc > 0 then
          pipeline_loop fuel rest1 (store cmds n (parse_stage (cmds n).argv cmd_str)) (n + 1)
        else
          pipeline_loop fuel rest1
            (store cmds n
              { parse_stage (cmds n).argv cmd_str with
                input_file := none, output_file := none })
            n
      else (cmds, n)

/-- What `parse_pipeline` hands back: its return value, the array `cmds` and
`*num_cmds`. -/
structure parsed where
  ret : Nat
  cmds : Nat → command
  num_cmds : Nat

/-- Function `parse_pipeline`.  Every stage consumes at least one byte of the
line, so `strlen (line) + 1` iterations of the stage loop are never exceeded. -/
def parse_pipeline (line : Option (List Char)) (cmds : Nat → command) : parsed :=
  match line with
  | none => ⟨0, cmds, 0⟩
  | some l =>
    let r := pipeline_loop ((cstr l).length + 1) (cstr l) cmds 0
    ⟨r.2, r.1, r.2⟩

/-! ## Specification vocabulary for the line parser -/

/-- The maximal runs of bytes that are not in `delim`, in order. -/
def runs (delim : List Char) (s : List Char) : List (List Char) :=
  (s.splitOnP (fun c => decide (c ∈ delim))).filter (fun seg => !seg.isEmpty)

/-- The text without its trailing white space. -/
def rstrip (s : List Char) : List Char := (s.reverse.dropWhile isspace).reverse

/-- The text without its leading and trailing white space. -/
def trim (s : List Char) : List Char := rstrip (s.dropWhile isspace)

/-- The white-space-delimited token at the start of a text. -/
def first_word (s : List Char) : List Char :=
  (s.dropWhile isspace).takeWhile (fun c => !isspace c)

/-- The argument strings of a stage: the first 63 maximal runs of bytes other than
space and tab in the text that is left once the redirections were cut out. -/
def stage_tokens (cmd_str : List Char) : List (List Char) :=
  (runs [' ', '\t'] (cstr (stage_redirs cmd_str).2.2.2)).take 63

/-- The slots `argv[0 .. argc-1]` of a stage. -/
def argv_list (c : command) : List (Option (List Char)) := (List.range c.argc).map c.argv

/-- What a stage is made of: its arguments, redirections and append flag. -/
def stage_view (c : command) :
    List (Option (List Char)) × Option (List Char) × Option (List Char) × Nat :=
  (argv_list c, c.input_file, c.output_file, c.append)

/-- The stages `cmds[0 .. num_cmds-1]` of a parse result. -/
def stage_list (p : parsed) : List command := (List.range p.num_cmds).map p.cmds

/-- An array of stages that were never written. -/
def no_cmds : Nat → command := fun _ => ⟨fun _ => none, 0, none, none, 0⟩

/-- The array `argv` after the strings of `toks` were stored from slot `a` on. -/
def fill_argv (argv : Nat → Option (List Char)) : Nat → List (List Char) →
    Nat → Option (List Char)
  | _, [] => argv
  | a, t :: ts => fill_argv (store argv a (some t)) (a + 1) ts

/-- The texts of the stages that `parse_pipeline` keeps: the first 10 of the
non-empty `|`-separated segments of the line that yield at least one token. -/
def kept_segments (line : List Char) : List (List Char) :=
  ((runs ['|'] (cstr line)).filter (fun seg => decide (stage_tokens seg ≠ []))).take 10

/-- Words joined by single spaces. -/
def unwords : List (List Char) → List Char
  | [] => []
  | [w] => w
  | w :: w2 :: ws => w ++ ' ' :: unwords (w2 :: ws)

/-- Predicate `plain_word w`: a non-empty string free of white space, of the
markers `<`, `>`, `|` and of NUL. -/
def plain_word (w : List Char) : Prop :=
  w ≠ [] ∧ ∀ c, c ∈ w → isspace c = false ∧ c ≠ NUL ∧ c ≠ '<' ∧ c ≠ '>' ∧ c ≠ '|'

instance plain_word_decidable (w : List Char) : Decidable (plain_word w) := by
  unfold plain_word
  infer_instance

/-! ## Output capture (`command_exec.c`) and `fat_grep` -/

/-- Function `write_buffer_to_vfs`.  `t_touch` and `t_write` are the clock values
read by `fat_touch` and `fat_write_file`, `junk` is what `malloc` hands to
`fat_read_file`; `malloc` of the combined buffer is taken to succeed.  The return
value of `fat_write_file` is discarded. -/
def write_buffer_to_vfs (fuel : Nat) (s : fat_fs) (t_touch t_write : Nat)
    (junk : Nat → Char) (vpath : Option (List Char)) (buf : List Char) (len : Nat)
    (append : Nat) : Option result :=
  match vpath with
  | none => some ⟨-1, none, s⟩
  | some p =>
    let created : Option (Nat × fat_fs) :=
      if fat_resolve_path s (some p) = NOT_FOUND then
        if (fat_touch s t_touch (some p)).ret < 0 then none
        else if fat_resolve_path (fat_touch s t_touch (some p)).fs (some p) = NOT_FOUND then none
        else some (fat_resolve_path (fat_touch s t_touch (some p)).fs (some p),
          (fat_touch s t_touch (some p)).fs)
      else some (fat_resolve_path s (some p), s)
    match created with
    | none => some ⟨-1, (fat_touch s t_touch (some p)).err, (fat_touch s t_touch (some p)).fs⟩
    | some (entry_idx, s1) =>
      if append ≠ 0 then
        match fat_read_file s1 junk entry_idx with
        | some existing =>
          (fat_write_file fuel s1 entry_idx (cstr existing ++ buf)
            ((cstr existing).length + len) t_write).map (fun r => ⟨0, none, r.fs⟩)
        | none =>
          (fat_write_file fuel s1 entry_idx buf len t_write).map (fun r => ⟨0, none, r.fs⟩)
      else (fat_write_file fuel s1 entry_idx buf len t_write).map (fun r => ⟨0, none, r.fs⟩)

/-- The capture loop of `execute_pipeline` (the same for a built-in and for an
external single command):
`while ((r = read(fd, buf, sizeof(buf))) > 0) write_buffer_to_vfs(c->output_file, buf, r, c->append);`
`reads` are the byte strings the successive `read` calls deliver; the loop ends
at the first empty one. -/
def capture_loop (fuel : Nat) (t_touch t_write : Nat) (junk : Nat → Char)
    (output_file : Option (List Char)) (append : Nat) : fat_fs → List (List Char) →
    Option fat_fs
  | s, [] => some s
  | s, r :: reads =>
    if r.length > 0 then
      match write_buffer_to_vfs fuel s t_touch t_write junk output_file r r.length append with
      | none => none
      | some res => capture_loop fuel t_touch t_write junk output_file append res.fs reads
    else some s

/-- The line loop of `fat_grep`:
`line = strtok(content, "\n"); while (line) { if (strstr(line, pattern)) printf("%s\n", line); line = strtok(NULL, "\n"); }`.
`out` is what was printed so far. -/
def grep_loop (pattern : List Char) : Nat → List Char → List Char → List Char
  | 0, _, out => out
  | fuel + 1, rest, out =>
    match strtok_r ['\n'] rest with
    | none => out
    | some (line, rest1) =>
      if strstr pattern line ≠ none then grep_loop pattern fuel rest1 (out ++ (line ++ ['\n']))
      else grep_loop pattern fuel rest1 out

/-- Function `fat_grep` of `fat_ops.c`: the bytes printed on standard output (the
messages go to standard error).  Every line consumes at least one byte, so
`strlen (content) + 1` iterations are never exceeded. -/
def fat_grep (s : fat_fs) (junk : Nat → Char) (pattern filename : Option (List Char)) :
    List Char :=
  match pattern, filename with
  | some pat, some f =>
    if fat_resolve_path s (some f) = NOT_FOUND then []
    else if (s.dir_entries (fat_resolve_path s (some f))).is_dir = true then []
    else
      match fat_read_file s junk (fat_resolve_path s (some f)) with
      | none => []
      | some content => grep_loop pat ((cstr content).length + 1) (cstr content) []
  | _, _ => []

/-- The scan of `fgets`: at most `n` bytes, up to and including the first newline. -/
def fgets_scan : Nat → List Char → List Char × List Char
  | 0, rest => ([], rest)
  | _ + 1, [] => ([], [])
  | n + 1, c :: cs =>
    if c = '\n' then ([c], cs) else ((fgets_scan n cs).1.cons c, (fgets_scan n cs).2)

/-- Library function `fgets (line, size, stdin)` on the input that is left: `none`
is the `NULL` result at end of input. -/
def fgets (size : Nat) (input : List Char) : Option (List Char × List Char) :=
  match input with
  | [] => none
  | c :: cs => some (fgets_scan (size - 1) (c :: cs))

/-- The standard-input loop of `fat_grep` in `shell_builtins.c`. -/
def grep_stdin_loop (pattern : List Char) : Nat → List Char → List Char → List Char
  | 0, _, out => out
  | fuel + 1, input, out =>
    match fgets 1024 input with
    | none => out
    | some (line, rest) =>
      let l := if (cstr line).getLast? = some '\n' then (cstr line).dropLast else cstr line
      if strstr pattern l ≠ none then grep_stdin_loop pattern fuel rest (out ++ (l ++ ['\n']))
      else grep_stdin_loop pattern fuel rest out

/-- Function `fat_grep` of `shell_builtins.c`, the copy that reads the standard
input `stdin` when the file name is null or `-`: the bytes printed on standard
output. -/
def fat_grep_stdin (s : fat_fs) (junk : Nat → Char) (stdin : List Char)
    (pattern filename : Option (List Char)) : List Char :=
  match pattern with
  | none => []
  | some pat =>
    if filename = none ∨ filename = some ['-'] then
      grep_stdin_loop pat (stdin.length + 1) stdin []
    else
      if fat_resolve_path s filename = NOT_FOUND then []
      else if (s.dir_entries (fat_resolve_path s filename)).is_dir = true then []
      else
        match fat_read_file s junk (fat_resolve_path s filename) with
        | none => []
        | some content => grep_loop pat ((cstr content).length + 1) (cstr content) []

/-- Reference for `fat_grep`, following the specification text: the lines are the
segments of the content split on `\n`; those that contain the pattern are
printed in order, each followed by a newline. -/
def grep_reference (pattern content : List Char) : List Char :=
  (((content.splitOn '\n').filter (fun l => decide (pattern <:+: l))).map
    (fun l => l ++ ['\n'])).flatten

/-- What `fat_grep` prints for a text: the non-empty lines that contain the
pattern, in order, each followed by a newline. -/
def grep_lines (pattern content : List Char) : List Char :=
  (((runs ['\n'] content).filter (fun l => decide (pattern <:+: l))).map
    (fun l => l ++ ['\n'])).flatten

/-! ## Concrete volumes for output capture -/

/-- The fresh volume after the capture loop stored the reads `a`, `b` of a command
with `> /out`. -/
def vol_capture_ab : fat_fs :=
  (capture_loop 4 0 0 (fun _ => 'j') (some "/out".toList) 0 (fat_init 0)
    [['a'], ['b']]).getD (fat_init 0)

/-- The fresh volume after the capture loop stored the reads `a`, `b` of a command
with `>> /out`. -/
def vol_capture_ab_append : fat_fs :=
  (capture_loop 4 0 0 (fun _ => 'j') (some "/out".toList) 1 (fat_init 0)
    [['a'], ['b']]).getD (fat_init 0)

/-- The fresh volume with the three bytes `a`, NUL, `b` written to `readme.txt`. -/
def vol_binary : fat_fs :=
  ((fat_write_file 4 (fat_init 0) 1 ['a', NUL, 'b'] 3 0).getD ⟨-1, none, fat_init 0⟩).fs

/-- The volume `vol_binary` after `write_buffer_to_vfs ("/readme.txt", "c", 1, 1)`. -/
def vol_binary_append : fat_fs :=
  ((write_buffer_to_vfs 4 vol_binary 0 0 (fun _ => 'j') (some "/readme.txt".toList)
    ['c'] 1 1).getD ⟨-1, none, fat_init 0⟩).fs

/-- The fresh volume after `hello\n` was stored in `/greet` with `>`. -/
def vol_hello : fat_fs :=
  ((write_buffer_to_vfs 4 (fat_init 0) 0 0 (fun _ => 'j') (some "/greet".toList)
    "hello\n".toList 6 0).getD ⟨-1, none, fat_init 0⟩).fs

/-- The volume `vol_hello` after `world\n` was stored in `/greet` with `>>`. -/
def vol_hello_world : fat_fs :=
  ((write_buffer_to_vfs 4 vol_hello 0 0 (fun _ => 'j') (some "/greet".toList)
    "world\n".toList 6 1).getD ⟨-1, none, fat_init 0⟩).fs

/-- The fresh volume with the text `a`, empty line, `b` written to `readme.txt`. -/
def vol_blank_line : fat_fs :=
  ((fat_write_file 4 (fat_init 0) 1 "a\n\nb\n".toList 5 0).getD ⟨-1, none, fat_init 0⟩).fs

/-! ## `fat_head`, `fat_tail`, `fat_pwd` and the built-in table -/

/-- The value of a computation in `int`: reduced modulo `2 ^ 32` into the range
`-2147483648 .. 2147483647`. -/
def int32 (v : Int) : Int := (v + 2147483648) % 4294967296 - 2147483648

/-- The line loop of `fat_head`:
`while (line && count < num_lines) { printf("%s\n", line); count++; line = strtok(NULL, "\n"); }`.
`rest` is the text `strtok` has not consumed yet, `out` what was printed so far.
`count` stays below `num_lines`, so `count++` does not overflow. -/
def head_loop (num_lines : Int) : Nat → List Char → Int → List Char → List Char
  | 0, _, _, out => out
  | fuel + 1, rest, count, out =>
    match strtok_r ['\n'] rest with
    | none => out
    | some (line, rest1) =>
      if count < num_lines then
        head_loop num_lines fuel rest1 (count + 1) (out ++ (line ++ ['\n']))
      else out

/-- Function `fat_head` of `shell_builtins.c`: the bytes printed on standard output.
Every line consumes at least one byte, so `strlen (content) + 1` iterations are
never exceeded. -/
def fat_head (s : fat_fs) (junk : Nat → Char) (num_lines : Int)
    (filename : Option (List Char)) : List Char :=
  match filename with
  | none => []
  | some f =>
    if fat_resolve_path s (some f) = NOT_FOUND then []
    else if (s.dir_entries (fat_resolve_path s (some f))).is_dir = true then []
    else
      match fat_read_file s junk (fat_resolve_path s (some f)) with
      | none => []
      | some content => head_loop num_lines ((cstr content).length + 1) (cstr content) 0 []

/-- The counting loop of `fat_tail`:
`while (line) { total_lines++; line = strtok(NULL, "\n"); }`. -/
def count_lines_loop : Nat → List Char → Int → Int
  | 0, _, total => total
  | fuel + 1, rest, total =>
    match strtok_r ['\n'] rest with
    | none => total
    | some (_, rest1) => count_lines_loop fuel rest1 (total + 1)

/-- The printing loop of `fat_tail`:
`while (line) { if (count >= start_line) printf("%s\n", line); count++; line = strtok(NULL, "\n"); }`. -/
def tail_loop (start_line : Int) : Nat → List Char → Int → List Char → List Char
  | 0, _, _, out => out
  | fuel + 1, rest, count, out =>
    match strtok_r ['\n'] rest with
    | none => out
    | some (line, rest1) =>
      if count ≥ start_line then
        tail_loop start_line fuel rest1 (count + 1) (out ++ (line ++ ['\n']))
      else tail_loop start_line fuel rest1 (count + 1) out

/-- Function `fat_tail` of `shell_builtins.c`: the bytes printed on standard output.
`num_lines` is an `int`; the counters stay below the number of bytes of the
content, and the difference `total_lines - num_lines` is taken in `int`. -/
def fat_tail (s : fat_fs) (junk : Nat → Char) (num_lines : Int)
    (filename : Option (List Char)) : List Char :=
  match filename with
  | none => []
  | some f =>
    if fat_resolve_path s (some f) = NOT_FOUND then []
    else if (s.dir_entries (fat_resolve_path s (some f))).is_dir = true then []
    else
      match fat_read_file s junk (fat_resolve_path s (some f)) with
      | none => []
      | some content =>
        let total_lines := count_lines_loop ((cstr content).length + 1) (cstr content) 0
        let start_line :=
          if total_lines > num_lines then int32 (total_lines - num_lines) else 0
        tail_loop start_line ((cstr content).length + 1) (cstr content) 0 []

/-- The `isdigit` test of the "C" locale. -/
def isdigit (c : Char) : Bool := decide ('0'.toNat ≤ c.toNat ∧ c.toNat ≤ '9'.toNat)

/-- The digit loop of `atoi`. -/
def atoi_digits : List Char → Int → Int
  | [], acc => acc
  | c :: cs, acc =>
    if isdigit c = true then atoi_digits cs (acc * 10 + ((c.toNat : Int) - 48)) else acc

/-- The value `strtol` returns for the number `v` it has read: `v` itself, or
`LONG_MAX`, `LONG_MIN` when `v` is out of the range of `long`. -/
def strtol_value (v : Int) : Int :=
  if v > 9223372036854775807 then 9223372036854775807
  else if v < -9223372036854775808 then -9223372036854775808
  else v

/-- Library function `atoi`, which the C library defines as
`(int) strtol (str, NULL, 10)`: white space, an optional sign, then the digits;
the `long` value is converted to `int`. -/
def atoi (str : List Char) : Int :=
  match str.dropWhile isspace with
  | '-' :: cs => int32 (strtol_value (- atoi_digits cs 0))
  | '+' :: cs => int32 (strtol_value (atoi_digits cs 0))
  | cs => int32 (strtol_value (atoi_digits cs 0))

/-- The branch `head` of `do_shell_builtin` (`shell_builtins.c`, line 1074): the
return value and the bytes printed on standard output.  The slots
`argv[0 .. argc-1]` hold strings. -/
def builtin_head (s : fat_fs) (junk : Nat → Char) (argc : Nat)
    (argv : Nat → Option (List Char)) : Int × List Char :=
  if argc < 2 then (-1, [])
  else if argc = 2 then (0, fat_head s junk 10 (argv 1))
  else if argc = 4 ∧ argv 1 = some ['-', 'n'] then
    (0, fat_head s junk (atoi ((argv 2).getD [])) (argv 3))
  else if argc = 3 ∧ ((argv 1).getD []).getD 0 NUL = '-' ∧
      isdigit (((argv 1).getD []).getD 1 NUL) = true then
    (0, fat_head s junk (atoi (((argv 1).getD []).drop 1)) (argv 2))
  else (0, fat_head s junk 10 (argv 1))

/-- The branch `tail` of `do_shell_builtin` (`shell_builtins.c`, line 1102): the
return value and the bytes printed on standard output.  The slots
`argv[0 .. argc-1]` hold strings. -/
def builtin_tail (s : fat_fs) (junk : Nat → Char) (argc : Nat)
    (argv : Nat → Option (List Char)) : Int × List Char :=
  if argc < 2 then (-1, [])
  else if argc = 2 then (0, fat_tail s junk 10 (argv 1))
  else if argc = 4 ∧ argv 1 = some ['-', 'n'] then
    (0, fat_tail s junk (atoi ((argv 2).getD [])) (argv 3))
  else if argc = 3 ∧ ((argv 1).getD []).getD 0 NUL = '-' ∧
      isdigit (((argv 1).getD []).getD 1 NUL) = true then
    (0, fat_tail s junk (atoi (((argv 1).getD []).drop 1)) (argv 2))
  else (0, fat_tail s junk 10 (argv 1))

/-- The value of `PATH_MAX` on the host (`limits.h`). -/
def PATH_MAX : Nat := 4096

/-- The loop of `fat_pwd`, cut off after `fuel` iterations:
`while (idx != 0) { snprintf(tmp, sizeof(tmp), "/%s%s", name, path); strcpy(path, tmp); idx = parent_entry; }`.
`snprintf` keeps at most `PATH_MAX - 1` bytes. -/
def pwd_loop (s : fat_fs) : Nat → Nat → List Char → Option (List Char)
  | 0, _, _ => none
  | fuel + 1, idx, path =>
    if idx ≠ 0 then
      pwd_loop s fuel (s.dir_entries idx).parent_entry
        (('/' :: ((s.dir_entries idx).name ++ path)).take (PATH_MAX - 1))
    else some path

/-- Function `fat_pwd`: the bytes printed on standard output; `none` when the loop
is still running after `fuel` iterations. -/
def fat_pwd (fuel : Nat) (s : fat_fs) : Option (List Char) :=
  if s.current_dir = 0 then some ['/', '\n']
  else (pwd_loop s fuel s.current_dir []).map (fun path => path ++ ['\n'])

/-- Function `is_shell_builtin` at the head of `shell_builtins.c` (line 8), the one
declared in `include/shell.h` for `command_exec.c`; the result is the value of
the C condition, 0 or 1. -/
def is_shell_builtin (cmd : Option (List Char)) : Nat :=
  match cmd with
  | none => 0
  | some c =>
    if c = "cd".toList ∨ c = "exit".toList ∨ c = "history".toList ∨ c = "jobs".toList ∨
        c = "ls".toList ∨ c = "cat".toList ∨ c = "mkdir".toList ∨ c = "touch".toList ∨
        c = "pwd".toList ∨ c = "grep".toList then 1
    else 0

/-- Function `is_shell_builtin` of the second part of `shell_builtins.c` (line 652,
the part headed `mysh copy.c`). -/
def is_shell_builtin_mysh (cmd : List Char) : Nat :=
  if cmd = "cd".toList ∨ cmd = "exit".toList ∨ cmd = "history".toList ∨
      cmd = "jobs".toList ∨ cmd = "ls".toList ∨ cmd = "cat".toList ∨
      cmd = "mkdir".toList ∨ cmd = "touch".toList ∨ cmd = "pwd".toList ∨
      cmd = "grep".toList ∨ cmd = "rm".toList ∨ cmd = "rmdir".toList ∨
      cmd = "head".toList ∨ cmd = "tail".toList ∨ cmd = "mv".toList then 1
  else 0

/-- How `execute_pipeline` runs a stage. -/
inductive stage_kind where
  | builtin
  | host_execvp
deriving DecidableEq

/-- The test `if (is_shell_builtin(c->argv[0])) ... else execvp(c->argv[0], c->argv)`
that `execute_pipeline` (`command_exec.c`) applies to a stage, alone or in a
pipeline. -/
def stage_dispatch (c : command) : stage_kind :=
  if is_shell_builtin (c.argv 0) ≠ 0 then stage_kind.builtin else stage_kind.host_execvp

/-! ## Specification vocabulary and test volumes for `head`, `tail`, `pwd` -/

/-- Reference for `fat_head`, following the specification text: the first `n`
segments of the content split on `\n`, each followed by a newline. -/
def head_reference (n : Nat) (content : List Char) : List Char :=
  (((content.splitOn '\n').take n).map (fun l => l ++ ['\n'])).flatten

/-- Reference for `fat_tail`, following the specification text: the last `n`
segments of the content split on `\n`, each followed by a newline. -/
def tail_reference (n : Nat) (content : List Char) : List Char :=
  (((content.splitOn '\n').drop ((content.splitOn '\n').length - n)).map
    (fun l => l ++ ['\n'])).flatten

/-- The fresh volume with the text `a`, empty line, `b` (no final newline) written
to `readme.txt`. -/
def vol_blank_mid : fat_fs :=
  ((fat_write_file 4 (fat_init 0) 1 "a\n\nb".toList 4 0).getD ⟨-1, none, fat_init 0⟩).fs

/-- The fresh volume after `mkdir /a`, `cd /a`, `mv /a /a`. -/
def vol_own_parent : fat_fs :=
  (run (fat_init 0)
    [op.mkdir 0 (some "/a".toList), op.cd (some "/a".toList),
      op.mv 0 (some "/a".toList) (some "/a".toList)]).getD (fat_init 0)

/-- The fresh volume after `mkdir /P`, `touch /P/F`, `mkdir /P/F/d`, `cd /P/F/d`,
`rm /P/F`, `rmdir /P`. -/
def vol_orphan : fat_fs :=
  (run (fat_init 0)
    [op.mkdir 0 (some "/P".toList), op.touch 0 (some "/P/F".toList),
      op.mkdir 0 (some "/P/F/d".toList), op.cd (some "/P/F/d".toList),
      op.rm 2 (some "/P/F".toList), op.rmdir (some "/P".toList)]).getD (fat_init 0)

/-- The volume `vol_orphan` after `cd ../..`. -/
def vol_orphan_cd : result := fat_cd vol_orphan (some "../..".toList)

/-- Relation `poked b s`: the buffer `b` is the buffer `s` with some of its bytes
overwritten by NUL. -/
def poked (b s : List Char) : Prop := List.Forall₂ (fun x y => x = y ∨ x = NUL) b s

/-- Predicate `entry_ok d`: an in-use regular file has `first_block = EOC` exactly
when its size is 0, and a directory has `first_block = EOC` and size 0. -/
def entry_ok (d : dir_entry) : Prop :=
  (d.is_used = true → d.is_dir = false → (d.first_block = FAT_EOC ↔ d.size = 0)) ∧
    (d.is_dir = true → d.first_block = FAT_EOC ∧ d.size = 0)

/-- Predicate `size_block_ok s`: every slot of the entry table satisfies `entry_ok`. -/
def size_block_ok (s : fat_fs) : Prop := ∀ i, entry_ok (s.dir_entries i)

/-- Predicate `op_size_fits o`: for a call of `fat_write_file`, the rounding-up sum
`size + BLOCK_SIZE - 1` does not wrap in `size_t` (true of the length of every
buffer); other calls carry no size. -/
def op_size_fits : op → Prop
  | op.write_file _ _ _ size _ => size + BLOCK_SIZE - 1 < 2 ^ 64
  | _ => True

instance op_size_fits_decidable : (o : op) → Decidable (op_size_fits o)
  | op.write_file _ _ _ size _ => inferInstanceAs (Decidable (size + BLOCK_SIZE - 1 < 2 ^ 64))
  | op.mkdir _ _ => isTrue trivial
  | op.touch _ _ => isTrue trivial
  | op.rm _ _ => isTrue trivial
  | op.rmdir _ => isTrue trivial
  | op.mv _ _ _ => isTrue trivial
  | op.cd _ => isTrue trivial

/-- The fresh volume after `mkdir /d`, `touch /d/f`, a write of `hi` to the new
entry 3, `mv /d/f /g` and `rm /readme.txt`. -/
def vol_session : fat_fs :=
  (run (fat_init 0)
    [op.mkdir 0 (some "/d".toList), op.touch 0 (some "/d/f".toList),
      op.write_file 4 3 "hi".toList 2 0, op.mv 0 (some "/d/f".toList) (some "/g".toList),
      op.rm 4 (some "/readme.txt".toList)]).getD (fat_init 0)

/-- The chains of the two files of `vol_hello`: `readme.txt` (entry 1) in block 0 and
`/greet` (entry 2) in block 1. -/
def vol_hello_chains (i : Nat) : List Nat := if i = 1 then [0] else if i = 2 then [1] else []

/-- Predicate `out_marker_handled text`: the text holds no `>>`, or its first `>`
begins a `>>`, or a `<` stands before its first `>`.  (Otherwise a single `>`
stands before the leftmost `>>` with no `<` before it, as in `a > x >> y`.) -/
def out_marker_handled (text : List Char) : Prop :=
  ¬ ['>', '>'] <:+: text ∨ ['>', '>'] <+: text.dropWhile (fun c => c != '>') ∨
    '<' ∈ text.takeWhile (fun c => c != '>')

instance out_marker_handled_decidable (text : List Char) :
    Decidable (out_marker_handled text) := by
  unfold out_marker_handled
  infer_instance

/-! ## Path resolution: the token loop against the reference resolver -/

theorem skip_delims_length (d : Char) (str : List Char) :
    (skip_delims d str).length ≤ str.length := by
  induction str with
  | nil => simp [skip_delims]
  | cons c cs ih =>
    unfold skip_delims
    split
    · exact Nat.le_succ_of_le ih
    · exact Nat.le_refl _

theorem scan_token_rest_length (d : Char) (str : List Char) :
    (scan_token d str).2.length ≤ str.length - 1 := by
  induction str with
  | nil => simp [scan_token]
  | cons c cs ih =>
    unfold scan_token
    split
    · simp
    · simp only [List.length_cons, Nat.add_sub_cancel]
      omega

theorem splitOn_scan_token (d : Char) (str : List Char) :
    ∃ X, str.splitOn d = (scan_token d str).1 :: X ∧
      X.filter (fun seg => !seg.isEmpty) =
        ((scan_token d str).2.splitOn d).filter (fun seg => !seg.isEmpty) := by
  induction str with
  | nil => exact ⟨[], by simp [List.splitOn, List.splitOnP_nil, scan_token]⟩
  | cons c cs ih =>
    obtain ⟨X, hX, hf⟩ := ih
    by_cases h : c = d
    · refine ⟨cs.splitOn d, ?_, ?_⟩
      · simp [List.splitOn, List.splitOnP_cons, scan_token, h]
      · simp [scan_token, h]
    · refine ⟨X, ?_, ?_⟩
      · have hX1 : List.splitOnP (fun x => x == d) cs = (scan_token d cs).1 :: X := hX
        simp [List.splitOn, List.splitOnP_cons, scan_token, h, hX1, List.modifyHead]
      · simpa [scan_token, h] using hf

theorem path_segments_skip (str : List Char) :
    path_segments (skip_delims '/' str) = path_segments str := by
  induction str with
  | nil => rfl
  | cons c cs ih =>
    by_cases h : c = '/'
    · simp only [skip_delims, h, if_true, ih]
      simp [path_segments, List.splitOn, List.splitOnP_cons]
    · simp [skip_delims, h]

theorem path_segments_strtok_none (str : List Char) (h : strtok '/' str = none) :
    path_segments str = [] := by
  unfold strtok at h
  split at h
  · rename_i heq
    rw [← path_segments_skip, heq]
    simp [path_segments, List.splitOn, List.splitOnP_nil]
  · simp at h

theorem path_segments_strtok_some (str tok rest : List Char)
    (h : strtok '/' str = some (tok, rest)) :
    path_segments str = tok :: path_segments rest ∧ rest.length < str.length := by
  unfold strtok at h
  split at h
  · simp at h
  · rename_i c cs heq
    simp only [Option.some.injEq] at h
    have hc : c ≠ '/' := by
      intro hc
      have hlen := skip_delims_length '/' str
      clear h
      induction str with
      | nil => simp [skip_delims] at heq
      | cons x xs ih =>
        unfold skip_delims at heq
        split at heq
        · exact ih heq (skip_delims_length '/' xs)
        · simp only [List.cons.injEq] at heq
          rename_i hx
          exact hx (heq.1 ▸ hc)
    obtain ⟨X, hX, hf⟩ := splitOn_scan_token '/' (c :: cs)
    have htok : tok = (scan_token '/' (c :: cs)).1 := by rw [h]
    have hrest : rest = (scan_token '/' (c :: cs)).2 := by rw [h]
    have hne : tok ≠ [] := by
      rw [htok]; simp [scan_token, hc]
    constructor
    · rw [← path_segments_skip, heq]
      unfold path_segments
      rw [hX, List.filter_cons, ← htok, hf, ← hrest]
      cases tok with
      | nil => exact absurd rfl hne
      | cons a as => simp
    · have h1 := scan_token_rest_length '/' (c :: cs)
      have h2 := skip_delims_length '/' str
      rw [heq] at h2
      rw [hrest]
      simp only [List.length_cons] at h1 h2
      omega

theorem resolve_loop_eq_segments (s : fat_fs) (fuel : Nat) :
    ∀ (rest : List Char) (current : Nat), rest.length < fuel →
      resolve_loop s fuel rest current = resolve_segments s (path_segments rest) current := by
  induction fuel with
  | zero => intro rest current h; omega
  | succ n ih =>
    intro rest current hlen
    unfold resolve_loop
    cases hst : strtok '/' rest with
    | none =>
      rw [path_segments_strtok_none rest hst]
      rfl
    | some pr =>
      obtain ⟨tok, rest1⟩ := pr
      obtain ⟨hseg, hlt⟩ := path_segments_strtok_some rest tok rest1 hst
      have hfuel : rest1.length < n := by omega
      rw [hseg]
      simp only [resolve_segments]
      split
      · exact ih rest1 current hfuel
      · split
        · exact ih rest1 _ hfuel
        · split
          · rfl
          · exact ih rest1 _ hfuel

/-! ## Array stores -/

theorem store_same {α : Type} (a : Nat → α) (i : Nat) (v : α) : store a i v i = v := by
  simp [store]

theorem store_ne {α : Type} (a : Nat → α) (i j : Nat) (v : α) (h : j ≠ i) :
    store a i v j = a j := by
  simp [store, h]

/-! ## Free cells and `fat_alloc_block` -/

theorem mem_free_list (fat : Nat → Nat) (x : Nat) :
    x ∈ free_list fat ↔ x < MAX_BLOCKS ∧ fat x = FAT_FREE := by
  simp [free_list]

theorem free_list_pairwise (fat : Nat → Nat) : (free_list fat).Pairwise (· < ·) :=
  List.Pairwise.filter _ (List.pairwise_lt_range' 0 MAX_BLOCKS)

theorem free_list_length_le (fat : Nat → Nat) : (free_list fat).length ≤ MAX_BLOCKS := by
  have h := List.length_filter_le (fun i => decide (fat i = FAT_FREE)) (List.range' 0 MAX_BLOCKS)
  simpa [free_list] using h

theorem free_list_store (fat : Nat → Nat) (b v : Nat) (hv : v ≠ FAT_FREE) :
    free_list (store fat b v) = (free_list fat).filter (fun x => decide (x ≠ b)) := by
  unfold free_list
  rw [List.filter_filter]
  apply List.filter_congr
  intro x _
  by_cases h : x = b
  · simp [h, store, hv]
  · simp [h, store]

theorem free_list_store_head (fat : Nat → Nat) (b v : Nat) (T : List Nat)
    (hv : v ≠ FAT_FREE) (h : free_list fat = b :: T) : free_list (store fat b v) = T := by
  have hp := free_list_pairwise fat
  rw [free_list_store fat b v hv, h]
  rw [h, List.pairwise_cons] at hp
  rw [List.filter_cons]
  simp only [ne_eq, not_true_eq_false, decide_False, Bool.false_eq_true, if_false]
  rw [List.filter_eq_self]
  intro a ha
  have := hp.1 a ha
  simp only [decide_eq_true_eq]
  omega

theorem free_list_store_other (fat : Nat → Nat) (p v : Nat) (hv : v ≠ FAT_FREE)
    (hp : p ∉ free_list fat) : free_list (store fat p v) = free_list fat := by
  rw [free_list_store fat p v hv, List.filter_eq_self]
  intro a ha
  simp only [decide_eq_true_eq]
  intro h
  exact hp (h ▸ ha)

theorem alloc_scan_eq (fat : Nat → Nat) : ∀ n i,
    alloc_scan fat n i =
      ((List.range' i n).filter (fun j => decide (fat j = FAT_FREE))).headD FAT_EOC := by
  intro n
  induction n with
  | zero => intro i; simp [alloc_scan]
  | succ n ih =>
    intro i
    simp only [alloc_scan, List.range'_succ, List.filter_cons]
    by_cases h : fat i = FAT_FREE
    · simp [h]
    · simp [h, ih]

theorem fat_alloc_block_nil (s : fat_fs) (h : free_list s.fat_table = []) :
    fat_alloc_block s = (FAT_EOC, s) := by
  unfold fat_alloc_block
  have : alloc_scan s.fat_table MAX_BLOCKS 0 = FAT_EOC := by
    rw [alloc_scan_eq]
    unfold free_list at h
    rw [h]; rfl
  simp [this]

theorem fat_alloc_block_cons (s : fat_fs) (b : Nat) (T : List Nat)
    (h : free_list s.fat_table = b :: T) :
    fat_alloc_block s = (b, { s with fat_table := store s.fat_table b FAT_EOC }) ∧
      b < MAX_BLOCKS := by
  have hb : b ∈ free_list s.fat_table := by rw [h]; exact List.mem_cons_self _ _
  have hlt := ((mem_free_list _ _).1 hb).1
  refine ⟨?_, hlt⟩
  unfold fat_alloc_block
  have : alloc_scan s.fat_table MAX_BLOCKS 0 = b := by
    rw [alloc_scan_eq]
    unfold free_list at h
    rw [h]; rfl
  have hne : b ≠ FAT_EOC := by
    unfold MAX_BLOCKS at hlt; unfold FAT_EOC; omega
  simp [this, hne]

/-! ## Chains and `fat_free_chain` -/

theorem is_chain_congr (fat fat2 : Nat → Nat) : ∀ (l : List Nat) (b : Nat),
    (∀ x ∈ l, fat2 x = fat x) → is_chain fat l b → is_chain fat2 l b := by
  intro l
  induction l with
  | nil => intro b _ h; exact h
  | cons x l ih =>
    intro b hag h
    obtain ⟨h1, h2, h3, h4⟩ := h
    have hx : fat2 x = fat x := hag x (List.mem_cons_self _ _)
    refine ⟨h1, h2, by rw [hx]; exact h3, ?_⟩
    rw [hx]
    exact ih _ (fun y hy => hag y (List.mem_cons_of_mem _ hy)) h4

theorem is_chain_mem (fat : Nat → Nat) : ∀ (l : List Nat) (b : Nat),
    is_chain fat l b → ∀ x ∈ l, x < MAX_BLOCKS ∧ fat x ≠ FAT_FREE := by
  intro l
  induction l with
  | nil => intro b _ x hx; simp at hx
  | cons y l ih =>
    intro b h x hx
    obtain ⟨_, h2, h3, h4⟩ := h
    rcases List.mem_cons.1 hx with rfl | hx
    · exact ⟨h2, h3⟩
    · exact ih _ h4 x hx

theorem is_chain_unique (fat : Nat → Nat) : ∀ (l l2 : List Nat) (b : Nat),
    is_chain fat l b → is_chain fat l2 b → l = l2 := by
  intro l
  induction l with
  | nil =>
    intro l2 b h h2
    cases l2 with
    | nil => rfl
    | cons y l2 =>
      obtain ⟨e, hlt, _, _⟩ := h2
      have hb : b = FAT_EOC := h
      rw [hb] at e
      rw [← e] at hlt
      unfold MAX_BLOCKS FAT_EOC at hlt
      omega
  | cons x l ih =>
    intro l2 b h h2
    obtain ⟨e, hlt, _, h4⟩ := h
    cases l2 with
    | nil =>
      have hb : b = FAT_EOC := h2
      rw [hb] at e
      rw [← e] at hlt
      unfold MAX_BLOCKS FAT_EOC at hlt
      omega
    | cons y l2 =>
      obtain ⟨e2, _, _, h5⟩ := h2
      have hxy : x = y := by rw [← e, e2]
      subst hxy
      rw [ih l2 _ h4 h5]

theorem is_chain_suffix (fat : Nat → Nat) : ∀ (l1 l2 : List Nat) (x b : Nat),
    is_chain fat (l1 ++ x :: l2) b → is_chain fat (x :: l2) x := by
  intro l1
  induction l1 with
  | nil =>
    intro l2 x b h
    obtain ⟨_, h2, h3, h4⟩ := h
    exact ⟨rfl, h2, h3, h4⟩
  | cons y l1 ih =>
    intro l2 x b h
    obtain ⟨_, _, _, h4⟩ := h
    exact ih l2 x _ h4

theorem is_chain_nodup (fat : Nat → Nat) : ∀ (l : List Nat) (b : Nat),
    is_chain fat l b → l.Nodup := by
  intro l
  induction l with
  | nil => intro b _; exact List.nodup_nil
  | cons x l ih =>
    intro b h
    have h0 := h
    obtain ⟨e, _, _, h4⟩ := h
    rw [List.nodup_cons]
    refine ⟨?_, ih _ h4⟩
    intro hx
    obtain ⟨l1, l2, hl⟩ := List.append_of_mem hx
    have hs : is_chain fat (x :: l2) x := by
      rw [hl] at h4
      exact is_chain_suffix fat l1 l2 x _ h4
    have h1 : is_chain fat (x :: l) x := ⟨rfl, h0.2.1, h0.2.2.1, h0.2.2.2⟩
    have := is_chain_unique fat _ _ _ h1 hs
    have hlen := congrArg List.length this
    rw [hl] at hlen
    simp at hlen
    omega

theorem chain_length_le (l : List Nat) (hn : l.Nodup) (hlt : ∀ x ∈ l, x < MAX_BLOCKS) :
    l.length ≤ MAX_BLOCKS := by
  have hsub : l ⊆ List.range MAX_BLOCKS := by
    intro x hx
    exact List.mem_range.2 (hlt x hx)
  have := (List.Nodup.subperm hn hsub).length_le
  simpa using this

theorem free_loop_chain : ∀ (l : List Nat) (fuel : Nat) (s : fat_fs) (b : Nat),
    is_chain s.fat_table l b → l.length < fuel →
      free_loop fuel s b = some (clear_chain s l) := by
  intro l
  induction l with
  | nil =>
    intro fuel s b h hf
    have hb : b = FAT_EOC := h
    cases fuel with
    | zero => simp at hf
    | succ n =>
      unfold free_loop
      simp only [hb, ne_eq, not_true_eq_false, false_and, if_false]
      simp [clear_chain]
  | cons x l ih =>
    intro fuel s b h hf
    have hnd := is_chain_nodup _ _ _ h
    obtain ⟨e, hlt, _, h4⟩ := h
    cases fuel with
    | zero => simp at hf
    | succ n =>
      unfold free_loop
      have hne : b ≠ FAT_EOC := by
        rw [e]; unfold MAX_BLOCKS at hlt; unfold FAT_EOC; omega
      have hcond : b ≠ FAT_EOC ∧ b < MAX_BLOCKS := ⟨hne, e ▸ hlt⟩
      rw [if_pos hcond]
      dsimp only
      rw [List.nodup_cons] at hnd
      have hch : is_chain (store s.fat_table b FAT_FREE) l (s.fat_table b) := by
        rw [e]
        apply is_chain_congr s.fat_table _ l _ _ h4
        intro y hy
        apply store_ne
        intro hyx
        exact hnd.1 (hyx ▸ hy)
      have hlen : l.length < n := by simp at hf; omega
      rw [ih n _ _ hch hlen]
      simp only [clear_chain, Option.some.injEq]
      subst e
      congr 1
      · funext y
        by_cases hy : y = b
        · simp [hy, store]
        · by_cases hyl : y ∈ l
          · simp [hy, hyl]
          · simp [hy, hyl, store]
      · funext y
        by_cases hy : y = b
        · by_cases hyl : b ∈ l
          · simp [hy, hyl]
          · simp [hy, hyl, store]
        · by_cases hyl : y ∈ l
          · simp [hy, hyl]
          · simp [hy, hyl, store]

/-! ## The allocation loop of `fat_write_file` -/

theorem copy_in_fat (s : fat_fs) (b : Nat) (data : List Char) (off n : Nat) :
    (copy_in s b data off n).fat_table = s.fat_table := rfl

theorem write_loop_eq (fuel : Nat) (data : List Char) (size : Nat) :
    ∀ (n i : Nat) (s : fat_fs) (first prev : Nat),
      (first ≠ FAT_EOC → ∀ x ∈ free_list s.fat_table, prev < x) →
      write_loop fuel data size n i s first prev =
        if n ≤ (free_list s.fat_table).length then
          some (true, write_steps data size ((free_list s.fat_table).take n) i s first prev)
        else rollback fuel (write_steps data size (free_list s.fat_table) i s first prev) := by
  intro n
  induction n with
  | zero =>
    intro i s first prev _
    simp [write_loop, write_steps]
  | succ n ih =>
    intro i s first prev hinv
    cases hL : free_list s.fat_table with
    | nil =>
      unfold write_loop
      rw [fat_alloc_block_nil s hL]
      simp [write_steps, rollback]
    | cons b T =>
      obtain ⟨halloc, hblt⟩ := fat_alloc_block_cons s b T hL
      have hbne : b ≠ FAT_EOC := by
        unfold MAX_BLOCKS at hblt; unfold FAT_EOC; omega
      have hpw := free_list_pairwise s.fat_table
      rw [hL, List.pairwise_cons] at hpw
      unfold write_loop
      rw [halloc]
      simp only [hbne, if_false]
      have hfl1 : free_list (store s.fat_table b FAT_EOC) = T :=
        free_list_store_head _ _ _ _ (by unfold FAT_EOC FAT_FREE; omega) hL
      by_cases hfirst : first = FAT_EOC
      · simp only [hfirst, if_true]
        rw [ih]
        · simp only [copy_in_fat, hfl1, List.length_cons, Nat.add_le_add_iff_right,
            List.take_succ_cons, write_steps, if_true]
        · intro _ x hx
          rw [copy_in_fat] at hx
          simp only [hfl1] at hx
          exact hpw.1 x hx
      · have hprev : prev < b := hinv hfirst b (by rw [hL]; exact List.mem_cons_self _ _)
        have hfl2 : free_list (store (store s.fat_table b FAT_EOC) prev b) = T := by
          rw [free_list_store_other _ _ _ (by unfold FAT_FREE; omega), hfl1]
          rw [hfl1]
          intro hmem
          have := hinv hfirst prev (by rw [hL]; exact List.mem_cons_of_mem _ hmem)
          omega
        simp only [hfirst, if_false]
        rw [ih]
        · simp only [copy_in_fat, hfl2, List.length_cons, Nat.add_le_add_iff_right,
            List.take_succ_cons, write_steps, hfirst, if_false]
        · intro _ x hx
          simp only [copy_in_fat, hfl2] at hx
          exact hpw.1 x hx

theorem write_steps_fields (data : List Char) (size : Nat) :
    ∀ (bs : List Nat) (i : Nat) (s : fat_fs) (first prev : Nat),
      (write_steps data size bs i s first prev).2.dir_entries = s.dir_entries ∧
      (write_steps data size bs i s first prev).2.num_entries = s.num_entries ∧
      (write_steps data size bs i s first prev).2.current_dir = s.current_dir := by
  intro bs
  induction bs with
  | nil => intro i s first prev; simp [write_steps]
  | cons b bs ih =>
    intro i s first prev
    unfold write_steps
    by_cases hfirst : first = FAT_EOC
    · simp only [hfirst, if_true]
      exact ih (i + 1) _ b b
    · simp only [hfirst, if_false]
      exact ih (i + 1) _ first b

theorem write_steps_first (data : List Char) (size : Nat) :
    ∀ (bs : List Nat) (i : Nat) (s : fat_fs) (first prev : Nat),
      (∀ x ∈ bs, x < MAX_BLOCKS) →
      (write_steps data size bs i s first prev).1 =
        (if first = FAT_EOC then bs.headD FAT_EOC else first) := by
  intro bs
  induction bs with
  | nil =>
    intro i s first prev _
    by_cases hfirst : first = FAT_EOC <;> simp [write_steps, hfirst]
  | cons b bs ih =>
    intro i s first prev hlt
    have hblt : b < MAX_BLOCKS := hlt b (List.mem_cons_self _ _)
    have hbne : b ≠ FAT_EOC := by
      unfold MAX_BLOCKS at hblt; unfold FAT_EOC; omega
    have hlt2 : ∀ x ∈ bs, x < MAX_BLOCKS := fun x hx => hlt x (List.mem_cons_of_mem _ hx)
    unfold write_steps
    by_cases hfirst : first = FAT_EOC
    · simp only [hfirst, if_true]
      rw [ih (i + 1) _ b b hlt2]
      simp [hbne]
    · simp only [hfirst, if_false]
      rw [ih (i + 1) _ first b hlt2]
      simp [hfirst]

theorem write_steps_frame (data : List Char) (size : Nat) :
    ∀ (bs : List Nat) (i : Nat) (s : fat_fs) (first prev : Nat) (x : Nat), x ∉ bs →
      (write_steps data size bs i s first prev).2.blocks x = s.blocks x ∧
      ((first ≠ FAT_EOC → bs ≠ [] → x ≠ prev) →
        (write_steps data size bs i s first prev).2.fat_table x = s.fat_table x) := by
  intro bs
  induction bs with
  | nil => intro i s first prev x _; simp [write_steps]
  | cons b bs ih =>
    intro i s first prev x hx
    have hxb : x ≠ b := fun h => hx (h ▸ List.mem_cons_self _ _)
    have hxbs : x ∉ bs := fun h => hx (List.mem_cons_of_mem _ h)
    unfold write_steps
    by_cases hfirst : first = FAT_EOC
    · simp only [hfirst, if_true]
      obtain ⟨h1, h2⟩ := ih (i + 1)
        (copy_in { s with fat_table := store s.fat_table b FAT_EOC } b data
          (i * BLOCK_SIZE) (chunk_len size (i * BLOCK_SIZE))) b b x hxbs
      constructor
      · rw [h1]; simp [copy_in, store, hxb]
      · intro _
        rw [h2 (fun _ _ => hxb)]
        simp [copy_in, store, hxb]
    · simp only [hfirst, if_false]
      obtain ⟨h1, h2⟩ := ih (i + 1)
        { copy_in { s with fat_table := store s.fat_table b FAT_EOC } b data
            (i * BLOCK_SIZE) (chunk_len size (i * BLOCK_SIZE)) with
          fat_table := store (copy_in { s with fat_table := store s.fat_table b FAT_EOC } b data
            (i * BLOCK_SIZE) (chunk_len size (i * BLOCK_SIZE))).fat_table prev b } first b x hxbs
      constructor
      · rw [h1]; simp [copy_in, store, hxb]
      · intro hp
        have hxp : x ≠ prev := hp hfirst (List.cons_ne_nil _ _)
        rw [h2 (fun _ _ => hxb)]
        simp [copy_in, store, hxb, hxp]

theorem write_steps_prev (data : List Char) (size : Nat) (bs : List Nat) (i : Nat)
    (s : fat_fs) (first prev : Nat) (hfirst : first ≠ FAT_EOC) (hp : prev ∉ bs) :
    (write_steps data size bs i s first prev).2.fat_table prev =
      bs.headD (s.fat_table prev) := by
  cases bs with
  | nil => simp [write_steps]
  | cons b bs =>
    have hpb : prev ≠ b := fun h => hp (h ▸ List.mem_cons_self _ _)
    have hpbs : prev ∉ bs := fun h => hp (List.mem_cons_of_mem _ h)
    unfold write_steps
    simp only [hfirst, if_false]
    rw [(write_steps_frame data size bs (i + 1) _ first b prev hpbs).2 (fun _ _ => hpb)]
    simp [copy_in, store]

theorem write_steps_chain (data : List Char) (size : Nat) :
    ∀ (bs : List Nat) (i : Nat) (s : fat_fs) (first prev : Nat),
      bs.Pairwise (· < ·) → (∀ x ∈ bs, x < MAX_BLOCKS) → (first ≠ FAT_EOC → prev ∉ bs) →
      is_chain (write_steps data size bs i s first prev).2.fat_table bs (bs.headD FAT_EOC) := by
  intro bs
  induction bs with
  | nil => intro i s first prev _ _ _; rfl
  | cons b bs ih =>
    intro i s first prev hpw hlt hprev
    rw [List.pairwise_cons] at hpw
    have hblt : b < MAX_BLOCKS := hlt b (List.mem_cons_self _ _)
    have hbne : b ≠ FAT_EOC := by
      unfold MAX_BLOCKS at hblt; unfold FAT_EOC; omega
    have hbbs : b ∉ bs := fun h => Nat.lt_irrefl _ (hpw.1 b h)
    have hlt2 : ∀ x ∈ bs, x < MAX_BLOCKS := fun x hx => hlt x (List.mem_cons_of_mem _ hx)
    have key : ∀ (s2 : fat_fs) (f2 : Nat), f2 ≠ FAT_EOC → s2.fat_table b = FAT_EOC →
        is_chain (write_steps data size bs (i + 1) s2 f2 b).2.fat_table (b :: bs) b := by
      intro s2 f2 hf2 hcell
      have hcellv := write_steps_prev data size bs (i + 1) s2 f2 b hf2 hbbs
      have hrec := ih (i + 1) s2 f2 b hpw.2 hlt2 (fun _ => hbbs)
      refine ⟨rfl, hblt, ?_, ?_⟩
      · rw [hcellv, hcell]
        cases bs with
        | nil => simp only [List.headD_nil]; unfold FAT_EOC FAT_FREE; omega
        | cons c cs =>
          simp only [List.headD_cons]
          have := hpw.1 c (List.mem_cons_self _ _)
          unfold FAT_FREE; omega
      · rw [hcellv, hcell]
        exact hrec
    unfold write_steps
    simp only [List.headD_cons]
    by_cases hfirst : first = FAT_EOC
    · simp only [hfirst, if_true]
      exact key _ b hbne (by simp [copy_in, store])
    · simp only [hfirst, if_false]
      have hpb : b ≠ prev := fun h => hprev hfirst (h ▸ List.mem_cons_self _ _)
      exact key _ first hfirst (by simp [copy_in, store, hpb])

theorem write_steps_data (data : List Char) (size : Nat) :
    ∀ (bs : List Nat) (i : Nat) (s : fat_fs) (first prev : Nat), bs.Nodup →
      holds_data (write_steps data size bs i s first prev).2.blocks data size bs
        (i * BLOCK_SIZE) := by
  intro bs
  induction bs with
  | nil => intro i s first prev _; trivial
  | cons b bs ih =>
    intro i s first prev hnd
    rw [List.nodup_cons] at hnd
    have key : ∀ (s2 : fat_fs) (f2 : Nat),
        (∀ k, k < chunk_len size (i * BLOCK_SIZE) →
          s2.blocks b k = data.getD (i * BLOCK_SIZE + k) NUL) →
        holds_data (write_steps data size bs (i + 1) s2 f2 b).2.blocks data size (b :: bs)
          (i * BLOCK_SIZE) := by
      intro s2 f2 hb
      constructor
      · intro k hk
        rw [(write_steps_frame data size bs (i + 1) s2 f2 b b hnd.1).1]
        exact hb k hk
      · have := ih (i + 1) s2 f2 b hnd.2
        rw [Nat.succ_mul] at this
        exact this
    unfold write_steps
    by_cases hfirst : first = FAT_EOC
    · simp only [hfirst, if_true]
      apply key
      intro k hk
      simp [copy_in, store, hk]
    · simp only [hfirst, if_false]
      apply key
      intro k hk
      simp [copy_in, store, hk]

/-! ## The copy loop of `fat_read_file` -/

theorem read_loop_stop (s : fat_fs) (size : Nat) (fuel b off : Nat) (buf : Nat → Char)
    (h : size ≤ off) : read_loop s size fuel b off buf = buf := by
  cases fuel with
  | zero => rfl
  | succ n =>
    unfold read_loop
    have : ¬ (b ≠ FAT_EOC ∧ off < size) := fun hc => absurd hc.2 (Nat.not_lt.2 h)
    rw [if_neg this]

theorem read_loop_chain (s : fat_fs) (data : List Char) (size : Nat) :
    ∀ (bs : List Nat) (fuel b off : Nat) (buf : Nat → Char),
      is_chain s.fat_table bs b → holds_data s.blocks data size bs off →
      size ≤ off + bs.length * BLOCK_SIZE → size - off ≤ fuel →
      ∀ k, k < size →
        read_loop s size fuel b off buf k = if k < off then buf k else data.getD k NUL := by
  intro bs
  induction bs with
  | nil =>
    intro fuel b off buf _ _ hsz _ k hk
    simp only [List.length_nil, Nat.zero_mul, Nat.add_zero] at hsz
    rw [read_loop_stop s size fuel b off buf hsz]
    have : k < off := by omega
    simp [this]
  | cons x bs ih =>
    intro fuel b off buf hch hd hsz hfuel k hk
    have hB : BLOCK_SIZE = 512 := rfl
    obtain ⟨e, hlt, _, h4⟩ := hch
    obtain ⟨hd1, hd2⟩ := hd
    by_cases hoff : size ≤ off
    · rw [read_loop_stop s size fuel b off buf hoff]
      have : k < off := by omega
      simp [this]
    · have hoff2 : off < size := by omega
      cases fuel with
      | zero => omega
      | succ n =>
        have hbne : b ≠ FAT_EOC := by
          rw [e]; unfold MAX_BLOCKS at hlt; unfold FAT_EOC; omega
        unfold read_loop
        rw [if_pos ⟨hbne, hoff2⟩]
        subst e
        by_cases hbig : size - off > BLOCK_SIZE
        · have hc : chunk_len size off = BLOCK_SIZE := by simp [chunk_len, hbig]
          rw [hc] at hd1 ⊢
          rw [ih n _ _ _ h4 hd2
            (by simp only [List.length_cons, Nat.succ_mul] at hsz; omega) (by omega) k hk]
          by_cases hk1 : k < off
          · have : k < off + BLOCK_SIZE := by omega
            have hk2 : ¬ (off ≤ k) := by omega
            simp [this, hk1, hk2]
          · by_cases hk3 : k < off + BLOCK_SIZE
            · have hk4 : off ≤ k := by omega
              have := hd1 (k - off) (by omega)
              rw [Nat.add_sub_cancel' hk4] at this
              simp [hk1, hk3, hk4, this]
            · simp [hk1, hk3]
        · have hc : chunk_len size off = size - off := by simp [chunk_len, hbig]
          rw [hc] at hd1 ⊢
          have hend : off + (size - off) = size := by omega
          rw [hend]
          rw [read_loop_stop s size n _ size _ (Nat.le_refl _)]
          by_cases hk1 : k < off
          · have hk2 : ¬ (off ≤ k) := by omega
            simp [hk1, hk2]
          · have hk4 : off ≤ k := by omega
            have := hd1 (k - off) (by omega)
            rw [Nat.add_sub_cancel' hk4] at this
            simp [hk1, hk, hk4, this]

/-- The iteration budget `size` of `fat_read_file` never cuts the copy loop short:
once the budget covers the bytes still to be read, a larger budget changes nothing. -/
theorem read_loop_fuel (s : fat_fs) (size : Nat) : ∀ (fuel cur off : Nat) (buf : Nat → Char),
    size - off ≤ fuel →
      read_loop s size (fuel + 1) cur off buf = read_loop s size fuel cur off buf := by
  intro fuel
  induction fuel with
  | zero =>
    intro cur off buf h
    rw [read_loop_stop s size 1 cur off buf (by omega),
      read_loop_stop s size 0 cur off buf (by omega)]
  | succ n ih =>
    intro cur off buf h
    by_cases hc : cur ≠ FAT_EOC ∧ off < size
    · have hpos : 0 < chunk_len size off := by
        unfold chunk_len BLOCK_SIZE
        split <;> omega
      rw [read_loop, if_pos hc]
      conv => rhs; rw [read_loop, if_pos hc]
      exact ih _ _ _ (by omega)
    · rw [read_loop, if_neg hc]
      conv => rhs; rw [read_loop, if_neg hc]

theorem range_map_getD (data : List Char) (f : Nat → Char)
    (h : ∀ k, k < data.length → f k = data.getD k NUL) :
    (List.range data.length).map f = data := by
  apply List.ext_getElem
  · simp
  · intro n h1 h2
    simp only [List.getElem_map, List.getElem_range]
    rw [h n h2]
    simp [List.getD_eq_getElem?_getD, List.getElem?_eq_getElem h2]

/-! ## `fat_write_file` as a whole -/

theorem free_loop_fields : ∀ (fuel : Nat) (s s1 : fat_fs) (b : Nat),
    free_loop fuel s b = some s1 →
      s1.dir_entries = s.dir_entries ∧ s1.num_entries = s.num_entries ∧
        s1.current_dir = s.current_dir := by
  intro fuel
  induction fuel with
  | zero => intro s s1 b h; simp [free_loop] at h
  | succ n ih =>
    intro s s1 b h
    unfold free_loop at h
    split at h
    · dsimp only at h
      have h5 := ih _ _ _ h
      exact h5
    · simp only [Option.some.injEq] at h
      subst h
      exact ⟨rfl, rfl, rfl⟩

theorem release_chain_fields (fuel : Nat) (s s1 : fat_fs) (e : Nat)
    (h : release_chain fuel s e = some s1) :
    s1.dir_entries = s.dir_entries ∧ s1.num_entries = s.num_entries ∧
      s1.current_dir = s.current_dir := by
  unfold release_chain at h
  split at h
  · exact free_loop_fields _ _ _ _ h
  · simp only [Option.some.injEq] at h
    subst h
    exact ⟨rfl, rfl, rfl⟩

theorem clear_chain_nil (s : fat_fs) : clear_chain s [] = s := by
  simp [clear_chain]

theorem release_chain_eq (fuel : Nat) (s : fat_fs) (e : Nat) (l : List Nat)
    (hch : is_chain s.fat_table l (s.dir_entries e).first_block) (hf : l.length < fuel) :
    release_chain fuel s e = some (clear_chain s l) := by
  unfold release_chain
  by_cases h : (s.dir_entries e).first_block = FAT_EOC
  · have hnil : l = [] := by
      rw [h] at hch
      exact is_chain_unique s.fat_table l [] FAT_EOC hch rfl
    simp [h, hnil, clear_chain_nil]
  · simp only [ne_eq, h, not_false_eq_true, if_true]
    exact free_loop_chain l fuel s _ hch hf

/-- The number of blocks `fat_write_file` computes for `size` bytes. -/
theorem blocks_needed_eq (size : Nat) (h : size + BLOCK_SIZE - 1 < 2 ^ 64) :
    ((size + BLOCK_SIZE - 1) % 2 ^ 64) / BLOCK_SIZE = (size + 511) / 512 := by
  rw [Nat.mod_eq_of_lt h]
  rfl

theorem fat_write_file_released (fuel : Nat) (s s1 : fat_fs) (e : Nat) (data : List Char)
    (size now : Nat) (he : e < s.num_entries) (hu : (s.dir_entries e).is_used = true)
    (hd : (s.dir_entries e).is_dir = false) (hrel : release_chain fuel s e = some s1)
    (hsz : size ≠ 0) :
    fat_write_file fuel s e data size now =
      if ((size + BLOCK_SIZE - 1) % 2 ^ 64) / BLOCK_SIZE ≤ (free_list s1.fat_table).length then
        some ⟨0, none,
          set_entry
            (write_steps data size
              ((free_list s1.fat_table).take (((size + BLOCK_SIZE - 1) % 2 ^ 64) / BLOCK_SIZE))
              0 s1 FAT_EOC FAT_EOC).2 e
            { (write_steps data size
                ((free_list s1.fat_table).take (((size + BLOCK_SIZE - 1) % 2 ^ 64) / BLOCK_SIZE))
                0 s1 FAT_EOC FAT_EOC).2.dir_entries e with
              first_block := (write_steps data size
                ((free_list s1.fat_table).take (((size + BLOCK_SIZE - 1) % 2 ^ 64) / BLOCK_SIZE))
                0 s1 FAT_EOC FAT_EOC).1
              size := size % 2 ^ 32
              modified := now }⟩
      else
        (rollback fuel (write_steps data size (free_list s1.fat_table) 0 s1 FAT_EOC FAT_EOC)).map
          (fun p => ⟨-1, none, p.2.2⟩) := by
  unfold fat_write_file
  have hg : ¬ (e ≥ s.num_entries ∨ (s.dir_entries e).is_used = false) := by
    intro h
    rcases h with h | h
    · omega
    · rw [hu] at h; cases h
  rw [if_neg hg]
  have hd2 : ¬ ((s.dir_entries e).is_dir = true) := by rw [hd]; simp
  rw [if_neg hd2, hrel]
  simp only [hsz, if_false]
  rw [write_loop_eq fuel data size _ 0 s1 FAT_EOC FAT_EOC (fun h => absurd rfl h)]
  by_cases hk : ((size + BLOCK_SIZE - 1) % 2 ^ 64) / BLOCK_SIZE ≤ (free_list s1.fat_table).length
  · rw [if_pos hk, if_pos hk]
  · rw [if_neg hk, if_neg hk]
    unfold rollback
    by_cases hf : (write_steps data size (free_list s1.fat_table) 0 s1 FAT_EOC FAT_EOC).1 ≠ FAT_EOC
    · rw [if_pos hf]
      cases fat_free_chain fuel _ _ <;> rfl
    · rw [if_neg hf]
      rfl

theorem fat_write_file_inv (fuel : Nat) (s : fat_fs) (e : Nat) (data : List Char)
    (size now : Nat) (r : result) (hw : fat_write_file fuel s e data size now = some r)
    (hret : r.ret = 0) :
    e < s.num_entries ∧ (s.dir_entries e).is_used = true ∧ (s.dir_entries e).is_dir = false ∧
      ∃ s1, release_chain fuel s e = some s1 := by
  unfold fat_write_file at hw
  split at hw
  · simp only [Option.some.injEq] at hw
    rw [← hw] at hret
    simp at hret
  · rename_i hg
    split at hw
    · simp only [Option.some.injEq] at hw
      rw [← hw] at hret
      simp at hret
    · rename_i hd
      have h1 : e < s.num_entries := by
        by_contra hc
        exact hg (Or.inl (Nat.le_of_not_lt hc))
      have h2 : (s.dir_entries e).is_used = true := by
        cases hu : (s.dir_entries e).is_used
        · exact absurd (Or.inr hu) hg
        · rfl
      have h3 : (s.dir_entries e).is_dir = false := by
        cases hu : (s.dir_entries e).is_dir
        · rfl
        · exact absurd hu hd
      refine ⟨h1, h2, h3, ?_⟩
      cases hrel : release_chain fuel s e with
      | none => rw [hrel] at hw; simp at hw
      | some s1 => exact ⟨s1, rfl⟩

theorem fat_write_file_zero (fuel : Nat) (s s1 : fat_fs) (e : Nat) (data : List Char)
    (now : Nat) (he : e < s.num_entries) (hu : (s.dir_entries e).is_used = true)
    (hd : (s.dir_entries e).is_dir = false) (hrel : release_chain fuel s e = some s1) :
    fat_write_file fuel s e data 0 now =
      some ⟨0, none, set_entry s1 e
        { s1.dir_entries e with first_block := FAT_EOC, size := 0, modified := now }⟩ := by
  unfold fat_write_file
  have hg : ¬ (e ≥ s.num_entries ∨ (s.dir_entries e).is_used = false) := by
    intro h
    rcases h with h | h
    · omega
    · rw [hu] at h; cases h
  rw [if_neg hg]
  have hd2 : ¬ ((s.dir_entries e).is_dir = true) := by rw [hd]; simp
  rw [if_neg hd2, hrel]
  simp

theorem take_free_list_props (fat : Nat → Nat) (k : Nat) :
    ((free_list fat).take k).Pairwise (· < ·) ∧ ((free_list fat).take k).Nodup ∧
      (∀ x ∈ (free_list fat).take k, x < MAX_BLOCKS) := by
  have hp : ((free_list fat).take k).Pairwise (· < ·) :=
    List.Pairwise.sublist (List.take_sublist _ _) (free_list_pairwise fat)
  refine ⟨hp, ?_, ?_⟩
  · exact List.Pairwise.imp (fun h => Nat.ne_of_lt h) hp
  · intro x hx
    exact ((mem_free_list fat x).1 (List.mem_of_mem_take hx)).1

/-- What the allocation loop leaves behind when it is run on the `k` lowest FREE
blocks of `s1`: a chain through exactly these blocks that holds the data, with
everything else untouched. -/
theorem write_steps_take (data : List Char) (size : Nat) (s1 : fat_fs) (k : Nat) :
    is_chain (write_steps data size ((free_list s1.fat_table).take k) 0 s1 FAT_EOC
        FAT_EOC).2.fat_table ((free_list s1.fat_table).take k)
      (write_steps data size ((free_list s1.fat_table).take k) 0 s1 FAT_EOC FAT_EOC).1 ∧
    holds_data (write_steps data size ((free_list s1.fat_table).take k) 0 s1 FAT_EOC
        FAT_EOC).2.blocks data size ((free_list s1.fat_table).take k) 0 ∧
    (∀ x, x ∉ (free_list s1.fat_table).take k →
      (write_steps data size ((free_list s1.fat_table).take k) 0 s1 FAT_EOC
        FAT_EOC).2.fat_table x = s1.fat_table x ∧
      (write_steps data size ((free_list s1.fat_table).take k) 0 s1 FAT_EOC
        FAT_EOC).2.blocks x = s1.blocks x) := by
  obtain ⟨hp, hn, hlt⟩ := take_free_list_props s1.fat_table k
  refine ⟨?_, ?_, ?_⟩
  · rw [write_steps_first data size _ 0 s1 FAT_EOC FAT_EOC hlt, if_pos rfl]
    exact write_steps_chain data size _ 0 s1 FAT_EOC FAT_EOC hp hlt (fun h => absurd rfl h)
  · have := write_steps_data data size _ 0 s1 FAT_EOC FAT_EOC hn
    rw [Nat.zero_mul] at this
    exact this
  · intro x hx
    obtain ⟨h1, h2⟩ := write_steps_frame data size _ 0 s1 FAT_EOC FAT_EOC x hx
    exact ⟨h2 (fun h => absurd rfl h), h1⟩

theorem read_result_eq (data : List Char) (buf : Nat → Char)
    (h : ∀ k, k < data.length → buf k = data.getD k NUL) :
    (List.range (data.length + 1)).map (store buf data.length NUL) = data ++ [NUL] := by
  rw [List.range_succ, List.map_append]
  congr 1
  · apply range_map_getD
    intro k hk
    rw [store_ne _ _ _ _ (Nat.ne_of_lt hk)]
    exact h k hk
  · simp [store]

theorem read_loop_congr (s s2 : fat_fs) (h1 : s.fat_table = s2.fat_table)
    (h2 : s.blocks = s2.blocks) (size : Nat) : ∀ (fuel b off : Nat) (buf : Nat → Char),
    read_loop s size fuel b off buf = read_loop s2 size fuel b off buf := by
  intro fuel
  induction fuel with
  | zero => intro b off buf; rfl
  | succ n ih =>
    intro b off buf
    unfold read_loop
    rw [h1, h2]
    split
    · exact ih _ _ _
    · rfl

theorem is_chain_last (fat : Nat → Nat) : ∀ (l : List Nat) (b : Nat) (h : l ≠ []),
    is_chain fat l b → fat (l.getLast h) = FAT_EOC := by
  intro l
  induction l with
  | nil => intro b h _; exact absurd rfl h
  | cons x l ih =>
    intro b h hch
    obtain ⟨_, _, _, h4⟩ := hch
    cases l with
    | nil => exact h4
    | cons y l =>
      rw [List.getLast_cons (List.cons_ne_nil _ _)]
      exact ih _ (List.cons_ne_nil _ _) h4

theorem is_chain_length_le (fat : Nat → Nat) (l : List Nat) (b : Nat)
    (h : is_chain fat l b) : l.length ≤ MAX_BLOCKS :=
  chain_length_le l (is_chain_nodup fat l b h) (fun x hx => (is_chain_mem fat l b h x hx).1)

theorem rollback_eq (fuel : Nat) (data : List Char) (size : Nat) (s1 : fat_fs)
    (hfuel : MAX_BLOCKS < fuel) :
    ∃ s2, rollback fuel (write_steps data size (free_list s1.fat_table) 0 s1 FAT_EOC FAT_EOC) =
        some (false, (write_steps data size (free_list s1.fat_table) 0 s1 FAT_EOC FAT_EOC).1, s2) ∧
      s2.fat_table = s1.fat_table ∧ s2.dir_entries = s1.dir_entries ∧
      s2.num_entries = s1.num_entries ∧ s2.current_dir = s1.current_dir ∧
      s2.blocks = (clear_chain s1 (free_list s1.fat_table)).blocks := by
  have hprops := write_steps_take data size s1 (free_list s1.fat_table).length
  have hfields := write_steps_fields data size (free_list s1.fat_table) 0 s1 FAT_EOC FAT_EOC
  rw [List.take_length] at hprops
  obtain ⟨hch, _, hframe⟩ := hprops
  obtain ⟨hwd, hwn, hwc⟩ := hfields
  unfold rollback
  by_cases hf : (write_steps data size (free_list s1.fat_table) 0 s1 FAT_EOC FAT_EOC).1 ≠ FAT_EOC
  · rw [if_pos hf]
    have hlen : (free_list s1.fat_table).length < fuel :=
      Nat.lt_of_le_of_lt (free_list_length_le _) hfuel
    unfold fat_free_chain
    rw [free_loop_chain _ fuel _ _ hch hlen]
    refine ⟨_, rfl, ?_, hwd, hwn, hwc, ?_⟩
    · funext x
      by_cases hx : x ∈ free_list s1.fat_table
      · simp only [clear_chain, hx, if_true]
        exact ((mem_free_list _ _).1 hx).2.symm
      · simp only [clear_chain, hx, if_false]
        exact (hframe x hx).1
    · funext x
      by_cases hx : x ∈ free_list s1.fat_table
      · simp only [clear_chain, hx, if_true]
      · simp only [clear_chain, hx, if_false]
        exact (hframe x hx).2
  · rw [if_neg hf]
    have hnil : free_list s1.fat_table = [] := by
      cases hL : free_list s1.fat_table with
      | nil => rfl
      | cons b T =>
        exfalso
        rw [hL] at hch
        obtain ⟨e, hlt, _, _⟩ := hch
        apply hf
        rw [hL, e]
        unfold MAX_BLOCKS at hlt
        unfold FAT_EOC
        omega
    refine ⟨_, rfl, ?_, hwd, hwn, hwc, ?_⟩
    · rw [hnil]
      rfl
    · rw [hnil, clear_chain_nil]
      rfl

theorem fat_write_file_fail (fuel : Nat) (s s1 : fat_fs) (e : Nat) (data : List Char)
    (size now : Nat) (he : e < s.num_entries) (hu : (s.dir_entries e).is_used = true)
    (hd : (s.dir_entries e).is_dir = false) (hrel : release_chain fuel s e = some s1)
    (hfuel : MAX_BLOCKS < fuel)
    (hk : (free_list s1.fat_table).length < ((size + BLOCK_SIZE - 1) % 2 ^ 64) / BLOCK_SIZE) :
    ∃ s2, fat_write_file fuel s e data size now = some ⟨-1, none, s2⟩ ∧
      s2.fat_table = s1.fat_table ∧ s2.dir_entries = s.dir_entries ∧
      s2.num_entries = s.num_entries ∧ s2.current_dir = s.current_dir ∧
      s2.blocks = (clear_chain s1 (free_list s1.fat_table)).blocks := by
  have hsz : size ≠ 0 := by
    intro h
    rw [h] at hk
    simp [BLOCK_SIZE] at hk
  obtain ⟨hde, hne, hce⟩ := release_chain_fields fuel s s1 e hrel
  obtain ⟨s2, hrb, h1, h2, h3, h4, h5⟩ := rollback_eq fuel data size s1 hfuel
  refine ⟨s2, ?_, h1, h2.trans hde, h3.trans hne, h4.trans hce, h5⟩
  rw [fat_write_file_released fuel s s1 e data size now he hu hd hrel hsz,
    if_neg (Nat.not_le.2 hk), hrb]
  rfl

theorem take_free_list_lowest (fat : Nat → Nat) (k x y : Nat)
    (hx : x ∈ (free_list fat).take k) (hy : y ∈ free_list fat)
    (hny : y ∉ (free_list fat).take k) : x < y := by
  have hp := free_list_pairwise fat
  rw [← List.take_append_drop k (free_list fat), List.pairwise_append] at hp
  have hyd : y ∈ (free_list fat).drop k := by
    rw [← List.take_append_drop k (free_list fat), List.mem_append] at hy
    rcases hy with hy | hy
    · exact absurd hy hny
    · exact hy
  exact hp.2.2 x hx y hyd

/-- A successful `fat_write_file` of a non-empty file, in terms of the volume `s1`
left by the release of the old chain. -/
theorem fat_write_file_ok (fuel : Nat) (s s1 : fat_fs) (e : Nat) (data : List Char)
    (size now : Nat) (r : result) (hrel : release_chain fuel s e = some s1)
    (hsz : size ≠ 0) (hw : fat_write_file fuel s e data size now = some r)
    (hret : r.ret = 0) :
    ((size + BLOCK_SIZE - 1) % 2 ^ 64) / BLOCK_SIZE ≤ (free_list s1.fat_table).length ∧
    is_chain r.fs.fat_table
      ((free_list s1.fat_table).take (((size + BLOCK_SIZE - 1) % 2 ^ 64) / BLOCK_SIZE))
      (r.fs.dir_entries e).first_block ∧
    (∀ x, x ∉ (free_list s1.fat_table).take (((size + BLOCK_SIZE - 1) % 2 ^ 64) / BLOCK_SIZE) →
      r.fs.fat_table x = s1.fat_table x) := by
  obtain ⟨he, hu, hd, _⟩ := fat_write_file_inv fuel s e data size now r hw hret
  rw [fat_write_file_released fuel s s1 e data size now he hu hd hrel hsz] at hw
  by_cases hk : ((size + BLOCK_SIZE - 1) % 2 ^ 64) / BLOCK_SIZE ≤ (free_list s1.fat_table).length
  · rw [if_pos hk] at hw
    simp only [Option.some.injEq] at hw
    obtain ⟨hch, _, hframe⟩ := write_steps_take data size s1
      (((size + BLOCK_SIZE - 1) % 2 ^ 64) / BLOCK_SIZE)
    subst hw
    refine ⟨hk, ?_, ?_⟩
    · simp only [set_entry, store_same]
      exact hch
    · intro x hx
      exact (hframe x hx).1
  · rw [if_neg hk] at hw
    cases hrb : rollback fuel
        (write_steps data size (free_list s1.fat_table) 0 s1 FAT_EOC FAT_EOC) with
    | none => rw [hrb] at hw; simp at hw
    | some p =>
      rw [hrb] at hw
      simp only [Option.map_some', Option.some.injEq] at hw
      rw [← hw] at hret
      simp at hret

/-! ## The fresh volume after a write that runs out of space -/

theorem big_data_length : big_data.length = MAX_BLOCKS * BLOCK_SIZE + 1 := by
  simp [big_data]

theorem fresh_big_write :
    fat_write_file 1025 (fat_init 0) 1 big_data big_data.length 0 =
      some ⟨-1, none, stale_volume⟩ := by
  have hch : is_chain (fat_init 0).fat_table [0] ((fat_init 0).dir_entries 1).first_block := by
    decide
  have hrel := release_chain_eq 1025 (fat_init 0) 1 [0] hch (by decide)
  have hk : (free_list (clear_chain (fat_init 0) [0]).fat_table).length <
      ((big_data.length + BLOCK_SIZE - 1) % 2 ^ 64) / BLOCK_SIZE := by
    have h1 := free_list_length_le (clear_chain (fat_init 0) [0]).fat_table
    rw [big_data_length]
    have : ((MAX_BLOCKS * BLOCK_SIZE + 1 + BLOCK_SIZE - 1) % 2 ^ 64) / BLOCK_SIZE = 1025 := by
      decide
    rw [this]
    unfold MAX_BLOCKS at h1
    omega
  obtain ⟨s2, hw, hfat, hde, hne, hcd, hbl⟩ :=
    fat_write_file_fail 1025 (fat_init 0) _ 1 big_data big_data.length 0
      (by decide) (by decide) (by decide) hrel (by decide) hk
  have hfree : ∀ x, (clear_chain (fat_init 0) [0]).fat_table x = FAT_FREE := by
    intro x
    by_cases hx : x = 0
    · simp [clear_chain, hx]
    · simp [clear_chain, fat_init, store, hx]
  have e1 : (clear_chain (fat_init 0) [0]).fat_table = fun _ => FAT_FREE := funext hfree
  have e2 : (clear_chain (clear_chain (fat_init 0) [0])
      (free_list (clear_chain (fat_init 0) [0]).fat_table)).blocks = fun _ _ => NUL := by
    funext x
    simp only [clear_chain]
    split
    · rfl
    · split
      · rfl
      · rename_i h0
        have hx : x ≠ 0 := by simpa using h0
        simp [fat_init, store, hx]
  have hs2 : s2 = stale_volume := by
    obtain ⟨ft, de, bl, ne, cd⟩ := s2
    simp only at hfat hde hne hcd hbl
    rw [e1] at hfat
    rw [e2] at hbl
    subst hfat hde hne hcd hbl
    rfl
  rw [hw, hs2]

/-! ## Directory scans -/

theorem child_scan_true (s : fat_fs) (e : Nat) : ∀ (n a : Nat),
    child_scan s e n a = true ↔
      ∃ i, a ≤ i ∧ i < a + n ∧
        (s.dir_entries i).is_used = true ∧ (s.dir_entries i).parent_entry = e := by
  intro n
  induction n with
  | zero =>
    intro a
    simp only [child_scan, Bool.false_eq_true, false_iff]
    rintro ⟨i, h1, h2, _⟩
    omega
  | succ n ih =>
    intro a
    unfold child_scan
    by_cases h : (s.dir_entries a).is_used = true ∧ (s.dir_entries a).parent_entry = e
    · rw [if_pos h]
      simp only [true_iff]
      exact ⟨a, Nat.le_refl _, by omega, h⟩
    · rw [if_neg h, ih (a + 1)]
      constructor
      · rintro ⟨i, h1, h2, h3⟩
        exact ⟨i, by omega, by omega, h3⟩
      · rintro ⟨i, h1, h2, h3⟩
        have hne : i ≠ a := by
          intro hia
          subst hia
          exact h h3
        exact ⟨i, by omega, by omega, h3⟩

theorem child_scan_false (s : fat_fs) (e : Nat) :
    child_scan s e s.num_entries 0 = false ↔ child_free s e := by
  unfold child_free
  constructor
  · intro h i hi hc
    have : child_scan s e s.num_entries 0 = true :=
      (child_scan_true s e _ _).2 ⟨i, Nat.zero_le _, by omega, hc⟩
    rw [h] at this
    cases this
  · intro h
    cases hc : child_scan s e s.num_entries 0
    · rfl
    · obtain ⟨i, _, h2, h3⟩ := (child_scan_true s e _ _).1 hc
      exact absurd h3 (h i (by omega))

/-! ## Frame lemmas for the operations -/

theorem fat_alloc_block_le (s : fat_fs) (x : Nat) (hx : x < MAX_BLOCKS)
    (hfree : s.fat_table x = FAT_FREE) : (fat_alloc_block s).1 ≤ x := by
  have hmem : x ∈ free_list s.fat_table := (mem_free_list _ _).2 ⟨hx, hfree⟩
  cases hL : free_list s.fat_table with
  | nil => rw [hL] at hmem; simp at hmem
  | cons b T =>
    rw [(fat_alloc_block_cons s b T hL).1]
    have hp := free_list_pairwise s.fat_table
    rw [hL, List.pairwise_cons] at hp
    rw [hL] at hmem
    rcases List.mem_cons.1 hmem with h | h
    · exact Nat.le_of_eq h.symm
    · exact Nat.le_of_lt (hp.1 x h)

/-- Whatever `fat_write_file` returns, it leaves `num_entries` and `current_dir`
alone, changes no entry but `e`, and changes at most `first_block`, `size` and
`modified` of entry `e`. -/
theorem fat_write_file_fields (fuel : Nat) (s : fat_fs) (e : Nat) (data : List Char)
    (size now : Nat) (r : result) (hw : fat_write_file fuel s e data size now = some r) :
    r.fs.num_entries = s.num_entries ∧ r.fs.current_dir = s.current_dir ∧
    (∀ i, i ≠ e → r.fs.dir_entries i = s.dir_entries i) ∧
    (r.fs.dir_entries e).name = (s.dir_entries e).name ∧
    (r.fs.dir_entries e).parent_entry = (s.dir_entries e).parent_entry ∧
    (r.fs.dir_entries e).is_dir = (s.dir_entries e).is_dir ∧
    (r.fs.dir_entries e).is_used = (s.dir_entries e).is_used ∧
    (r.fs.dir_entries e).created = (s.dir_entries e).created := by
  by_cases hg : e ≥ s.num_entries ∨ (s.dir_entries e).is_used = false
  · unfold fat_write_file at hw
    rw [if_pos hg] at hw
    simp only [Option.some.injEq] at hw
    subst hw
    exact ⟨rfl, rfl, fun _ _ => rfl, rfl, rfl, rfl, rfl, rfl⟩
  · by_cases hd : (s.dir_entries e).is_dir = true
    · unfold fat_write_file at hw
      rw [if_neg hg, if_pos hd] at hw
      simp only [Option.some.injEq] at hw
      subst hw
      exact ⟨rfl, rfl, fun _ _ => rfl, rfl, rfl, rfl, rfl, rfl⟩
    · have he : e < s.num_entries := by
        by_contra hc
        exact hg (Or.inl (Nat.le_of_not_lt hc))
      have hu : (s.dir_entries e).is_used = true := by
        cases h : (s.dir_entries e).is_used
        · exact absurd (Or.inr h) hg
        · rfl
      have hd2 : (s.dir_entries e).is_dir = false := by
        cases h : (s.dir_entries e).is_dir
        · rfl
        · exact absurd h hd
      cases hrel : release_chain fuel s e with
      | none =>
        unfold fat_write_file at hw
        rw [if_neg hg, if_neg hd, hrel] at hw
        simp at hw
      | some s1 =>
        obtain ⟨hde, hne, hce⟩ := release_chain_fields fuel s s1 e hrel
        by_cases hsz : size = 0
        · subst hsz
          rw [fat_write_file_zero fuel s s1 e data now he hu hd2 hrel] at hw
          simp only [Option.some.injEq] at hw
          subst hw
          refine ⟨hne, hce, ?_, ?_, ?_, ?_, ?_, ?_⟩
          · intro i hi
            simp only [set_entry, store_ne _ _ _ _ hi, hde]
          all_goals simp only [set_entry, store_same, hde]
        · rw [fat_write_file_released fuel s s1 e data size now he hu hd2 hrel hsz] at hw
          split at hw
          · simp only [Option.some.injEq] at hw
            obtain ⟨hwd, hwn, hwc⟩ := write_steps_fields data size
              ((free_list s1.fat_table).take (((size + BLOCK_SIZE - 1) % 2 ^ 64) / BLOCK_SIZE))
              0 s1 FAT_EOC FAT_EOC
            subst hw
            refine ⟨hwn.trans hne, hwc.trans hce, ?_, ?_, ?_, ?_, ?_, ?_⟩
            · intro i hi
              simp only [set_entry, store_ne _ _ _ _ hi, hwd, hde]
            all_goals simp only [set_entry, store_same, hwd, hde]
          · obtain ⟨hwd, hwn, hwc⟩ := write_steps_fields data size
              (free_list s1.fat_table) 0 s1 FAT_EOC FAT_EOC
            unfold rollback at hw
            split at hw
            · cases hfc : fat_free_chain fuel
                  (write_steps data size (free_list s1.fat_table) 0 s1 FAT_EOC FAT_EOC).2
                  (write_steps data size (free_list s1.fat_table) 0 s1 FAT_EOC FAT_EOC).1 with
              | none => rw [hfc] at hw; simp at hw
              | some s2 =>
                rw [hfc] at hw
                simp only [Option.map_some', Option.some.injEq] at hw
                obtain ⟨h1, h2, h3⟩ := free_loop_fields _ _ _ _ hfc
                have k2 : ∀ i, s2.dir_entries i = s.dir_entries i := by
                  intro i
                  rw [h1, hwd, hde]
                subst hw
                refine ⟨(h2.trans hwn).trans hne, (h3.trans hwc).trans hce, ?_, ?_, ?_, ?_, ?_, ?_⟩
                · intro i _
                  exact k2 i
                all_goals simp only [k2]
            · simp only [Option.map_some', Option.some.injEq] at hw
              have k2 : ∀ i, (write_steps data size (free_list s1.fat_table) 0 s1 FAT_EOC
                  FAT_EOC).2.dir_entries i = s.dir_entries i := by
                intro i
                rw [hwd, hde]
              subst hw
              refine ⟨hwn.trans hne, hwc.trans hce, ?_, ?_, ?_, ?_, ?_, ?_⟩
              · intro i _
                exact k2 i
              all_goals simp only [k2]

theorem fat_mkdir_cases (s : fat_fs) (now : Nat) (path : Option (List Char)) :
    (fat_mkdir s now path).fs = s ∨
    ∃ parent name, s.num_entries < MAX_ENTRIES ∧
      (fat_mkdir s now path).fs =
        { set_entry s s.num_entries (new_entry name parent true now) with
          num_entries := s.num_entries + 1 } := by
  unfold fat_mkdir
  cases path with
  | none => exact Or.inl rfl
  | some p =>
    dsimp only
    cases parent_and_name s p with
    | none => exact Or.inl rfl
    | some pr =>
      obtain ⟨parent, name⟩ := pr
      dsimp only
      split
      · exact Or.inl rfl
      · split
        · exact Or.inl rfl
        · rename_i hn
          exact Or.inr ⟨parent, name, Nat.lt_of_not_le hn, rfl⟩

theorem fat_touch_cases (s : fat_fs) (now : Nat) (path : Option (List Char)) :
    (fat_touch s now path).fs = s ∨
    (∃ ex, (fat_touch s now path).fs =
      set_entry s ex { s.dir_entries ex with modified := now }) ∨
    ∃ parent name, s.num_entries < MAX_ENTRIES ∧
      (fat_touch s now path).fs =
        { set_entry s s.num_entries (new_entry name parent false now) with
          num_entries := s.num_entries + 1 } := by
  unfold fat_touch
  cases path with
  | none => exact Or.inl rfl
  | some p =>
    dsimp only
    cases parent_and_name s p with
    | none => exact Or.inl rfl
    | some pr =>
      obtain ⟨parent, name⟩ := pr
      dsimp only
      split
      · split
        · exact Or.inl rfl
        · exact Or.inr (Or.inl ⟨_, rfl⟩)
      · split
        · exact Or.inl rfl
        · rename_i hn
          exact Or.inr (Or.inr ⟨parent, name, Nat.lt_of_not_le hn, rfl⟩)

theorem fat_mv_cases (s : fat_fs) (now : Nat) (source dest : Option (List Char)) :
    (fat_mv s now source dest).fs = s ∨
    ∃ src parent name, src ≠ 0 ∧ (fat_mv s now source dest).fs = mv_apply s now src parent name := by
  unfold fat_mv
  split
  · dsimp only
    split
    · exact Or.inl rfl
    · split
      · exact Or.inl rfl
      · rename_i h0
        split
        · exact Or.inl rfl
        · split
          · exact Or.inl rfl
          · split
            · split
              · split
                · exact Or.inl rfl
                · exact Or.inr ⟨_, _, _, h0, rfl⟩
              · exact Or.inl rfl
            · exact Or.inr ⟨_, _, _, h0, rfl⟩
  · exact Or.inl rfl

theorem fat_rmdir_cases (s : fat_fs) (path : Option (List Char)) :
    (fat_rmdir s path).fs = s ∨
    ∃ e, e ≠ 0 ∧ (fat_rmdir s path).fs =
      set_entry s e { s.dir_entries e with is_used := false } := by
  unfold fat_rmdir
  cases path with
  | none => exact Or.inl rfl
  | some p =>
    dsimp only
    split
    · exact Or.inl rfl
    · split
      · exact Or.inl rfl
      · split
        · exact Or.inl rfl
        · rename_i h0
          split
          · exact Or.inl rfl
          · split
            · exact Or.inl rfl
            · exact Or.inr ⟨_, h0, rfl⟩

theorem fat_rm_cases (fuel : Nat) (s : fat_fs) (path : Option (List Char)) (r : result)
    (h : fat_rm fuel s path = some r) :
    r.fs = s ∨
    ∃ e s1, (s.dir_entries e).is_dir = false ∧ release_chain fuel s e = some s1 ∧
      r.fs = set_entry s1 e
        { s1.dir_entries e with is_used := false, first_block := FAT_EOC, size := 0 } := by
  unfold fat_rm at h
  cases path with
  | none =>
    simp only [Option.some.injEq] at h
    subst h
    exact Or.inl rfl
  | some p =>
    dsimp only at h
    split at h
    · simp only [Option.some.injEq] at h
      subst h
      exact Or.inl rfl
    · split at h
      · simp only [Option.some.injEq] at h
        subst h
        exact Or.inl rfl
      · rename_i hd
        cases hrel : release_chain fuel s (fat_resolve_path s (some p)) with
        | none => rw [hrel] at h; simp at h
        | some s1 =>
          rw [hrel] at h
          simp only [Option.some.injEq] at h
          subst h
          refine Or.inr ⟨_, s1, ?_, hrel, rfl⟩
          cases hc : (s.dir_entries (fat_resolve_path s (some p))).is_dir
          · rfl
          · exact absurd hc hd

theorem fat_cd_cases (s : fat_fs) (path : Option (List Char)) :
    (fat_cd s path).fs = s ∨
    ∃ d, (d = 0 ∨ (d ≠ NOT_FOUND ∧ (s.dir_entries d).is_dir = true)) ∧
      (fat_cd s path).fs = { s with current_dir := d } := by
  unfold fat_cd
  cases path with
  | none => exact Or.inr ⟨0, Or.inl rfl, rfl⟩
  | some p =>
    dsimp only
    split
    · exact Or.inl rfl
    · rename_i hnf
      split
      · exact Or.inl rfl
      · rename_i hd
        refine Or.inr ⟨_, Or.inr ⟨hnf, ?_⟩, rfl⟩
        cases hc : (s.dir_entries (fat_resolve_path s (some p))).is_dir
        · exact absurd hc hd
        · rfl

theorem step_num_entries (s s2 : fat_fs) (o : op) (h : step s o = some s2) :
    s2.num_entries = s.num_entries ∨
      (s2.num_entries = s.num_entries + 1 ∧ s.num_entries < MAX_ENTRIES) := by
  cases o with
  | mkdir now path =>
    simp only [step, Option.some.injEq] at h
    subst h
    rcases fat_mkdir_cases s now path with h1 | ⟨_, _, hn, h1⟩
    · rw [h1]; exact Or.inl rfl
    · rw [h1]; exact Or.inr ⟨rfl, hn⟩
  | touch now path =>
    simp only [step, Option.some.injEq] at h
    subst h
    rcases fat_touch_cases s now path with h1 | ⟨_, h1⟩ | ⟨_, _, hn, h1⟩
    · rw [h1]; exact Or.inl rfl
    · rw [h1]; exact Or.inl rfl
    · rw [h1]; exact Or.inr ⟨rfl, hn⟩
  | write_file fuel e data size now =>
    simp only [step] at h
    cases hw : fat_write_file fuel s e data size now with
    | none => rw [hw] at h; simp at h
    | some r =>
      rw [hw] at h
      simp only [Option.map_some', Option.some.injEq] at h
      subst h
      exact Or.inl (fat_write_file_fields fuel s e data size now r hw).1
  | rm fuel path =>
    simp only [step] at h
    cases hr : fat_rm fuel s path with
    | none => rw [hr] at h; simp at h
    | some r =>
      rw [hr] at h
      simp only [Option.map_some', Option.some.injEq] at h
      subst h
      rcases fat_rm_cases fuel s path r hr with h1 | ⟨e, s1, _, hrel, h1⟩
      · rw [h1]; exact Or.inl rfl
      · rw [h1]
        exact Or.inl (release_chain_fields fuel s s1 e hrel).2.1
  | rmdir path =>
    simp only [step, Option.some.injEq] at h
    subst h
    rcases fat_rmdir_cases s path with h1 | ⟨_, _, h1⟩
    · rw [h1]; exact Or.inl rfl
    · rw [h1]; exact Or.inl rfl
  | mv now source dest =>
    simp only [step, Option.some.injEq] at h
    subst h
    rcases fat_mv_cases s now source dest with h1 | ⟨_, _, _, _, h1⟩
    · rw [h1]; exact Or.inl rfl
    · rw [h1]; exact Or.inl rfl
  | cd path =>
    simp only [step, Option.some.injEq] at h
    subst h
    rcases fat_cd_cases s path with h1 | ⟨_, _, h1⟩
    · rw [h1]; exact Or.inl rfl
    · rw [h1]; exact Or.inl rfl

theorem run_num_entries : ∀ (ops : List op) (s s2 : fat_fs), run s ops = some s2 →
    s.num_entries ≤ s2.num_entries ∧
      (s.num_entries ≤ MAX_ENTRIES → s2.num_entries ≤ MAX_ENTRIES) := by
  intro ops
  induction ops with
  | nil =>
    intro s s2 h
    simp only [run, Option.some.injEq] at h
    subst h
    exact ⟨Nat.le_refl _, fun h => h⟩
  | cons o os ih =>
    intro s s2 h
    unfold run at h
    cases hs : step s o with
    | none => rw [hs] at h; simp at h
    | some s1 =>
      rw [hs] at h
      obtain ⟨h1, h2⟩ := ih s1 s2 h
      rcases step_num_entries s s1 o hs with h3 | ⟨h3, h4⟩
      · rw [h3] at h1 h2
        exact ⟨h1, h2⟩
      · refine ⟨by omega, ?_⟩
        intro _
        apply h2
        omega

theorem step_root_ok (s s2 : fat_fs) (o : op) (h : step s o = some s2)
    (hn : 1 ≤ s.num_entries) (hr : root_ok s) : root_ok s2 := by
  obtain ⟨hr1, hr2, hr3, hr4⟩ := hr
  have keep : ∀ (t : fat_fs), t.dir_entries 0 = s.dir_entries 0 → root_ok t := by
    intro t ht
    unfold root_ok
    rw [ht]
    exact ⟨hr1, hr2, hr3, hr4⟩
  cases o with
  | mkdir now path =>
    simp only [step, Option.some.injEq] at h
    subst h
    rcases fat_mkdir_cases s now path with h1 | ⟨_, _, _, h1⟩
    · rw [h1]; exact keep s rfl
    · rw [h1]
      apply keep
      exact store_ne _ _ _ _ (by omega)
  | touch now path =>
    simp only [step, Option.some.injEq] at h
    subst h
    rcases fat_touch_cases s now path with h1 | ⟨ex, h1⟩ | ⟨_, _, _, h1⟩
    · rw [h1]; exact keep s rfl
    · rw [h1]
      by_cases hex : ex = 0
      · subst hex
        unfold root_ok
        simp only [set_entry, store_same]
        exact ⟨hr1, hr2, hr3, hr4⟩
      · apply keep
        exact store_ne _ _ _ _ (fun h0 => hex h0.symm)
    · rw [h1]
      apply keep
      exact store_ne _ _ _ _ (by omega)
  | write_file fuel e data size now =>
    simp only [step] at h
    cases hw : fat_write_file fuel s e data size now with
    | none => rw [hw] at h; simp at h
    | some r =>
      rw [hw] at h
      simp only [Option.map_some', Option.some.injEq] at h
      subst h
      obtain ⟨_, _, hother, h1, h2, h3, h4, _⟩ := fat_write_file_fields fuel s e data size now r hw
      by_cases he : e = 0
      · subst he
        unfold root_ok
        rw [h1, h2, h3, h4]
        exact ⟨hr1, hr2, hr3, hr4⟩
      · exact keep _ (hother 0 (fun h0 => he h0.symm))
  | rm fuel path =>
    simp only [step] at h
    cases hrm : fat_rm fuel s path with
    | none => rw [hrm] at h; simp at h
    | some r =>
      rw [hrm] at h
      simp only [Option.map_some', Option.some.injEq] at h
      subst h
      rcases fat_rm_cases fuel s path r hrm with h1 | ⟨e, s1, hd, hrel, h1⟩
      · rw [h1]; exact keep s rfl
      · rw [h1]
        have he : e ≠ 0 := by
          intro h0
          subst h0
          rw [hr2] at hd
          cases hd
        apply keep
        simp only [set_entry]
        rw [store_ne _ _ _ _ (fun h0 => he h0.symm), (release_chain_fields fuel s s1 e hrel).1]
  | rmdir path =>
    simp only [step, Option.some.injEq] at h
    subst h
    rcases fat_rmdir_cases s path with h1 | ⟨e, he, h1⟩
    · rw [h1]; exact keep s rfl
    · rw [h1]
      apply keep
      exact store_ne _ _ _ _ (fun h0 => he h0.symm)
  | mv now source dest =>
    simp only [step, Option.some.injEq] at h
    subst h
    rcases fat_mv_cases s now source dest with h1 | ⟨src, _, _, he, h1⟩
    · rw [h1]; exact keep s rfl
    · rw [h1]
      apply keep
      exact store_ne _ _ _ _ (fun h0 => he h0.symm)
  | cd path =>
    simp only [step, Option.some.injEq] at h
    subst h
    rcases fat_cd_cases s path with h1 | ⟨_, _, h1⟩
    · rw [h1]; exact keep s rfl
    · rw [h1]; exact keep _ rfl

theorem run_root_ok : ∀ (ops : List op) (s s2 : fat_fs), run s ops = some s2 →
    1 ≤ s.num_entries → root_ok s → root_ok s2 := by
  intro ops
  induction ops with
  | nil =>
    intro s s2 h _ hr
    simp only [run, Option.some.injEq] at h
    subst h
    exact hr
  | cons o os ih =>
    intro s s2 h hn hr
    unfold run at h
    cases hs : step s o with
    | none => rw [hs] at h; simp at h
    | some s1 =>
      rw [hs] at h
      have hn1 : 1 ≤ s1.num_entries := by
        rcases step_num_entries s s1 o hs with h3 | ⟨h3, _⟩ <;> omega
      exact ih s1 s2 h hn1 (step_root_ok s s1 o hs hn hr)

theorem resolve_dotdot_at_root (s : fat_fs) (hr : root_ok s) :
    fat_resolve_path s (some ['/', '.', '.']) = 0 ∧
      (s.current_dir = 0 → fat_resolve_path s (some ['.', '.']) = 0) := by
  obtain ⟨_, _, _, hr4⟩ := hr
  constructor
  · simp [fat_resolve_path, resolve_loop, strtok, skip_delims, scan_token, hr4]
  · intro hc
    simp [fat_resolve_path, resolve_loop, strtok, skip_delims, scan_token, hr4, hc]

/-! ## Paths: last component and parent prefix -/

theorem split_last_none (sep : Char) (p : List Char) (h : split_last sep p = none) :
    sep ∉ p := by
  intro hm
  induction p with
  | nil => simp at hm
  | cons c cs ih =>
    unfold split_last at h
    cases hcs : split_last sep cs with
    | some pr => rw [hcs] at h; simp at h
    | none =>
      rw [hcs] at h
      by_cases hc : c = sep
      · simp [hc] at h
      · rcases List.mem_cons.1 hm with h1 | h1
        · exact hc h1.symm
        · exact ih hcs h1

theorem split_last_some (sep : Char) : ∀ (p pre suf : List Char),
    split_last sep p = some (pre, suf) → p = pre ++ sep :: suf ∧ sep ∉ suf := by
  intro p
  induction p with
  | nil => intro pre suf h; simp [split_last] at h
  | cons c cs ih =>
    intro pre suf h
    unfold split_last at h
    cases hcs : split_last sep cs with
    | some pr =>
      obtain ⟨pre1, suf1⟩ := pr
      rw [hcs] at h
      simp only [Option.some.injEq, Prod.mk.injEq] at h
      obtain ⟨h1, h2⟩ := ih pre1 suf1 hcs
      obtain ⟨hp, hs⟩ := h
      subst hp hs
      exact ⟨by rw [h1]; rfl, h2⟩
    | none =>
      rw [hcs] at h
      by_cases hc : c = sep
      · simp only [hc, if_true, Option.some.injEq, Prod.mk.injEq] at h
        obtain ⟨hp, hs⟩ := h
        subst hp hs
        exact ⟨by rw [hc]; rfl, split_last_none sep cs hcs⟩
      · simp [hc] at h

theorem splitOn_append_cons (sep : Char) (nm : List Char) : ∀ (pre : List Char),
    (pre ++ sep :: nm).splitOn sep = pre.splitOn sep ++ nm.splitOn sep := by
  intro pre
  induction pre with
  | nil => simp [List.splitOn, List.splitOnP_cons, List.splitOnP_nil]
  | cons c cs ih =>
    have ih1 : List.splitOnP (fun x => x == sep) (cs ++ sep :: nm) =
        List.splitOnP (fun x => x == sep) cs ++ List.splitOnP (fun x => x == sep) nm := ih
    by_cases h : c = sep
    · simp [List.splitOn, List.splitOnP_cons, h, ih1]
    · have hne := List.splitOnP_ne_nil (fun x => x == sep) cs
      cases hcs : List.splitOnP (fun x => x == sep) cs with
      | nil => exact absurd hcs hne
      | cons a as =>
        simp [List.splitOn, List.splitOnP_cons, h, ih1, hcs, List.modifyHead]

theorem path_segments_append (pre nm : List Char) :
    path_segments (pre ++ '/' :: nm) = path_segments pre ++ path_segments nm := by
  unfold path_segments
  rw [splitOn_append_cons, List.filter_append]

theorem path_segments_name (nm : List Char) (h1 : '/' ∉ nm) (h2 : nm ≠ []) :
    path_segments nm = [nm] := by
  unfold path_segments List.splitOn
  rw [List.splitOnP_eq_single]
  · cases nm with
    | nil => exact absurd rfl h2
    | cons c cs => simp
  · intro x hx hp
    have : x = '/' := by simpa using hp
    exact h1 (this ▸ hx)

theorem fat_resolve_path_segments (s : fat_fs) (p : List Char) :
    fat_resolve_path s (some p) =
      resolve_segments s (path_segments p)
        (if p.head? = some '/' then 0 else s.current_dir) := by
  cases p with
  | nil => rfl
  | cons c cs =>
    unfold fat_resolve_path
    by_cases h : c :: cs = ['/']
    · simp only [h, if_true]
      simp [path_segments, List.splitOn, List.splitOnP_cons, List.splitOnP_nil,
        resolve_segments]
    · simp only [h, if_false]
      rw [resolve_loop_eq_segments s _ _ _ (Nat.lt_succ_self _)]
      simp

theorem resolve_segments_append (s : fat_fs) (l2 : List (List Char)) :
    ∀ (l1 : List (List Char)) (i : Nat), resolve_segments s l1 i ≠ NOT_FOUND →
      resolve_segments s (l1 ++ l2) i = resolve_segments s l2 (resolve_segments s l1 i) := by
  intro l1
  induction l1 with
  | nil => intro i _; rfl
  | cons seg rest ih =>
    intro i h
    simp only [List.cons_append, resolve_segments] at h ⊢
    by_cases h1 : seg = ['.']
    · simp only [h1, if_true] at h ⊢
      exact ih i h
    · simp only [h1, if_false] at h ⊢
      by_cases h2 : seg = ['.', '.']
      · simp only [h2, if_true] at h ⊢
        exact ih _ h
      · simp only [h2, if_false] at h ⊢
        by_cases h3 : fat_find_entry s seg i = NOT_FOUND
        · simp only [h3, if_true] at h
          exact absurd rfl h
        · simp only [h3, if_false] at h ⊢
          exact ih _ h

theorem resolve_segments_single (s : fat_fs) (nm : List Char) (i : Nat)
    (h1 : nm ≠ ['.']) (h2 : nm ≠ ['.', '.']) :
    resolve_segments s [nm] i = fat_find_entry s nm i := by
  simp only [resolve_segments, h1, h2, if_false]
  split
  · rename_i h; exact h.symm
  · rfl

/-- A path whose last component is a proper name resolves to the entry of that
name in the directory that the destination parsing of `fat_mv` finds. -/
theorem resolve_by_parent (s : fat_fs) (p nm : List Char) (P : Nat)
    (h : mv_parent_and_name s p = some (P, nm))
    (h0 : nm ≠ []) (h1 : nm ≠ ['.']) (h2 : nm ≠ ['.', '.']) :
    fat_resolve_path s (some p) = fat_find_entry s nm P := by
  unfold mv_parent_and_name at h
  cases hsp : split_last '/' p with
  | none =>
    rw [hsp] at h
    simp only [Option.some.injEq, Prod.mk.injEq] at h
    obtain ⟨hP, hn⟩ := h
    subst hP hn
    have hm := split_last_none '/' p hsp
    rw [fat_resolve_path_segments, path_segments_name p hm h0,
      resolve_segments_single s p _ h1 h2]
    have hh : p.head? ≠ some '/' := by
      cases p with
      | nil => simp
      | cons c cs =>
        intro hc
        simp at hc
        exact hm (hc ▸ List.mem_cons_self _ _)
    simp [hh]
  | some pr =>
    obtain ⟨pre, suf⟩ := pr
    rw [hsp] at h
    obtain ⟨hp, hs⟩ := split_last_some '/' p pre suf hsp
    have key : fat_resolve_path s (some p) =
        resolve_segments s (path_segments pre ++ [suf])
          (if p.head? = some '/' then 0 else s.current_dir) := by
      by_cases hsuf : suf = []
      · subst hsuf
        by_cases hpre : pre.length = 0
        · simp [hpre] at h
          exact absurd h.2 h0
        · simp only [hpre, if_false] at h
          split at h
          · cases h
          · simp only [Option.some.injEq, Prod.mk.injEq] at h
            exact absurd h.2.symm h0
      · rw [fat_resolve_path_segments, hp, path_segments_append,
          path_segments_name suf hs hsuf]
    simp only at h
    by_cases hpre : pre.length = 0
    · simp only [hpre, if_true, Option.some.injEq, Prod.mk.injEq] at h
      obtain ⟨hP, hn⟩ := h
      subst hP hn
      have hpre0 : pre = [] := List.length_eq_zero.1 hpre
      subst hpre0
      rw [key, hp]
      simp only [path_segments, List.splitOn, List.splitOnP_nil]
      simp [resolve_segments_single s suf _ h1 h2]
    · simp only [hpre, if_false] at h
      by_cases hr : fat_resolve_path s (some pre) = NOT_FOUND
      · simp [hr] at h
      · simp only [hr, if_false, Option.some.injEq, Prod.mk.injEq] at h
        obtain ⟨hP, hn⟩ := h
        subst hP hn
        have hhead : p.head? = pre.head? := by
          rw [hp]
          cases pre with
          | nil => exact absurd rfl hpre
          | cons c cs => rfl
        have hpe := fat_resolve_path_segments s pre
        rw [hpe] at hr
        rw [key, hhead, resolve_segments_append s _ _ _ hr,
          resolve_segments_single s suf _ h1 h2, hpe]

/-! ## Directory lookup: the first matching slot -/

theorem find_scan_none (s : fat_fs) (name : List Char) (parent : Nat) :
    ∀ (n i : Nat),
      (∀ j, i ≤ j → j < i + n →
        ¬ ((s.dir_entries j).is_used = true ∧ (s.dir_entries j).parent_entry = parent ∧
          (s.dir_entries j).name = name)) →
      find_scan s name parent n i = NOT_FOUND := by
  intro n
  induction n with
  | zero => intro i _; rfl
  | succ n ih =>
    intro i h
    unfold find_scan
    rw [if_neg (h i (Nat.le_refl i) (by omega))]
    exact ih (i + 1) (fun j h1 h2 => h j (by omega) (by omega))

theorem find_scan_first (s : fat_fs) (name : List Char) (parent x : Nat)
    (hx : (s.dir_entries x).is_used = true ∧ (s.dir_entries x).parent_entry = parent ∧
      (s.dir_entries x).name = name) :
    ∀ (n i : Nat), i ≤ x → x < i + n →
      (∀ j, i ≤ j → j < x →
        ¬ ((s.dir_entries j).is_used = true ∧ (s.dir_entries j).parent_entry = parent ∧
          (s.dir_entries j).name = name)) →
      find_scan s name parent n i = x := by
  intro n
  induction n with
  | zero => intro i h1 h2 _; omega
  | succ n ih =>
    intro i h1 h2 h
    unfold find_scan
    by_cases hi : i = x
    · subst hi
      rw [if_pos hx]
    · rw [if_neg (h i (Nat.le_refl i) (by omega))]
      exact ih (i + 1) (by omega) (by omega) (fun j h3 h4 => h j (by omega) h4)

theorem find_scan_found (s : fat_fs) (name : List Char) (parent : Nat) :
    ∀ (n i x : Nat), find_scan s name parent n i = x → x ≠ NOT_FOUND →
      i ≤ x ∧ x < i + n ∧
      ((s.dir_entries x).is_used = true ∧ (s.dir_entries x).parent_entry = parent ∧
        (s.dir_entries x).name = name) ∧
      (∀ j, i ≤ j → j < x →
        ¬ ((s.dir_entries j).is_used = true ∧ (s.dir_entries j).parent_entry = parent ∧
          (s.dir_entries j).name = name)) := by
  intro n
  induction n with
  | zero => intro i x h hx; exact absurd h.symm hx
  | succ n ih =>
    intro i x h hx
    unfold find_scan at h
    by_cases hi : (s.dir_entries i).is_used = true ∧ (s.dir_entries i).parent_entry = parent ∧
        (s.dir_entries i).name = name
    · rw [if_pos hi] at h
      subst h
      exact ⟨Nat.le_refl _, by omega, hi, fun j h1 h2 => by omega⟩
    · rw [if_neg hi] at h
      obtain ⟨h1, h2, h3, h4⟩ := ih (i + 1) x h hx
      refine ⟨by omega, by omega, h3, ?_⟩
      intro j h5 h6
      by_cases hj : j = i
      · subst hj; exact hi
      · exact h4 j (by omega) h6

theorem find_scan_not_found (s : fat_fs) (name : List Char) (parent : Nat) :
    ∀ (n i : Nat), find_scan s name parent n i = NOT_FOUND → i + n ≤ NOT_FOUND →
      ∀ j, i ≤ j → j < i + n →
        ¬ ((s.dir_entries j).is_used = true ∧ (s.dir_entries j).parent_entry = parent ∧
          (s.dir_entries j).name = name) := by
  intro n
  induction n with
  | zero => intro i _ _ j h1 h2; omega
  | succ n ih =>
    intro i h hn j h1 h2
    unfold find_scan at h
    by_cases hi : (s.dir_entries i).is_used = true ∧ (s.dir_entries i).parent_entry = parent ∧
        (s.dir_entries i).name = name
    · rw [if_pos hi] at h
      omega
    · rw [if_neg hi] at h
      by_cases hj : j = i
      · subst hj; exact hi
      · exact ih (i + 1) h (by omega) j (by omega) (by omega)

theorem fat_find_entry_none (s : fat_fs) (name : List Char) (parent : Nat)
    (h : ∀ j, j < s.num_entries →
      ¬ ((s.dir_entries j).is_used = true ∧ (s.dir_entries j).parent_entry = parent ∧
        (s.dir_entries j).name = name)) :
    fat_find_entry s name parent = NOT_FOUND :=
  find_scan_none s name parent _ 0 (fun j _ h2 => h j (by omega))

theorem fat_find_entry_first (s : fat_fs) (name : List Char) (parent x : Nat)
    (hlt : x < s.num_entries)
    (hx : (s.dir_entries x).is_used = true ∧ (s.dir_entries x).parent_entry = parent ∧
      (s.dir_entries x).name = name)
    (h : ∀ j, j < x →
      ¬ ((s.dir_entries j).is_used = true ∧ (s.dir_entries j).parent_entry = parent ∧
        (s.dir_entries j).name = name)) :
    fat_find_entry s name parent = x :=
  find_scan_first s name parent x hx _ 0 (Nat.zero_le _) (by omega) (fun j _ h2 => h j h2)

theorem fat_find_entry_found (s : fat_fs) (name : List Char) (parent : Nat)
    (hx : fat_find_entry s name parent ≠ NOT_FOUND) :
    fat_find_entry s name parent < s.num_entries ∧
      (s.dir_entries (fat_find_entry s name parent)).is_used = true ∧
      (s.dir_entries (fat_find_entry s name parent)).parent_entry = parent ∧
      (s.dir_entries (fat_find_entry s name parent)).name = name := by
  unfold fat_find_entry at hx ⊢
  obtain ⟨_, h2, h3, _⟩ := find_scan_found s name parent _ 0 _ rfl hx
  exact ⟨by omega, h3⟩

theorem fat_find_entry_not_found (s : fat_fs) (name : List Char) (parent : Nat)
    (h : fat_find_entry s name parent = NOT_FOUND) (hn : s.num_entries ≤ MAX_ENTRIES) :
    ∀ j, j < s.num_entries →
      ¬ ((s.dir_entries j).is_used = true ∧ (s.dir_entries j).parent_entry = parent ∧
        (s.dir_entries j).name = name) := by
  intro j hj
  have hM : MAX_ENTRIES = 256 := rfl
  have hN : NOT_FOUND = 4294967295 := rfl
  exact find_scan_not_found s name parent _ 0 h (by omega) j (Nat.zero_le _) (by omega)

theorem store_store {α : Type} (a : Nat → α) (i : Nat) (v w : α) :
    store (store a i v) i w = store a i w := by
  funext j
  unfold store
  by_cases h : j = i <;> simp [h]

/-- The first move of a round trip: the source is the entry found under its
parent, the destination name is free. -/
theorem fat_mv_fresh_dest (s : fat_fs) (now : Nat) (a b nb : List Char) (pb : Nat)
    (hx : fat_resolve_path s (some a) ≠ NOT_FOUND) (hx0 : fat_resolve_path s (some a) ≠ 0)
    (hb : mv_parent_and_name s b = some (pb, nb))
    (hpb : (s.dir_entries pb).is_dir = true)
    (hbf : fat_find_entry s nb pb = NOT_FOUND) :
    fat_mv s now (some a) (some b) =
      ⟨0, none, mv_apply s now (fat_resolve_path s (some a)) pb nb⟩ := by
  simp [fat_mv, hx, hx0, hb, hpb, hbf]

/-! ## Paths of the form `/name` -/

theorem alloc_scan_first (fat : Nat → Nat) (x : Nat) (hx : fat x = FAT_FREE) :
    ∀ (n i : Nat), i ≤ x → x < i + n → (∀ j, i ≤ j → j < x → fat j ≠ FAT_FREE) →
      alloc_scan fat n i = x := by
  intro n
  induction n with
  | zero => intro i h1 h2 _; omega
  | succ n ih =>
    intro i h1 h2 h
    unfold alloc_scan
    by_cases hi : i = x
    · subst hi
      rw [if_pos hx]
    · rw [if_neg (h i (Nat.le_refl i) (by omega))]
      exact ih (i + 1) (by omega) (by omega) (fun j h3 h4 => h j (by omega) h4)

theorem alloc_scan_none (fat : Nat → Nat) :
    ∀ (n i : Nat), (∀ j, i ≤ j → j < i + n → fat j ≠ FAT_FREE) →
      alloc_scan fat n i = FAT_EOC := by
  intro n
  induction n with
  | zero => intro i _; rfl
  | succ n ih =>
    intro i h
    unfold alloc_scan
    rw [if_neg (h i (Nat.le_refl i) (by omega))]
    exact ih (i + 1) (fun j h1 h2 => h j (by omega) (by omega))

/-- Once the walk of `fat_free_chain` stands on block 0 with cell 0 FREE it stays
there: no iteration budget is enough. -/
theorem free_loop_stuck : ∀ (fuel : Nat) (s : fat_fs), s.fat_table 0 = FAT_FREE →
    free_loop fuel s 0 = none := by
  intro fuel
  induction fuel with
  | zero => intro s _; rfl
  | succ n ih =>
    intro s h
    unfold free_loop
    have hc : (0 : Nat) ≠ FAT_EOC ∧ 0 < MAX_BLOCKS := by decide
    rw [if_pos hc]
    simp only [h]
    exact ih _ (by simp [store])

/-! ## `strtok_r` against the maximal runs -/

theorem skip_delims_r_length (d : List Char) (str : List Char) :
    (skip_delims_r d str).length ≤ str.length := by
  induction str with
  | nil => simp [skip_delims_r]
  | cons c cs ih =>
    unfold skip_delims_r
    split
    · exact Nat.le_succ_of_le ih
    · exact Nat.le_refl _

theorem skip_delims_r_head (d : List Char) (str : List Char) (c : Char) (cs : List Char)
    (h : skip_delims_r d str = c :: cs) : c ∉ d := by
  induction str with
  | nil => simp [skip_delims_r] at h
  | cons x xs ih =>
    unfold skip_delims_r at h
    split at h
    · exact ih h
    · rename_i hx
      simp only [List.cons.injEq] at h
      exact h.1 ▸ hx

theorem scan_token_r_rest_length (d : List Char) (str : List Char) :
    (scan_token_r d str).2.length ≤ str.length - 1 := by
  induction str with
  | nil => simp [scan_token_r]
  | cons c cs ih =>
    unfold scan_token_r
    split
    · simp
    · simp only [List.length_cons, Nat.add_sub_cancel]
      omega

theorem scan_token_r_no_delim (d : List Char) (str : List Char) :
    ∀ c, c ∈ (scan_token_r d str).1 → c ∉ d := by
  induction str with
  | nil => intro c hc; simp [scan_token_r] at hc
  | cons x xs ih =>
    intro c hc
    unfold scan_token_r at hc
    split at hc
    · simp at hc
    · rename_i hx
      rcases List.mem_cons.1 hc with h | h
      · exact h ▸ hx
      · exact ih c h

theorem splitOnP_scan_token_r (d : List Char) (str : List Char) :
    ∃ X, str.splitOnP (fun c => decide (c ∈ d)) = (scan_token_r d str).1 :: X ∧
      X.filter (fun seg => !seg.isEmpty) = runs d (scan_token_r d str).2 := by
  induction str with
  | nil => exact ⟨[], by simp [List.splitOnP_nil, scan_token_r, runs]⟩
  | cons c cs ih =>
    obtain ⟨X, hX, hf⟩ := ih
    by_cases h : c ∈ d
    · refine ⟨cs.splitOnP (fun c => decide (c ∈ d)), ?_, ?_⟩
      · simp [List.splitOnP_cons, scan_token_r, h]
      · simp [scan_token_r, h, runs]
    · refine ⟨X, ?_, ?_⟩
      · simp [List.splitOnP_cons, scan_token_r, h, hX, List.modifyHead]
      · simpa [scan_token_r, h] using hf

theorem runs_skip (d : List Char) (str : List Char) :
    runs d (skip_delims_r d str) = runs d str := by
  induction str with
  | nil => rfl
  | cons c cs ih =>
    by_cases h : c ∈ d
    · simp only [skip_delims_r, h, if_true, ih]
      simp [runs, List.splitOnP_cons, h]
    · simp [skip_delims_r, h]

theorem runs_strtok_none (d : List Char) (str : List Char) (h : strtok_r d str = none) :
    runs d str = [] := by
  unfold strtok_r at h
  split at h
  · rename_i heq
    rw [← runs_skip, heq]
    simp [runs, List.splitOnP_nil]
  · simp at h

theorem runs_strtok_some (d : List Char) (str tok rest : List Char)
    (h : strtok_r d str = some (tok, rest)) :
    runs d str = tok :: runs d rest ∧ rest.length < str.length ∧ tok ≠ [] ∧
      ∀ c, c ∈ tok → c ∉ d := by
  unfold strtok_r at h
  split at h
  · simp at h
  · rename_i c cs heq
    simp only [Option.some.injEq] at h
    have hc : c ∉ d := skip_delims_r_head d str c cs heq
    obtain ⟨X, hX, hf⟩ := splitOnP_scan_token_r d (c :: cs)
    have htok : tok = (scan_token_r d (c :: cs)).1 := by rw [h]
    have hrest : rest = (scan_token_r d (c :: cs)).2 := by rw [h]
    have hne : tok ≠ [] := by
      rw [htok]; simp [scan_token_r, hc]
    refine ⟨?_, ?_, hne, ?_⟩
    · rw [← runs_skip, heq]
      unfold runs
      rw [hX, List.filter_cons, ← htok]
      have hf2 : X.filter (fun seg => !seg.isEmpty) = runs d rest := by rw [hf, ← hrest]
      unfold runs at hf2
      rw [hf2]
      cases tok with
      | nil => exact absurd rfl hne
      | cons a as => simp
    · have h1 := scan_token_r_rest_length d (c :: cs)
      have h2 := skip_delims_r_length d str
      rw [heq] at h2
      rw [hrest]
      simp only [List.length_cons] at h1 h2
      omega
    · rw [htok]
      exact scan_token_r_no_delim d (c :: cs)

theorem mem_runs (d : List Char) : ∀ (n : Nat) (str : List Char), str.length < n →
    ∀ tok, tok ∈ runs d str → tok ≠ [] ∧ ∀ c, c ∈ tok → c ∉ d := by
  intro n
  induction n with
  | zero => intro str h; omega
  | succ n ih =>
    intro str hlen tok htok
    cases hst : strtok_r d str with
    | none =>
      rw [runs_strtok_none d str hst] at htok
      simp at htok
    | some pr =>
      obtain ⟨tk, rest⟩ := pr
      obtain ⟨h1, h2, h3, h4⟩ := runs_strtok_some d str tk rest hst
      rw [h1] at htok
      rcases List.mem_cons.1 htok with h | h
      · subst h
        exact ⟨h3, h4⟩
      · exact ih rest (by omega) tok h

/-! ## Text buffers: C strings, trimming and searching -/

theorem isspace_NUL : isspace NUL = false := by decide

theorem not_NUL_of_isspace (c : Char) (h : isspace c = true) : c ≠ NUL := by
  intro e
  rw [e, isspace_NUL] at h
  cases h

theorem cstr_append (t z : List Char) (h : NUL ∉ t) : cstr (t ++ z) = t ++ cstr z := by
  induction t with
  | nil => rfl
  | cons c cs ih =>
    have h1 : c ≠ NUL := fun e => h (e ▸ List.mem_cons_self _ _)
    have h2 : NUL ∉ cs := fun hm => h (List.mem_cons_of_mem _ hm)
    simp [cstr, h1, ih h2]

theorem cstr_no_nul (t : List Char) (h : NUL ∉ t) : cstr t = t := by
  have := cstr_append t [] h
  simpa [cstr] using this

theorem cstr_nul_cons (r : List Char) : cstr (NUL :: r) = [] := by
  simp [cstr]

theorem cstr_replicate_nul (k : Nat) (z : List Char) (hz : cstr z = []) :
    cstr (List.replicate k NUL ++ z) = [] := by
  cases k with
  | zero => simpa using hz
  | succ n => simp [List.replicate_succ, cstr]

theorem not_mem_cstr (b : List Char) : NUL ∉ cstr b := by
  induction b with
  | nil => simp [cstr]
  | cons c cs ih =>
    unfold cstr
    split
    · simp
    · rename_i h
      intro hm
      rcases List.mem_cons.1 hm with h1 | h1
      · exact h h1.symm
      · exact ih h1

theorem ltrim_eq (t : List Char) : ltrim t = t.dropWhile isspace := by
  induction t with
  | nil => rfl
  | cons c cs ih =>
    by_cases h : isspace c = true
    · have hc := not_NUL_of_isspace c h
      simp [ltrim, h, hc, ih, List.dropWhile_cons]
    · simp [ltrim, h, List.dropWhile_cons]

theorem set_at_length {α : Type} (A : List α) (c x : α) (B : List α) :
    (A ++ c :: B).set A.length x = A ++ x :: B := by
  induction A with
  | nil => rfl
  | cons a as ih => simp [ih]

theorem set_past_length {α : Type} (A : List α) (x : α) : A.set A.length x = A := by
  induction A with
  | nil => rfl
  | cons a as ih => simp [ih]

theorem getD_at_length {α : Type} (A : List α) (c d : α) (B : List α) :
    (A ++ c :: B).getD A.length d = c := by
  induction A with
  | nil => rfl
  | cons a as ih => simpa using ih

theorem rtrim_loop_spec (core : List Char)
    (hcore : ∀ c0 core0, core = core0 ++ [c0] → isspace c0 = false) :
    ∀ (n : Nat) (sp z : List Char), sp.length = n → (∀ c, c ∈ sp → isspace c = true) →
      rtrim_loop (core.length + sp.length) (core ++ (sp ++ z)) =
        core ++ (List.replicate sp.length NUL ++ z) := by
  intro n
  induction n with
  | zero =>
    intro sp z hn _
    have hsp : sp = [] := List.length_eq_zero.1 hn
    subst hsp
    simp only [List.length_nil, Nat.add_zero, List.nil_append, List.replicate_zero]
    rcases List.eq_nil_or_concat core with h | ⟨core0, c0, h⟩
    · subst h; rfl
    · rw [List.concat_eq_append] at h
      have hc := hcore c0 core0 h
      subst h
      simp only [List.length_append, List.length_singleton]
      unfold rtrim_loop
      have hg : (core0 ++ [c0] ++ z).getD core0.length NUL = c0 := by
        rw [List.append_assoc]
        exact getD_at_length core0 c0 NUL _
      rw [hg, hc]
      simp
  | succ n ih =>
    intro sp z hn hsp
    rcases List.eq_nil_or_concat sp with h | ⟨sp0, c, h⟩
    · subst h; simp at hn
    · rw [List.concat_eq_append] at h
      subst h
      have hlen : sp0.length = n := by simpa using hn
      have hc : isspace c = true := hsp c (by simp)
      have hsp0 : ∀ c, c ∈ sp0 → isspace c = true := fun x hx => hsp x (by simp [hx])
      have e1 : core.length + (sp0 ++ [c]).length = (core ++ sp0).length + 1 := by
        simp [Nat.add_assoc]
      have e2 : core ++ (sp0 ++ [c] ++ z) = (core ++ sp0) ++ c :: z := by simp
      rw [e1, e2]
      unfold rtrim_loop
      rw [getD_at_length, hc, if_pos rfl, set_at_length]
      have e3 : (core ++ sp0) ++ NUL :: z = core ++ (sp0 ++ NUL :: z) := by simp
      have e4 : (core ++ sp0).length = core.length + sp0.length := by simp
      rw [e3, e4, ih sp0 (NUL :: z) hlen hsp0]
      simp [List.replicate_succ']

theorem rtrim_inplace_spec (core sp z : List Char)
    (hcore : ∀ c0 core0, core = core0 ++ [c0] → isspace c0 = false)
    (hnul : NUL ∉ core) (hsp : ∀ c, c ∈ sp → isspace c = true) (hz : cstr z = []) :
    rtrim_inplace (core ++ (sp ++ z)) = core ++ (List.replicate sp.length NUL ++ z) := by
  unfold rtrim_inplace
  have hnsp : NUL ∉ sp := fun hm => not_NUL_of_isspace NUL (hsp NUL hm) rfl
  rw [cstr_append _ _ hnul, cstr_append _ _ hnsp, hz]
  simp only [List.append_nil, List.length_append]
  exact rtrim_loop_spec core hcore sp.length sp z rfl hsp

/-- Every text is its `rstrip` followed by white space. -/
theorem rstrip_decomp (t : List Char) :
    ∃ sp, t = rstrip t ++ sp ∧ (∀ c, c ∈ sp → isspace c = true) ∧
      (∀ c0 core0, rstrip t = core0 ++ [c0] → isspace c0 = false) := by
  refine ⟨(t.reverse.takeWhile isspace).reverse, ?_, ?_, ?_⟩
  · unfold rstrip
    rw [← List.reverse_append, List.takeWhile_append_dropWhile, List.reverse_reverse]
  · intro c hc
    rw [List.mem_reverse] at hc
    exact List.mem_takeWhile_imp hc
  · intro c0 core0 h
    unfold rstrip at h
    have h2 : t.reverse.dropWhile isspace = c0 :: core0.reverse := by
      have := congrArg List.reverse h
      simpa using this
    have hne : t.reverse.dropWhile isspace ≠ [] := by rw [h2]; simp
    have hh := List.head_dropWhile_not isspace t.reverse hne
    simp only [h2, List.head_cons] at hh
    simpa using hh
theorem strchr_none (c : Char) (hc : c ≠ NUL) (t z : List Char) (ht : c ∉ t)
    (hz : cstr z = []) : strchr c (t ++ z) = none := by
  induction t with
  | nil =>
    cases z with
    | nil => simp [strchr, hc]
    | cons x xs =>
      have hx : x = NUL := by
        by_contra hx
        simp [cstr, hx] at hz
      subst hx
      simp [strchr, hc.symm]
  | cons x xs ih =>
    have h1 : x ≠ c := fun e => ht (e ▸ List.mem_cons_self _ _)
    have h2 : c ∉ xs := fun hm => ht (List.mem_cons_of_mem _ hm)
    have e : strchr c (x :: (xs ++ z)) =
        if x = NUL then none else (strchr c (xs ++ z)).map (· + 1) := by
      simp [strchr, h1]
    rw [List.cons_append, e, ih h2]
    split <;> rfl

theorem strchr_first (c : Char) (pre post : List Char) (h1 : c ∉ pre) (h2 : NUL ∉ pre) :
    strchr c (pre ++ c :: post) = some pre.length := by
  induction pre with
  | nil => simp [strchr]
  | cons x xs ih =>
    have hx1 : x ≠ c := fun e => h1 (e ▸ List.mem_cons_self _ _)
    have hx2 : x ≠ NUL := fun e => h2 (e ▸ List.mem_cons_self _ _)
    have h3 : c ∉ xs := fun hm => h1 (List.mem_cons_of_mem _ hm)
    have h4 : NUL ∉ xs := fun hm => h2 (List.mem_cons_of_mem _ hm)
    simp [strchr, hx1, hx2, ih h3 h4]

/-- The function `strstr` finds the needle exactly when it occurs in the C string. -/
theorem strstr_ne_none_iff (needle : List Char) : ∀ (b : List Char),
    strstr needle b ≠ none ↔ needle <:+: cstr b := by
  intro b
  induction b with
  | nil =>
    by_cases h : needle = []
    · simp [strstr, cstr, h]
    · simp [strstr, cstr, h]
  | cons x xs ih =>
    unfold strstr
    by_cases hp : needle.isPrefixOf (cstr (x :: xs)) = true
    · rw [if_pos hp]
      have hp2 : needle <+: cstr (x :: xs) := List.isPrefixOf_iff_prefix.1 hp
      simp only [ne_eq, reduceCtorEq, not_false_eq_true, true_iff]
      exact hp2.isInfix
    · rw [if_neg hp]
      have hp2 : ¬ needle <+: cstr (x :: xs) := fun h => hp (List.isPrefixOf_iff_prefix.2 h)
      by_cases hx : x = NUL
      · subst hx
        rw [cstr_nul_cons] at hp2 ⊢
        simp only [if_true, ne_eq, not_true_eq_false, false_iff]
        intro hi
        have : needle = [] := List.eq_nil_of_infix_nil hi
        exact hp2 (this ▸ List.prefix_refl _)
      · rw [if_neg hx]
        have hc : cstr (x :: xs) = x :: cstr xs := by simp [cstr, hx]
        rw [hc] at hp2 ⊢
        rw [List.infix_cons_iff]
        constructor
        · intro h
          right
          apply ih.1
          intro hn
          rw [hn] at h
          exact h rfl
        · intro h
          rcases h with h | h
          · exact absurd h hp2
          · have := ih.2 h
            cases hs : strstr needle xs with
            | none => exact absurd hs this
            | some k => simp

theorem strstr_none (needle t z : List Char) (hn : ¬ needle <:+: t) (ht : NUL ∉ t)
    (hz : cstr z = []) : strstr needle (t ++ z) = none := by
  by_contra h
  have := (strstr_ne_none_iff needle (t ++ z)).1 h
  rw [cstr_append t z ht, hz, List.append_nil] at this
  exact hn this

/-- The first occurrence of a doubled byte. -/
theorem strstr_first (g : Char) (hg : g ≠ NUL) (post : List Char) : ∀ (pre : List Char),
    NUL ∉ pre → ¬ [g, g] <:+: pre ++ [g] →
      strstr [g, g] (pre ++ g :: g :: post) = some pre.length := by
  intro pre
  induction pre with
  | nil =>
    intro _ _
    simp [strstr, cstr, hg, List.isPrefixOf]
  | cons x xs ih =>
    intro h1 h2
    have hx : x ≠ NUL := fun e => h1 (e ▸ List.mem_cons_self _ _)
    have h3 : NUL ∉ xs := fun hm => h1 (List.mem_cons_of_mem _ hm)
    have h4 : ¬ [g, g] <:+: xs ++ [g] := by
      intro hi
      apply h2
      rw [List.cons_append, List.infix_cons_iff]
      exact Or.inr hi
    have hp : ¬ ([g, g].isPrefixOf (cstr (x :: xs ++ g :: g :: post)) = true) := by
      intro hp
      have hp2 := List.isPrefixOf_iff_prefix.1 hp
      rw [show x :: xs ++ g :: g :: post = (x :: xs) ++ (g :: g :: post) from rfl,
        cstr_append _ _ h1] at hp2
      apply h2
      rw [List.cons_append, List.infix_cons_iff]
      left
      cases xs with
      | nil =>
        simp only [List.nil_append]
        obtain ⟨r, hr⟩ := hp2
        simp only [List.cons_append, List.nil_append, List.cons.injEq] at hr
        rw [← hr.1]
      | cons y ys =>
        obtain ⟨r, hr⟩ := hp2
        simp only [List.cons_append, List.nil_append, List.cons.injEq] at hr
        rw [← hr.1, ← hr.2.1]
        exact ⟨ys ++ [g], rfl⟩
    simp only [List.cons_append] at hp ⊢
    unfold strstr
    rw [if_neg hp, if_neg hx, ih h3 h4]
    rfl

theorem redir_arg_spec (A sp w rest : List Char)
    (h1 : ∀ c, c ∈ sp → isspace c = true)
    (h2 : ∀ c, c ∈ w → c ≠ NUL ∧ isspace c = false)
    (h3 : ∀ c r, rest = c :: r → c = NUL ∨ (isspace c = true ∧ w ≠ [])) :
    redir_arg (A ++ (sp ++ (w ++ rest))) A.length =
      (w, A ++ (sp ++ (w ++ rest.set 0 NUL))) := by
  have hskip : ((A ++ (sp ++ (w ++ rest))).drop A.length).takeWhile
      (fun c => decide (c ≠ NUL ∧ isspace c = true)) = sp := by
    rw [List.drop_left, List.takeWhile_append_of_pos]
    · have : (w ++ rest).takeWhile (fun c => decide (c ≠ NUL ∧ isspace c = true)) = [] := by
        cases w with
        | nil =>
          cases rest with
          | nil => rfl
          | cons c r =>
            rcases h3 c r rfl with h | h
            · simp [List.takeWhile, h]
            · exact absurd rfl h.2
        | cons x xs =>
          have := (h2 x (List.mem_cons_self _ _)).2
          simp [List.takeWhile, this]
      rw [this, List.append_nil]
    · intro c hc
      simp [h1 c hc, not_NUL_of_isspace c (h1 c hc)]
  have e1 : A ++ (sp ++ (w ++ rest)) = (A ++ sp) ++ (w ++ rest) := by simp
  have hword : ((A ++ (sp ++ (w ++ rest))).drop (A.length + sp.length)).takeWhile
      (fun c => decide (c ≠ NUL ∧ isspace c = false)) = w := by
    rw [e1, ← List.length_append, List.drop_left, List.takeWhile_append_of_pos]
    · have : rest.takeWhile (fun c => decide (c ≠ NUL ∧ isspace c = false)) = [] := by
        cases rest with
        | nil => rfl
        | cons c r =>
          rcases h3 c r rfl with h | h
          · simp [List.takeWhile, h]
          · simp [List.takeWhile, h.1]
      rw [this, List.append_nil]
    · intro c hc
      simp [h2 c hc]
  unfold redir_arg
  simp only [hskip, hword]
  have e2 : A ++ (sp ++ (w ++ rest)) = (A ++ sp ++ w) ++ rest := by simp
  have e3 : A.length + sp.length + w.length = (A ++ sp ++ w).length := by
    simp [Nat.add_assoc]
  have hset : (A ++ (sp ++ (w ++ rest))).set (A.length + sp.length + w.length) NUL =
      A ++ (sp ++ (w ++ rest.set 0 NUL)) := by
    rw [e2, e3]
    cases rest with
    | nil => simp [set_past_length]
    | cons c r =>
      rw [set_at_length]
      simp
  rw [hset]
  have e4 : A ++ (sp ++ (w ++ rest.set 0 NUL)) = (A ++ sp) ++ (w ++ rest.set 0 NUL) := by simp
  have hw : NUL ∉ w := fun hm => (h2 NUL hm).1 rfl
  have hc : cstr (rest.set 0 NUL) = [] := by
    cases rest with
    | nil => rfl
    | cons c r => simp [cstr]
  rw [e4, ← List.length_append, List.drop_left, cstr_append _ _ hw, hc, List.append_nil]

theorem argv_loop_eq : ∀ (fuel : Nat) (rest : List Char) (a : Nat)
    (argv : Nat → Option (List Char)), rest.length < fuel → a ≤ 63 →
      argv_loop fuel rest a argv =
        (fill_argv argv a ((runs [' ', '\t'] rest).take (63 - a)),
          a + ((runs [' ', '\t'] rest).take (63 - a)).length) := by
  intro fuel
  induction fuel with
  | zero => intro rest a argv h; omega
  | succ n ih =>
    intro rest a argv hlen ha
    unfold argv_loop
    cases hst : strtok_r [' ', '\t'] rest with
    | none =>
      rw [runs_strtok_none _ rest hst]
      simp [fill_argv]
    | some pr =>
      obtain ⟨tk, rest1⟩ := pr
      obtain ⟨hseg, hlt, _, _⟩ := runs_strtok_some _ rest tk rest1 hst
      rw [hseg]
      by_cases h63 : a < 63
      · simp only [h63, if_true]
        rw [ih rest1 (a + 1) _ (by omega) (by omega)]
        have e : 63 - a = (63 - (a + 1)) + 1 := by omega
        rw [e, List.take_succ_cons]
        simp only [fill_argv, List.length_cons]
        congr 1
        omega
      · simp only [h63, if_false]
        have e : 63 - a = 0 := by omega
        rw [e]
        simp [fill_argv]

theorem fill_argv_below (ts : List (List Char)) : ∀ (argv : Nat → Option (List Char))
    (a i : Nat), i < a → fill_argv argv a ts i = argv i := by
  induction ts with
  | nil => intro argv a i _; rfl
  | cons t ts ih =>
    intro argv a i hi
    unfold fill_argv
    rw [ih _ (a + 1) i (by omega), store_ne _ _ _ _ (by omega)]

theorem fill_argv_above (ts : List (List Char)) : ∀ (argv : Nat → Option (List Char))
    (a i : Nat), a + ts.length ≤ i → fill_argv argv a ts i = argv i := by
  induction ts with
  | nil => intro argv a i _; rfl
  | cons t ts ih =>
    intro argv a i hi
    unfold fill_argv
    simp only [List.length_cons] at hi
    rw [ih _ (a + 1) i (by omega), store_ne _ _ _ _ (by omega)]

theorem fill_argv_range (ts : List (List Char)) : ∀ (argv : Nat → Option (List Char))
    (a : Nat), (List.range' a ts.length).map (fill_argv argv a ts) = ts.map some := by
  induction ts with
  | nil => intro argv a; rfl
  | cons t ts ih =>
    intro argv a
    simp only [List.length_cons, List.range'_succ, List.map_cons, fill_argv]
    rw [ih _ (a + 1), fill_argv_below ts _ (a + 1) a (Nat.lt_succ_self a), store_same]
/-! ## One stage of the parser -/

theorem mem_rstrip (t : List Char) (c : Char) (h : c ∈ rstrip t) : c ∈ t := by
  unfold rstrip at h
  rw [List.mem_reverse] at h
  have := (List.dropWhile_sublist isspace).subset h
  exact List.mem_reverse.1 this

theorem mem_trim (t : List Char) (c : Char) (h : c ∈ trim t) : c ∈ t :=
  (List.dropWhile_sublist isspace).subset (mem_rstrip _ c h)

/-- The buffer after the two trimming steps at the head of the stage loop. -/
theorem trimmed_buffer (text : List Char) (h : NUL ∉ text) :
    ∃ z, rtrim_inplace (ltrim text) = trim text ++ z ∧ cstr z = [] := by
  obtain ⟨sp, h1, h2, h3⟩ := rstrip_decomp (text.dropWhile isspace)
  have hn : NUL ∉ trim text := fun hm => h (mem_trim text NUL hm)
  refine ⟨List.replicate sp.length NUL ++ [], ?_, cstr_replicate_nul _ _ rfl⟩
  rw [ltrim_eq]
  have e : text.dropWhile isspace = trim text ++ (sp ++ []) := by
    rw [List.append_nil]; exact h1
  rw [e]
  exact rtrim_inplace_spec (trim text) sp [] h3 hn h2 rfl

/-- Shape of a parsed stage: the array holds the strings of `stage_tokens`, then
`NULL`; the redirections do not depend on what the slot held before. -/
theorem parse_stage_eq (slot : Nat → Option (List Char)) (text : List Char) :
    parse_stage slot text =
      { argv := store (fill_argv slot 0 (stage_tokens text)) (stage_tokens text).length none
        argc := (stage_tokens text).length
        input_file := (stage_redirs text).1
        output_file := (stage_redirs text).2.1
        append := (stage_redirs text).2.2.1 } := by
  unfold parse_stage stage_tokens
  simp only [argv_loop_eq _ _ 0 slot (Nat.lt_succ_self _) (Nat.zero_le _)]
  simp

theorem stage_redirs_plain (text : List Char)
    (h1 : '<' ∉ text) (h2 : '>' ∉ text) (h3 : NUL ∉ text) :
    ∃ z, stage_redirs text = (none, none, 0, trim text ++ z) ∧ cstr z = [] := by
  obtain ⟨z, hs, hz⟩ := trimmed_buffer text h3
  have hn : NUL ∉ trim text := fun hm => h3 (mem_trim text NUL hm)
  have hlt : '<' ∉ trim text := fun hm => h1 (mem_trim text _ hm)
  have hgt : '>' ∉ trim text := fun hm => h2 (mem_trim text _ hm)
  have hin : strchr '<' (trim text ++ z) = none :=
    strchr_none '<' (by decide) _ z hlt hz
  have hout : strchr '>' (trim text ++ z) = none :=
    strchr_none '>' (by decide) _ z hgt hz
  have happ : strstr ['>', '>'] (trim text ++ z) = none := by
    apply strstr_none _ _ z _ hn hz
    intro hi
    exact hgt (hi.subset (List.mem_cons_self _ _))
  refine ⟨z, ?_, hz⟩
  unfold stage_redirs
  simp only [hs, hin, hout, happ]

theorem stage_tokens_plain (text : List Char)
    (h1 : '<' ∉ text) (h2 : '>' ∉ text) (h3 : NUL ∉ text) :
    stage_tokens text = (runs [' ', '\t'] (trim text)).take 63 := by
  obtain ⟨z, hs, hz⟩ := stage_redirs_plain text h1 h2 h3
  have hn : NUL ∉ trim text := fun hm => h3 (mem_trim text NUL hm)
  unfold stage_tokens
  rw [hs]
  simp only
  rw [cstr_append _ _ hn, hz, List.append_nil]

theorem stage_tokens_props (text : List Char) :
    (stage_tokens text).length ≤ 63 ∧
      ∀ t, t ∈ stage_tokens text → t ≠ [] ∧ ∀ c, c ∈ t → c ∉ [' ', '\t'] := by
  constructor
  · exact List.length_take_le _ _
  · intro t ht
    exact mem_runs _ _ _ (Nat.lt_succ_self _) t (List.mem_of_mem_take ht)

theorem argv_list_parse_stage (slot : Nat → Option (List Char)) (text : List Char) :
    argv_list (parse_stage slot text) = (stage_tokens text).map some := by
  rw [parse_stage_eq]
  unfold argv_list
  simp only
  rw [List.range_eq_range', List.map_congr_left, fill_argv_range (stage_tokens text) slot 0]
  intro i hi
  have hlt : i < (stage_tokens text).length := by
    simpa using (List.mem_range'_1.1 hi).2
  rw [store_ne _ _ _ _ (Nat.ne_of_lt hlt)]
/-! ## The stage loop -/

theorem parse_stage_argc_pos (slot : Nat → Option (List Char)) (text : List Char) :
    (parse_stage slot text).argc > 0 ↔ stage_tokens text ≠ [] := by
  rw [parse_stage_eq]
  simp only
  cases stage_tokens text with
  | nil => simp
  | cons t ts => simp

theorem pipeline_loop_spec : ∀ (fuel : Nat) (rest : List Char) (cmds : Nat → command)
    (n : Nat), rest.length < fuel → n ≤ 10 →
      (pipeline_loop fuel rest cmds n).2 =
        n + (((runs ['|'] rest).filter (fun seg => decide (stage_tokens seg ≠ []))).take
          (10 - n)).length ∧
      (∀ i, i < n → (pipeline_loop fuel rest cmds n).1 i = cmds i) ∧
      (∀ k seg,
        (((runs ['|'] rest).filter (fun seg => decide (stage_tokens seg ≠ []))).take
          (10 - n))[k]? = some seg →
        ∃ slot, (pipeline_loop fuel rest cmds n).1 (n + k) = parse_stage slot seg) := by
  intro fuel
  induction fuel with
  | zero => intro rest cmds n h; omega
  | succ f ih =>
    intro rest cmds n hlen hn
    unfold pipeline_loop
    cases hst : strtok_r ['|'] rest with
    | none =>
      rw [runs_strtok_none _ rest hst]
      simp
    | some pr =>
      obtain ⟨seg0, rest1⟩ := pr
      obtain ⟨hseg, hlt, _, _⟩ := runs_strtok_some _ rest seg0 rest1 hst
      rw [hseg]
      simp only
      by_cases h10 : n < 10
      · rw [if_pos h10]
        by_cases hacc : (parse_stage (cmds n).argv seg0).argc > 0
        · rw [if_pos hacc]
          have hne : stage_tokens seg0 ≠ [] := (parse_stage_argc_pos _ _).1 hacc
          obtain ⟨h1, h2, h3⟩ := ih rest1 (store cmds n (parse_stage (cmds n).argv seg0))
            (n + 1) (by omega) (by omega)
          have e : 10 - n = (10 - (n + 1)) + 1 := by omega
          rw [List.filter_cons, if_pos (by simpa using hne), e, List.take_succ_cons]
          refine ⟨?_, ?_, ?_⟩
          · rw [h1, List.length_cons]; omega
          · intro i hi
            rw [h2 i (by omega), store_ne _ _ _ _ (by omega)]
          · intro k seg hk
            cases k with
            | zero =>
              simp only [List.getElem?_cons_zero, Option.some.injEq] at hk
              subst hk
              refine ⟨(cmds n).argv, ?_⟩
              show (pipeline_loop f rest1 (store cmds n (parse_stage (cmds n).argv seg0))
                (n + 1)).1 n = _
              rw [h2 n (by omega), store_same]
            | succ k =>
              simp only [List.getElem?_cons_succ] at hk
              obtain ⟨slot, hs⟩ := h3 k seg hk
              refine ⟨slot, ?_⟩
              rw [← hs]
              have e2 : n + (k + 1) = n + 1 + k := by omega
              rw [e2]
        · rw [if_neg hacc]
          have hnil : ¬ stage_tokens seg0 ≠ [] := fun h => hacc ((parse_stage_argc_pos _ _).2 h)
          obtain ⟨h1, h2, h3⟩ := ih rest1
            (store cmds n
              { parse_stage (cmds n).argv seg0 with input_file := none, output_file := none })
            n (by omega) hn
          rw [List.filter_cons, if_neg (by simpa using hnil)]
          refine ⟨h1, ?_, h3⟩
          intro i hi
          rw [h2 i hi, store_ne _ _ _ _ (by omega)]
      · rw [if_neg h10]
        have e : 10 - n = 0 := by omega
        rw [e]
        simp

theorem mem_kept_segments (line seg : List Char) (h : seg ∈ kept_segments line) :
    stage_tokens seg ≠ [] := by
  unfold kept_segments at h
  have := List.mem_of_mem_take h
  simpa using (List.mem_filter.1 this).2

theorem parse_pipeline_spec (line : List Char) (cmds : Nat → command) :
    (parse_pipeline (some line) cmds).num_cmds = (kept_segments line).length ∧
    (parse_pipeline (some line) cmds).ret = (kept_segments line).length ∧
    ∀ k seg, (kept_segments line)[k]? = some seg →
      ∃ slot, (parse_pipeline (some line) cmds).cmds k = parse_stage slot seg := by
  obtain ⟨h1, _, h3⟩ := pipeline_loop_spec ((cstr line).length + 1) (cstr line) cmds 0
    (Nat.lt_succ_self _) (Nat.zero_le _)
  simp only [Nat.zero_add, Nat.sub_zero] at h1 h3
  exact ⟨h1, h1, h3⟩
theorem fill_argv_get (ts : List (List Char)) : ∀ (argv : Nat → Option (List Char))
    (a j : Nat), j < ts.length → ∃ t, t ∈ ts ∧ fill_argv argv a ts (a + j) = some t := by
  induction ts with
  | nil => intro argv a j h; simp at h
  | cons t ts ih =>
    intro argv a j hj
    unfold fill_argv
    cases j with
    | zero =>
      refine ⟨t, List.mem_cons_self _ _, ?_⟩
      show fill_argv (store argv a (some t)) (a + 1) ts a = some t
      rw [fill_argv_below ts _ (a + 1) a (Nat.lt_succ_self a), store_same]
    | succ j =>
      simp only [List.length_cons] at hj
      obtain ⟨t2, h1, h2⟩ := ih (store argv a (some t)) (a + 1) j (by omega)
      refine ⟨t2, List.mem_cons_of_mem _ h1, ?_⟩
      rw [← h2]
      congr 1
      omega

theorem stage_view_parse_stage (slot : Nat → Option (List Char)) (text : List Char) :
    stage_view (parse_stage slot text) =
      ((stage_tokens text).map some, (stage_redirs text).1, (stage_redirs text).2.1,
        (stage_redirs text).2.2.1) := by
  unfold stage_view
  rw [argv_list_parse_stage, parse_stage_eq]

/-- The stages that `parse_pipeline` returns, as a list. -/
theorem stage_list_eq (line : List Char) (cmds : Nat → command) :
    (stage_list (parse_pipeline (some line) cmds)).map stage_view =
      (kept_segments line).map (fun seg => stage_view (parse_stage (fun _ => none) seg)) := by
  obtain ⟨h1, _, h3⟩ := parse_pipeline_spec line cmds
  apply List.ext_getElem?
  intro k
  unfold stage_list
  rw [h1]
  simp only [List.getElem?_map]
  by_cases hk : k < (kept_segments line).length
  · have hseg : (kept_segments line)[k]? = some ((kept_segments line)[k]) :=
      List.getElem?_eq_getElem hk
    obtain ⟨slot, hs⟩ := h3 k _ hseg
    rw [hseg, List.getElem?_range hk]
    simp only [Option.map_some']
    rw [hs, stage_view_parse_stage, stage_view_parse_stage]
  · have e1 : (kept_segments line)[k]? = none := List.getElem?_eq_none (by omega)
    have e2 : (List.range (kept_segments line).length)[k]? = none :=
      List.getElem?_eq_none (by simp; omega)
    rw [e1, e2]
    rfl

/-! ## One redirection step on a buffer -/

theorem cstr_nul_head (y r : List Char) (hy : y = [] ∨ ∃ y1, y = NUL :: y1) :
    cstr (y ++ NUL :: r) = [] := by
  rcases hy with h | ⟨y1, h⟩
  · subst h; exact cstr_nul_cons r
  · subst h; exact cstr_nul_cons _

/-- The marker `c :: mk` stands after `core ++ spc ++ y`, where `core ++ spc` is the
C string at the head of the buffer (`y` is empty or starts with a NUL) and `spc`
its trailing white space; after the marker come white space `sp`, the word `w`
and `rest`.  The step stores NUL over `c`, takes `w` as the argument, terminates
it in place and trims the head string. -/
theorem redir_step (core spc y mk sp w rest : List Char) (c : Char)
    (hnul : NUL ∉ core)
    (hcore : ∀ c0 core0, core = core0 ++ [c0] → isspace c0 = false)
    (hspc : ∀ x, x ∈ spc → isspace x = true)
    (hy : y = [] ∨ ∃ y1, y = NUL :: y1)
    (h1 : ∀ x, x ∈ sp → isspace x = true)
    (h2 : ∀ x, x ∈ w → x ≠ NUL ∧ isspace x = false)
    (h3 : ∀ x r, rest = x :: r → x = NUL ∨ (isspace x = true ∧ w ≠ [])) :
    redir_arg ((core ++ (spc ++ (y ++ c :: (mk ++ (sp ++ (w ++ rest)))))).set
        (core.length + spc.length + y.length) NUL)
        (core.length + spc.length + y.length + 1 + mk.length) =
      (w, core ++ (spc ++ (y ++ NUL :: (mk ++ (sp ++ (w ++ rest.set 0 NUL)))))) ∧
    rtrim_inplace (core ++ (spc ++ (y ++ NUL :: (mk ++ (sp ++ (w ++ rest.set 0 NUL)))))) =
      core ++ (List.replicate spc.length NUL ++
        (y ++ NUL :: (mk ++ (sp ++ (w ++ rest.set 0 NUL))))) := by
  constructor
  · have e1 : core ++ (spc ++ (y ++ c :: (mk ++ (sp ++ (w ++ rest))))) =
        (core ++ spc ++ y) ++ c :: (mk ++ (sp ++ (w ++ rest))) := by simp
    have e2 : core.length + spc.length + y.length = (core ++ spc ++ y).length := by
      simp only [List.length_append]
    rw [e1, e2, set_at_length]
    have e3 : (core ++ spc ++ y) ++ NUL :: (mk ++ (sp ++ (w ++ rest))) =
        (core ++ spc ++ y ++ NUL :: mk) ++ (sp ++ (w ++ rest)) := by simp
    have e4 : (core ++ spc ++ y).length + 1 + mk.length =
        (core ++ spc ++ y ++ NUL :: mk).length := by
      simp only [List.length_append, List.length_cons]
      omega
    rw [e3, e4, redir_arg_spec _ sp w rest h1 h2 h3]
    simp
  · exact rtrim_inplace_spec core spc _ hcore hnul hspc (cstr_nul_head y _ hy)

/-- Every text is white space, then its first word, then a rest that is empty
or starts with white space. -/
theorem word_decomp (post : List Char) (hn : NUL ∉ post) :
    ∃ sp rest, post = sp ++ (first_word post ++ rest) ∧
      (∀ x, x ∈ sp → isspace x = true) ∧
      (∀ x, x ∈ first_word post → x ≠ NUL ∧ isspace x = false) ∧
      (∀ x r, rest = x :: r → isspace x = true ∧ first_word post ≠ []) ∧
      NUL ∉ rest := by
  refine ⟨post.takeWhile isspace,
    (post.dropWhile isspace).dropWhile (fun c => !isspace c), ?_, ?_, ?_, ?_, ?_⟩
  · unfold first_word
    rw [List.takeWhile_append_dropWhile, List.takeWhile_append_dropWhile]
  · intro x hx
    exact List.mem_takeWhile_imp hx
  · intro x hx
    unfold first_word at hx
    have h1 := List.mem_takeWhile_imp hx
    have h2 : x ∈ post :=
      (List.dropWhile_sublist isspace).subset ((List.takeWhile_sublist _).subset hx)
    refine ⟨fun e => hn (e ▸ h2), ?_⟩
    simpa using h1
  · intro x r hr
    have hne : (post.dropWhile isspace).dropWhile (fun c => !isspace c) ≠ [] := by
      rw [hr]; simp
    have hh := List.head_dropWhile_not (fun c => !isspace c) (post.dropWhile isspace) hne
    simp only [hr, List.head_cons] at hh
    refine ⟨by simpa using hh, ?_⟩
    intro hw
    unfold first_word at hw
    cases hq : post.dropWhile isspace with
    | nil => rw [hq] at hr; simp at hr
    | cons q qs =>
      have hq0 : post.dropWhile isspace ≠ [] := by rw [hq]; simp
      have hh2 := List.head_dropWhile_not isspace post hq0
      simp only [hq, List.head_cons] at hh2
      rw [hq] at hw
      have hq1 : isspace q = false := by simpa using hh2
      simp [List.takeWhile, hq1] at hw
  · intro hm
    exact hn ((List.dropWhile_sublist isspace).subset ((List.dropWhile_sublist _).subset hm))
/-! ## Runs of a text and of its trimmed form -/

theorem runs_cons_delim (d : List Char) (c : Char) (cs : List Char) (h : c ∈ d) :
    runs d (c :: cs) = runs d cs := by
  simp [runs, List.splitOnP_cons, h]

theorem runs_dropWhile (d : List Char) (p : Char → Bool) (t : List Char)
    (h : ∀ c, c ∈ t → p c = true → c ∈ d) : runs d (t.dropWhile p) = runs d t := by
  induction t with
  | nil => rfl
  | cons c cs ih =>
    have ih2 := ih (fun x hx => h x (List.mem_cons_of_mem _ hx))
    by_cases hp : p c = true
    · rw [List.dropWhile_cons_of_pos hp, ih2,
        runs_cons_delim d c cs (h c (List.mem_cons_self _ _) hp)]
    · rw [List.dropWhile_cons_of_neg hp]

theorem splitOnP_delims (d : List Char) (sp : List Char) (h : ∀ c, c ∈ sp → c ∈ d) :
    sp.splitOnP (fun c => decide (c ∈ d)) = [] :: List.replicate sp.length [] := by
  induction sp with
  | nil => simp [List.splitOnP_nil]
  | cons c cs ih =>
    have hc : c ∈ d := h c (List.mem_cons_self _ _)
    rw [List.splitOnP_cons, ih (fun x hx => h x (List.mem_cons_of_mem _ hx))]
    simp [hc, List.replicate_succ]

theorem splitOnP_append_delims (d : List Char) (sp : List Char) (h : ∀ c, c ∈ sp → c ∈ d) :
    ∀ (t : List Char), (t ++ sp).splitOnP (fun c => decide (c ∈ d)) =
      t.splitOnP (fun c => decide (c ∈ d)) ++ List.replicate sp.length [] := by
  intro t
  induction t with
  | nil => simp [splitOnP_delims d sp h, List.splitOnP_nil]
  | cons c cs ih =>
    rw [List.cons_append, List.splitOnP_cons, List.splitOnP_cons, ih]
    by_cases hc : c ∈ d
    · simp [hc]
    · have hne := List.splitOnP_ne_nil (fun c => decide (c ∈ d)) cs
      cases hcs : List.splitOnP (fun c => decide (c ∈ d)) cs with
      | nil => exact absurd hcs hne
      | cons a as => simp [hc, List.modifyHead]

theorem runs_append_delims (d : List Char) (t sp : List Char) (h : ∀ c, c ∈ sp → c ∈ d) :
    runs d (t ++ sp) = runs d t := by
  unfold runs
  rw [splitOnP_append_delims d sp h, List.filter_append]
  have : (List.replicate sp.length ([] : List Char)).filter (fun seg => !seg.isEmpty) = [] := by
    rw [List.filter_eq_nil_iff]
    intro a ha
    rw [List.eq_of_mem_replicate ha]
    simp
  rw [this, List.append_nil]

/-- When space and tab are the only white space in a text, trimming does not
change its runs. -/
theorem runs_trim (text : List Char)
    (h : ∀ c, c ∈ text → isspace c = true → c ∈ [' ', '\t']) :
    runs [' ', '\t'] (trim text) = runs [' ', '\t'] text := by
  obtain ⟨sp, h1, h2, _⟩ := rstrip_decomp (text.dropWhile isspace)
  have hsp : ∀ c, c ∈ sp → c ∈ [' ', '\t'] := by
    intro c hc
    have hm : c ∈ text.dropWhile isspace := by rw [h1]; simp [hc]
    exact h c ((List.dropWhile_sublist isspace).subset hm) (h2 c hc)
  unfold trim
  rw [← runs_append_delims _ (rstrip (text.dropWhile isspace)) sp hsp, ← h1]
  exact runs_dropWhile _ isspace text h

/-- A redirection step on text that no earlier step has touched: the argument is
the first word after the marker, and the C string left at the head of the buffer
is the text before the marker without its trailing white space. -/
theorem redir_on_text (pre mk post z : List Char) (c : Char)
    (h1 : NUL ∉ pre) (h2 : NUL ∉ post) (hz : cstr z = []) :
    (redir_arg ((pre ++ c :: (mk ++ (post ++ z))).set pre.length NUL)
      (pre.length + 1 + mk.length)).1 = first_word post ∧
    ∃ Z, rtrim_inplace (redir_arg ((pre ++ c :: (mk ++ (post ++ z))).set pre.length NUL)
      (pre.length + 1 + mk.length)).2 = rstrip pre ++ Z ∧ cstr Z = [] := by
  obtain ⟨spc, hp1, hp2, hp3⟩ := rstrip_decomp pre
  obtain ⟨sp, rest, hw1, hw2, hw3, hw4, hw5⟩ := word_decomp post h2
  have hcn : NUL ∉ rstrip pre := fun hm => h1 (mem_rstrip pre NUL hm)
  have h3 : ∀ x r, rest ++ z = x :: r →
      x = NUL ∨ (isspace x = true ∧ first_word post ≠ []) := by
    intro x r hr
    cases rest with
    | nil =>
      left
      simp only [List.nil_append] at hr
      by_contra hx
      rw [hr] at hz
      simp [cstr, hx] at hz
    | cons a as =>
      right
      simp only [List.cons_append, List.cons.injEq] at hr
      rw [← hr.1]
      exact hw4 a as rfl
  obtain ⟨hA, hB⟩ := redir_step (rstrip pre) spc [] mk sp (first_word post) (rest ++ z) c
    hcn hp3 hp2 (Or.inl rfl) hw2 hw3 h3
  have e1 : (rstrip pre).length + spc.length + ([] : List Char).length = pre.length := by
    conv => rhs; rw [hp1]
    simp
  have e2 : rstrip pre ++ (spc ++ ([] ++ c :: (mk ++ (sp ++ (first_word post ++ (rest ++ z)))))) =
      pre ++ c :: (mk ++ (post ++ z)) := by
    conv => rhs; rw [hp1, hw1]
    simp
  rw [e1, e2] at hA
  rw [hA]
  refine ⟨rfl, _, hB, ?_⟩
  exact cstr_replicate_nul _ _ (cstr_nul_cons _)

theorem no_double_of_count (g : Char) (L : List Char) (h : L.count g ≤ 1) :
    ¬ [g, g] <:+: L := by
  intro hi
  have := hi.sublist.count_le g
  simp at this
  omega
theorem stage_redirs_append (text pre post : List Char)
    (hlt : '<' ∉ text) (hn : NUL ∉ text)
    (ht : trim text = pre ++ '>' :: '>' :: post)
    (hfirst : ¬ ['>', '>'] <:+: pre ++ ['>']) :
    ∃ Z, stage_redirs text = (none, some (first_word post), 1, rstrip pre ++ Z) ∧
      cstr Z = [] := by
  obtain ⟨z, hs, hz⟩ := trimmed_buffer text hn
  have hnt : NUL ∉ trim text := fun hm => hn (mem_trim text NUL hm)
  have hin : strchr '<' (trim text ++ z) = none :=
    strchr_none '<' (by decide) _ z (fun hm => hlt (mem_trim text _ hm)) hz
  have hnpre : NUL ∉ pre := fun hm => hnt (by rw [ht]; simp [hm])
  have hnpost : NUL ∉ post := fun hm => hnt (by rw [ht]; simp [hm])
  have hbuf : trim text ++ z = pre ++ '>' :: '>' :: (post ++ z) := by rw [ht]; simp
  have happ : strstr ['>', '>'] (pre ++ '>' :: '>' :: (post ++ z)) = some pre.length :=
    strstr_first '>' (by decide) (post ++ z) pre hnpre hfirst
  obtain ⟨hA, Z, hB, hZ⟩ := redir_on_text pre ['>'] post z '>' hnpre hnpost hz
  have e : pre.length + 1 + ['>'].length = pre.length + 2 := rfl
  rw [e] at hA hB
  have e2 : pre ++ '>' :: (['>'] ++ (post ++ z)) = pre ++ '>' :: '>' :: (post ++ z) := rfl
  rw [e2] at hA hB
  refine ⟨Z, ?_, hZ⟩
  rw [hbuf] at hs hin
  unfold stage_redirs
  simp only [hs, hin, happ, hA, hB]

theorem stage_redirs_out (text pre post : List Char)
    (hlt : '<' ∉ text) (hn : NUL ∉ text)
    (ht : trim text = pre ++ '>' :: post) (hpre : '>' ∉ pre)
    (hno : ¬ ['>', '>'] <:+: trim text) :
    ∃ Z, stage_redirs text = (none, some (first_word post), 0, rstrip pre ++ Z) ∧
      cstr Z = [] := by
  obtain ⟨z, hs, hz⟩ := trimmed_buffer text hn
  have hnt : NUL ∉ trim text := fun hm => hn (mem_trim text NUL hm)
  have hin : strchr '<' (trim text ++ z) = none :=
    strchr_none '<' (by decide) _ z (fun hm => hlt (mem_trim text _ hm)) hz
  have happ : strstr ['>', '>'] (trim text ++ z) = none := strstr_none _ _ z hno hnt hz
  have hnpre : NUL ∉ pre := fun hm => hnt (by rw [ht]; simp [hm])
  have hnpost : NUL ∉ post := fun hm => hnt (by rw [ht]; simp [hm])
  have hbuf : trim text ++ z = pre ++ '>' :: (post ++ z) := by rw [ht]; simp
  have hout : strchr '>' (pre ++ '>' :: (post ++ z)) = some pre.length :=
    strchr_first '>' pre _ hpre hnpre
  obtain ⟨hA, Z, hB, hZ⟩ := redir_on_text pre [] post z '>' hnpre hnpost hz
  have e : pre.length + 1 + ([] : List Char).length = pre.length + 1 := rfl
  rw [e] at hA hB
  have e2 : pre ++ '>' :: ([] ++ (post ++ z)) = pre ++ '>' :: (post ++ z) := rfl
  rw [e2] at hA hB
  refine ⟨Z, ?_, hZ⟩
  unfold stage_redirs
  rw [hs]
  simp only [hin, happ]
  rw [hbuf]
  simp only [hout, hA, hB]

theorem stage_tokens_of_redirs (text core Z : List Char) (X Y : Option (List Char)) (a : Nat)
    (h : stage_redirs text = (X, Y, a, core ++ Z)) (hc : NUL ∉ core) (hZ : cstr Z = []) :
    stage_tokens text = (runs [' ', '\t'] core).take 63 := by
  unfold stage_tokens
  rw [h]
  simp only
  rw [cstr_append _ _ hc, hZ, List.append_nil]

/-! ## Stages of the form `words < in > out` and `words > out < in` -/

theorem last_of_append (A o core0 : List Char) (c0 : Char) (ho : o ≠ [])
    (h : A ++ o = core0 ++ [c0]) : c0 ∈ o := by
  rcases List.eq_nil_or_concat o with h1 | ⟨o1, l, h1⟩
  · exact absurd h1 ho
  · rw [List.concat_eq_append] at h1
    subst h1
    rw [← List.append_assoc] at h
    have := List.append_inj_right' h rfl
    simp only [List.cons.injEq, and_true] at this
    rw [← this]
    simp

/-! ## Words joined by single spaces -/

theorem plain_word_no_delim (w : List Char) (h : plain_word w) :
    ∀ x, x ∈ w → ¬ ((fun c => decide (c ∈ [' ', '\t'])) x = true) := by
  intro x hx hd
  have hs := (h.2 x hx).1
  simp only [List.mem_cons, List.mem_singleton, decide_eq_true_eq] at hd
  have hd2 : x = ' ' ∨ x = '\t' := by simpa using hd
  rcases hd2 with e | e <;> · subst e; revert hs; decide

theorem runs_plain_word (w : List Char) (h : plain_word w) : runs [' ', '\t'] w = [w] := by
  unfold runs
  rw [List.splitOnP_eq_single _ _ (plain_word_no_delim w h)]
  cases w with
  | nil => exact absurd rfl h.1
  | cons c cs => simp

theorem runs_word_space (w U : List Char) (h : plain_word w) :
    runs [' ', '\t'] (w ++ ' ' :: U) = w :: runs [' ', '\t'] U := by
  unfold runs
  rw [List.splitOnP_first _ _ (plain_word_no_delim w h) ' ' (by decide)]
  cases w with
  | nil => exact absurd rfl h.1
  | cons c cs => simp

theorem unwords_props : ∀ (ws : List (List Char)), ws ≠ [] → (∀ w, w ∈ ws → plain_word w) →
    (∃ c cs, unwords ws = c :: cs ∧ isspace c = false) ∧
    (∃ l, (unwords ws).getLast? = some l ∧ isspace l = false) ∧
    (∀ x, x ∈ unwords ws → x = ' ' ∨ ∃ w, w ∈ ws ∧ x ∈ w) ∧
    runs [' ', '\t'] (unwords ws) = ws := by
  intro ws
  induction ws with
  | nil => intro h; exact absurd rfl h
  | cons w ws ih =>
    intro _ hall
    have hw : plain_word w := hall w (List.mem_cons_self _ _)
    cases ws with
    | nil =>
      show (∃ c cs, w = c :: cs ∧ isspace c = false) ∧ (∃ l, w.getLast? = some l ∧ _) ∧
        (∀ x, x ∈ w → _) ∧ runs [' ', '\t'] w = [w]
      refine ⟨?_, ?_, ?_, runs_plain_word w hw⟩
      · cases hwc : w with
        | nil => exact absurd hwc hw.1
        | cons c cs =>
          exact ⟨c, cs, rfl, (hw.2 c (by rw [hwc]; exact List.mem_cons_self _ _)).1⟩
      · rcases List.eq_nil_or_concat w with h1 | ⟨w1, l, h1⟩
        · exact absurd h1 hw.1
        · rw [List.concat_eq_append] at h1
          refine ⟨l, by rw [h1]; simp, (hw.2 l (by rw [h1]; simp)).1⟩
      · intro x hx
        exact Or.inr ⟨w, List.mem_cons_self _ _, hx⟩
    | cons w2 ws2 =>
      obtain ⟨_, ⟨l, hl1, hl2⟩, h3, h4⟩ := ih (by simp)
        (fun x hx => hall x (List.mem_cons_of_mem _ hx))
      show (∃ c cs, w ++ ' ' :: unwords (w2 :: ws2) = c :: cs ∧ isspace c = false) ∧
        (∃ l, (w ++ ' ' :: unwords (w2 :: ws2)).getLast? = some l ∧ _) ∧
        (∀ x, x ∈ w ++ ' ' :: unwords (w2 :: ws2) → _) ∧
        runs [' ', '\t'] (w ++ ' ' :: unwords (w2 :: ws2)) = w :: w2 :: ws2
      refine ⟨?_, ?_, ?_, ?_⟩
      · cases hwc : w with
        | nil => exact absurd hwc hw.1
        | cons c cs =>
          exact ⟨c, _, rfl, (hw.2 c (by rw [hwc]; exact List.mem_cons_self _ _)).1⟩
      · refine ⟨l, ?_, hl2⟩
        rw [List.getLast?_append, List.getLast?_cons, hl1]
        simp
      · intro x hx
        rcases List.mem_append.1 hx with h | h
        · exact Or.inr ⟨w, List.mem_cons_self _ _, h⟩
        · rcases List.mem_cons.1 h with h | h
          · exact Or.inl h
          · rcases h3 x h with h | ⟨w3, hw3, hx3⟩
            · exact Or.inl h
            · exact Or.inr ⟨w3, List.mem_cons_of_mem _ hw3, hx3⟩
      · rw [runs_word_space w _ hw, h4]

/-- What the stage lemmas need to know about the words of a stage. -/
theorem unwords_ok (ws : List (List Char)) (h0 : ws ≠ []) (hall : ∀ w, w ∈ ws → plain_word w) :
    (∃ c cs, unwords ws = c :: cs ∧ isspace c = false) ∧
    (∀ c0 core0, unwords ws = core0 ++ [c0] → isspace c0 = false) ∧
    NUL ∉ unwords ws ∧ '<' ∉ unwords ws ∧ '>' ∉ unwords ws ∧ '|' ∉ unwords ws ∧
    runs [' ', '\t'] (unwords ws) = ws := by
  obtain ⟨h1, ⟨l, hl1, hl2⟩, h3, h4⟩ := unwords_props ws h0 hall
  refine ⟨h1, ?_, ?_, ?_, ?_, ?_, h4⟩
  · intro c0 core0 h
    rw [h, List.getLast?_concat] at hl1
    simp only [Option.some.injEq] at hl1
    rw [hl1]
    exact hl2
  · intro hm
    rcases h3 _ hm with h | ⟨w, hw, hx⟩
    · revert h; decide
    · exact (hall w hw).2 _ hx |>.2.1 rfl
  · intro hm
    rcases h3 _ hm with h | ⟨w, hw, hx⟩
    · revert h; decide
    · exact (hall w hw).2 _ hx |>.2.2.1 rfl
  · intro hm
    rcases h3 _ hm with h | ⟨w, hw, hx⟩
    · revert h; decide
    · exact (hall w hw).2 _ hx |>.2.2.2.1 rfl
  · intro hm
    rcases h3 _ hm with h | ⟨w, hw, hx⟩
    · revert h; decide
    · exact (hall w hw).2 _ hx |>.2.2.2.2 rfl
theorem stage_redirs_input (text pre post : List Char) (hn : NUL ∉ text)
    (ht : trim text = pre ++ '<' :: post) (hpre : '<' ∉ pre) :
    (stage_redirs text).1 = some (first_word post) := by
  obtain ⟨z, hs, hz⟩ := trimmed_buffer text hn
  have hnt : NUL ∉ trim text := fun hm => hn (mem_trim text NUL hm)
  have hnpre : NUL ∉ pre := fun hm => hnt (by rw [ht]; simp [hm])
  have hnpost : NUL ∉ post := fun hm => hnt (by rw [ht]; simp [hm])
  have hbuf : trim text ++ z = pre ++ '<' :: (post ++ z) := by rw [ht]; simp
  have hin : strchr '<' (pre ++ '<' :: (post ++ z)) = some pre.length :=
    strchr_first '<' pre _ hpre hnpre
  obtain ⟨hA, _⟩ := redir_on_text pre [] post z '<' hnpre hnpost hz
  have e : pre.length + 1 + ([] : List Char).length = pre.length + 1 := rfl
  rw [e] at hA
  have e2 : pre ++ '<' :: ([] ++ (post ++ z)) = pre ++ '<' :: (post ++ z) := rfl
  rw [e2] at hA
  rw [hbuf] at hs
  unfold stage_redirs
  simp only [hs, hin, hA]

/-- A line without `|` whose text yields a token is one stage. -/
theorem single_stage (text : List Char) (cmds : Nat → command) (h0 : text ≠ [])
    (hn : NUL ∉ text) (hbar : '|' ∉ text) (htok : stage_tokens text ≠ []) :
    (parse_pipeline (some text) cmds).num_cmds = 1 ∧
    (stage_list (parse_pipeline (some text) cmds)).map stage_view =
      [((stage_tokens text).map some, (stage_redirs text).1, (stage_redirs text).2.1,
        (stage_redirs text).2.2.1)] := by
  have hk : kept_segments text = [text] := by
    unfold kept_segments runs
    rw [cstr_no_nul text hn, List.splitOnP_eq_single]
    · cases text with
      | nil => exact absurd rfl h0
      | cons c cs => simp [htok]
    · intro x hx hd
      simp only [List.mem_singleton, decide_eq_true_eq] at hd
      exact hbar (hd ▸ hx)
  constructor
  · rw [(parse_pipeline_spec text cmds).1, hk]
    rfl
  · rw [stage_list_eq, hk]
    simp [stage_view_parse_stage]

/-! ## The line loop of `fat_grep` -/

theorem skip_delims_r_subset (d : List Char) (s : List Char) :
    ∀ c, c ∈ skip_delims_r d s → c ∈ s := by
  induction s with
  | nil => intro c hc; simp [skip_delims_r] at hc
  | cons x xs ih =>
    intro c hc
    unfold skip_delims_r at hc
    split at hc
    · exact List.mem_cons_of_mem _ (ih c hc)
    · exact hc

theorem scan_token_r_subset (d : List Char) (s : List Char) :
    (∀ c, c ∈ (scan_token_r d s).1 → c ∈ s) ∧ (∀ c, c ∈ (scan_token_r d s).2 → c ∈ s) := by
  induction s with
  | nil => simp [scan_token_r]
  | cons x xs ih =>
    unfold scan_token_r
    split
    · exact ⟨fun c hc => by simp at hc, fun c hc => List.mem_cons_of_mem _ hc⟩
    · constructor
      · intro c hc
        rcases List.mem_cons.1 hc with h | h
        · exact h ▸ List.mem_cons_self _ _
        · exact List.mem_cons_of_mem _ (ih.1 c h)
      · intro c hc
        exact List.mem_cons_of_mem _ (ih.2 c hc)

theorem strtok_r_subset (d : List Char) (s tok rest : List Char)
    (h : strtok_r d s = some (tok, rest)) :
    (∀ c, c ∈ tok → c ∈ s) ∧ (∀ c, c ∈ rest → c ∈ s) := by
  unfold strtok_r at h
  split at h
  · simp at h
  · rename_i x xs heq
    simp only [Option.some.injEq] at h
    have hsub := scan_token_r_subset d (x :: xs)
    rw [h] at hsub
    have hskip : ∀ c, c ∈ x :: xs → c ∈ s := by
      intro c hc
      rw [← heq] at hc
      exact skip_delims_r_subset d s c hc
    exact ⟨fun c hc => hskip c (hsub.1 c hc), fun c hc => hskip c (hsub.2 c hc)⟩

theorem grep_loop_eq (pattern : List Char) : ∀ (fuel : Nat) (rest out : List Char),
    NUL ∉ rest → rest.length < fuel →
      grep_loop pattern fuel rest out = out ++ grep_lines pattern rest := by
  intro fuel
  induction fuel with
  | zero => intro rest out _ h; omega
  | succ n ih =>
    intro rest out hn hlen
    unfold grep_loop
    cases hst : strtok_r ['\n'] rest with
    | none =>
      unfold grep_lines
      rw [runs_strtok_none _ rest hst]
      simp
    | some pr =>
      obtain ⟨line, rest1⟩ := pr
      obtain ⟨hseg, hlt, _, _⟩ := runs_strtok_some _ rest line rest1 hst
      obtain ⟨hs1, hs2⟩ := strtok_r_subset _ rest line rest1 hst
      have hnl : NUL ∉ line := fun hm => hn (hs1 _ hm)
      have hnr : NUL ∉ rest1 := fun hm => hn (hs2 _ hm)
      have hiff := strstr_ne_none_iff pattern line
      rw [cstr_no_nul line hnl] at hiff
      simp only
      unfold grep_lines
      rw [hseg, List.filter_cons]
      by_cases hp : pattern <:+: line
      · rw [if_pos (hiff.2 hp), if_pos (by simpa using hp),
          ih rest1 _ hnr (by omega)]
        unfold grep_lines
        simp
      · have hnone : ¬ (strstr pattern line ≠ none) := fun h => hp (hiff.1 h)
        rw [if_neg hnone, if_neg (by simpa using hp), ih rest1 _ hnr (by omega)]
        rfl

theorem splitOn_eq_splitOnP_mem (sep : Char) (s : List Char) :
    s.splitOn sep = s.splitOnP (fun c => decide (c ∈ [sep])) := by
  unfold List.splitOn
  congr 1
  funext c
  by_cases h : c = sep <;> simp [h]

/-- For a non-empty pattern the empty segments make no difference. -/
theorem grep_lines_eq_reference (pattern content : List Char) (hp : pattern ≠ []) :
    grep_lines pattern content = grep_reference pattern content := by
  unfold grep_lines grep_reference runs
  rw [splitOn_eq_splitOnP_mem, List.filter_filter]
  congr 2
  apply List.filter_congr
  intro l _
  by_cases hl : l = []
  · subst hl
    have : ¬ pattern <:+: [] := fun h => hp (List.eq_nil_of_infix_nil h)
    simp [this]
  · cases l with
    | nil => exact absurd rfl hl
    | cons a as => simp

/-! ## Buffers that only receive NUL bytes -/

theorem poked_refl : ∀ (s : List Char), poked s s
  | [] => List.Forall₂.nil
  | _ :: s => List.Forall₂.cons (Or.inl rfl) (poked_refl s)

theorem poked_trans : ∀ (a b c : List Char), poked a b → poked b c → poked a c := by
  intro a
  induction a with
  | nil =>
    intro b c hab hbc
    cases hab
    cases hbc
    exact List.Forall₂.nil
  | cons x xs ih =>
    intro b c hab hbc
    cases hab with
    | cons h1 t1 =>
      cases hbc with
      | cons h2 t2 =>
        refine List.Forall₂.cons ?_ (ih _ _ t1 t2)
        rcases h1 with h1 | h1
        · rw [h1]; exact h2
        · exact Or.inr h1

theorem poked_set : ∀ (s : List Char) (i : Nat), poked (s.set i NUL) s
  | [], _ => List.Forall₂.nil
  | _ :: s, 0 => List.Forall₂.cons (Or.inr rfl) (poked_refl s)
  | _ :: s, i + 1 => List.Forall₂.cons (Or.inl rfl) (poked_set s i)

theorem poked_set_set : ∀ (b s : List Char) (i : Nat), poked b s →
    poked (b.set i NUL) (s.set i NUL) := by
  intro b
  induction b with
  | nil =>
    intro s i h
    cases h
    exact List.Forall₂.nil
  | cons x xs ih =>
    intro s i h
    cases h with
    | cons h1 t1 =>
      cases i with
      | zero => exact List.Forall₂.cons (Or.inl rfl) t1
      | succ i => exact List.Forall₂.cons h1 (ih _ i t1)

theorem poked_rtrim_loop : ∀ (n : Nat) (s : List Char), poked (rtrim_loop n s) s := by
  intro n
  induction n with
  | zero => intro s; exact poked_refl s
  | succ n ih =>
    intro s
    unfold rtrim_loop
    split
    · exact poked_trans _ _ _ (ih _) (poked_set s n)
    · exact poked_refl s

theorem poked_rtrim_inplace (s : List Char) : poked (rtrim_inplace s) s :=
  poked_rtrim_loop _ s

theorem poked_redir_arg (s : List Char) (start : Nat) : poked (redir_arg s start).2 s :=
  poked_set s _

theorem poked_cstr_initial : ∀ (b s : List Char), poked b s → cstr b <+: cstr s := by
  intro b
  induction b with
  | nil =>
    intro s h
    cases h
    exact List.prefix_refl _
  | cons x xs ih =>
    intro s h
    cases h with
    | @cons _ y _ ys h1 t1 =>
      unfold cstr
      by_cases hx : x = NUL
      · rw [if_pos hx]
        exact List.nil_prefix
      · have hxy : x = y := by
          rcases h1 with h1 | h1
          · exact h1
          · exact absurd h1 hx
        rw [if_neg hx, if_neg (hxy ▸ hx), hxy]
        exact (List.prefix_cons_inj y).2 (ih ys t1)

theorem cstr_initial : ∀ (s : List Char), cstr s <+: s
  | [] => List.prefix_refl _
  | x :: xs => by
    unfold cstr
    split
    · exact List.nil_prefix
    · exact (List.prefix_cons_inj x).2 (cstr_initial xs)

theorem ltrim_suffix : ∀ (s : List Char), ltrim s <:+ s
  | [] => List.suffix_refl _
  | x :: xs => by
    unfold ltrim
    split
    · exact (ltrim_suffix xs).trans (List.suffix_cons x xs)
    · exact List.suffix_refl _

theorem strchr_some (c : Char) (hc : c ≠ NUL) : ∀ (s : List Char) (i : Nat),
    strchr c s = some i →
      ∃ pre post, s = pre ++ c :: post ∧ pre.length = i ∧ c ∉ pre ∧ NUL ∉ pre := by
  intro s
  induction s with
  | nil =>
    intro i h
    unfold strchr at h
    rw [if_neg hc] at h
    cases h
  | cons x xs ih =>
    intro i h
    unfold strchr at h
    by_cases hx : x = c
    · rw [if_pos hx] at h
      cases h
      exact ⟨[], xs, by rw [hx]; rfl, rfl, by simp, by simp⟩
    · rw [if_neg hx] at h
      by_cases hn : x = NUL
      · rw [if_pos hn] at h
        cases h
      · rw [if_neg hn] at h
        cases hr : strchr c xs with
        | none => rw [hr] at h; cases h
        | some k =>
          rw [hr] at h
          cases h
          obtain ⟨pre, post, e, hl, h1, h2⟩ := ih k hr
          refine ⟨x :: pre, post, by rw [e]; rfl, by simp [hl], ?_, ?_⟩
          · intro hm
            rcases List.mem_cons.1 hm with hm | hm
            · exact hx hm.symm
            · exact h1 hm
          · intro hm
            rcases List.mem_cons.1 hm with hm | hm
            · exact hn hm.symm
            · exact h2 hm

theorem strchr_none_cstr (c : Char) : ∀ (s : List Char), strchr c s = none → c ∉ cstr s := by
  intro s
  induction s with
  | nil => intro _; simp [cstr]
  | cons x xs ih =>
    intro h
    unfold strchr at h
    unfold cstr
    by_cases hx : x = c
    · rw [if_pos hx] at h
      cases h
    · rw [if_neg hx] at h
      by_cases hn : x = NUL
      · rw [if_pos hn]
        simp
      · rw [if_neg hn] at h
        rw [if_neg hn]
        cases hr : strchr c xs with
        | none =>
          intro hm
          rcases List.mem_cons.1 hm with hm | hm
          · exact hx hm.symm
          · exact ih hr hm
        | some k => rw [hr] at h; cases h

/-- The C string of a buffer cut at the first occurrence of `c` holds no `c`. -/
theorem cstr_cut_at (c : Char) (hc : c ≠ NUL) (s : List Char) (i : Nat)
    (h : strchr c s = some i) : c ∉ cstr (s.set i NUL) := by
  obtain ⟨pre, post, e, hl, h1, h2⟩ := strchr_some c hc s i h
  rw [e, ← hl, set_at_length, cstr_append _ _ h2, cstr_nul_cons, List.append_nil]
  exact h1

/-- What `stage_redirs` leaves in the buffer: the trimmed text with NUL bytes
written over it, one of them at the first `<` and, when there is no `>>`, one at
the first `>`. -/
theorem stage_buffer_poked (cmd_str : List Char) :
    poked (stage_redirs cmd_str).2.2.2 (rtrim_inplace (ltrim cmd_str)) ∧
    (∀ i, strchr '<' (rtrim_inplace (ltrim cmd_str)) = some i →
      poked (stage_redirs cmd_str).2.2.2 ((rtrim_inplace (ltrim cmd_str)).set i NUL)) ∧
    (strstr ['>', '>'] (rtrim_inplace (ltrim cmd_str)) = none →
      ∀ j, strchr '>' (rtrim_inplace (ltrim cmd_str)) = some j →
        poked (stage_redirs cmd_str).2.2.2 ((rtrim_inplace (ltrim cmd_str)).set j NUL)) := by
  obtain ⟨s, hs⟩ : ∃ s, s = rtrim_inplace (ltrim cmd_str) := ⟨_, rfl⟩
  rw [← hs]
  -- the buffer after the input step
  obtain ⟨A, hA⟩ : ∃ A, A = (match strchr '<' s with
      | some i => rtrim_inplace (redir_arg (s.set i NUL) (i + 1)).2
      | none => s) := ⟨_, rfl⟩
  have hAs : poked A s := by
    rw [hA]
    split
    · exact poked_trans _ _ _ (poked_rtrim_inplace _)
        (poked_trans _ _ _ (poked_redir_arg _ _) (poked_set s _))
    · exact poked_refl s
  have hAi : ∀ i, strchr '<' s = some i → poked A (s.set i NUL) := by
    intro i hi
    rw [hA, hi]
    exact poked_trans _ _ _ (poked_rtrim_inplace _) (poked_redir_arg _ _)
  -- the buffer after the output step
  have hB : (stage_redirs cmd_str).2.2.2 = (match strstr ['>', '>'] s with
      | some i => rtrim_inplace (redir_arg (A.set i NUL) (i + 2)).2
      | none =>
        match strchr '>' s with
        | some i => rtrim_inplace (redir_arg (A.set i NUL) (i + 1)).2
        | none => A) := by
    rw [hA, hs]
    unfold stage_redirs
    simp only
    cases strchr '<' (rtrim_inplace (ltrim cmd_str)) <;>
      cases strstr ['>', '>'] (rtrim_inplace (ltrim cmd_str)) <;>
      cases strchr '>' (rtrim_inplace (ltrim cmd_str)) <;> rfl
  have hBA : poked (stage_redirs cmd_str).2.2.2 A := by
    rw [hB]
    split
    · exact poked_trans _ _ _ (poked_rtrim_inplace _)
        (poked_trans _ _ _ (poked_redir_arg _ _) (poked_set A _))
    · split
      · exact poked_trans _ _ _ (poked_rtrim_inplace _)
          (poked_trans _ _ _ (poked_redir_arg _ _) (poked_set A _))
      · exact poked_refl A
  refine ⟨poked_trans _ _ _ hBA hAs, fun i hi => poked_trans _ _ _ hBA (hAi i hi), ?_⟩
  intro hnone j hj
  rw [hB, hnone, hj]
  exact poked_trans _ _ _ (poked_rtrim_inplace _)
    (poked_trans _ _ _ (poked_redir_arg _ _) (poked_set_set A s j hAs))

theorem runs_chars (d : List Char) : ∀ (n : Nat) (str : List Char), str.length < n →
    ∀ tok, tok ∈ runs d str → ∀ c, c ∈ tok → c ∈ str := by
  intro n
  induction n with
  | zero => intro str h; omega
  | succ n ih =>
    intro str hlen tok htok c hc
    cases hst : strtok_r d str with
    | none =>
      rw [runs_strtok_none d str hst] at htok
      cases htok
    | some pr =>
      obtain ⟨t1, rest⟩ := pr
      obtain ⟨hseg, hlt, _, _⟩ := runs_strtok_some d str t1 rest hst
      obtain ⟨hs1, hs2⟩ := strtok_r_subset d str t1 rest hst
      rw [hseg] at htok
      rcases List.mem_cons.1 htok with h | h
      · exact hs1 c (h ▸ hc)
      · exact hs2 c (ih rest (by omega) tok h c hc)

/-- The bytes of the argument strings of a stage: bytes of the stage text, never
`<`, and never `>` when the text holds no `>>`. -/
theorem stage_tokens_chars (text : List Char) :
    ∀ t, t ∈ stage_tokens text → ∀ c, c ∈ t →
      c ∈ text ∧ c ≠ '<' ∧ (¬ ['>', '>'] <:+: text → c ≠ '>') := by
  intro t ht c hc
  obtain ⟨h1, h2, h3⟩ := stage_buffer_poked text
  have hB : c ∈ cstr (stage_redirs text).2.2.2 := by
    unfold stage_tokens at ht
    exact runs_chars _ _ _ (Nat.lt_succ_self _) t (List.mem_of_mem_take ht) c hc
  have hs : cstr (rtrim_inplace (ltrim text)) <:+: text :=
    (((poked_cstr_initial _ _ (poked_rtrim_inplace (ltrim text))).trans
      (cstr_initial _)).isInfix).trans (ltrim_suffix text).isInfix
  have hcs : c ∈ cstr (rtrim_inplace (ltrim text)) := (poked_cstr_initial _ _ h1).subset hB
  refine ⟨hs.subset hcs, ?_, ?_⟩
  · intro hlt
    subst hlt
    cases hi : strchr '<' (rtrim_inplace (ltrim text)) with
    | none => exact strchr_none_cstr _ _ hi hcs
    | some i =>
      exact cstr_cut_at '<' (by decide) _ i hi ((poked_cstr_initial _ _ (h2 i hi)).subset hB)
  · intro hno hgt
    subst hgt
    have hnone : strstr ['>', '>'] (rtrim_inplace (ltrim text)) = none := by
      by_contra hne
      exact hno (((strstr_ne_none_iff _ _).1 hne).trans hs)
    cases hj : strchr '>' (rtrim_inplace (ltrim text)) with
    | none => exact strchr_none_cstr _ _ hj hcs
    | some j =>
      exact cstr_cut_at '>' (by decide) _ j hj
        ((poked_cstr_initial _ _ (h3 hnone j hj)).subset hB)

theorem skip_delims_r_suffix (d : List Char) : ∀ (s : List Char), skip_delims_r d s <:+ s
  | [] => List.suffix_refl _
  | x :: xs => by
    unfold skip_delims_r
    split
    · exact (skip_delims_r_suffix d xs).trans (List.suffix_cons x xs)
    · exact List.suffix_refl _

theorem scan_token_r_parts (d : List Char) : ∀ (s : List Char),
    (scan_token_r d s).1 <+: s ∧ (scan_token_r d s).2 <:+ s
  | [] => ⟨List.prefix_refl _, List.suffix_refl _⟩
  | x :: xs => by
    unfold scan_token_r
    split
    · exact ⟨List.nil_prefix, List.suffix_cons x xs⟩
    · exact ⟨(List.prefix_cons_inj x).2 (scan_token_r_parts d xs).1,
        (scan_token_r_parts d xs).2.trans (List.suffix_cons x xs)⟩

theorem strtok_r_within (d : List Char) (s tok rest : List Char)
    (h : strtok_r d s = some (tok, rest)) : tok <:+: s ∧ rest <:+ s := by
  unfold strtok_r at h
  split at h
  · simp at h
  · rename_i x xs heq
    simp only [Option.some.injEq] at h
    have hp := scan_token_r_parts d (x :: xs)
    rw [h] at hp
    have hsuf : x :: xs <:+ s := heq ▸ skip_delims_r_suffix d s
    exact ⟨hp.1.isInfix.trans hsuf.isInfix, hp.2.trans hsuf⟩

theorem runs_within (d : List Char) : ∀ (n : Nat) (str : List Char), str.length < n →
    ∀ tok, tok ∈ runs d str → tok <:+: str := by
  intro n
  induction n with
  | zero => intro str h; omega
  | succ n ih =>
    intro str hlen tok htok
    cases hst : strtok_r d str with
    | none =>
      rw [runs_strtok_none d str hst] at htok
      cases htok
    | some pr =>
      obtain ⟨t1, rest⟩ := pr
      obtain ⟨hseg, hlt, _, _⟩ := runs_strtok_some d str t1 rest hst
      obtain ⟨hi1, hi2⟩ := strtok_r_within d str t1 rest hst
      rw [hseg] at htok
      rcases List.mem_cons.1 htok with h | h
      · exact h ▸ hi1
      · exact (ih rest (by omega) tok h).trans hi2.isInfix

theorem kept_segments_chars (line seg : List Char) (h : seg ∈ kept_segments line) :
    (∀ c, c ∈ seg → c ≠ '|') ∧ seg <:+: line := by
  unfold kept_segments at h
  have hr : seg ∈ runs ['|'] (cstr line) := (List.mem_filter.1 (List.mem_of_mem_take h)).1
  constructor
  · intro c hc hbar
    have := (mem_runs ['|'] _ _ (Nat.lt_succ_self _) seg hr).2 c hc
    rw [hbar] at this
    simp at this
  · exact (runs_within ['|'] _ _ (Nat.lt_succ_self _) seg hr).trans (cstr_initial line).isInfix

/-! ## Size and first block of an entry along the operations -/

/-- What `fat_write_file` does to `size` and `first_block` of its entry, when the
rounding-up sum does not wrap: both are kept, or both are reset, or both are
set to proper values. -/
theorem fat_write_file_entry (fuel : Nat) (s : fat_fs) (e : Nat) (data : List Char)
    (size now : Nat) (r : result) (hw : fat_write_file fuel s e data size now = some r)
    (hsize : size + BLOCK_SIZE - 1 < 2 ^ 64) :
    ((r.fs.dir_entries e).first_block = (s.dir_entries e).first_block ∧
      (r.fs.dir_entries e).size = (s.dir_entries e).size) ∨
    ((r.fs.dir_entries e).first_block = FAT_EOC ∧ (r.fs.dir_entries e).size = 0) ∨
    ((r.fs.dir_entries e).first_block ≠ FAT_EOC ∧ (r.fs.dir_entries e).size ≠ 0) := by
  by_cases hg : e ≥ s.num_entries ∨ (s.dir_entries e).is_used = false
  · unfold fat_write_file at hw
    rw [if_pos hg] at hw
    simp only [Option.some.injEq] at hw
    subst hw
    exact Or.inl ⟨rfl, rfl⟩
  · by_cases hd : (s.dir_entries e).is_dir = true
    · unfold fat_write_file at hw
      rw [if_neg hg, if_pos hd] at hw
      simp only [Option.some.injEq] at hw
      subst hw
      exact Or.inl ⟨rfl, rfl⟩
    · have he : e < s.num_entries := by
        by_contra hc
        exact hg (Or.inl (Nat.le_of_not_lt hc))
      have hu : (s.dir_entries e).is_used = true := by
        cases h : (s.dir_entries e).is_used
        · exact absurd (Or.inr h) hg
        · rfl
      have hd2 : (s.dir_entries e).is_dir = false := by
        cases h : (s.dir_entries e).is_dir
        · rfl
        · exact absurd h hd
      cases hrel : release_chain fuel s e with
      | none =>
        unfold fat_write_file at hw
        rw [if_neg hg, if_neg hd, hrel] at hw
        simp at hw
      | some s1 =>
        obtain ⟨hde, hne, hce⟩ := release_chain_fields fuel s s1 e hrel
        by_cases hsz : size = 0
        · subst hsz
          rw [fat_write_file_zero fuel s s1 e data now he hu hd2 hrel] at hw
          simp only [Option.some.injEq] at hw
          subst hw
          refine Or.inr (Or.inl ⟨?_, ?_⟩) <;> simp only [set_entry, store_same]
        · rw [fat_write_file_released fuel s s1 e data size now he hu hd2 hrel hsz] at hw
          rw [blocks_needed_eq size hsize] at hw
          split at hw
          · rename_i hk
            simp only [Option.some.injEq] at hw
            subst hw
            have hlen := free_list_length_le s1.fat_table
            have hprops := take_free_list_props s1.fat_table ((size + 511) / 512)
            have hfirst := write_steps_first data size
              ((free_list s1.fat_table).take ((size + 511) / 512)) 0 s1 FAT_EOC FAT_EOC
              hprops.2.2
            rw [if_pos rfl] at hfirst
            unfold MAX_BLOCKS at hlen
            have hpos : 0 < (size + 511) / 512 := by omega
            refine Or.inr (Or.inr ⟨?_, ?_⟩)
            · simp only [set_entry, store_same]
              rw [hfirst]
              cases hT : (free_list s1.fat_table).take ((size + 511) / 512) with
              | nil =>
                have := congrArg List.length hT
                rw [List.length_take] at this
                simp only [List.length_nil] at this
                omega
              | cons x xs =>
                have hx := hprops.2.2 x (by rw [hT]; exact List.mem_cons_self _ _)
                simp only [List.headD_cons]
                unfold MAX_BLOCKS at hx
                unfold FAT_EOC
                omega
            · simp only [set_entry, store_same]
              omega
          · obtain ⟨hwd, hwn, hwc⟩ := write_steps_fields data size
              (free_list s1.fat_table) 0 s1 FAT_EOC FAT_EOC
            unfold rollback at hw
            split at hw
            · cases hfc : fat_free_chain fuel
                  (write_steps data size (free_list s1.fat_table) 0 s1 FAT_EOC FAT_EOC).2
                  (write_steps data size (free_list s1.fat_table) 0 s1 FAT_EOC FAT_EOC).1 with
              | none => rw [hfc] at hw; simp at hw
              | some s2 =>
                rw [hfc] at hw
                simp only [Option.map_some', Option.some.injEq] at hw
                obtain ⟨h1, h2, h3⟩ := free_loop_fields _ _ _ _ hfc
                subst hw
                refine Or.inl ⟨?_, ?_⟩ <;> simp only [h1, hwd, hde]
            · simp only [Option.map_some', Option.some.injEq] at hw
              subst hw
              refine Or.inl ⟨?_, ?_⟩ <;> simp only [hwd, hde]

theorem entry_ok_new (name : List Char) (parent : Nat) (dir : Bool) (now : Nat) :
    entry_ok (new_entry name parent dir now) := by
  unfold entry_ok new_entry
  simp

theorem size_block_ok_set (s : fat_fs) (idx : Nat) (d : dir_entry) (hs : size_block_ok s)
    (hd : entry_ok d) : size_block_ok (set_entry s idx d) := by
  intro i
  unfold set_entry store
  by_cases hi : i = idx
  · simp only [hi, if_true]; exact hd
  · simp only [hi, if_false]; exact hs i

theorem size_block_ok_congr (s s2 : fat_fs) (h : s2.dir_entries = s.dir_entries)
    (hs : size_block_ok s) : size_block_ok s2 := by
  intro i
  rw [h]
  exact hs i

theorem step_size_block_ok (s s2 : fat_fs) (o : op) (h : step s o = some s2)
    (hfit : op_size_fits o) (hs : size_block_ok s) : size_block_ok s2 := by
  cases o with
  | mkdir now path =>
    simp only [step, Option.some.injEq] at h
    subst h
    rcases fat_mkdir_cases s now path with h | ⟨parent, name, _, h⟩
    · rw [h]; exact hs
    · rw [h]
      exact size_block_ok_congr (set_entry s s.num_entries (new_entry name parent true now)) _ rfl
        (size_block_ok_set s _ _ hs (entry_ok_new _ _ _ _))
  | touch now path =>
    simp only [step, Option.some.injEq] at h
    subst h
    rcases fat_touch_cases s now path with h | ⟨ex, h⟩ | ⟨parent, name, _, h⟩
    · rw [h]; exact hs
    · rw [h]
      exact size_block_ok_set s _ _ hs (hs ex)
    · rw [h]
      exact size_block_ok_congr (set_entry s s.num_entries (new_entry name parent false now)) _
        rfl (size_block_ok_set s _ _ hs (entry_ok_new _ _ _ _))
  | write_file fuel e data size now =>
    simp only [step] at h
    cases hw : fat_write_file fuel s e data size now with
    | none => rw [hw] at h; simp at h
    | some r =>
      rw [hw] at h
      simp only [Option.map_some', Option.some.injEq] at h
      subst h
      obtain ⟨_, _, hoth, _, _, hdir, husd, _⟩ := fat_write_file_fields fuel s e data size now r hw
      have hent := fat_write_file_entry fuel s e data size now r hw hfit
      intro i
      by_cases hi : i = e
      · subst hi
        obtain ⟨ha, hb⟩ := hs i
        unfold entry_ok
        rw [hdir, husd]
        rcases hent with ⟨h1, h2⟩ | ⟨h1, h2⟩ | ⟨h1, h2⟩
        · rw [h1, h2]; exact ⟨ha, hb⟩
        · rw [h1, h2]; simp
        · refine ⟨fun _ _ => ⟨fun hc => absurd hc h1, fun hc => absurd hc h2⟩, ?_⟩
          intro hdd
          -- a directory is never written: the entry is unchanged
          exfalso
          unfold fat_write_file at hw
          by_cases hg : i ≥ s.num_entries ∨ (s.dir_entries i).is_used = false
          · rw [if_pos hg] at hw
            simp only [Option.some.injEq] at hw
            subst hw
            obtain ⟨hb1, hb2⟩ := hb hdd
            exact h1 hb1
          · rw [if_neg hg, if_pos hdd] at hw
            simp only [Option.some.injEq] at hw
            subst hw
            obtain ⟨hb1, hb2⟩ := hb hdd
            exact h1 hb1
      · rw [hoth i hi]
        exact hs i
  | rm fuel path =>
    simp only [step] at h
    cases hw : fat_rm fuel s path with
    | none => rw [hw] at h; simp at h
    | some r =>
      rw [hw] at h
      simp only [Option.map_some', Option.some.injEq] at h
      subst h
      rcases fat_rm_cases fuel s path r hw with h | ⟨e, s1, hdir, hrel, h⟩
      · rw [h]; exact hs
      · rw [h]
        obtain ⟨hde, _, _⟩ := release_chain_fields fuel s s1 e hrel
        refine size_block_ok_set s1 _ _ (size_block_ok_congr s s1 hde hs) ?_
        unfold entry_ok
        rw [hde]
        simp [hdir]
  | rmdir path =>
    simp only [step, Option.some.injEq] at h
    subst h
    rcases fat_rmdir_cases s path with h | ⟨e, _, h⟩
    · rw [h]; exact hs
    · rw [h]
      refine size_block_ok_set s _ _ hs ?_
      obtain ⟨_, hb⟩ := hs e
      unfold entry_ok
      simp only [Bool.false_eq_true, false_implies, true_and]
      exact hb
  | mv now source dest =>
    simp only [step, Option.some.injEq] at h
    subst h
    rcases fat_mv_cases s now source dest with h | ⟨src, parent, name, _, h⟩
    · rw [h]; exact hs
    · rw [h]
      unfold mv_apply
      exact size_block_ok_set s _ _ hs (hs src)
  | cd path =>
    simp only [step, Option.some.injEq] at h
    subst h
    rcases fat_cd_cases s path with h | ⟨d, _, h⟩
    · rw [h]; exact hs
    · rw [h]
      exact size_block_ok_congr s _ rfl hs

theorem run_size_block_ok : ∀ (ops : List op) (s s2 : fat_fs), run s ops = some s2 →
    (∀ o, o ∈ ops → op_size_fits o) → size_block_ok s → size_block_ok s2 := by
  intro ops
  induction ops with
  | nil =>
    intro s s2 h _ hs
    simp only [run, Option.some.injEq] at h
    subst h
    exact hs
  | cons o os ih =>
    intro s s2 h hfit hs
    unfold run at h
    cases hst : step s o with
    | none => rw [hst] at h; simp at h
    | some s1 =>
      rw [hst] at h
      exact ih s1 s2 h (fun o2 ho2 => hfit o2 (List.mem_cons_of_mem _ ho2))
        (step_size_block_ok s s1 o hst (hfit o (List.mem_cons_self _ _)) hs)

theorem size_block_ok_init (now : Nat) : size_block_ok (fat_init now) := by
  intro i
  unfold fat_init store entry_ok
  by_cases h1 : i = 1
  · subst h1
    simp [readme_content, FAT_EOC]
  · by_cases h0 : i = 0
    · subst h0
      simp
    · simp [h1, h0, zero_entry]

/-! ## Frame of `fat_write_file`: the chains of the other files -/

theorem read_loop_frame (s s2 : fat_fs) (size : Nat) : ∀ (fuel : Nat) (l : List Nat)
    (b off : Nat) (buf : Nat → Char), is_chain s.fat_table l b →
    (∀ x, x ∈ l → s2.fat_table x = s.fat_table x ∧ s2.blocks x = s.blocks x) →
    read_loop s2 size fuel b off buf = read_loop s size fuel b off buf := by
  intro fuel
  induction fuel with
  | zero => intro l b off buf _ _; rfl
  | succ n ih =>
    intro l b off buf hch hfr
    unfold read_loop
    by_cases hc : b ≠ FAT_EOC ∧ off < size
    · rw [if_pos hc, if_pos hc]
      cases l with
      | nil => exact absurd hch hc.1
      | cons x l2 =>
        obtain ⟨hb, _, _, hrest⟩ := hch
        subst hb
        obtain ⟨hf, hbl⟩ := hfr b (List.mem_cons_self _ _)
        rw [hf, hbl]
        exact ih l2 _ _ _ hrest (fun y hy => hfr y (List.mem_cons_of_mem _ hy))
    · rw [if_neg hc, if_neg hc]

theorem fat_read_file_frame (s s2 : fat_fs) (junk : Nat → Char) (e : Nat) (l : List Nat)
    (hn : s2.num_entries = s.num_entries) (he : s2.dir_entries e = s.dir_entries e)
    (hch : e < s.num_entries → (s.dir_entries e).is_used = true →
      (s.dir_entries e).is_dir = false →
      is_chain s.fat_table l (s.dir_entries e).first_block ∧
        ∀ x, x ∈ l → s2.fat_table x = s.fat_table x ∧ s2.blocks x = s.blocks x) :
    fat_read_file s2 junk e = fat_read_file s junk e := by
  unfold fat_read_file
  rw [hn, he]
  by_cases hg : e ≥ s.num_entries ∨ (s.dir_entries e).is_used = false
  · rw [if_pos hg, if_pos hg]
  · rw [if_neg hg, if_neg hg]
    by_cases hd : (s.dir_entries e).is_dir = true
    · rw [if_pos hd, if_pos hd]
    · rw [if_neg hd, if_neg hd]
      by_cases hz : (s.dir_entries e).size = 0
      · rw [if_pos hz, if_pos hz]
      · rw [if_neg hz, if_neg hz]
        have he2 : e < s.num_entries := by
          by_contra hc
          exact hg (Or.inl (Nat.le_of_not_lt hc))
        have hu : (s.dir_entries e).is_used = true := by
          cases h : (s.dir_entries e).is_used
          · exact absurd (Or.inr h) hg
          · rfl
        have hd2 : (s.dir_entries e).is_dir = false := by
          cases h : (s.dir_entries e).is_dir
          · rfl
          · exact absurd h hd
        obtain ⟨h1, h2⟩ := hch he2 hu hd2
        simp only
        rw [read_loop_frame s s2 _ _ l _ _ _ h1 h2]

/-- A call of `fat_write_file` on an in-use file whose old chain `l` is well formed
returns, and it changes neither the FAT cell nor the data of any block outside
`l` that was not FREE. -/
theorem fat_write_file_frame (fuel : Nat) (s : fat_fs) (e : Nat) (data : List Char)
    (size now : Nat) (l : List Nat) (he : e < s.num_entries)
    (hu : (s.dir_entries e).is_used = true) (hd : (s.dir_entries e).is_dir = false)
    (hch : is_chain s.fat_table l (s.dir_entries e).first_block)
    (hfuel : MAX_BLOCKS < fuel) :
    ∃ r, fat_write_file fuel s e data size now = some r ∧ (r.ret = 0 ∨ r.ret = -1) ∧
      ∀ x, x ∉ l → s.fat_table x ≠ FAT_FREE →
        r.fs.fat_table x = s.fat_table x ∧ r.fs.blocks x = s.blocks x := by
  have hlfuel : l.length < fuel := Nat.lt_of_le_of_lt (is_chain_length_le _ _ _ hch) hfuel
  have hrel := release_chain_eq fuel s e l hch hlfuel
  have h1 : ∀ x, x ∉ l → (clear_chain s l).fat_table x = s.fat_table x ∧
      (clear_chain s l).blocks x = s.blocks x := by
    intro x hx
    unfold clear_chain
    simp only [hx, if_false, and_self]
  have hnf : ∀ x, x ∉ l → s.fat_table x ≠ FAT_FREE →
      x ∉ free_list (clear_chain s l).fat_table := by
    intro x hx hne hm
    have := ((mem_free_list _ x).1 hm).2
    rw [(h1 x hx).1] at this
    exact hne this
  by_cases hsz : size = 0
  · subst hsz
    refine ⟨_, fat_write_file_zero fuel s _ e data now he hu hd hrel, Or.inl rfl, ?_⟩
    intro x hx _
    exact h1 x hx
  · rw [fat_write_file_released fuel s _ e data size now he hu hd hrel hsz]
    by_cases hk : ((size + BLOCK_SIZE - 1) % 2 ^ 64) / BLOCK_SIZE ≤
        (free_list (clear_chain s l).fat_table).length
    · rw [if_pos hk]
      refine ⟨_, rfl, Or.inl rfl, ?_⟩
      intro x hx hne
      obtain ⟨_, _, hfr⟩ := write_steps_take data size (clear_chain s l)
        (((size + BLOCK_SIZE - 1) % 2 ^ 64) / BLOCK_SIZE)
      have hx2 : x ∉ (free_list (clear_chain s l).fat_table).take
          (((size + BLOCK_SIZE - 1) % 2 ^ 64) / BLOCK_SIZE) :=
        fun hm => hnf x hx hne (List.mem_of_mem_take hm)
      obtain ⟨ha, hb⟩ := hfr x hx2
      exact ⟨ha.trans (h1 x hx).1, hb.trans (h1 x hx).2⟩
    · obtain ⟨s2, hw, hfat, _, _, _, hbl⟩ := fat_write_file_fail fuel s _ e data size now he hu hd
        hrel hfuel (Nat.lt_of_not_le hk)
      rw [← fat_write_file_released fuel s _ e data size now he hu hd hrel hsz, hw]
      refine ⟨_, rfl, Or.inr rfl, ?_⟩
      intro x hx hne
      constructor
      · show s2.fat_table x = s.fat_table x
        rw [hfat]
        exact (h1 x hx).1
      · show s2.blocks x = s.blocks x
        rw [hbl]
        show (if x ∈ free_list (clear_chain s l).fat_table then (fun _ => NUL)
          else (clear_chain s l).blocks x) = s.blocks x
        rw [if_neg (hnf x hx hne)]
        exact (h1 x hx).2

/-! ## The single `>` that is left in the arguments -/

theorem dropWhile_append_stop {α : Type} (p : α → Bool) (c : α) (hc : p c = false) :
    ∀ (a b : List α), (a ++ c :: b).dropWhile p = a.dropWhile p ++ c :: b
  | [], b => by simp [List.dropWhile, hc]
  | x :: a, b => by
    by_cases hx : p x = true
    · simp only [List.cons_append, List.dropWhile_cons, hx, if_true]
      exact dropWhile_append_stop p c hc a b
    · simp only [List.cons_append, List.dropWhile_cons, hx]
      simp

theorem rstrip_append_stop (x y : List Char) (c : Char) (hc : isspace c = false) :
    rstrip (x ++ c :: y) = x ++ c :: rstrip y := by
  unfold rstrip
  have e : (x ++ c :: y).reverse = y.reverse ++ c :: x.reverse := by simp
  rw [e, dropWhile_append_stop isspace c hc]
  simp

theorem split_first {α : Type} [DecidableEq α] (c : α) : ∀ (l : List α), c ∈ l →
    ∃ p q, l = p ++ c :: q ∧ c ∉ p
  | [], h => by cases h
  | x :: l, h => by
    by_cases hx : x = c
    · exact ⟨[], l, by rw [hx]; rfl, by simp⟩
    · have hm : c ∈ l := by
        rcases List.mem_cons.1 h with h | h
        · exact absurd h.symm hx
        · exact h
      obtain ⟨p, q, e, hp⟩ := split_first c l hm
      refine ⟨x :: p, q, by rw [e]; rfl, ?_⟩
      intro hc
      rcases List.mem_cons.1 hc with hc | hc
      · exact hx hc.symm
      · exact hp hc

/-- The buffer of a stage whose text has a first marker at the end of `a`: the
trimmed text, followed by bytes that are not part of the C string. -/
theorem trimmed_at_marker (seg a b : List Char) (c : Char) (hn : NUL ∉ seg)
    (hc : isspace c = false) (h : seg = a ++ c :: b) :
    ∃ z, rtrim_inplace (ltrim seg) = a.dropWhile isspace ++ c :: (rstrip b ++ z) ∧
      cstr z = [] := by
  obtain ⟨z, hz, hz0⟩ := trimmed_buffer seg hn
  refine ⟨z, ?_, hz0⟩
  rw [hz]
  unfold trim
  rw [h, dropWhile_append_stop isspace c hc, rstrip_append_stop _ _ c hc]
  simp

theorem stage_buffer_poked_append (cmd_str : List Char) (i : Nat)
    (hi : strstr ['>', '>'] (rtrim_inplace (ltrim cmd_str)) = some i) :
    poked (stage_redirs cmd_str).2.2.2 ((rtrim_inplace (ltrim cmd_str)).set i NUL) := by
  obtain ⟨s, hs⟩ : ∃ s, s = rtrim_inplace (ltrim cmd_str) := ⟨_, rfl⟩
  rw [← hs] at hi ⊢
  obtain ⟨A, hA⟩ : ∃ A, A = (match strchr '<' s with
      | some i => rtrim_inplace (redir_arg (s.set i NUL) (i + 1)).2
      | none => s) := ⟨_, rfl⟩
  have hAs : poked A s := by
    rw [hA]
    split
    · exact poked_trans _ _ _ (poked_rtrim_inplace _)
        (poked_trans _ _ _ (poked_redir_arg _ _) (poked_set s _))
    · exact poked_refl s
  have hB : (stage_redirs cmd_str).2.2.2 =
      rtrim_inplace (redir_arg (A.set i NUL) (i + 2)).2 := by
    rw [hA, hs]
    rw [hs] at hi
    unfold stage_redirs
    simp only [hi]
    cases strchr '<' (rtrim_inplace (ltrim cmd_str)) <;> rfl
  rw [hB]
  exact poked_trans _ _ _ (poked_rtrim_inplace _)
    (poked_trans _ _ _ (poked_redir_arg _ _) (poked_set_set A s i hAs))

/-- No argument string of a stage holds `>` when the stage text is free of NUL and
its output marker is handled. -/
theorem stage_tokens_no_out (seg : List Char) (hn : NUL ∉ seg)
    (h : out_marker_handled seg) : ∀ t, t ∈ stage_tokens seg → '>' ∉ t := by
  intro t ht hgt
  have hB : '>' ∈ cstr (stage_redirs seg).2.2.2 := by
    unfold stage_tokens at ht
    exact runs_chars _ _ _ (Nat.lt_succ_self _) t (List.mem_of_mem_take ht) _ hgt
  have hsp : isspace '>' = false := by decide
  rcases h with h | h | h
  · exact (stage_tokens_chars seg t ht _ hgt).2.2 h rfl
  · -- the first `>` begins a `>>`
    obtain ⟨b, hb⟩ := h
    have hseg : seg = seg.takeWhile (fun c => c != '>') ++ '>' :: '>' :: b := by
      have := (List.takeWhile_append_dropWhile (fun c => c != '>') seg).symm
      rw [← hb] at this
      simpa using this
    have ha : '>' ∉ seg.takeWhile (fun c => c != '>') := by
      intro hm
      have := List.mem_takeWhile_imp hm
      simp at this
    obtain ⟨a, hadef⟩ : ∃ a, a = seg.takeWhile (fun c => c != '>') := ⟨_, rfl⟩
    rw [← hadef] at hseg ha
    have ha2 : '>' ∉ a.dropWhile isspace :=
      fun hm => ha ((List.dropWhile_sublist isspace).subset hm)
    have han : NUL ∉ a.dropWhile isspace := by
      intro hm
      apply hn
      rw [hseg]
      exact List.mem_append_left _ ((List.dropWhile_sublist isspace).subset hm)
    obtain ⟨z, hz, hz0⟩ := trimmed_at_marker seg a ('>' :: b) '>' hn hsp hseg
    have hr : rstrip ('>' :: b) = '>' :: rstrip b := rstrip_append_stop [] b '>' hsp
    rw [hr] at hz
    have hcount : (a.dropWhile isspace ++ ['>']).count '>' ≤ 1 := by
      simp [List.count_append, List.count_eq_zero_of_not_mem ha2]
    have hstr : strstr ['>', '>'] (rtrim_inplace (ltrim seg)) =
        some (a.dropWhile isspace).length := by
      rw [hz]
      exact strstr_first '>' (by decide) (rstrip b ++ z) (a.dropWhile isspace) han
        (no_double_of_count '>' _ hcount)
    have hp := stage_buffer_poked_append seg _ hstr
    have hcut : cstr ((rtrim_inplace (ltrim seg)).set (a.dropWhile isspace).length NUL) =
        a.dropWhile isspace := by
      rw [hz, set_at_length, cstr_append _ _ han, cstr_nul_cons, List.append_nil]
    have := (poked_cstr_initial _ _ hp).subset hB
    rw [hcut] at this
    exact ha2 this
  · -- a `<` stands before the first `>`
    have ha : '>' ∉ seg.takeWhile (fun c => c != '>') := by
      intro hm
      have := List.mem_takeWhile_imp hm
      simp at this
    obtain ⟨p, q, hpq, hp⟩ := split_first '<' _ h
    have hseg : seg = p ++ '<' :: (q ++ seg.dropWhile (fun c => c != '>')) := by
      have := (List.takeWhile_append_dropWhile (fun c => c != '>') seg).symm
      rw [hpq] at this
      simpa using this
    have hpg : '>' ∉ p := fun hm => ha (by rw [hpq]; exact List.mem_append_left _ hm)
    have hp2 : '>' ∉ p.dropWhile isspace :=
      fun hm => hpg ((List.dropWhile_sublist isspace).subset hm)
    have hp3 : '<' ∉ p.dropWhile isspace :=
      fun hm => hp ((List.dropWhile_sublist isspace).subset hm)
    have hpn : NUL ∉ p.dropWhile isspace := by
      intro hm
      apply hn
      rw [hseg]
      exact List.mem_append_left _ ((List.dropWhile_sublist isspace).subset hm)
    obtain ⟨z, hz, hz0⟩ := trimmed_at_marker seg p _ '<' hn (by decide) hseg
    have hchr : strchr '<' (rtrim_inplace (ltrim seg)) = some (p.dropWhile isspace).length := by
      rw [hz]
      exact strchr_first '<' _ _ hp3 hpn
    have hpk := (stage_buffer_poked seg).2.1 _ hchr
    have hcut : cstr ((rtrim_inplace (ltrim seg)).set (p.dropWhile isspace).length NUL) =
        p.dropWhile isspace := by
      rw [hz, set_at_length, cstr_append _ _ hpn, cstr_nul_cons, List.append_nil]
    have := (poked_cstr_initial _ _ hpk).subset hB
    rw [hcut] at this
    exact hp2 this

theorem kept_segments_no_nul (line seg : List Char) (h : seg ∈ kept_segments line) :
    NUL ∉ seg := by
  unfold kept_segments at h
  have hr : seg ∈ runs ['|'] (cstr line) := (List.mem_filter.1 (List.mem_of_mem_take h)).1
  intro hm
  exact not_mem_cstr line ((runs_within ['|'] _ _ (Nat.lt_succ_self _) seg hr).subset hm)

/-! ## Stages of the form `words < in > out`, followed by further text -/

/-- Form `words < in > out rest` (`mk` empty) and `words < in >> out rest` (`mk` is
`>`), for the buffer `s` that the two trimming steps leave. -/
theorem stage_redirs_in_out_tail (text W i o mk T : List Char) (hmk : mk = [] ∨ mk = ['>'])
    (hWlast : ∀ c0 core0, W = core0 ++ [c0] → isspace c0 = false)
    (hWn : NUL ∉ W) (hWlt : '<' ∉ W) (hWgt : '>' ∉ W)
    (hi : plain_word i) (ho : plain_word o)
    (hT : ∀ x r, T = x :: r → x = NUL ∨ isspace x = true)
    (htrim : rtrim_inplace (ltrim text) =
      W ++ ' ' :: '<' :: ' ' :: (i ++ ' ' :: '>' :: (mk ++ ' ' :: (o ++ T))))
    (happ : mk = [] → strstr ['>', '>']
      (W ++ ' ' :: '<' :: ' ' :: (i ++ ' ' :: '>' :: ' ' :: (o ++ T))) = none) :
    ∃ Z, stage_redirs text = (some i, some o, mk.length, W ++ Z) ∧ cstr Z = [] := by
  have hin0 : ∀ x, x ∈ i → x ≠ NUL ∧ isspace x = false := fun x hx =>
    ⟨(hi.2 x hx).2.1, (hi.2 x hx).1⟩
  have hon0 : ∀ x, x ∈ o → x ≠ NUL ∧ isspace x = false := fun x hx =>
    ⟨(ho.2 x hx).2.1, (ho.2 x hx).1⟩
  have hiN : NUL ∉ i := fun hm => (hi.2 _ hm).2.1 rfl
  have hoN : NUL ∉ o := fun hm => (ho.2 _ hm).2.1 rfl
  have hiL : '<' ∉ i := fun hm => (hi.2 _ hm).2.2.1 rfl
  have hiG : '>' ∉ i := fun hm => (hi.2 _ hm).2.2.2.1 rfl
  have hoG : '>' ∉ o := fun hm => (ho.2 _ hm).2.2.2.1 rfl
  have n1 : NUL ≠ ' ' := by decide
  have n2 : NUL ≠ '<' := by decide
  have n3 : NUL ≠ '>' := by decide
  have hsp : ∀ x, x ∈ [' '] → isspace x = true := by
    intro x hx
    simp only [List.mem_singleton] at hx
    subst hx
    decide
  have hT3 : ∀ x r, T = x :: r → x = NUL ∨ (isspace x = true ∧ o ≠ []) := by
    intro x r hr
    rcases hT x r hr with h | h
    · exact Or.inl h
    · exact Or.inr ⟨h, ho.1⟩
  rcases hmk with rfl | rfl
  · have happ0 := happ rfl
    have htrim0 : rtrim_inplace (ltrim text) =
        W ++ ' ' :: '<' :: ' ' :: (i ++ ' ' :: '>' :: ' ' :: (o ++ T)) := htrim
    show ∃ Z, stage_redirs text = (some i, some o, 0, W ++ Z) ∧ cstr Z = []
    obtain ⟨Q, hQ⟩ : ∃ Q, Q = W.length + [' '].length + ([] : List Char).length := ⟨_, rfl⟩
    obtain ⟨P, hP⟩ : ∃ P, P = W.length + ([] : List Char).length +
        (NUL :: NUL :: ' ' :: (i ++ [NUL])).length := ⟨_, rfl⟩
    have hin : strchr '<' (W ++ ' ' :: '<' :: ' ' :: (i ++ ' ' :: '>' :: ' ' :: (o ++ T))) =
        some Q := by
      have := strchr_first '<' (W ++ [' ']) (' ' :: (i ++ ' ' :: '>' :: ' ' :: (o ++ T)))
        (by simp [hWlt]) (by simp [hWn, n1])
      rw [hQ]
      simpa using this
    have hout : strchr '>' (W ++ ' ' :: '<' :: ' ' :: (i ++ ' ' :: '>' :: ' ' :: (o ++ T))) =
        some P := by
      have := strchr_first '>' (W ++ ' ' :: '<' :: ' ' :: (i ++ [' '])) (' ' :: (o ++ T))
        (by simp [hWgt, hiG]) (by simp [hWn, hiN, n1, n2])
      simp only [List.append_assoc, List.cons_append, List.nil_append] at this
      rw [this, hP]
      simp only [List.length_append, List.length_cons, List.length_nil]
      congr 1
    obtain ⟨hA1, hB1⟩ := redir_step W [' '] [] [] [' '] i (' ' :: '>' :: ' ' :: (o ++ T)) '<'
      hWn hWlast hsp (Or.inl rfl) hsp hin0
      (fun x r hr => Or.inr ⟨by simp only [List.cons.injEq] at hr; rw [← hr.1]; decide, hi.1⟩)
    obtain ⟨hA2, hB2⟩ := redir_step W [] (NUL :: NUL :: ' ' :: (i ++ [NUL])) [] [' '] o T '>'
      hWn hWlast (by simp) (Or.inr ⟨_, rfl⟩) hsp hon0 hT3
    refine ⟨List.replicate ([] : List Char).length NUL ++
      ((NUL :: NUL :: ' ' :: (i ++ [NUL])) ++ NUL :: ([] ++ ([' '] ++ (o ++ T.set 0 NUL)))),
      ?_, by simp [cstr]⟩
    have e1 : W ++ ([' '] ++ ([] ++ '<' :: ([] ++ ([' '] ++
        (i ++ ' ' :: '>' :: ' ' :: (o ++ T)))))) =
        W ++ ' ' :: '<' :: ' ' :: (i ++ ' ' :: '>' :: ' ' :: (o ++ T)) := rfl
    rw [e1, ← hQ] at hA1
    have e3 : Q + 1 + ([] : List Char).length = Q + 1 := rfl
    rw [e3] at hA1
    have e4 : W ++ (List.replicate [' '].length NUL ++
        ([] ++ NUL :: ([] ++ ([' '] ++ (i ++ (' ' :: '>' :: ' ' :: (o ++ T)).set 0 NUL))))) =
        W ++ ([] ++ ((NUL :: NUL :: ' ' :: (i ++ [NUL])) ++ '>' ::
          ([] ++ ([' '] ++ (o ++ T))))) := by
      simp
    rw [e4] at hB1
    rw [← hP] at hA2
    have e6 : P + 1 + ([] : List Char).length = P + 1 := rfl
    rw [e6] at hA2
    unfold stage_redirs
    simp only [htrim0, hin, happ0, hout, hA1, hB1, hA2, hB2]
  · have htrim0 : rtrim_inplace (ltrim text) =
        W ++ ' ' :: '<' :: ' ' :: (i ++ ' ' :: '>' :: '>' :: ' ' :: (o ++ T)) := htrim
    show ∃ Z, stage_redirs text = (some i, some o, 1, W ++ Z) ∧ cstr Z = []
    obtain ⟨Q, hQ⟩ : ∃ Q, Q = W.length + [' '].length + ([] : List Char).length := ⟨_, rfl⟩
    obtain ⟨P, hP⟩ : ∃ P, P = W.length + ([] : List Char).length +
        (NUL :: NUL :: ' ' :: (i ++ [NUL])).length := ⟨_, rfl⟩
    have hin : strchr '<' (W ++ ' ' :: '<' :: ' ' :: (i ++ ' ' :: '>' :: '>' :: ' ' :: (o ++ T))) =
        some Q := by
      have := strchr_first '<' (W ++ [' ']) (' ' :: (i ++ ' ' :: '>' :: '>' :: ' ' :: (o ++ T)))
        (by simp [hWlt]) (by simp [hWn, n1])
      rw [hQ]
      simpa using this
    have hcount : ((W ++ ' ' :: '<' :: ' ' :: (i ++ [' '])) ++ ['>']).count '>' ≤ 1 := by
      simp [List.count_append, List.count_cons, List.count_eq_zero_of_not_mem hWgt,
        List.count_eq_zero_of_not_mem hiG]
    have happ1 : strstr ['>', '>']
        (W ++ ' ' :: '<' :: ' ' :: (i ++ ' ' :: '>' :: '>' :: ' ' :: (o ++ T))) = some P := by
      have := strstr_first '>' (by decide) (' ' :: (o ++ T))
        (W ++ ' ' :: '<' :: ' ' :: (i ++ [' ']))
        (by simp [hWn, hiN, n1, n2]) (no_double_of_count '>' _ hcount)
      simp only [List.append_assoc, List.cons_append, List.nil_append] at this
      rw [this, hP]
      simp only [List.length_append, List.length_cons, List.length_nil]
      congr 1
    obtain ⟨hA1, hB1⟩ := redir_step W [' '] [] [] [' '] i
      (' ' :: '>' :: '>' :: ' ' :: (o ++ T)) '<'
      hWn hWlast hsp (Or.inl rfl) hsp hin0
      (fun x r hr => Or.inr ⟨by simp only [List.cons.injEq] at hr; rw [← hr.1]; decide, hi.1⟩)
    obtain ⟨hA2, hB2⟩ := redir_step W [] (NUL :: NUL :: ' ' :: (i ++ [NUL])) ['>'] [' '] o T
      '>' hWn hWlast (by simp) (Or.inr ⟨_, rfl⟩) hsp hon0 hT3
    refine ⟨List.replicate ([] : List Char).length NUL ++
      ((NUL :: NUL :: ' ' :: (i ++ [NUL])) ++ NUL :: (['>'] ++ ([' '] ++ (o ++ T.set 0 NUL)))),
      ?_, by simp [cstr]⟩
    have e1 : W ++ ([' '] ++ ([] ++ '<' :: ([] ++ ([' '] ++
        (i ++ ' ' :: '>' :: '>' :: ' ' :: (o ++ T)))))) =
        W ++ ' ' :: '<' :: ' ' :: (i ++ ' ' :: '>' :: '>' :: ' ' :: (o ++ T)) := rfl
    rw [e1, ← hQ] at hA1
    have e3 : Q + 1 + ([] : List Char).length = Q + 1 := rfl
    rw [e3] at hA1
    have e4 : W ++ (List.replicate [' '].length NUL ++
        ([] ++ NUL :: ([] ++ ([' '] ++
          (i ++ (' ' :: '>' :: '>' :: ' ' :: (o ++ T)).set 0 NUL))))) =
        W ++ ([] ++ ((NUL :: NUL :: ' ' :: (i ++ [NUL])) ++ '>' ::
          (['>'] ++ ([' '] ++ (o ++ T))))) := by
      simp
    rw [e4] at hB1
    rw [← hP] at hA2
    have e6 : P + 1 + ['>'].length = P + 2 := rfl
    rw [e6] at hA2
    unfold stage_redirs
    simp only [htrim0, hin, happ1, hA1, hB1, hA2, hB2]
/-- Form `words > out < in rest` (`mk` empty) and `words >> out < in rest` (`mk` is
`>`), for the buffer `s` that the two trimming steps leave. -/
theorem stage_redirs_out_in_tail (text W i o mk T : List Char) (hmk : mk = [] ∨ mk = ['>'])
    (hWlast : ∀ c0 core0, W = core0 ++ [c0] → isspace c0 = false)
    (hWn : NUL ∉ W) (hWlt : '<' ∉ W) (hWgt : '>' ∉ W)
    (hi : plain_word i) (ho : plain_word o)
    (hT : ∀ x r, T = x :: r → x = NUL ∨ isspace x = true)
    (htrim : rtrim_inplace (ltrim text) =
      W ++ ' ' :: '>' :: (mk ++ ' ' :: (o ++ ' ' :: '<' :: ' ' :: (i ++ T))))
    (happ : mk = [] → strstr ['>', '>']
      (W ++ ' ' :: '>' :: ' ' :: (o ++ ' ' :: '<' :: ' ' :: (i ++ T))) = none) :
    ∃ Z, stage_redirs text = (some i, some o, mk.length, W ++ Z) ∧ cstr Z = [] := by
  have hin0 : ∀ x, x ∈ i → x ≠ NUL ∧ isspace x = false := fun x hx =>
    ⟨(hi.2 x hx).2.1, (hi.2 x hx).1⟩
  have hon0 : ∀ x, x ∈ o → x ≠ NUL ∧ isspace x = false := fun x hx =>
    ⟨(ho.2 x hx).2.1, (ho.2 x hx).1⟩
  have hiN : NUL ∉ i := fun hm => (hi.2 _ hm).2.1 rfl
  have hoN : NUL ∉ o := fun hm => (ho.2 _ hm).2.1 rfl
  have hoL : '<' ∉ o := fun hm => (ho.2 _ hm).2.2.1 rfl
  have hiG : '>' ∉ i := fun hm => (hi.2 _ hm).2.2.2.1 rfl
  have hoG : '>' ∉ o := fun hm => (ho.2 _ hm).2.2.2.1 rfl
  have n1 : NUL ≠ ' ' := by decide
  have n2 : NUL ≠ '<' := by decide
  have n3 : NUL ≠ '>' := by decide
  have hsp : ∀ x, x ∈ [' '] → isspace x = true := by
    intro x hx
    simp only [List.mem_singleton] at hx
    subst hx
    decide
  have hT3 : ∀ x r, T = x :: r → x = NUL ∨ (isspace x = true ∧ i ≠ []) := by
    intro x r hr
    rcases hT x r hr with h | h
    · exact Or.inl h
    · exact Or.inr ⟨h, hi.1⟩
  rcases hmk with rfl | rfl
  · have happ0 := happ rfl
    have htrim0 : rtrim_inplace (ltrim text) =
        W ++ ' ' :: '>' :: ' ' :: (o ++ ' ' :: '<' :: ' ' :: (i ++ T)) := htrim
    show ∃ Z, stage_redirs text = (some i, some o, 0, W ++ Z) ∧ cstr Z = []
    have hCn : NUL ∉ W ++ ' ' :: '>' :: ' ' :: o := by simp [hWn, hoN, n1, n3]
    have hClast : ∀ c0 core0, W ++ ' ' :: '>' :: ' ' :: o = core0 ++ [c0] →
        isspace c0 = false := by
      intro c0 core0 h
      have e : W ++ ' ' :: '>' :: ' ' :: o = (W ++ [' ', '>', ' ']) ++ o := by simp
      rw [e] at h
      exact (ho.2 c0 (last_of_append _ o core0 c0 ho.1 h)).1
    obtain ⟨Q, hQ⟩ : ∃ Q, Q = (W ++ ' ' :: '>' :: ' ' :: o).length + [' '].length +
        ([] : List Char).length := ⟨_, rfl⟩
    obtain ⟨P, hP⟩ : ∃ P, P = W.length + [' '].length + ([] : List Char).length := ⟨_, rfl⟩
    have hin : strchr '<' (W ++ ' ' :: '>' :: ' ' :: (o ++ ' ' :: '<' :: ' ' :: (i ++ T))) =
        some Q := by
      have := strchr_first '<' (W ++ ' ' :: '>' :: ' ' :: (o ++ [' '])) (' ' :: (i ++ T))
        (by simp [hWlt, hoL]) (by simp [hWn, hoN, n1, n3])
      simp only [List.append_assoc, List.cons_append, List.nil_append] at this
      rw [this, hQ]
      simp only [List.length_append, List.length_cons, List.length_nil]
      congr 1
    have hout : strchr '>' (W ++ ' ' :: '>' :: ' ' :: (o ++ ' ' :: '<' :: ' ' :: (i ++ T))) =
        some P := by
      have := strchr_first '>' (W ++ [' ']) (' ' :: (o ++ ' ' :: '<' :: ' ' :: (i ++ T)))
        (by simp [hWgt]) (by simp [hWn, n1])
      rw [hP]
      simpa using this
    obtain ⟨hA1, hB1⟩ := redir_step (W ++ ' ' :: '>' :: ' ' :: o) [' '] [] [] [' '] i T '<'
      hCn hClast hsp (Or.inl rfl) hsp hin0 hT3
    obtain ⟨hA2, hB2⟩ := redir_step W [' '] [] [] [' '] o
      (NUL :: NUL :: ' ' :: (i ++ T.set 0 NUL)) '>'
      hWn hWlast hsp (Or.inl rfl) hsp hon0
      (fun x r hr => Or.inl (by simp only [List.cons.injEq] at hr; exact hr.1.symm))
    refine ⟨List.replicate [' '].length NUL ++
      ([] ++ NUL :: ([] ++ ([' '] ++ (o ++ (NUL :: NUL :: ' ' :: (i ++ T.set 0 NUL)).set 0 NUL)))),
      ?_, by simp [cstr]⟩
    have e1 : (W ++ ' ' :: '>' :: ' ' :: o) ++
        ([' '] ++ ([] ++ '<' :: ([] ++ ([' '] ++ (i ++ T))))) =
        W ++ ' ' :: '>' :: ' ' :: (o ++ ' ' :: '<' :: ' ' :: (i ++ T)) := by simp
    rw [e1, ← hQ] at hA1
    have e3 : Q + 1 + ([] : List Char).length = Q + 1 := rfl
    rw [e3] at hA1
    have e4 : (W ++ ' ' :: '>' :: ' ' :: o) ++ (List.replicate [' '].length NUL ++
        ([] ++ NUL :: ([] ++ ([' '] ++ (i ++ T.set 0 NUL))))) =
        W ++ ([' '] ++ ([] ++ '>' :: ([] ++ ([' '] ++
          (o ++ (NUL :: NUL :: ' ' :: (i ++ T.set 0 NUL))))))) := by
      simp
    rw [e4] at hB1
    rw [← hP] at hA2
    have e6 : P + 1 + ([] : List Char).length = P + 1 := rfl
    rw [e6] at hA2
    unfold stage_redirs
    simp only [htrim0, hin, happ0, hout, hA1, hB1, hA2, hB2]
  · have htrim0 : rtrim_inplace (ltrim text) =
        W ++ ' ' :: '>' :: '>' :: ' ' :: (o ++ ' ' :: '<' :: ' ' :: (i ++ T)) := htrim
    show ∃ Z, stage_redirs text = (some i, some o, 1, W ++ Z) ∧ cstr Z = []
    have hCn : NUL ∉ W ++ ' ' :: '>' :: '>' :: ' ' :: o := by simp [hWn, hoN, n1, n3]
    have hClast : ∀ c0 core0, W ++ ' ' :: '>' :: '>' :: ' ' :: o = core0 ++ [c0] →
        isspace c0 = false := by
      intro c0 core0 h
      have e : W ++ ' ' :: '>' :: '>' :: ' ' :: o = (W ++ [' ', '>', '>', ' ']) ++ o := by simp
      rw [e] at h
      exact (ho.2 c0 (last_of_append _ o core0 c0 ho.1 h)).1
    obtain ⟨Q, hQ⟩ : ∃ Q, Q = (W ++ ' ' :: '>' :: '>' :: ' ' :: o).length + [' '].length +
        ([] : List Char).length := ⟨_, rfl⟩
    obtain ⟨P, hP⟩ : ∃ P, P = W.length + [' '].length + ([] : List Char).length := ⟨_, rfl⟩
    have hin : strchr '<'
        (W ++ ' ' :: '>' :: '>' :: ' ' :: (o ++ ' ' :: '<' :: ' ' :: (i ++ T))) = some Q := by
      have := strchr_first '<' (W ++ ' ' :: '>' :: '>' :: ' ' :: (o ++ [' '])) (' ' :: (i ++ T))
        (by simp [hWlt, hoL]) (by simp [hWn, hoN, n1, n3])
      simp only [List.append_assoc, List.cons_append, List.nil_append] at this
      rw [this, hQ]
      simp only [List.length_append, List.length_cons, List.length_nil]
      congr 1
    have hcount : ((W ++ [' ']) ++ ['>']).count '>' ≤ 1 := by
      simp [List.count_append, List.count_cons, List.count_eq_zero_of_not_mem hWgt]
    have happ1 : strstr ['>', '>']
        (W ++ ' ' :: '>' :: '>' :: ' ' :: (o ++ ' ' :: '<' :: ' ' :: (i ++ T))) = some P := by
      have := strstr_first '>' (by decide) (' ' :: (o ++ ' ' :: '<' :: ' ' :: (i ++ T)))
        (W ++ [' ']) (by simp [hWn, n1]) (no_double_of_count '>' _ hcount)
      rw [hP]
      simpa using this
    obtain ⟨hA1, hB1⟩ := redir_step (W ++ ' ' :: '>' :: '>' :: ' ' :: o) [' '] [] [] [' '] i T
      '<' hCn hClast hsp (Or.inl rfl) hsp hin0 hT3
    obtain ⟨hA2, hB2⟩ := redir_step W [' '] [] ['>'] [' '] o
      (NUL :: NUL :: ' ' :: (i ++ T.set 0 NUL)) '>'
      hWn hWlast hsp (Or.inl rfl) hsp hon0
      (fun x r hr => Or.inl (by simp only [List.cons.injEq] at hr; exact hr.1.symm))
    refine ⟨List.replicate [' '].length NUL ++
      ([] ++ NUL :: (['>'] ++ ([' '] ++
        (o ++ (NUL :: NUL :: ' ' :: (i ++ T.set 0 NUL)).set 0 NUL)))),
      ?_, by simp [cstr]⟩
    have e1 : (W ++ ' ' :: '>' :: '>' :: ' ' :: o) ++
        ([' '] ++ ([] ++ '<' :: ([] ++ ([' '] ++ (i ++ T))))) =
        W ++ ' ' :: '>' :: '>' :: ' ' :: (o ++ ' ' :: '<' :: ' ' :: (i ++ T)) := by simp
    rw [e1, ← hQ] at hA1
    have e3 : Q + 1 + ([] : List Char).length = Q + 1 := rfl
    rw [e3] at hA1
    have e4 : (W ++ ' ' :: '>' :: '>' :: ' ' :: o) ++ (List.replicate [' '].length NUL ++
        ([] ++ NUL :: ([] ++ ([' '] ++ (i ++ T.set 0 NUL))))) =
        W ++ ([' '] ++ ([] ++ '>' :: (['>'] ++ ([' '] ++
          (o ++ (NUL :: NUL :: ' ' :: (i ++ T.set 0 NUL))))))) := by
      simp
    rw [e4] at hB1
    rw [← hP] at hA2
    have e6 : P + 1 + ['>'].length = P + 2 := rfl
    rw [e6] at hA2
    unfold stage_redirs
    simp only [htrim0, hin, happ1, hA1, hB1, hA2, hB2]
theorem no_double_append (g : Char) : ∀ (A B : List Char), ¬ [g, g] <:+: A →
    ¬ [g, g] <:+: B → (∀ a0 A0, A = A0 ++ [a0] → a0 ≠ g) → ¬ [g, g] <:+: A ++ B := by
  intro A
  induction A with
  | nil => intro B _ hB _; simpa using hB
  | cons x A ih =>
    intro B hA hB hlast
    have hA2 : ¬ [g, g] <:+: A := fun h => hA ((List.infix_cons_iff).2 (Or.inr h))
    have hlast2 : ∀ a0 A0, A = A0 ++ [a0] → a0 ≠ g := by
      intro a0 A0 h
      exact hlast a0 (x :: A0) (by rw [h]; rfl)
    intro h
    rw [List.cons_append] at h
    rcases (List.infix_cons_iff).1 h with h | h
    · -- the pair starts at `x`
      cases A with
      | nil =>
        have hx : x = g := by
          obtain ⟨t, ht⟩ := h
          simp only [List.cons_append, List.nil_append, List.cons.injEq] at ht
          exact ht.1.symm
        exact hlast x [] rfl hx
      | cons y A =>
        apply hA
        obtain ⟨t, ht⟩ := h
        simp only [List.cons_append, List.nil_append, List.cons.injEq] at ht
        obtain ⟨h1, h2, _⟩ := ht
        exact ⟨[], A, by rw [← h1, ← h2]; rfl⟩
    · exact ih B hA2 hB hlast2 h

theorem cstr_nil_head (z : List Char) (hz : cstr z = []) :
    ∀ x r, z = x :: r → x = NUL := by
  intro x r h
  subst h
  unfold cstr at hz
  by_contra hx
  rw [if_neg hx] at hz
  cases hz

/-- The buffer of a stage whose text is `X` followed by further text `R` that is
empty or begins with white space: `X`, then what is left of `R`. -/
theorem trimmed_with_tail (X R : List Char) (c l : Char) (cs X0 : List Char)
    (hX : X = c :: cs) (hc : isspace c = false) (hX0 : X = X0 ++ [l])
    (hl : isspace l = false) (hn : NUL ∉ X ++ R)
    (hR : ∀ x r, R = x :: r → isspace x = true) :
    ∃ T, rtrim_inplace (ltrim (X ++ R)) = X ++ T ∧
      (∀ x r, T = x :: r → x = NUL ∨ isspace x = true) ∧
      ∃ R1 z, T = R1 ++ z ∧ cstr z = [] ∧ R1 <+: R := by
  obtain ⟨z, hz, hz0⟩ := trimmed_buffer (X ++ R) hn
  obtain ⟨sp, hsp1, hsp2, hsp3⟩ := rstrip_decomp R
  have htrim : trim (X ++ R) = X ++ rstrip R := by
    unfold trim
    have e1 : (X ++ R).dropWhile isspace = X ++ R := by
      rw [hX]
      simp [List.dropWhile, hc]
    rw [e1, hX0]
    have := rstrip_append_stop X0 R l hl
    simpa using this
  refine ⟨rstrip R ++ z, by rw [hz, htrim, List.append_assoc], ?_,
    rstrip R, z, rfl, hz0, ⟨sp, hsp1.symm⟩⟩
  intro x r h
  cases hr : rstrip R with
  | nil =>
    rw [hr] at h
    exact Or.inl (cstr_nil_head z hz0 x r h)
  | cons y ys =>
    rw [hr] at h
    simp only [List.cons_append, List.cons.injEq] at h
    rw [hr] at hsp1
    exact Or.inr (h.1 ▸ hR y (ys ++ sp) hsp1)
/-- The last byte of a word. -/
theorem plain_word_last (o : List Char) (ho : plain_word o) :
    ∃ o0 l, o = o0 ++ [l] ∧ isspace l = false ∧ l ≠ '>' := by
  rcases List.eq_nil_or_concat o with h | ⟨o0, l, h⟩
  · exact absurd h ho.1
  · rw [List.concat_eq_append] at h
    have hm : l ∈ o := by rw [h]; simp
    exact ⟨o0, l, h, (ho.2 l hm).1, (ho.2 l hm).2.2.2.1⟩

/-- The stage `words < in > out rest` (`mk` empty) or `words < in >> out rest`
(`mk` is `>`), where `rest` is empty or begins with white space. -/
theorem stage_form_in_out (ws : List (List Char)) (i o mk R : List Char)
    (hws : ws ≠ []) (hall : ∀ w, w ∈ ws → plain_word w)
    (hi : plain_word i) (ho : plain_word o) (hmk : mk = [] ∨ mk = ['>'])
    (hR : ∀ x r, R = x :: r → isspace x = true) (hRn : NUL ∉ R)
    (hRa : mk = [] → ¬ ['>', '>'] <:+: R) :
    ∃ Z, stage_redirs
        (unwords ws ++ ' ' :: '<' :: ' ' :: (i ++ ' ' :: '>' :: (mk ++ ' ' :: (o ++ R)))) =
        (some i, some o, mk.length, unwords ws ++ Z) ∧ cstr Z = [] := by
  obtain ⟨⟨c, cs, hW, hhead⟩, hWlast, hWn, hWlt, hWgt, hWbar, hruns⟩ := unwords_ok ws hws hall
  obtain ⟨o0, l, hol, hl, hlg⟩ := plain_word_last o ho
  have hiN : NUL ∉ i := fun hm => (hi.2 _ hm).2.1 rfl
  have hoN : NUL ∉ o := fun hm => (ho.2 _ hm).2.1 rfl
  have hiG : '>' ∉ i := fun hm => (hi.2 _ hm).2.2.2.1 rfl
  have hoG : '>' ∉ o := fun hm => (ho.2 _ hm).2.2.2.1 rfl
  have hmkN : NUL ∉ mk := by rcases hmk with rfl | rfl <;> decide
  have n1 : NUL ≠ ' ' := by decide
  have n2 : NUL ≠ '<' := by decide
  have n3 : NUL ≠ '>' := by decide
  obtain ⟨X, hXdef⟩ : ∃ X, X = unwords ws ++ ' ' :: '<' :: ' ' ::
      (i ++ ' ' :: '>' :: (mk ++ ' ' :: o)) := ⟨_, rfl⟩
  have hline : unwords ws ++ ' ' :: '<' :: ' ' :: (i ++ ' ' :: '>' :: (mk ++ ' ' :: (o ++ R))) =
      X ++ R := by
    rw [hXdef]; simp
  have hXn : NUL ∉ X := by
    rw [hXdef]; simp [hWn, hiN, hoN, hmkN, n1, n2, n3]
  have hXhead : X = c :: (cs ++ ' ' :: '<' :: ' ' :: (i ++ ' ' :: '>' :: (mk ++ ' ' :: o))) := by
    rw [hXdef, hW]; rfl
  have hXlast : X = (unwords ws ++ ' ' :: '<' :: ' ' :: (i ++ ' ' :: '>' :: (mk ++ ' ' :: o0))) ++
      [l] := by
    rw [hXdef, hol]; simp
  obtain ⟨T, hT1, hT2, R1, z, hT3, hz, hR1⟩ := trimmed_with_tail X R c l _ _ hXhead hhead hXlast
    hl (by simp [hXn, hRn]) hR
  have htrim : rtrim_inplace (ltrim (X ++ R)) =
      unwords ws ++ ' ' :: '<' :: ' ' :: (i ++ ' ' :: '>' :: (mk ++ ' ' :: (o ++ T))) := by
    rw [hT1, hXdef]; simp
  rw [hline]
  refine stage_redirs_in_out_tail (X ++ R) (unwords ws) i o mk T hmk hWlast hWn hWlt hWgt hi ho
    hT2 htrim ?_
  intro hmk0
  subst hmk0
  have hR1n : NUL ∉ R1 := fun hm => hRn (hR1.subset hm)
  have hcount : X.count '>' ≤ 1 := by
    rw [hXdef]
    simp [List.count_append, List.count_cons, List.count_eq_zero_of_not_mem hWgt,
      List.count_eq_zero_of_not_mem hiG, List.count_eq_zero_of_not_mem hoG]
  have hno : ¬ ['>', '>'] <:+: X ++ R1 := by
    refine no_double_append '>' X R1 (no_double_of_count '>' _ hcount)
      (fun h => hRa rfl (h.trans hR1.isInfix)) ?_
    intro a0 A0 hA
    rw [hXlast] at hA
    have := List.append_inj_right' hA rfl
    simp only [List.cons.injEq, and_true] at this
    rw [← this]
    exact hlg
  have := strstr_none ['>', '>'] (X ++ R1) z hno (by simp [hXn, hR1n]) hz
  rw [hT3]
  rw [hXdef] at this
  simpa using this

/-- The stage `words > out < in rest` (`mk` empty) or `words >> out < in rest`
(`mk` is `>`), where `rest` is empty or begins with white space. -/
theorem stage_form_out_in (ws : List (List Char)) (i o mk R : List Char)
    (hws : ws ≠ []) (hall : ∀ w, w ∈ ws → plain_word w)
    (hi : plain_word i) (ho : plain_word o) (hmk : mk = [] ∨ mk = ['>'])
    (hR : ∀ x r, R = x :: r → isspace x = true) (hRn : NUL ∉ R)
    (hRa : mk = [] → ¬ ['>', '>'] <:+: R) :
    ∃ Z, stage_redirs
        (unwords ws ++ ' ' :: '>' :: (mk ++ ' ' :: (o ++ ' ' :: '<' :: ' ' :: (i ++ R)))) =
        (some i, some o, mk.length, unwords ws ++ Z) ∧ cstr Z = [] := by
  obtain ⟨⟨c, cs, hW, hhead⟩, hWlast, hWn, hWlt, hWgt, hWbar, hruns⟩ := unwords_ok ws hws hall
  obtain ⟨i0, l, hil, hl, hlg⟩ := plain_word_last i hi
  have hiN : NUL ∉ i := fun hm => (hi.2 _ hm).2.1 rfl
  have hoN : NUL ∉ o := fun hm => (ho.2 _ hm).2.1 rfl
  have hiG : '>' ∉ i := fun hm => (hi.2 _ hm).2.2.2.1 rfl
  have hoG : '>' ∉ o := fun hm => (ho.2 _ hm).2.2.2.1 rfl
  have hmkN : NUL ∉ mk := by rcases hmk with rfl | rfl <;> decide
  have n1 : NUL ≠ ' ' := by decide
  have n2 : NUL ≠ '<' := by decide
  have n3 : NUL ≠ '>' := by decide
  obtain ⟨X, hXdef⟩ : ∃ X, X = unwords ws ++ ' ' :: '>' ::
      (mk ++ ' ' :: (o ++ ' ' :: '<' :: ' ' :: i)) := ⟨_, rfl⟩
  have hline : unwords ws ++ ' ' :: '>' :: (mk ++ ' ' :: (o ++ ' ' :: '<' :: ' ' :: (i ++ R))) =
      X ++ R := by
    rw [hXdef]; simp
  have hXn : NUL ∉ X := by
    rw [hXdef]; simp [hWn, hiN, hoN, hmkN, n1, n2, n3]
  have hXhead : X = c :: (cs ++ ' ' :: '>' :: (mk ++ ' ' :: (o ++ ' ' :: '<' :: ' ' :: i))) := by
    rw [hXdef, hW]; rfl
  have hXlast : X = (unwords ws ++ ' ' :: '>' ::
      (mk ++ ' ' :: (o ++ ' ' :: '<' :: ' ' :: i0))) ++ [l] := by
    rw [hXdef, hil]; simp
  obtain ⟨T, hT1, hT2, R1, z, hT3, hz, hR1⟩ := trimmed_with_tail X R c l _ _ hXhead hhead hXlast
    hl (by simp [hXn, hRn]) hR
  have htrim : rtrim_inplace (ltrim (X ++ R)) =
      unwords ws ++ ' ' :: '>' :: (mk ++ ' ' :: (o ++ ' ' :: '<' :: ' ' :: (i ++ T))) := by
    rw [hT1, hXdef]; simp
  rw [hline]
  refine stage_redirs_out_in_tail (X ++ R) (unwords ws) i o mk T hmk hWlast hWn hWlt hWgt hi ho
    hT2 htrim ?_
  intro hmk0
  subst hmk0
  have hR1n : NUL ∉ R1 := fun hm => hRn (hR1.subset hm)
  have hcount : X.count '>' ≤ 1 := by
    rw [hXdef]
    simp [List.count_append, List.count_cons, List.count_eq_zero_of_not_mem hWgt,
      List.count_eq_zero_of_not_mem hiG, List.count_eq_zero_of_not_mem hoG]
  have hno : ¬ ['>', '>'] <:+: X ++ R1 := by
    refine no_double_append '>' X R1 (no_double_of_count '>' _ hcount)
      (fun h => hRa rfl (h.trans hR1.isInfix)) ?_
    intro a0 A0 hA
    rw [hXlast] at hA
    have := List.append_inj_right' hA rfl
    simp only [List.cons.injEq, and_true] at this
    rw [← this]
    exact hlg
  have := strstr_none ['>', '>'] (X ++ R1) z hno (by simp [hXn, hR1n]) hz
  rw [hT3]
  rw [hXdef] at this
  simpa using this

/-! ## The line loops of `fat_head` and `fat_tail` -/

theorem head_loop_eq (n : Int) : ∀ (fuel : Nat) (rest : List Char) (count : Int)
    (out : List Char), rest.length < fuel →
      head_loop n fuel rest count out =
        out ++ (((runs ['\n'] rest).take (n - count).toNat).map
          (fun l => l ++ ['\n'])).flatten := by
  intro fuel
  induction fuel with
  | zero => intro rest count out h; omega
  | succ k ih =>
    intro rest count out hlen
    unfold head_loop
    cases hst : strtok_r ['\n'] rest with
    | none =>
      rw [runs_strtok_none _ rest hst]
      simp
    | some pr =>
      obtain ⟨line, rest1⟩ := pr
      obtain ⟨hseg, hlt, _, _⟩ := runs_strtok_some _ rest line rest1 hst
      simp only
      rw [hseg]
      by_cases hc : count < n
      · rw [if_pos hc, ih rest1 _ _ (by omega)]
        have e : (n - count).toNat = (n - (count + 1)).toNat + 1 := by omega
        rw [e, List.take_succ_cons, List.map_cons, List.flatten_cons]
        simp [List.append_assoc]
      · rw [if_neg hc]
        have e : (n - count).toNat = 0 := by omega
        rw [e]
        simp

theorem count_lines_loop_eq : ∀ (fuel : Nat) (rest : List Char) (total : Int),
    rest.length < fuel →
      count_lines_loop fuel rest total = total + ((runs ['\n'] rest).length : Int) := by
  intro fuel
  induction fuel with
  | zero => intro rest total h; omega
  | succ k ih =>
    intro rest total hlen
    unfold count_lines_loop
    cases hst : strtok_r ['\n'] rest with
    | none =>
      rw [runs_strtok_none _ rest hst]
      simp
    | some pr =>
      obtain ⟨line, rest1⟩ := pr
      obtain ⟨hseg, hlt, _, _⟩ := runs_strtok_some _ rest line rest1 hst
      simp only
      rw [hseg, ih rest1 _ (by omega), List.length_cons]
      push_cast
      omega

theorem tail_loop_eq (start : Int) : ∀ (fuel : Nat) (rest : List Char) (count : Int)
    (out : List Char), rest.length < fuel →
      tail_loop start fuel rest count out =
        out ++ (((runs ['\n'] rest).drop (start - count).toNat).map
          (fun l => l ++ ['\n'])).flatten := by
  intro fuel
  induction fuel with
  | zero => intro rest count out h; omega
  | succ k ih =>
    intro rest count out hlen
    unfold tail_loop
    cases hst : strtok_r ['\n'] rest with
    | none =>
      rw [runs_strtok_none _ rest hst]
      simp
    | some pr =>
      obtain ⟨line, rest1⟩ := pr
      obtain ⟨hseg, hlt, _, _⟩ := runs_strtok_some _ rest line rest1 hst
      simp only
      rw [hseg]
      by_cases hc : count ≥ start
      · rw [if_pos hc, ih rest1 _ _ (by omega)]
        have e : (start - count).toNat = 0 := by omega
        have e2 : (start - (count + 1)).toNat = 0 := by omega
        rw [e, e2]
        simp [List.append_assoc]
      · rw [if_neg hc, ih rest1 _ _ (by omega)]
        have e : (start - count).toNat = (start - (count + 1)).toNat + 1 := by omega
        rw [e, List.drop_succ_cons]

/-! ## Claims -/

/-- C1: write/read round trip.  For every volume, entry `e` and byte string `data`
of at most `MAX_BLOCKS * BLOCK_SIZE` bytes: if `fat_write_file (e, data, |data|)`
returns 0, then `fat_read_file (e)` on the resulting volume returns a buffer that
holds exactly the bytes of `data` followed by the terminating NUL, whatever the
buffer held before, and the entry's size is `|data|`. -/
theorem C1_write_read_round_trip (fuel : Nat) (s : fat_fs) (e : Nat) (data : List Char)
    (now : Nat) (junk : Nat → Char) (r : result)
    (hlen : data.length ≤ MAX_BLOCKS * BLOCK_SIZE)
    (hw : fat_write_file fuel s e data data.length now = some r) (hret : r.ret = 0) :
    fat_read_file r.fs junk e = some (data ++ [NUL]) ∧
      (r.fs.dir_entries e).size = data.length := by
  obtain ⟨he, hu, hd, s1, hrel⟩ := fat_write_file_inv fuel s e data _ now r hw hret
  obtain ⟨hde, hne, _⟩ := release_chain_fields fuel s s1 e hrel
  have hB : BLOCK_SIZE = 512 := rfl
  have hM : MAX_BLOCKS = 1024 := rfl
  by_cases hsz : data.length = 0
  · rw [hsz, fat_write_file_zero fuel s s1 e data now he hu hd hrel] at hw
    simp only [Option.some.injEq] at hw
    subst hw
    have hnil : data = [] := List.length_eq_zero.1 hsz
    subst hnil
    have hg : ¬ (e ≥ s1.num_entries ∨ (s1.dir_entries e).is_used = false) := by
      rw [hne, hde, hu]; simp; exact he
    have hd2 : ¬ ((s1.dir_entries e).is_dir = true) := by rw [hde, hd]; simp
    simp [fat_read_file, set_entry, store, hg, hd2]
  · rw [fat_write_file_released fuel s s1 e data _ now he hu hd hrel hsz] at hw
    by_cases hk : ((data.length + BLOCK_SIZE - 1) % 2 ^ 64) / BLOCK_SIZE ≤
        (free_list s1.fat_table).length
    · rw [if_pos hk] at hw
      simp only [Option.some.injEq] at hw
      have hprops := write_steps_take data data.length s1
        (((data.length + BLOCK_SIZE - 1) % 2 ^ 64) / BLOCK_SIZE)
      have hfields := write_steps_fields data data.length
        ((free_list s1.fat_table).take (((data.length + BLOCK_SIZE - 1) % 2 ^ 64) / BLOCK_SIZE))
        0 s1 FAT_EOC FAT_EOC
      have hmod : data.length % 2 ^ 32 = data.length := by
        apply Nat.mod_eq_of_lt
        rw [hB, hM] at hlen
        omega
      have hkk : ((data.length + BLOCK_SIZE - 1) % 2 ^ 64) / BLOCK_SIZE =
          (data.length + 511) / 512 := by
        apply blocks_needed_eq
        rw [hB, hM] at hlen
        rw [hB]
        omega
      have hcover : data.length ≤ 0 + ((free_list s1.fat_table).take
          (((data.length + BLOCK_SIZE - 1) % 2 ^ 64) / BLOCK_SIZE)).length * BLOCK_SIZE := by
        rw [List.length_take, Nat.min_eq_left hk, hkk, hB]
        omega
      generalize write_steps data data.length
        ((free_list s1.fat_table).take (((data.length + BLOCK_SIZE - 1) % 2 ^ 64) / BLOCK_SIZE))
        0 s1 FAT_EOC FAT_EOC = W at hw hprops hfields
      obtain ⟨hch, hdata, _⟩ := hprops
      obtain ⟨hwd, hwn, _⟩ := hfields
      subst hw
      have hg : ¬ (e ≥ s.num_entries ∨ (s.dir_entries e).is_used = false) := by
        rw [hu]; simp; exact he
      have hread := read_loop_chain W.2 data data.length _ data.length _ 0 junk hch hdata
        hcover (by omega)
      constructor
      · unfold fat_read_file
        simp only [set_entry, store_same, hwn, hne, hwd, hde, hg, hd, hmod, hsz, if_false,
          Bool.false_eq_true]
        congr 1
        apply read_result_eq
        intro k hk2
        have := hread k hk2
        simp only [Nat.not_lt_zero, if_false] at this
        rw [← this]
        refine congrFun (read_loop_congr _ W.2 ?_ ?_ _ _ _ _ _) k <;> rfl
      · simp only [set_entry, store_same]
        exact hmod
    · rw [if_neg hk] at hw
      cases hrb : rollback fuel
          (write_steps data data.length (free_list s1.fat_table) 0 s1 FAT_EOC FAT_EOC) with
      | none => rw [hrb] at hw; simp at hw
      | some p =>
        rw [hrb] at hw
        simp only [Option.map_some', Option.some.injEq] at hw
        rw [← hw] at hret
        simp at hret

/-- C1 (instance): writing `hi` to `readme.txt` on the fresh volume returns 0 and
reading the entry back gives `hi` followed by NUL. -/
theorem C1_write_read_round_trip_witness :
    "hi".toList.length ≤ MAX_BLOCKS * BLOCK_SIZE ∧ written_hi.ret = 0 ∧
    fat_read_file written_hi.fs (fun _ => 'j') 1 = some ("hi".toList ++ [NUL]) ∧
    (written_hi.fs.dir_entries 1).size = "hi".toList.length :=
  ⟨by decide, by decide,
    C1_write_read_round_trip 1025 (fat_init 0) 1 "hi".toList 0 (fun _ => 'j') written_hi
      (by decide) rfl (by decide)⟩

/-- C2 (the code at the failing input): on the fresh volume, (1) a write of
`1024 * 512 + 1` bytes to `readme.txt` returns -1 and leaves `stale_volume`,
(2) `touch b` returns 0 and creates entry 2, (3) writing one byte to entry 2
returns 0.  Afterwards entries 1 and 2 are distinct in-use regular files whose
`first_block` is block 0 in both cases, and `[0]` is the chain from that block:
block 0 belongs to both chains. -/
theorem C2_failed_write_then_shared_block :
    fat_write_file 1025 (fat_init 0) 1 big_data big_data.length 0 =
      some ⟨-1, none, stale_volume⟩ ∧
    vol_stale_touch.ret = 0 ∧
    fat_write_file 1025 vol_stale_touch.fs 2 ['y'] 1 0 = some vol_shared ∧
    vol_shared.ret = 0 ∧
    (vol_shared.fs.dir_entries 1).is_used = true ∧ (vol_shared.fs.dir_entries 1).is_dir = false ∧
    (vol_shared.fs.dir_entries 2).is_used = true ∧ (vol_shared.fs.dir_entries 2).is_dir = false ∧
    (vol_shared.fs.dir_entries 1).first_block = 0 ∧
    (vol_shared.fs.dir_entries 2).first_block = 0 ∧
    is_chain vol_shared.fs.fat_table [0] 0 :=
  ⟨fresh_big_write, by decide, rfl, by decide, by decide, by decide, by decide, by decide,
    by decide, by decide, by decide⟩

/-- C3 (the code at the failing input): on the fresh volume a write of
`1024 * 512 + 1` bytes to `readme.txt` returns -1 and leaves entry 1 in use with
size 52 and `first_block = 0` while FAT cell 0 is FREE.  Following the FAT cells
from `first_block` then stays at block 0 for ever and never reaches EOC, and no
list of blocks is the chain of the entry, although `ceil(52/512) = 1`. -/
theorem C3_failed_write_leaves_stale_entry :
    ∃ r, fat_write_file 1025 (fat_init 0) 1 big_data big_data.length 0 = some r ∧ r.ret = -1 ∧
      (r.fs.dir_entries 1).is_used = true ∧ (r.fs.dir_entries 1).is_dir = false ∧
      (r.fs.dir_entries 1).size = 52 ∧ (r.fs.dir_entries 1).first_block = 0 ∧
      r.fs.fat_table 0 = FAT_FREE ∧
      (∀ n, fat_walk r.fs.fat_table n (r.fs.dir_entries 1).first_block ≠ FAT_EOC) ∧
      ∀ l, ¬ is_chain r.fs.fat_table l (r.fs.dir_entries 1).first_block := by
  refine ⟨_, fresh_big_write, rfl, rfl, rfl, rfl, rfl, rfl, ?_, ?_⟩
  · intro n
    have h : fat_walk stale_volume.fat_table n 0 = 0 := by
      induction n with
      | zero => rfl
      | succ k ih => exact ih
    show fat_walk stale_volume.fat_table n 0 ≠ FAT_EOC
    rw [h]
    decide
  · intro l hl
    have hl2 : is_chain stale_volume.fat_table l 0 := hl
    cases l with
    | nil =>
      have : (0 : Nat) = FAT_EOC := hl2
      revert this
      decide
    | cons x l =>
      obtain ⟨e, _, hne, _⟩ := hl2
      apply hne
      rfl

/-- C4 (the code at the failing input): on the fresh volume `mkdir /a` and then
`mv /a /a` both return 0, and afterwards the in-use directory in slot 2 is its own
parent, so following `parent_entry` from it any number of times stays at 2 and
never reaches the root. -/
theorem C4_mv_makes_directory_its_own_parent :
    vol_mkdir_a.ret = 0 ∧ vol_mv_a_a.ret = 0 ∧
    (vol_mv_a_a.fs.dir_entries 2).is_used = true ∧
    (vol_mv_a_a.fs.dir_entries 2).is_dir = true ∧
    ∀ n, ancestor vol_mv_a_a.fs n 2 = 2 := by
  refine ⟨by decide, by decide, by decide, by decide, ?_⟩
  intro n
  induction n with
  | zero => rfl
  | succ k ih =>
    have h : (vol_mv_a_a.fs.dir_entries 2).parent_entry = 2 := by decide
    unfold ancestor
    rw [h]
    exact ih

/-- C5 (the code at the failing input): on the fresh volume `mkdir /readme.txt/d`
returns 0 and creates the in-use entry 2 whose `parent_entry` is 1, the regular
file `readme.txt`. -/
theorem C5_mkdir_under_regular_file :
    vol_mkdir_under_file.ret = 0 ∧
    (vol_mkdir_under_file.fs.dir_entries 2).is_used = true ∧
    (vol_mkdir_under_file.fs.dir_entries 2).parent_entry = 1 ∧
    (vol_mkdir_under_file.fs.dir_entries 1).is_used = true ∧
    (vol_mkdir_under_file.fs.dir_entries 1).is_dir = false := by
  decide

set_option maxRecDepth 100000 in
/-- C6 (the code at the failing input): two `mkdir` calls with 256-byte names that
differ only in their last byte both return 0, and leave two distinct in-use
entries (slots 2 and 3) with the same `parent_entry` and the same stored name. -/
theorem C6_truncated_names_collide :
    long_name 'x' ≠ long_name 'y' ∧
    vol_long_x.ret = 0 ∧ vol_long_xy.ret = 0 ∧
    (vol_long_xy.fs.dir_entries 2).is_used = true ∧
    (vol_long_xy.fs.dir_entries 3).is_used = true ∧
    (vol_long_xy.fs.dir_entries 2).parent_entry = (vol_long_xy.fs.dir_entries 3).parent_entry ∧
    (vol_long_xy.fs.dir_entries 2).name = (vol_long_xy.fs.dir_entries 3).name := by
  decide!

/-- C7 (counterexample to the claim as stated): `readme.txt` on the fresh volume is
an in-use file that holds data; a write of `1024 * 512 + 1` bytes to it returns -1
and the FAT table after the call differs from the FAT table before the call (cell
0 was EOC and is FREE afterwards). -/
theorem C7_fat_changed_by_failed_write :
    ((fat_init 0).dir_entries 1).is_used = true ∧ ((fat_init 0).dir_entries 1).is_dir = false ∧
    big_data.length = 1024 * 512 + 1 ∧
    ∃ r, fat_write_file 1025 (fat_init 0) 1 big_data big_data.length 0 = some r ∧ r.ret = -1 ∧
      r.fs.fat_table ≠ (fat_init 0).fat_table := by
  refine ⟨by decide, by decide, big_data_length, ?_⟩
  refine ⟨_, fresh_big_write, rfl, ?_⟩
  intro h
  have h0 : stale_volume.fat_table 0 = (fat_init 0).fat_table 0 := congrFun h 0
  revert h0
  decide

/-- C7 (as amended): on an in-use file entry whose old chain `l` is well formed, a
`fat_write_file` of `1024 * 512 + 1` bytes returns -1, and the FAT table after the
call is the FAT table before the call with the cells of the entry's own old chain
set to FREE; it is identical to the FAT table before the call when the entry held
no data (`first_block = EOC`). -/
theorem C7_out_of_space_write_restores_released_fat (fuel : Nat) (s : fat_fs) (e : Nat)
    (data : List Char) (now : Nat) (l : List Nat)
    (he : e < s.num_entries) (hu : (s.dir_entries e).is_used = true)
    (hd : (s.dir_entries e).is_dir = false)
    (hch : is_chain s.fat_table l (s.dir_entries e).first_block)
    (hfuel : MAX_BLOCKS < fuel) (hlen : data.length = MAX_BLOCKS * BLOCK_SIZE + 1) :
    ∃ r, fat_write_file fuel s e data data.length now = some r ∧ r.ret = -1 ∧
      r.fs.fat_table = (clear_chain s l).fat_table ∧
      ((s.dir_entries e).first_block = FAT_EOC → r.fs.fat_table = s.fat_table) := by
  have hlfuel : l.length < fuel := Nat.lt_of_le_of_lt (is_chain_length_le _ _ _ hch) hfuel
  have hrel := release_chain_eq fuel s e l hch hlfuel
  have hk : (free_list (clear_chain s l).fat_table).length <
      ((data.length + BLOCK_SIZE - 1) % 2 ^ 64) / BLOCK_SIZE := by
    have h1 := free_list_length_le (clear_chain s l).fat_table
    rw [hlen]
    have : ((MAX_BLOCKS * BLOCK_SIZE + 1 + BLOCK_SIZE - 1) % 2 ^ 64) / BLOCK_SIZE = 1025 := by
      decide
    rw [this]
    unfold MAX_BLOCKS at h1
    omega
  obtain ⟨s2, hw, hfat, _⟩ :=
    fat_write_file_fail fuel s _ e data data.length now he hu hd hrel hfuel hk
  refine ⟨_, hw, rfl, hfat, ?_⟩
  intro hfb
  rw [hfat]
  have hnil : l = [] := by
    rw [hfb] at hch
    exact is_chain_unique s.fat_table l [] FAT_EOC hch rfl
  rw [hnil, clear_chain_nil]

/-- C7 (instance of the amended claim): on the fresh volume a write of
`1024 * 512 + 1` bytes to `readme.txt` returns -1 and leaves the FAT with the old
chain of `readme.txt` released. -/
theorem C7_out_of_space_write_witness :
    ∃ r, fat_write_file 1025 (fat_init 0) 1 big_data big_data.length 0 = some r ∧ r.ret = -1 ∧
      r.fs.fat_table = (clear_chain (fat_init 0) [0]).fat_table ∧
      (((fat_init 0).dir_entries 1).first_block = FAT_EOC →
        r.fs.fat_table = (fat_init 0).fat_table) :=
  C7_out_of_space_write_restores_released_fat 1025 (fat_init 0) 1 big_data 0 [0]
    (by decide) (by decide) (by decide) (by decide) (by decide) big_data_length

/-- C8: on an in-use file entry whose old chain `l` is well formed, `fat_write_file`
returns, and it returns 0 exactly when `ceil(size/512)` is at most the number of
FAT cells that are FREE once the entry's own old chain has been released
(otherwise it returns -1); in particular a write of exactly `1024 * 512` bytes on
a volume where all 1024 cells are FREE after that release succeeds and leaves no
FAT cell FREE. -/
theorem C8_write_succeeds_iff_enough_free_blocks (fuel : Nat) (s : fat_fs) (e : Nat)
    (data : List Char) (size now : Nat) (l : List Nat)
    (he : e < s.num_entries) (hu : (s.dir_entries e).is_used = true)
    (hd : (s.dir_entries e).is_dir = false)
    (hch : is_chain s.fat_table l (s.dir_entries e).first_block)
    (hfuel : MAX_BLOCKS < fuel) (hsize : size + BLOCK_SIZE - 1 < 2 ^ 64) :
    ∃ r, fat_write_file fuel s e data size now = some r ∧
      (r.ret = 0 ∨ r.ret = -1) ∧
      (r.ret = 0 ↔ (size + 511) / 512 ≤ free_count (clear_chain s l).fat_table) ∧
      (size = MAX_BLOCKS * BLOCK_SIZE → free_count (clear_chain s l).fat_table = MAX_BLOCKS →
        r.ret = 0 ∧ ∀ x, x < MAX_BLOCKS → r.fs.fat_table x ≠ FAT_FREE) := by
  have hlfuel : l.length < fuel := Nat.lt_of_le_of_lt (is_chain_length_le _ _ _ hch) hfuel
  have hrel := release_chain_eq fuel s e l hch hlfuel
  have hkk := blocks_needed_eq size hsize
  by_cases hsz : size = 0
  · subst hsz
    refine ⟨_, fat_write_file_zero fuel s _ e data now he hu hd hrel, Or.inl rfl, ?_, ?_⟩
    · simp
    · intro h
      simp [MAX_BLOCKS, BLOCK_SIZE] at h
  · by_cases hk : (size + 511) / 512 ≤ free_count (clear_chain s l).fat_table
    · have hw := fat_write_file_released fuel s _ e data size now he hu hd hrel hsz
      rw [hkk] at hw
      unfold free_count at hk
      rw [if_pos hk] at hw
      refine ⟨_, hw, Or.inl rfl, ?_, ?_⟩
      · unfold free_count
        simp [hk]
      · intro hfull hall
        refine ⟨rfl, ?_⟩
        intro x hx
        obtain ⟨_, hchain, hframe⟩ := fat_write_file_ok fuel s _ e data size now _ hrel hsz
          (by rw [hkk.symm] at hw; exact hw) rfl
        rw [hkk] at hchain hframe
        by_cases hmem : x ∈ (free_list (clear_chain s l).fat_table).take ((size + 511) / 512)
        · exact (is_chain_mem _ _ _ hchain x hmem).2
        · rw [hframe x hmem]
          intro hfree
          apply hmem
          have hxl : x ∈ free_list (clear_chain s l).fat_table :=
            (mem_free_list _ _).2 ⟨hx, hfree⟩
          unfold free_count at hall
          have hfull2 : (size + 511) / 512 = (free_list (clear_chain s l).fat_table).length := by
            rw [hall, hfull]
            rfl
          rw [hfull2, List.take_length]
          exact hxl
    · have hk2 : (free_list (clear_chain s l).fat_table).length <
          ((size + BLOCK_SIZE - 1) % 2 ^ 64) / BLOCK_SIZE := by
        rw [hkk]
        unfold free_count at hk
        omega
      obtain ⟨s2, hw, _⟩ := fat_write_file_fail fuel s _ e data size now he hu hd hrel hfuel hk2
      refine ⟨_, hw, Or.inr rfl, ?_, ?_⟩
      · constructor
        · intro h
          simp at h
        · intro h
          exact absurd h hk
      · intro hfull hall
        exfalso
        apply hk
        rw [hall, hfull]
        decide

/-- C8 (instance): on the fresh volume a two-byte write to `readme.txt` returns. -/
theorem C8_write_succeeds_witness :
    ∃ r, fat_write_file 1025 (fat_init 0) 1 "hi".toList 2 0 = some r ∧
      (r.ret = 0 ∨ r.ret = -1) ∧
      (r.ret = 0 ↔ (2 + 511) / 512 ≤ free_count (clear_chain (fat_init 0) [0]).fat_table) ∧
      (2 = MAX_BLOCKS * BLOCK_SIZE →
        free_count (clear_chain (fat_init 0) [0]).fat_table = MAX_BLOCKS →
        r.ret = 0 ∧ ∀ x, x < MAX_BLOCKS → r.fs.fat_table x ≠ FAT_FREE) :=
  C8_write_succeeds_iff_enough_free_blocks 1025 (fat_init 0) 1 "hi".toList 2 0 [0]
    (by decide) (by decide) (by decide) (by decide) (by decide) (by decide)

/-- C9: after a successful `fat_write_file` of `size > 0` bytes on an entry whose
old chain `l` is well formed, following the FAT from the entry's `first_block`
visits exactly the `ceil(size/512)` lowest-indexed blocks that were FREE once the
old chain was released, in strictly increasing order, and the cell of the last
one is EOC; for 1500 bytes the chain has length 3. -/
theorem C9_written_chain_is_lowest_free_blocks (fuel : Nat) (s : fat_fs) (e : Nat)
    (data : List Char) (size now : Nat) (l : List Nat) (r : result)
    (hch : is_chain s.fat_table l (s.dir_entries e).first_block) (hfuel : l.length < fuel)
    (hpos : 0 < size) (hsize : size + BLOCK_SIZE - 1 < 2 ^ 64)
    (hw : fat_write_file fuel s e data size now = some r) (hret : r.ret = 0) :
    is_chain r.fs.fat_table ((free_list (clear_chain s l).fat_table).take ((size + 511) / 512))
      (r.fs.dir_entries e).first_block ∧
    ((free_list (clear_chain s l).fat_table).take ((size + 511) / 512)).length =
      (size + 511) / 512 ∧
    ((free_list (clear_chain s l).fat_table).take ((size + 511) / 512)).Pairwise (· < ·) ∧
    (∀ x y, x ∈ (free_list (clear_chain s l).fat_table).take ((size + 511) / 512) →
      y < MAX_BLOCKS → (clear_chain s l).fat_table y = FAT_FREE →
      y ∉ (free_list (clear_chain s l).fat_table).take ((size + 511) / 512) → x < y) ∧
    (∀ h : (free_list (clear_chain s l).fat_table).take ((size + 511) / 512) ≠ [],
      r.fs.fat_table
        (((free_list (clear_chain s l).fat_table).take ((size + 511) / 512)).getLast h) =
        FAT_EOC) ∧
    (size = 1500 →
      ((free_list (clear_chain s l).fat_table).take ((size + 511) / 512)).length = 3) := by
  have hrel := release_chain_eq fuel s e l hch hfuel
  obtain ⟨hk, hchain, _⟩ := fat_write_file_ok fuel s _ e data size now r hrel
    (Nat.pos_iff_ne_zero.1 hpos) hw hret
  rw [blocks_needed_eq size hsize] at hk hchain
  have hlen : ((free_list (clear_chain s l).fat_table).take ((size + 511) / 512)).length =
      (size + 511) / 512 := by
    rw [List.length_take, Nat.min_eq_left hk]
  refine ⟨hchain, hlen, (take_free_list_props _ _).1, ?_, ?_, ?_⟩
  · intro x y hx hy hfree hny
    exact take_free_list_lowest _ _ x y hx ((mem_free_list _ _).2 ⟨hy, hfree⟩) hny
  · intro h
    exact is_chain_last _ _ _ h hchain
  · intro h1500
    rw [hlen, h1500]

/-- C9 (instance): after writing `hi` to `readme.txt` on the fresh volume, the
chain of the entry is the list of the lowest FREE block after the release. -/
theorem C9_written_chain_witness :
    is_chain (fat_init 0).fat_table [0] ((fat_init 0).dir_entries 1).first_block ∧
    written_hi.ret = 0 ∧
    is_chain written_hi.fs.fat_table
      ((free_list (clear_chain (fat_init 0) [0]).fat_table).take ((2 + 511) / 512))
      (written_hi.fs.dir_entries 1).first_block :=
  ⟨by decide, by decide,
    (C9_written_chain_is_lowest_free_blocks 1025 (fat_init 0) 1 "hi".toList 2 0 [0] written_hi
      (by decide) (by decide) (by decide) (by decide) rfl (by decide)).1⟩

/-- C10: `fat_resolve_path` agrees with the reference resolver on every path
string: the empty path gives `current_dir`; otherwise the walk starts at 0 for a
leading `/` and at `current_dir` if not, and folds over the non-empty segments
(`.` keeps the index, `..` takes `parent_entry`, any other segment is looked up
with `fat_find_entry`, the first failed lookup giving not-found). -/
theorem C10_resolve_path_eq_reference (s : fat_fs) (path : List Char) :
    fat_resolve_path s (some path) = reference_resolve s path := by
  cases path with
  | nil => rfl
  | cons c cs =>
    unfold fat_resolve_path reference_resolve
    by_cases h : c :: cs = ['/']
    · simp only [h, if_true]
      simp [path_segments, List.splitOn, List.splitOnP_cons, List.splitOnP_nil,
        resolve_segments]
    · simp only [h, if_false]
      rw [resolve_loop_eq_segments s _ _ _ (Nat.lt_succ_self _)]
      simp

/-- C11 (the code at the failing input): on the fresh volume, after `mkdir /d` and
`cd /d` the current directory is entry 2.  For the path `/x` (empty prefix)
`fat_mv` takes the root, index 0, as parent, but the parent-and-name step of
`fat_mkdir` and `fat_touch` yields the current directory 2, and both calls
return 0 having created entry 3 named `x` with `parent_entry = 2`, not 0. -/
theorem C11_empty_prefix_is_current_dir :
    vol_mkdir_d.ret = 0 ∧ vol_cd_d.ret = 0 ∧ vol_cd_d.fs.current_dir = 2 ∧
    mv_parent_and_name vol_cd_d.fs "/x".toList = some (0, "x".toList) ∧
    parent_and_name vol_cd_d.fs "/x".toList = some (2, "x".toList) ∧
    vol_mkdir_x.ret = 0 ∧ (vol_mkdir_x.fs.dir_entries 3).is_used = true ∧
    (vol_mkdir_x.fs.dir_entries 3).name = "x".toList ∧
    (vol_mkdir_x.fs.dir_entries 3).parent_entry = 2 ∧
    vol_touch_x.ret = 0 ∧ (vol_touch_x.fs.dir_entries 3).is_used = true ∧
    (vol_touch_x.fs.dir_entries 3).name = "x".toList ∧
    (vol_touch_x.fs.dir_entries 3).parent_entry = 2 := by
  decide

/-- C12 (the code at the failing input).  (1) On the fresh volume after `mkdir /d`:
`/readme.txt` resolves to the non-root entry 1, `/d/` resolves to the in-use
directory 2, which has no child named `readme.txt`; `mv /readme.txt /d/` returns
0 and sets `parent_entry = 2`, but the name of entry 1 becomes empty.  (2) With
current directory `/d` holding the file `f` (entry 3): `..` resolves to the root,
which has no child named `f`; `mv f ..` returns 0 and leaves entry 3 under
directory 2 with the name `..`. -/
theorem C12_mv_into_directory_by_path_form :
    vol_mkdir_d.ret = 0 ∧
    fat_resolve_path vol_mkdir_d.fs (some "/readme.txt".toList) = 1 ∧
    fat_resolve_path vol_mkdir_d.fs (some "/d/".toList) = 2 ∧
    (vol_mkdir_d.fs.dir_entries 2).is_used = true ∧
    (vol_mkdir_d.fs.dir_entries 2).is_dir = true ∧
    fat_find_entry vol_mkdir_d.fs (vol_mkdir_d.fs.dir_entries 1).name 2 = NOT_FOUND ∧
    vol_mv_trailing.ret = 0 ∧
    (vol_mv_trailing.fs.dir_entries 1).parent_entry = 2 ∧
    (vol_mkdir_d.fs.dir_entries 1).name = "readme.txt".toList ∧
    (vol_mv_trailing.fs.dir_entries 1).name = [] ∧
    vol_touch_f.ret = 0 ∧ vol_touch_f.fs.current_dir = 2 ∧
    fat_resolve_path vol_touch_f.fs (some "f".toList) = 3 ∧
    fat_resolve_path vol_touch_f.fs (some "..".toList) = 0 ∧
    (vol_touch_f.fs.dir_entries 0).is_used = true ∧
    (vol_touch_f.fs.dir_entries 0).is_dir = true ∧
    fat_find_entry vol_touch_f.fs (vol_touch_f.fs.dir_entries 3).name 0 = NOT_FOUND ∧
    vol_mv_dotdot.ret = 0 ∧
    (vol_mv_dotdot.fs.dir_entries 3).parent_entry = 2 ∧
    (vol_mv_dotdot.fs.dir_entries 3).name = "..".toList := by
  decide

/-- C14 (counterexample to the claim as stated): on the fresh volume with a
directory `/d` (entry 2), the path `/d/.` resolves to the non-root entry 2 and
`/b` does not resolve, its parent directory being the root; `mv /d/. /b` returns
0, but then `/b` resolves to entry 2, `/d/.` does not resolve,
`mv /b /d/.` returns -1 and the entry keeps the name `b`. -/
theorem C14_second_move_fails :
    fat_resolve_path vol_mkdir_d.fs (some "/d/.".toList) = 2 ∧
    fat_resolve_path vol_mkdir_d.fs (some "/b".toList) = NOT_FOUND ∧
    mv_parent_and_name vol_mkdir_d.fs "/b".toList = some (0, "b".toList) ∧
    (vol_mkdir_d.fs.dir_entries 0).is_dir = true ∧
    vol_mv_dot_b.ret = 0 ∧
    fat_resolve_path vol_mv_dot_b.fs (some "/b".toList) = 2 ∧
    fat_resolve_path vol_mv_dot_b.fs (some "/d/.".toList) = NOT_FOUND ∧
    vol_mv_b_dot.ret = -1 ∧
    (vol_mkdir_d.fs.dir_entries 2).name = "d".toList ∧
    (vol_mv_b_dot.fs.dir_entries 2).name = "b".toList := by
  decide

/-- C14 (amended): let the destination parsing of `fat_mv` split `a` into the
directory `pa` and the last component `na`, and `b` into `pb` and `nb`, both
last components being proper names (not empty, not `.`, not `..`) of at most
`MAX_FILENAME` bytes.  If `a` resolves to a non-root entry that is the only in-use
entry named `na` under `pa`, `pa` and `pb` are directories, `b` does not resolve,
and the parent prefixes of `a` and `b` still lead to `pa` and `pb` after the first
move, then `fat_mv (a, b)` returns 0, `fat_mv (b, a)` returns 0, and the volume is
the old one except for the `modified` time of the moved entry: its
`parent_entry` and `name` are the ones before the first move. -/
theorem C14_mv_round_trip (s : fat_fs) (now1 now2 : Nat) (a b na nb : List Char)
    (pa pb : Nat)
    (hn : s.num_entries ≤ MAX_ENTRIES)
    (ha : mv_parent_and_name s a = some (pa, na))
    (hna : na ≠ [] ∧ na ≠ ['.'] ∧ na ≠ ['.', '.'] ∧ na.length ≤ MAX_FILENAME)
    (hx : fat_resolve_path s (some a) ≠ NOT_FOUND)
    (hx0 : fat_resolve_path s (some a) ≠ 0)
    (huniq : ∀ i, i < s.num_entries → (s.dir_entries i).is_used = true →
      (s.dir_entries i).parent_entry = pa → (s.dir_entries i).name = na →
      i = fat_resolve_path s (some a))
    (hpa : (s.dir_entries pa).is_dir = true)
    (hb : mv_parent_and_name s b = some (pb, nb))
    (hnb : nb ≠ [] ∧ nb ≠ ['.'] ∧ nb ≠ ['.', '.'] ∧ nb.length ≤ MAX_FILENAME)
    (hbn : fat_resolve_path s (some b) = NOT_FOUND)
    (hpb : (s.dir_entries pb).is_dir = true)
    (ha1 : mv_parent_and_name (fat_mv s now1 (some a) (some b)).fs a = some (pa, na))
    (hb1 : mv_parent_and_name (fat_mv s now1 (some a) (some b)).fs b = some (pb, nb)) :
    (fat_mv s now1 (some a) (some b)).ret = 0 ∧
    (fat_mv (fat_mv s now1 (some a) (some b)).fs now2 (some b) (some a)).ret = 0 ∧
    (fat_mv (fat_mv s now1 (some a) (some b)).fs now2 (some b) (some a)).fs =
      set_entry s (fat_resolve_path s (some a))
        { s.dir_entries (fat_resolve_path s (some a)) with modified := now2 } ∧
    ((fat_mv (fat_mv s now1 (some a) (some b)).fs now2 (some b) (some a)).fs.dir_entries
      (fat_resolve_path s (some a))).parent_entry =
        (s.dir_entries (fat_resolve_path s (some a))).parent_entry ∧
    ((fat_mv (fat_mv s now1 (some a) (some b)).fs now2 (some b) (some a)).fs.dir_entries
      (fat_resolve_path s (some a))).name =
        (s.dir_entries (fat_resolve_path s (some a))).name := by
  obtain ⟨hna0, hna1, hna2, hnal⟩ := hna
  obtain ⟨hnb0, hnb1, hnb2, hnbl⟩ := hnb
  have hxf := resolve_by_parent s a na pa ha hna0 hna1 hna2
  have hbf : fat_find_entry s nb pb = NOT_FOUND :=
    (resolve_by_parent s b nb pb hb hnb0 hnb1 hnb2).symm.trans hbn
  have hfound := fat_find_entry_found s na pa (hxf ▸ hx)
  rw [← hxf] at hfound
  obtain ⟨hlt, hused, hpar, hname⟩ := hfound
  have hnone := fat_find_entry_not_found s nb pb hbf hn
  have h1 := fat_mv_fresh_dest s now1 a b nb pb hx hx0 hb hpb hbf
  rw [h1] at ha1 hb1 ⊢
  generalize fat_resolve_path s (some a) = x at *
  have hs1 : ∀ i, i ≠ x → (mv_apply s now1 x pb nb).dir_entries i = s.dir_entries i :=
    fun i hi => store_ne _ _ _ _ hi
  have hs1x : (mv_apply s now1 x pb nb).dir_entries x =
      { s.dir_entries x with
        parent_entry := pb, name := nb.take MAX_FILENAME, modified := now1 } :=
    store_same _ _ _
  rw [List.take_of_length_le hnbl] at hs1x
  have hsrc : fat_resolve_path (mv_apply s now1 x pb nb) (some b) = x := by
    rw [resolve_by_parent _ b nb pb hb1 hnb0 hnb1 hnb2]
    refine fat_find_entry_first _ nb pb x hlt ?_ ?_
    · rw [hs1x]; exact ⟨hused, rfl, rfl⟩
    · intro j hj
      rw [hs1 j (by omega)]
      exact hnone j (by omega)
  have hdiff : ¬ (pb = pa ∧ nb = na) := by
    rintro ⟨h3, h4⟩
    subst h3 h4
    exact hnone x hlt ⟨hused, hpar, hname⟩
  have hdst : fat_find_entry (mv_apply s now1 x pb nb) na pa = NOT_FOUND := by
    refine fat_find_entry_none _ na pa ?_
    intro j hj
    by_cases hjx : j = x
    · subst hjx
      rw [hs1x]
      rintro ⟨_, h3, h4⟩
      exact hdiff ⟨h3, h4⟩
    · rw [hs1 j hjx]
      rintro ⟨h3, h4, h5⟩
      exact hjx (huniq j hj h3 h4 h5)
  have hpa1 : ((mv_apply s now1 x pb nb).dir_entries pa).is_dir = true := by
    by_cases hpx : pa = x
    · subst hpx; rw [hs1x]; exact hpa
    · rw [hs1 pa hpx]; exact hpa
  have h2 := fat_mv_fresh_dest (mv_apply s now1 x pb nb) now2 b a na pa
    (by rw [hsrc]; exact hx) (by rw [hsrc]; exact hx0) ha1 hpa1 hdst
  rw [hsrc] at h2
  rw [h2]
  have hfs : mv_apply (mv_apply s now1 x pb nb) now2 x pa na =
      set_entry s x { s.dir_entries x with modified := now2 } := by
    show set_entry (mv_apply s now1 x pb nb) x
        { (mv_apply s now1 x pb nb).dir_entries x with
          parent_entry := pa, name := na.take MAX_FILENAME, modified := now2 } = _
    rw [hs1x, List.take_of_length_le hnal]
    unfold mv_apply set_entry
    simp only [store_store]
    rw [← hpar, ← hname]
  refine ⟨rfl, rfl, hfs, ?_, ?_⟩
  · show ((mv_apply (mv_apply s now1 x pb nb) now2 x pa na).dir_entries x).parent_entry = _
    rw [hfs]
    show (store s.dir_entries x _ x).parent_entry = _
    rw [store_same]
  · show ((mv_apply (mv_apply s now1 x pb nb) now2 x pa na).dir_entries x).name = _
    rw [hfs]
    show (store s.dir_entries x _ x).name = _
    rw [store_same]

/-- C14 (instance): on the fresh volume with a directory `/d`, `mv /readme.txt /d/r`
followed by `mv /d/r /readme.txt` returns 0 twice and puts entry 1 back under
the root with the name `readme.txt`. -/
theorem C14_mv_round_trip_witness :
    fat_resolve_path vol_mkdir_d.fs (some "/readme.txt".toList) = 1 ∧
    (fat_mv vol_mkdir_d.fs 1 (some "/readme.txt".toList) (some "/d/r".toList)).ret = 0 ∧
    (fat_mv (fat_mv vol_mkdir_d.fs 1 (some "/readme.txt".toList) (some "/d/r".toList)).fs 2
      (some "/d/r".toList) (some "/readme.txt".toList)).ret = 0 ∧
    (fat_mv (fat_mv vol_mkdir_d.fs 1 (some "/readme.txt".toList) (some "/d/r".toList)).fs 2
      (some "/d/r".toList) (some "/readme.txt".toList)).fs =
      set_entry vol_mkdir_d.fs (fat_resolve_path vol_mkdir_d.fs (some "/readme.txt".toList))
        { vol_mkdir_d.fs.dir_entries
            (fat_resolve_path vol_mkdir_d.fs (some "/readme.txt".toList)) with
          modified := 2 } ∧
    ((fat_mv (fat_mv vol_mkdir_d.fs 1 (some "/readme.txt".toList) (some "/d/r".toList)).fs 2
      (some "/d/r".toList) (some "/readme.txt".toList)).fs.dir_entries
      (fat_resolve_path vol_mkdir_d.fs (some "/readme.txt".toList))).parent_entry =
        (vol_mkdir_d.fs.dir_entries
          (fat_resolve_path vol_mkdir_d.fs (some "/readme.txt".toList))).parent_entry ∧
    ((fat_mv (fat_mv vol_mkdir_d.fs 1 (some "/readme.txt".toList) (some "/d/r".toList)).fs 2
      (some "/d/r".toList) (some "/readme.txt".toList)).fs.dir_entries
      (fat_resolve_path vol_mkdir_d.fs (some "/readme.txt".toList))).name =
        (vol_mkdir_d.fs.dir_entries
          (fat_resolve_path vol_mkdir_d.fs (some "/readme.txt".toList))).name :=
  ⟨by decide,
    C14_mv_round_trip vol_mkdir_d.fs 1 2 "/readme.txt".toList "/d/r".toList
      "readme.txt".toList "r".toList 0 2 (by decide) (by decide) (by decide) (by decide)
      (by decide) (by decide) (by decide) (by decide) (by decide) (by decide) (by decide)
      (by decide) (by decide)⟩

/-- C15: `fat_rm` reclaims the file.  For a path that resolves to a regular file
whose chain `l` is well formed, `fat_rm` returns 0 and the volume is the old one
with the chain released and the entry's `is_used` cleared, `first_block = EOC`
and `size = 0`: every block of the former chain has FAT cell FREE and zeroed
data, all other FAT cells, blocks and entries are unchanged, and the next
`fat_alloc_block` returns a block at or below every block of the former chain.
For a path that does not resolve or resolves to a directory, and for a null
path, `fat_rm` returns -1 and the volume is unchanged. -/
theorem C15_rm_reclaims_file (fuel : Nat) (s : fat_fs) (p : List Char) (l : List Nat)
    (hres : fat_resolve_path s (some p) ≠ NOT_FOUND)
    (hfile : (s.dir_entries (fat_resolve_path s (some p))).is_dir = false)
    (hch : is_chain s.fat_table l (s.dir_entries (fat_resolve_path s (some p))).first_block)
    (hfuel : l.length < fuel) :
    (∃ r, fat_rm fuel s (some p) = some r ∧ r.ret = 0 ∧
      r.fs = set_entry (clear_chain s l) (fat_resolve_path s (some p))
        { s.dir_entries (fat_resolve_path s (some p)) with
          is_used := false, first_block := FAT_EOC, size := 0 } ∧
      (r.fs.dir_entries (fat_resolve_path s (some p))).is_used = false ∧
      (r.fs.dir_entries (fat_resolve_path s (some p))).first_block = FAT_EOC ∧
      (r.fs.dir_entries (fat_resolve_path s (some p))).size = 0 ∧
      (∀ x, x ∈ l → r.fs.fat_table x = FAT_FREE ∧ ∀ k, r.fs.blocks x k = NUL) ∧
      (∀ x, x ∉ l → r.fs.fat_table x = s.fat_table x ∧ r.fs.blocks x = s.blocks x) ∧
      (∀ i, i ≠ fat_resolve_path s (some p) → r.fs.dir_entries i = s.dir_entries i) ∧
      r.fs.num_entries = s.num_entries ∧ r.fs.current_dir = s.current_dir ∧
      (∀ x, x ∈ l → (fat_alloc_block r.fs).1 ≤ x)) ∧
    (∀ q, fat_resolve_path s (some q) = NOT_FOUND ∨
        (s.dir_entries (fat_resolve_path s (some q))).is_dir = true →
      fat_rm fuel s (some q) = some ⟨-1, none, s⟩) ∧
    fat_rm fuel s none = some ⟨-1, none, s⟩ := by
  refine ⟨?_, ?_, rfl⟩
  · have hrel := release_chain_eq fuel s (fat_resolve_path s (some p)) l hch hfuel
    have hnd : ¬ ((s.dir_entries (fat_resolve_path s (some p))).is_dir = true) := by
      rw [hfile]; simp
    have hcell : ∀ x, x ∈ l → (clear_chain s l).fat_table x = FAT_FREE := by
      intro x hx
      simp [clear_chain, hx]
    refine ⟨⟨0, none, set_entry (clear_chain s l) (fat_resolve_path s (some p))
        { s.dir_entries (fat_resolve_path s (some p)) with
          is_used := false, first_block := FAT_EOC, size := 0 }⟩,
      ?_, rfl, rfl, ?_, ?_, ?_, ?_, ?_, ?_, rfl, rfl, ?_⟩
    · unfold fat_rm
      dsimp only
      rw [if_neg hres, if_neg hnd, hrel]
      rfl
    · simp only [set_entry, store_same]
    · simp only [set_entry, store_same]
    · simp only [set_entry, store_same]
    · intro x hx
      refine ⟨hcell x hx, ?_⟩
      intro k
      simp [set_entry, clear_chain, hx]
    · intro x hx
      simp [set_entry, clear_chain, hx]
    · intro i hi
      simp only [set_entry, store_ne _ _ _ _ hi]
      rfl
    · intro x hx
      apply fat_alloc_block_le
      · exact (is_chain_mem _ _ _ hch x hx).1
      · exact hcell x hx
  · intro q hq
    unfold fat_rm
    dsimp only
    rcases hq with hq | hq
    · rw [if_pos hq]
    · by_cases h1 : fat_resolve_path s (some q) = NOT_FOUND
      · rw [if_pos h1]
      · rw [if_neg h1, if_pos hq]

/-- C15 (instance): `rm /readme.txt` on the fresh volume, whose chain is block 0. -/
theorem C15_rm_reclaims_file_witness :
    fat_resolve_path (fat_init 0) (some "/readme.txt".toList) = 1 ∧
    fat_rm 2 (fat_init 0) (some "/readme.txt".toList) = some vol_rm_readme ∧
    vol_rm_readme.ret = 0 ∧ (vol_rm_readme.fs.dir_entries 1).is_used = false ∧
    vol_rm_readme.fs.fat_table 0 = FAT_FREE ∧
    ∃ r, fat_rm 2 (fat_init 0) (some "/readme.txt".toList) = some r ∧ r.ret = 0 ∧
      ∀ x, x ∈ [0] → r.fs.fat_table x = FAT_FREE ∧ ∀ k, r.fs.blocks x k = NUL := by
  refine ⟨by decide, rfl, by decide, by decide, by decide, ?_⟩
  obtain ⟨r, h1, h2, _, _, _, _, h3, _⟩ :=
    (C15_rm_reclaims_file 2 (fat_init 0) "/readme.txt".toList [0]
      (by decide) (by decide) (by decide) (by decide)).1
  exact ⟨r, h1, h2, h3⟩

/-- C16: `fat_rmdir (path)` returns 0 if and only if `path` resolves to an entry
that is a directory, is not index 0, is not `current_dir` and has no in-use entry
(below `num_entries`) whose `parent_entry` is its index; otherwise it returns -1.
On success the volume is the old one with only `is_used` of that entry cleared
(all other entries and fields, `num_entries`, the FAT, the blocks and
`current_dir` are the same); on failure the volume is unchanged.  A null path
fails. -/
theorem C16_rmdir_success_iff (s : fat_fs) (p : List Char) :
    ((fat_rmdir s (some p)).ret = 0 ↔
      (fat_resolve_path s (some p) ≠ NOT_FOUND ∧
        (s.dir_entries (fat_resolve_path s (some p))).is_dir = true ∧
        fat_resolve_path s (some p) ≠ 0 ∧
        fat_resolve_path s (some p) ≠ s.current_dir ∧
        child_free s (fat_resolve_path s (some p)))) ∧
    ((fat_rmdir s (some p)).ret = 0 ∨ (fat_rmdir s (some p)).ret = -1) ∧
    ((fat_rmdir s (some p)).ret = 0 →
      (fat_rmdir s (some p)).fs =
        set_entry s (fat_resolve_path s (some p))
          { s.dir_entries (fat_resolve_path s (some p)) with is_used := false }) ∧
    ((fat_rmdir s (some p)).ret ≠ 0 → (fat_rmdir s (some p)).fs = s) ∧
    fat_rmdir s none = ⟨-1, none, s⟩ := by
  have hcf := child_scan_false s (fat_resolve_path s (some p))
  unfold fat_rmdir
  dsimp only
  by_cases h1 : fat_resolve_path s (some p) = NOT_FOUND
  · simp [h1]
  · by_cases h2 : (s.dir_entries (fat_resolve_path s (some p))).is_dir = false
    · simp [h1, h2]
    · by_cases h3 : fat_resolve_path s (some p) = 0
      · simp [h1, h2, h3]
      · by_cases h4 : child_scan s (fat_resolve_path s (some p)) s.num_entries 0 = true
        · have hnf : ¬ child_free s (fat_resolve_path s (some p)) := by
            intro hc
            rw [hcf.2 hc] at h4
            cases h4
          simp [h1, h2, h3, h4, hnf]
        · have hf : child_free s (fat_resolve_path s (some p)) := by
            apply hcf.1
            cases hc : child_scan s (fat_resolve_path s (some p)) s.num_entries 0
            · rfl
            · exact absurd hc h4
          by_cases h5 : fat_resolve_path s (some p) = s.current_dir
          · simp [h1, h2, h3, h4, h5]
          · simp only [Bool.not_eq_false] at h2
            simp [h1, h2, h3, h4, h5, hf]

set_option maxRecDepth 100000 in
/-- C17 (counterexample to the claim as stated): on the fresh volume the path made
of the 256-byte name `long_name 'x'` has a resolving parent (the current
directory 0), no in-use sibling of that name, and `num_entries = 2 < 256`;
`fat_mkdir` returns 0, but the name stored in slot 2 is not that name. -/
theorem C17_long_name_not_stored :
    parent_and_name (fat_init 0) (long_name 'x') = some (0, long_name 'x') ∧
    fat_find_entry (fat_init 0) (long_name 'x') 0 = NOT_FOUND ∧
    (fat_init 0).num_entries < 256 ∧
    vol_long_x.ret = 0 ∧
    (vol_long_x.fs.dir_entries (fat_init 0).num_entries).name ≠ long_name 'x' := by
  decide!

/-- C17 (as amended): creation appends exactly one entry.  When the
parent-and-name step of the path yields parent index `parent` and name `name`,
no in-use sibling of that name exists there and `num_entries < 256`, `fat_mkdir`
(resp. `fat_touch`) returns 0, fills slot `num_entries` with the first 255 bytes
of the name (the whole name when it has at most 255 bytes), size 0,
`first_block = EOC`, `is_used = 1`, `is_dir = 1` (resp. 0) and
`parent_entry = parent`, increments `num_entries`, and leaves every other entry,
the FAT, the block data and `current_dir` unchanged.  When a sibling of that name
exists, `fat_mkdir` fails with `EEXIST` and changes nothing. -/
theorem C17_creation_appends_one_entry (s : fat_fs) (now : Nat) (p : List Char)
    (parent : Nat) (name : List Char)
    (hp : parent_and_name s p = some (parent, name))
    (hfree : fat_find_entry s name parent = NOT_FOUND)
    (hn : s.num_entries < MAX_ENTRIES) :
    (∀ dir, (if dir = true then fat_mkdir s now (some p) else fat_touch s now (some p)) =
        ⟨0, none, { set_entry s s.num_entries (new_entry name parent dir now) with
          num_entries := s.num_entries + 1 }⟩) ∧
    (∀ dir r, r = (if dir = true then fat_mkdir s now (some p) else fat_touch s now (some p)) →
      r.ret = 0 ∧
      (r.fs.dir_entries s.num_entries).name = name.take MAX_FILENAME ∧
      (name.length ≤ MAX_FILENAME → (r.fs.dir_entries s.num_entries).name = name) ∧
      (r.fs.dir_entries s.num_entries).size = 0 ∧
      (r.fs.dir_entries s.num_entries).first_block = FAT_EOC ∧
      (r.fs.dir_entries s.num_entries).is_used = true ∧
      (r.fs.dir_entries s.num_entries).is_dir = dir ∧
      (r.fs.dir_entries s.num_entries).parent_entry = parent ∧
      r.fs.num_entries = s.num_entries + 1 ∧
      (∀ i, i ≠ s.num_entries → r.fs.dir_entries i = s.dir_entries i) ∧
      r.fs.fat_table = s.fat_table ∧ r.fs.blocks = s.blocks ∧
      r.fs.current_dir = s.current_dir) ∧
    (∀ q par nm, parent_and_name s q = some (par, nm) →
      fat_find_entry s nm par ≠ NOT_FOUND →
      fat_mkdir s now (some q) = ⟨-1, some errno_t.EEXIST, s⟩) := by
  have hnn : ¬ (s.num_entries ≥ MAX_ENTRIES) := Nat.not_le.2 hn
  have hboth : ∀ dir,
      (if dir = true then fat_mkdir s now (some p) else fat_touch s now (some p)) =
        ⟨0, none, { set_entry s s.num_entries (new_entry name parent dir now) with
          num_entries := s.num_entries + 1 }⟩ := by
    intro dir
    cases dir
    · simp [fat_touch, hp, hfree, hnn]
    · simp [fat_mkdir, hp, hfree, hnn]
  refine ⟨hboth, ?_, ?_⟩
  · intro dir r hr
    rw [hboth dir] at hr
    subst hr
    refine ⟨rfl, ?_, ?_, ?_, ?_, ?_, ?_, ?_, rfl, ?_, rfl, rfl, rfl⟩
    · simp [set_entry, store, new_entry]
    · intro hlen
      simp [set_entry, store, new_entry, List.take_of_length_le hlen]
    · simp [set_entry, store, new_entry]
    · simp [set_entry, store, new_entry]
    · simp [set_entry, store, new_entry]
    · simp [set_entry, store, new_entry]
    · simp [set_entry, store, new_entry]
    · intro i hi
      simp [set_entry, store, hi]
  · intro q par nm hq hex
    simp [fat_mkdir, hq, hex]

/-- C17 (instance of the amended claim): `mkdir a` and `touch a` on the fresh
volume fill slot 2. -/
theorem C17_creation_appends_one_entry_witness :
    parent_and_name (fat_init 0) ['a'] = some (0, ['a']) ∧
    fat_find_entry (fat_init 0) ['a'] 0 = NOT_FOUND ∧
    (fat_init 0).num_entries < MAX_ENTRIES ∧
    ∀ dir, (if dir = true then fat_mkdir (fat_init 0) 0 (some ['a'])
        else fat_touch (fat_init 0) 0 (some ['a'])) =
      ⟨0, none, { set_entry (fat_init 0) (fat_init 0).num_entries (new_entry ['a'] 0 dir 0) with
        num_entries := (fat_init 0).num_entries + 1 }⟩ :=
  ⟨by decide, by decide, by decide,
    (C17_creation_appends_one_entry (fat_init 0) 0 ['a'] 0 ['a']
      (by decide) (by decide) (by decide)).1⟩

/-- C18: entry-table limit.  For a creating call (the parent resolves and the name
has no in-use sibling): when `num_entries = 255`, `fat_mkdir` and `fat_touch`
return 0 and produce the 256th entry: slot 255 holds an in-use entry with the
first 255 bytes of the name, the parent, size 0, no block and the clock value,
marked as a directory by `fat_mkdir` and as a file by `fat_touch`, every other
slot, the FAT, the blocks and `current_dir` are unchanged and
`num_entries = 256`; when `num_entries = 256` they return -1 with `ENOSPC` and
leave the whole volume unchanged, whatever the slots hold.  Along every
sequence of operations `num_entries` never decreases and, starting at most at
256, never exceeds 256; from the fresh volume it stays between 2 and 256. -/
theorem C18_entry_table_limit (s : fat_fs) (now : Nat) (p : List Char)
    (parent : Nat) (name : List Char)
    (hp : parent_and_name s p = some (parent, name))
    (hfree : fat_find_entry s name parent = NOT_FOUND) :
    (s.num_entries = 255 →
      (fat_mkdir s now (some p)).ret = 0 ∧ (fat_mkdir s now (some p)).fs.num_entries = 256 ∧
      (fat_mkdir s now (some p)).fs.dir_entries 255 =
        { name := name.take 255, size := 0, first_block := FAT_EOC, is_dir := true,
          is_used := true, created := now, modified := now, parent_entry := parent } ∧
      (∀ i, i ≠ 255 → (fat_mkdir s now (some p)).fs.dir_entries i = s.dir_entries i) ∧
      (fat_mkdir s now (some p)).fs.fat_table = s.fat_table ∧
      (fat_mkdir s now (some p)).fs.blocks = s.blocks ∧
      (fat_mkdir s now (some p)).fs.current_dir = s.current_dir ∧
      (fat_touch s now (some p)).ret = 0 ∧ (fat_touch s now (some p)).fs.num_entries = 256 ∧
      (fat_touch s now (some p)).fs.dir_entries 255 =
        { name := name.take 255, size := 0, first_block := FAT_EOC, is_dir := false,
          is_used := true, created := now, modified := now, parent_entry := parent } ∧
      (∀ i, i ≠ 255 → (fat_touch s now (some p)).fs.dir_entries i = s.dir_entries i) ∧
      (fat_touch s now (some p)).fs.fat_table = s.fat_table ∧
      (fat_touch s now (some p)).fs.blocks = s.blocks ∧
      (fat_touch s now (some p)).fs.current_dir = s.current_dir) ∧
    (s.num_entries = 256 →
      fat_mkdir s now (some p) = ⟨-1, some errno_t.ENOSPC, s⟩ ∧
      fat_touch s now (some p) = ⟨-1, some errno_t.ENOSPC, s⟩) ∧
    (∀ ops s2, run s ops = some s2 →
      s.num_entries ≤ s2.num_entries ∧ (s.num_entries ≤ 256 → s2.num_entries ≤ 256)) ∧
    (∀ t ops s2, run (fat_init t) ops = some s2 →
      2 ≤ s2.num_entries ∧ s2.num_entries ≤ 256) := by
  refine ⟨?_, ?_, ?_, ?_⟩
  · intro h
    have hm : fat_mkdir s now (some p) =
        ⟨0, none, { set_entry s s.num_entries (new_entry name parent true now) with
          num_entries := s.num_entries + 1 }⟩ := by
      simp [fat_mkdir, hp, hfree, h, MAX_ENTRIES]
    have ht : fat_touch s now (some p) =
        ⟨0, none, { set_entry s s.num_entries (new_entry name parent false now) with
          num_entries := s.num_entries + 1 }⟩ := by
      simp [fat_touch, hp, hfree, h, MAX_ENTRIES]
    rw [hm, ht, h]
    refine ⟨rfl, rfl, ?_, ?_, rfl, rfl, rfl, rfl, rfl, ?_, ?_, rfl, rfl, rfl⟩
    · simp [set_entry, store, new_entry, MAX_FILENAME]
    · intro i hi
      simp [set_entry, store, hi]
    · simp [set_entry, store, new_entry, MAX_FILENAME]
    · intro i hi
      simp [set_entry, store, hi]
  · intro h
    simp [fat_mkdir, fat_touch, hp, hfree, h, MAX_ENTRIES]
  · intro ops s2 h
    exact run_num_entries ops s s2 h
  · intro t ops s2 h
    obtain ⟨h1, h2⟩ := run_num_entries ops (fat_init t) s2 h
    exact ⟨h1, h2 (show (2 : Nat) ≤ 256 by decide)⟩

set_option maxRecDepth 100000 in
/-- C18 (instance): on a volume with 255 slots, `mkdir a` produces the 256th entry,
an in-use directory named `a` under the root. -/
theorem C18_entry_table_limit_witness :
    parent_and_name vol_255 ['a'] = some (0, ['a']) ∧
    fat_find_entry vol_255 ['a'] 0 = NOT_FOUND ∧ vol_255.num_entries = 255 ∧
    (fat_mkdir vol_255 0 (some ['a'])).ret = 0 ∧
    (fat_mkdir vol_255 0 (some ['a'])).fs.num_entries = 256 ∧
    (fat_mkdir vol_255 0 (some ['a'])).fs.dir_entries 255 =
      { name := ['a'], size := 0, first_block := FAT_EOC, is_dir := true,
        is_used := true, created := 0, modified := 0, parent_entry := 0 } :=
  ⟨by decide!, by decide!, rfl,
    (C18_entry_table_limit vol_255 0 ['a'] 0 ['a'] (by decide!) (by decide!)).1 rfl |>.1,
    (C18_entry_table_limit vol_255 0 ['a'] 0 ['a'] (by decide!) (by decide!)).1 rfl |>.2.1,
    (C18_entry_table_limit vol_255 0 ['a'] 0 ['a'] (by decide!) (by decide!)).1 rfl |>.2.2.1⟩

/-- C19: `fat_cd` with a null path returns 0 and sets `current_dir` to 0; with a
path that does not resolve it returns -1 with `ENOENT`, and with a path that
resolves to a non-directory it returns -1 with `ENOTDIR`, the volume being
unchanged in both cases; otherwise it returns 0 and the volume is the old one
with `current_dir` set to the resolved index. -/
theorem C19_cd_contract (s : fat_fs) (p : List Char) :
    fat_cd s none = ⟨0, none, { s with current_dir := 0 }⟩ ∧
    (fat_resolve_path s (some p) = NOT_FOUND →
      fat_cd s (some p) = ⟨-1, some errno_t.ENOENT, s⟩) ∧
    (fat_resolve_path s (some p) ≠ NOT_FOUND →
      (s.dir_entries (fat_resolve_path s (some p))).is_dir = false →
      fat_cd s (some p) = ⟨-1, some errno_t.ENOTDIR, s⟩) ∧
    (fat_resolve_path s (some p) ≠ NOT_FOUND →
      (s.dir_entries (fat_resolve_path s (some p))).is_dir = true →
      fat_cd s (some p) =
        ⟨0, none, { s with current_dir := fat_resolve_path s (some p) }⟩) := by
  refine ⟨rfl, ?_, ?_, ?_⟩
  · intro h
    simp [fat_cd, h]
  · intro h1 h2
    simp [fat_cd, h1, h2]
  · intro h1 h2
    simp [fat_cd, h1, h2]

/-- C20: root is permanent.  In every volume reached from the fresh volume by a
sequence of `fat_mkdir`, `fat_touch`, `fat_write_file`, `fat_rm`, `fat_rmdir`,
`fat_mv` and `fat_cd` calls, entry 0 is in use, is a directory, is named `/` and
has `parent_entry = 0`; hence `/..` resolves to 0 and, when `current_dir = 0`,
`..` resolves to 0. -/
theorem C20_root_is_permanent (now : Nat) (ops : List op) (s : fat_fs)
    (h : run (fat_init now) ops = some s) :
    (s.dir_entries 0).is_used = true ∧ (s.dir_entries 0).is_dir = true ∧
    (s.dir_entries 0).name = ['/'] ∧ (s.dir_entries 0).parent_entry = 0 ∧
    fat_resolve_path s (some "/..".toList) = 0 ∧
    (s.current_dir = 0 → fat_resolve_path s (some "..".toList) = 0) := by
  have h0 : root_ok (fat_init now) := ⟨rfl, rfl, rfl, rfl⟩
  have hr := run_root_ok ops (fat_init now) s h (Nat.le_succ 1) h0
  obtain ⟨h1, h2⟩ := resolve_dotdot_at_root s hr
  exact ⟨hr.1, hr.2.1, hr.2.2.1, hr.2.2.2, h1, h2⟩

/-- C20 (instance): the volume after `mkdir /a` and `mv /a /a` on the fresh volume. -/
theorem C20_root_is_permanent_witness :
    run (fat_init 0) [op.mkdir 0 (some "/a".toList),
        op.mv 0 (some "/a".toList) (some "/a".toList)] = some vol_mv_a_a.fs ∧
    (vol_mv_a_a.fs.dir_entries 0).is_used = true ∧
    (vol_mv_a_a.fs.dir_entries 0).is_dir = true ∧
    (vol_mv_a_a.fs.dir_entries 0).name = ['/'] ∧
    (vol_mv_a_a.fs.dir_entries 0).parent_entry = 0 ∧
    fat_resolve_path vol_mv_a_a.fs (some "/..".toList) = 0 ∧
    (vol_mv_a_a.fs.current_dir = 0 →
      fat_resolve_path vol_mv_a_a.fs (some "..".toList) = 0) :=
  ⟨rfl, C20_root_is_permanent 0
    [op.mkdir 0 (some "/a".toList), op.mv 0 (some "/a".toList) (some "/a".toList)]
    vol_mv_a_a.fs rfl⟩

/-- C21: `fat_alloc_block` returns the least index `i` below `MAX_BLOCKS` whose FAT
cell is FREE, and the volume afterwards is the old one with cell `i` set to EOC
(every other cell, and everything else, unchanged); if no cell below
`MAX_BLOCKS` is FREE it returns EOC (0xFFFF) and leaves the volume unchanged. -/
theorem C21_alloc_block_least_free (s : fat_fs) :
    (∀ i, i < MAX_BLOCKS → s.fat_table i = FAT_FREE →
      (∀ j, j < i → s.fat_table j ≠ FAT_FREE) →
      fat_alloc_block s = (i, { s with fat_table := store s.fat_table i FAT_EOC }) ∧
      (∀ j, j ≠ i → (fat_alloc_block s).2.fat_table j = s.fat_table j) ∧
      (fat_alloc_block s).2.fat_table i = FAT_EOC) ∧
    ((∀ i, i < MAX_BLOCKS → s.fat_table i ≠ FAT_FREE) →
      fat_alloc_block s = (FAT_EOC, s)) ∧
    FAT_EOC = 0xFFFF := by
  refine ⟨?_, ?_, rfl⟩
  · intro i hi hfree hleast
    have hscan : alloc_scan s.fat_table MAX_BLOCKS 0 = i :=
      alloc_scan_first s.fat_table i hfree MAX_BLOCKS 0 (Nat.zero_le _) (by omega)
        (fun j _ h2 => hleast j h2)
    have hne : i ≠ FAT_EOC := by
      have hM : MAX_BLOCKS = 1024 := rfl
      have hE : FAT_EOC = 65535 := rfl
      omega
    have heq : fat_alloc_block s =
        (i, { s with fat_table := store s.fat_table i FAT_EOC }) := by
      unfold fat_alloc_block
      simp [hscan, hne]
    rw [heq]
    exact ⟨rfl, fun j hj => store_ne _ _ _ _ hj, store_same _ _ _⟩
  · intro hnone
    have hscan : alloc_scan s.fat_table MAX_BLOCKS 0 = FAT_EOC :=
      alloc_scan_none s.fat_table MAX_BLOCKS 0 (fun j _ h2 => hnone j (by omega))
    unfold fat_alloc_block
    simp [hscan]

/-- C22: `fat_free_chain` frees exactly the chain.  For every head whose chain `l`
is well formed (every block a valid index with a non-FREE cell, the last cell
EOC; such a chain has no repeated block) and every iteration budget above the
chain length, `fat_free_chain (head)` returns, and afterwards every block of the
chain has FAT cell FREE and all-zero data while every FAT cell and data block
outside the chain, and the entry table, are unchanged. -/
theorem C22_free_chain_frees_exactly (fuel : Nat) (s : fat_fs) (head : Nat) (l : List Nat)
    (hch : is_chain s.fat_table l head) (hfuel : l.length < fuel) :
    l.Nodup ∧
    ∃ s1, fat_free_chain fuel s head = some s1 ∧
      (∀ x, x ∈ l → s1.fat_table x = FAT_FREE ∧ ∀ k, s1.blocks x k = NUL) ∧
      (∀ x, x ∉ l → s1.fat_table x = s.fat_table x ∧ s1.blocks x = s.blocks x) ∧
      s1.dir_entries = s.dir_entries ∧ s1.num_entries = s.num_entries ∧
      s1.current_dir = s.current_dir := by
  refine ⟨is_chain_nodup s.fat_table l head hch, clear_chain s l,
    free_loop_chain l fuel s head hch hfuel, ?_, ?_, rfl, rfl, rfl⟩
  · intro x hx
    simp [clear_chain, hx]
  · intro x hx
    simp [clear_chain, hx]

/-- C22 (instance): freeing the chain `[0]` of `readme.txt` on the fresh volume. -/
theorem C22_free_chain_frees_exactly_witness :
    is_chain (fat_init 0).fat_table [0] 0 ∧
    ∃ s1, fat_free_chain 2 (fat_init 0) 0 = some s1 ∧
      (∀ x, x ∈ [0] → s1.fat_table x = FAT_FREE ∧ ∀ k, s1.blocks x k = NUL) ∧
      (∀ x, x ∉ [0] → s1.fat_table x = (fat_init 0).fat_table x ∧
        s1.blocks x = (fat_init 0).blocks x) :=
  ⟨by decide,
    match (C22_free_chain_frees_exactly 2 (fat_init 0) 0 [0] (by decide) (by decide)).2 with
    | ⟨s1, h1, h2, h3, _⟩ => ⟨s1, h1, h2, h3⟩⟩

/-- C23 (the code at the failing input): `fat_free_chain (0)` on a volume whose
cell 0 is FREE does not return within any iteration budget: the loop reads
`next = fat_table[0] = FREE = 0` and stays on block 0.  The volume
`stale_volume` (cell 0 FREE, `readme.txt` still pointing at block 0) is what a
failed write leaves behind on the fresh volume, and every further
`fat_write_file` on `readme.txt` hangs in that loop. -/
theorem C23_free_chain_does_not_terminate :
    stale_volume.fat_table 0 = FAT_FREE ∧
    (∀ fuel, fat_free_chain fuel stale_volume 0 = none) ∧
    fat_write_file 1025 (fat_init 0) 1 big_data big_data.length 0 =
      some ⟨-1, none, stale_volume⟩ ∧
    (∀ fuel data size now, fat_write_file fuel stale_volume 1 data size now = none) := by
  refine ⟨rfl, fun fuel => free_loop_stuck fuel stale_volume rfl, ?_, ?_⟩
  · exact fresh_big_write
  · intro fuel data size now
    have hrel : release_chain fuel stale_volume 1 = none := by
      unfold release_chain fat_free_chain
      rw [if_pos (show (stale_volume.dir_entries 1).first_block ≠ FAT_EOC by decide)]
      exact free_loop_stuck fuel stale_volume rfl
    unfold fat_write_file
    rw [if_neg (show ¬ (1 ≥ stale_volume.num_entries ∨
        (stale_volume.dir_entries 1).is_used = false) by decide),
      if_neg (show ¬ ((stale_volume.dir_entries 1).is_dir = true) by decide), hrel]

/-- C24: parser bounds.  For every input line `parse_pipeline` returns
`n = *num_cmds` with `n ≤ 10`, and every returned stage `i < n` has
`1 ≤ argc ≤ 63`, a non-empty string in each of `argv[0 .. argc-1]` and
`argv[argc] = NULL`, so that no slot beyond index 63 of the 64-slot array is
written.  The returned stages are, in order, the first 10 of the `|`-separated
segments that yield at least one token: a segment that yields zero tokens does
not appear in the result.  A null line gives 0 stages. -/
theorem C24_parser_bounds (line : List Char) (cmds : Nat → command) :
    (parse_pipeline (some line) cmds).ret = (parse_pipeline (some line) cmds).num_cmds ∧
    (parse_pipeline (some line) cmds).num_cmds ≤ 10 ∧
    (∀ i, i < (parse_pipeline (some line) cmds).num_cmds →
      1 ≤ ((parse_pipeline (some line) cmds).cmds i).argc ∧
      ((parse_pipeline (some line) cmds).cmds i).argc ≤ 63 ∧
      ((parse_pipeline (some line) cmds).cmds i).argv
        ((parse_pipeline (some line) cmds).cmds i).argc = none ∧
      ∀ j, j < ((parse_pipeline (some line) cmds).cmds i).argc →
        ∃ tok, ((parse_pipeline (some line) cmds).cmds i).argv j = some tok ∧ tok ≠ []) ∧
    (stage_list (parse_pipeline (some line) cmds)).map stage_view =
      (kept_segments line).map (fun seg => stage_view (parse_stage (fun _ => none) seg)) ∧
    (∀ seg, seg ∈ kept_segments line → (parse_stage (fun _ => none) seg).argc ≠ 0) ∧
    parse_pipeline none cmds = ⟨0, cmds, 0⟩ := by
  obtain ⟨h1, h2, h3⟩ := parse_pipeline_spec line cmds
  refine ⟨by rw [h1, h2], ?_, ?_, stage_list_eq line cmds, ?_, rfl⟩
  · rw [h1]
    unfold kept_segments
    exact (List.length_take_le _ _)
  · intro i hi
    rw [h1] at hi
    have hseg : (kept_segments line)[i]? = some ((kept_segments line)[i]) :=
      List.getElem?_eq_getElem hi
    obtain ⟨slot, hs⟩ := h3 i _ hseg
    have hmem : (kept_segments line)[i] ∈ kept_segments line := List.getElem_mem hi
    have hne := mem_kept_segments line _ hmem
    obtain ⟨hlen, hprops⟩ := stage_tokens_props ((kept_segments line)[i])
    rw [hs, parse_stage_eq]
    simp only
    refine ⟨?_, hlen, store_same _ _ _, ?_⟩
    · cases hT : stage_tokens ((kept_segments line)[i]) with
      | nil => exact absurd hT hne
      | cons t ts => simp
    · intro j hj
      obtain ⟨t, ht1, ht2⟩ := fill_argv_get _ slot 0 j hj
      rw [Nat.zero_add] at ht2
      exact ⟨t, by rw [store_ne _ _ _ _ (Nat.ne_of_lt hj), ht2], (hprops t ht1).1⟩
  · intro seg hseg
    have hne := mem_kept_segments line seg hseg
    have := (parse_stage_argc_pos (fun _ => none) seg).2 hne
    omega

/-- C25 (counterexample to the claim as stated): the stage `a >> x >> y` contains
`>>` twice; the rightmost one is followed by the token `y` (the text after it is
` y`, which contains no further `>>`), but `parse_pipeline` yields
`output_file = x`, the token after the leftmost `>>`, with `append = 1` and
`argv = [a]`. -/
theorem C25_leftmost_append_marker_wins :
    "a >> x >> y".toList = "a >> x ".toList ++ '>' :: '>' :: " y".toList ∧
    ¬ ['>', '>'] <:+: " y".toList ∧ first_word " y".toList = ['y'] ∧
    (parse_stage (fun _ => none) "a >> x >> y".toList).output_file = some ['x'] ∧
    (parse_stage (fun _ => none) "a >> x >> y".toList).append = 1 ∧
    argv_list (parse_stage (fun _ => none) "a >> x >> y".toList) = [some ['a']] ∧
    (parse_pipeline (some "a >> x >> y".toList) no_cmds).num_cmds = 1 ∧
    ((parse_pipeline (some "a >> x >> y".toList) no_cmds).cmds 0).output_file = some ['x'] := by
  decide

/-- C25 (amended): for every stage text without `<`, taken without its leading and
trailing white space: if it contains `>>`, the leftmost `>>` is used:
`output_file` is the white-space-delimited token that follows the leftmost `>>`,
`append` is 1 and the arguments are the tokens of the text before that marker;
only when the stage contains no `>>` is the first `>` used, in the same way, with
`append = 0`; without any `>` there is no `output_file` and `append = 0`. -/
theorem C25_output_marker (slot : Nat → Option (List Char)) (text : List Char)
    (hlt : '<' ∉ text) (hn : NUL ∉ text) :
    (∀ pre post, trim text = pre ++ '>' :: '>' :: post → ¬ ['>', '>'] <:+: pre ++ ['>'] →
      (parse_stage slot text).output_file = some (first_word post) ∧
      (parse_stage slot text).append = 1 ∧
      argv_list (parse_stage slot text) =
        ((runs [' ', '\t'] (rstrip pre)).take 63).map some) ∧
    (¬ ['>', '>'] <:+: trim text →
      ∀ pre post, trim text = pre ++ '>' :: post → '>' ∉ pre →
        (parse_stage slot text).output_file = some (first_word post) ∧
        (parse_stage slot text).append = 0 ∧
        argv_list (parse_stage slot text) =
          ((runs [' ', '\t'] (rstrip pre)).take 63).map some) ∧
    ('>' ∉ text →
      (parse_stage slot text).output_file = none ∧ (parse_stage slot text).append = 0) := by
  have hnt : NUL ∉ trim text := fun hm => hn (mem_trim text NUL hm)
  refine ⟨?_, ?_, ?_⟩
  · intro pre post ht hfirst
    obtain ⟨Z, hs, hZ⟩ := stage_redirs_append text pre post hlt hn ht hfirst
    have hc : NUL ∉ rstrip pre := fun hm =>
      hnt (by rw [ht]; simp [mem_rstrip pre NUL hm])
    have htok := stage_tokens_of_redirs text _ Z _ _ _ hs hc hZ
    rw [argv_list_parse_stage, htok, parse_stage_eq, hs]
    exact ⟨rfl, rfl, rfl⟩
  · intro hno pre post ht hpre
    obtain ⟨Z, hs, hZ⟩ := stage_redirs_out text pre post hlt hn ht hpre hno
    have hc : NUL ∉ rstrip pre := fun hm =>
      hnt (by rw [ht]; simp [mem_rstrip pre NUL hm])
    have htok := stage_tokens_of_redirs text _ Z _ _ _ hs hc hZ
    rw [argv_list_parse_stage, htok, parse_stage_eq, hs]
    exact ⟨rfl, rfl, rfl⟩
  · intro hgt
    obtain ⟨z, hs, _⟩ := stage_redirs_plain text hlt hgt hn
    rw [parse_stage_eq, hs]
    exact ⟨rfl, rfl⟩

/-- C25 (instance of the amended claim): in `a >> x >> y` the leftmost `>>` stands
after `a ` and is followed by ` x >> y`, whose first token is `x`. -/
theorem C25_output_marker_witness :
    (parse_stage (fun _ => none) "a >> x >> y".toList).output_file =
      some (first_word " x >> y".toList) ∧
    (parse_stage (fun _ => none) "a >> x >> y".toList).append = 1 ∧
    argv_list (parse_stage (fun _ => none) "a >> x >> y".toList) =
      ((runs [' ', '\t'] (rstrip "a ".toList)).take 63).map some :=
  (C25_output_marker (fun _ => none) "a >> x >> y".toList (by decide) (by decide)).1
    "a ".toList " x >> y".toList (by decide) (by decide)

set_option maxRecDepth 100000 in
/-- C26 (counterexamples to the claim as stated): (1) with 64 words `w`, all
free of `<`, `>`, `|` and white space, the line `w w .. w < i > o` is of the
form `words < in > out`, but `parse_pipeline` yields `argc = 63`: the argument
list holds the first 63 words and is not `words`.  (2) In the stage `a > x >> y`
the first `>` stands after `a ` and is followed by the token `x`, yet
`output_file` is `y`, the token after the later `>>`, with `append = 1`; the first
`>` and `x` are left among the arguments.  Likewise `a < i > x >> y`, which is
`words < in > out` followed by ` >> y`, has `output_file = y`. -/
theorem C26_word_limit_and_later_append_marker :
    (List.replicate 64 ['w']).length = 64 ∧
    (∀ w, w ∈ List.replicate 64 ['w'] → plain_word w) ∧
    (parse_pipeline (some (unwords (List.replicate 64 ['w']) ++ " < i > o".toList))
      no_cmds).num_cmds = 1 ∧
    ((parse_pipeline (some (unwords (List.replicate 64 ['w']) ++ " < i > o".toList))
      no_cmds).cmds 0).argc = 63 ∧
    argv_list ((parse_pipeline (some (unwords (List.replicate 64 ['w']) ++ " < i > o".toList))
      no_cmds).cmds 0) = List.replicate 63 (some ['w']) ∧
    argv_list ((parse_pipeline (some (unwords (List.replicate 64 ['w']) ++ " < i > o".toList))
      no_cmds).cmds 0) ≠ (List.replicate 64 ['w']).map some ∧
    "a > x >> y".toList = "a ".toList ++ '>' :: " x >> y".toList ∧
    '>' ∉ "a ".toList ∧ first_word " x >> y".toList = ['x'] ∧
    (parse_pipeline (some "a > x >> y".toList) no_cmds).num_cmds = 1 ∧
    (stage_list (parse_pipeline (some "a > x >> y".toList) no_cmds)).map stage_view =
      [([some ['a'], some ['>'], some ['x']], none, some ['y'], 1)] ∧
    "a < i > x >> y".toList = unwords [['a']] ++ " < i > x".toList ++ " >> y".toList ∧
    (stage_list (parse_pipeline (some "a < i > x >> y".toList) no_cmds)).map stage_view =
      [([some ['a']], some ['i'], some ['y'], 1)] := by
  refine ⟨?_, ?_, ?_, ?_, ?_, ?_, ?_, ?_, ?_, ?_, ?_, ?_, ?_⟩ <;> decide!

/-- C26 (amended): redirection extraction is order-independent.  Let `ws` be a
non-empty list of words and `in`, `out` two words, all non-empty and free of `<`,
`>`, `|`, white space and NUL, joined by single spaces; let the output marker be
`>` (`mk` empty) or `>>` (`mk` is `>`); and let `rest` be any further text, empty
or beginning with white space, free of `|` and NUL, which may repeat the markers
(but holds no `>>` when the output marker is `>`).  For the line
`words < in > out rest` and for the line `words > out < in rest`, `parse_pipeline`
yields one stage whose `argv` is the first 63 words (all of `words` when there are
at most 63), with `input_file = in`, `output_file = out` and `append = 0` for `>`,
1 for `>>`: only the first `<` and the first output marker determine the files.
For every stage text, the token after the first `<` is the `input_file`.  In a
stage without `<`, the token after the leftmost `>>` is the `output_file`, with
`append = 1`; only without any `>>` is it the token after the first `>`, with
`append = 0`. -/
theorem C26_redirections_order_independent (cmds : Nat → command)
    (ws : List (List Char)) (i o mk R : List Char)
    (hws : ws ≠ []) (hall : ∀ w, w ∈ ws → plain_word w)
    (hi : plain_word i) (ho : plain_word o) (hmk : mk = [] ∨ mk = ['>'])
    (hR : ∀ c r, R = c :: r → isspace c = true) (hRn : NUL ∉ R) (hRb : '|' ∉ R)
    (hRa : mk = [] → ¬ ['>', '>'] <:+: R) :
    ((parse_pipeline
        (some (unwords ws ++ ' ' :: '<' :: ' ' :: (i ++ ' ' :: '>' :: (mk ++ ' ' :: (o ++ R)))))
        cmds).num_cmds = 1 ∧
      (stage_list (parse_pipeline
        (some (unwords ws ++ ' ' :: '<' :: ' ' :: (i ++ ' ' :: '>' :: (mk ++ ' ' :: (o ++ R)))))
        cmds)).map stage_view = [((ws.take 63).map some, some i, some o, mk.length)]) ∧
    ((parse_pipeline
        (some (unwords ws ++ ' ' :: '>' :: (mk ++ ' ' :: (o ++ ' ' :: '<' :: ' ' :: (i ++ R)))))
        cmds).num_cmds = 1 ∧
      (stage_list (parse_pipeline
        (some (unwords ws ++ ' ' :: '>' :: (mk ++ ' ' :: (o ++ ' ' :: '<' :: ' ' :: (i ++ R)))))
        cmds)).map stage_view = [((ws.take 63).map some, some i, some o, mk.length)]) ∧
    (ws.length ≤ 63 → (ws.take 63).map some = ws.map some) ∧
    (∀ slot text pre post, NUL ∉ text → trim text = pre ++ '<' :: post → '<' ∉ pre →
      (parse_stage slot text).input_file = some (first_word post)) ∧
    (∀ slot text pre post, NUL ∉ text → '<' ∉ text →
      trim text = pre ++ '>' :: '>' :: post → ¬ ['>', '>'] <:+: pre ++ ['>'] →
      (parse_stage slot text).output_file = some (first_word post) ∧
      (parse_stage slot text).append = 1) ∧
    (∀ slot text pre post, NUL ∉ text → '<' ∉ text → ¬ ['>', '>'] <:+: trim text →
      trim text = pre ++ '>' :: post → '>' ∉ pre →
      (parse_stage slot text).output_file = some (first_word post) ∧
      (parse_stage slot text).append = 0) := by
  obtain ⟨⟨c, cs, hW, hhead⟩, hWlast, hWn, hWlt, hWgt, hWbar, hruns⟩ := unwords_ok ws hws hall
  have hiN : NUL ∉ i := fun hm => (hi.2 _ hm).2.1 rfl
  have hoN : NUL ∉ o := fun hm => (ho.2 _ hm).2.1 rfl
  have hiB : '|' ∉ i := fun hm => (hi.2 _ hm).2.2.2.2 rfl
  have hoB : '|' ∉ o := fun hm => (ho.2 _ hm).2.2.2.2 rfl
  have hmkN : NUL ∉ mk := by rcases hmk with rfl | rfl <;> decide
  have hmkB : '|' ∉ mk := by rcases hmk with rfl | rfl <;> decide
  have n1 : NUL ≠ ' ' := by decide
  have n2 : NUL ≠ '<' := by decide
  have n3 : NUL ≠ '>' := by decide
  have hne : ws.take 63 ≠ [] := by
    cases ws with
    | nil => exact absurd rfl hws
    | cons w ws => simp
  refine ⟨?_, ?_, ?_, ?_, ?_, ?_⟩
  · obtain ⟨Z, hs, hZ⟩ := stage_form_in_out ws i o mk R hws hall hi ho hmk hR hRn hRa
    have htok := stage_tokens_of_redirs _ _ Z _ _ _ hs hWn hZ
    rw [hruns] at htok
    have h := single_stage
      (unwords ws ++ ' ' :: '<' :: ' ' :: (i ++ ' ' :: '>' :: (mk ++ ' ' :: (o ++ R)))) cmds
      (by simp) (by simp [hWn, hiN, hoN, hmkN, hRn, n1, n2, n3])
      (by simp [hWbar, hiB, hoB, hmkB, hRb]) (by rw [htok]; exact hne)
    rw [htok, hs] at h
    exact h
  · obtain ⟨Z, hs, hZ⟩ := stage_form_out_in ws i o mk R hws hall hi ho hmk hR hRn hRa
    have htok := stage_tokens_of_redirs _ _ Z _ _ _ hs hWn hZ
    rw [hruns] at htok
    have h := single_stage
      (unwords ws ++ ' ' :: '>' :: (mk ++ ' ' :: (o ++ ' ' :: '<' :: ' ' :: (i ++ R)))) cmds
      (by simp) (by simp [hWn, hiN, hoN, hmkN, hRn, n1, n2, n3])
      (by simp [hWbar, hiB, hoB, hmkB, hRb]) (by rw [htok]; exact hne)
    rw [htok, hs] at h
    exact h
  · intro h
    rw [List.take_of_length_le h]
  · intro slot text pre post hn ht hpre
    rw [parse_stage_eq]
    exact stage_redirs_input text pre post hn ht hpre
  · intro slot text pre post hn hlt ht hfirst
    obtain ⟨Z, hs, _⟩ := stage_redirs_append text pre post hlt hn ht hfirst
    rw [parse_stage_eq, hs]
    exact ⟨rfl, rfl⟩
  · intro slot text pre post hn hlt hno ht hpre
    obtain ⟨Z, hs, _⟩ := stage_redirs_out text pre post hlt hn ht hpre hno
    rw [parse_stage_eq, hs]
    exact ⟨rfl, rfl⟩

/-- C26 (instance of the amended claim): in `w1 w2 < in > out > out2 < in2` the
first `<` and the first `>` determine the files, and `w1 w2 >> out < in` is read
like `w1 w2 < in >> out`, with `append = 1`. -/
theorem C26_redirections_order_independent_witness :
    (stage_list (parse_pipeline (some "w1 w2 < in > out > out2 < in2".toList)
      no_cmds)).map stage_view =
      [([some "w1".toList, some "w2".toList], some "in".toList, some "out".toList, 0)] ∧
    (stage_list (parse_pipeline (some "w1 w2 >> out < in".toList) no_cmds)).map stage_view =
      [([some "w1".toList, some "w2".toList], some "in".toList, some "out".toList, 1)] :=
  ⟨(C26_redirections_order_independent no_cmds ["w1".toList, "w2".toList] "in".toList
      "out".toList [] " > out2 < in2".toList (by decide) (by decide) (by decide) (by decide)
      (Or.inl rfl) (fun c r h => by cases h; rfl) (by decide) (by decide) (by decide)).1.2,
    (C26_redirections_order_independent no_cmds ["w1".toList, "w2".toList] "in".toList
      "out".toList ['>'] [] (by decide) (by decide) (by decide) (by decide)
      (Or.inr rfl) (fun c r h => by cases h) (by decide) (by decide) (by decide)).2.1.2⟩

/-- C27 (counterexample to the claim as stated): the stage text `ls\r` contains no
`<` and no `>`; its only maximal run of characters other than space and tab is
`ls\r`, but the parsed `argv` is the single string `ls`, because the stage is
trimmed with `isspace` before it is tokenised. -/
theorem C27_carriage_return_is_trimmed :
    '<' ∉ ['l', 's', '\r'] ∧ '>' ∉ ['l', 's', '\r'] ∧
    (runs [' ', '\t'] ['l', 's', '\r']).take 63 = [['l', 's', '\r']] ∧
    argv_list (parse_stage (fun _ => none) ['l', 's', '\r']) = [some ['l', 's']] := by
  decide

/-- C27 (amended): tokenisation.  For every stage text containing no `<` and no
`>`, the parsed `argv` is exactly the sequence, in order, of the maximal runs
of characters other than space and tab in the text with its leading and
trailing white space (`isspace`: space, `\t`, `\n`, `\v`, `\f`, `\r`) removed,
cut to the first 63, followed by `NULL`; `input_file` and `output_file` are null
and `append = 0`.  When space and tab are the only white space in the text these
are the runs of the text itself. -/
theorem C27_tokenisation (slot : Nat → Option (List Char)) (text : List Char)
    (h1 : '<' ∉ text) (h2 : '>' ∉ text) (h3 : NUL ∉ text) :
    argv_list (parse_stage slot text) =
      ((runs [' ', '\t'] (trim text)).take 63).map some ∧
    (parse_stage slot text).argc = ((runs [' ', '\t'] (trim text)).take 63).length ∧
    (parse_stage slot text).argv (parse_stage slot text).argc = none ∧
    (parse_stage slot text).input_file = none ∧
    (parse_stage slot text).output_file = none ∧
    (parse_stage slot text).append = 0 ∧
    ((∀ c, c ∈ text → isspace c = true → c ∈ [' ', '\t']) →
      argv_list (parse_stage slot text) = ((runs [' ', '\t'] text).take 63).map some) := by
  have ht := stage_tokens_plain text h1 h2 h3
  obtain ⟨z, hs, _⟩ := stage_redirs_plain text h1 h2 h3
  have hv := argv_list_parse_stage slot text
  rw [ht] at hv
  refine ⟨hv, ?_, ?_, ?_, ?_, ?_, ?_⟩
  · rw [parse_stage_eq, ht]
  · rw [parse_stage_eq]
    exact store_same _ _ _
  · rw [parse_stage_eq, hs]
  · rw [parse_stage_eq, hs]
  · rw [parse_stage_eq, hs]
  · intro hws
    rw [hv, runs_trim text hws]

/-- C27 (instance of the amended claim): the stage text ` ls  -l` followed by a tab
and `/d` and a space. -/
theorem C27_tokenisation_witness :
    argv_list (parse_stage (fun _ => none) " ls  -l\t/d ".toList) =
      ((runs [' ', '\t'] (trim " ls  -l\t/d ".toList)).take 63).map some ∧
    (runs [' ', '\t'] (trim " ls  -l\t/d ".toList)).take 63 =
      ["ls".toList, "-l".toList, "/d".toList] :=
  ⟨(C27_tokenisation (fun _ => none) " ls  -l\t/d ".toList (by decide) (by decide)
    (by decide)).1, by decide⟩

/-- C28 (the code at the failing input): a single-stage command with `> /out` on the
fresh volume whose output `ab` reaches the capture loop as the two reads `a` and
`b` (each at most 4096 bytes).  The loop calls `write_buffer_to_vfs` once per
read, and with the append flag clear every call replaces the file: afterwards
`/out` (entry 2) has size 1 and holds `b` only, not `ab`.  With the append flag
set the same reads leave `ab`. -/
theorem C28_capture_keeps_last_read_only :
    (capture_loop 4 0 0 (fun _ => 'j') (some "/out".toList) 0 (fat_init 0)
      [['a'], ['b']]).isSome = true ∧
    fat_resolve_path vol_capture_ab (some "/out".toList) = 2 ∧
    fat_read_file vol_capture_ab (fun _ => 'j') 2 = some ['b', NUL] ∧
    (vol_capture_ab.dir_entries 2).size = 1 ∧
    fat_read_file vol_capture_ab (fun _ => 'j') 2 ≠ some (['a'] ++ ['b'] ++ [NUL]) ∧
    fat_read_file vol_capture_ab_append (fun _ => 'j') 2 = some (['a'] ++ ['b'] ++ [NUL]) := by
  decide

/-- C29 (the code at the failing input): `readme.txt` holds the three bytes `a`,
NUL, `b`.  `write_buffer_to_vfs ("/readme.txt", "c", 1, append = 1)` returns 0,
but takes the length of the existing content with `strlen`: afterwards the file
has size 2 and holds `ac`, not the old content followed by `c` (size 4).  For
content without a NUL byte the call does prefix it: `hello\n` written with `>`
and `world\n` with `>>` leave `hello\nworld\n` in `/greet`. -/
theorem C29_append_cuts_content_at_nul :
    fat_read_file vol_binary (fun _ => 'j') 1 = some (['a', NUL, 'b'] ++ [NUL]) ∧
    (vol_binary.dir_entries 1).size = 3 ∧
    (write_buffer_to_vfs 4 vol_binary 0 0 (fun _ => 'j') (some "/readme.txt".toList)
      ['c'] 1 1).map (fun r => r.ret) = some 0 ∧
    fat_read_file vol_binary_append (fun _ => 'j') 1 = some (['a', 'c'] ++ [NUL]) ∧
    (vol_binary_append.dir_entries 1).size = 2 ∧
    fat_read_file vol_binary_append (fun _ => 'j') 1 ≠
      some (['a', NUL, 'b'] ++ ['c'] ++ [NUL]) ∧
    fat_resolve_path vol_hello_world (some "/greet".toList) = 2 ∧
    fat_read_file vol_hello_world (fun _ => 'j') 2 =
      some ("hello\n".toList ++ "world\n".toList ++ [NUL]) := by
  decide

/-- C30 (counterexample to the claim as stated): `readme.txt` holds the three bytes
`a`, NUL, `b`.  The only line of this content contains the pattern `b`, so the
claim has `fat_grep ("b", "/readme.txt")` print it; the code prints nothing,
because it reads the content as a C string, which ends at the NUL byte.  (The
claim also fails for the empty pattern, which no argument of a parsed command
can be: on the content `a`, empty line, `b` every line contains it, and the
code prints `a` and `b` only.) -/
theorem C30_content_is_read_as_c_string :
    fat_resolve_path vol_binary (some "/readme.txt".toList) = 1 ∧
    (vol_binary.dir_entries 1).is_dir = false ∧
    fat_read_file vol_binary (fun _ => 'j') 1 = some (['a', NUL, 'b'] ++ [NUL]) ∧
    ['a', NUL, 'b'].splitOn '\n' = [['a', NUL, 'b']] ∧
    grep_reference ['b'] ['a', NUL, 'b'] = ['a', NUL, 'b', '\n'] ∧
    fat_grep vol_binary (fun _ => 'j') (some ['b']) (some "/readme.txt".toList) = [] ∧
    fat_grep_stdin vol_binary (fun _ => 'j') [] (some ['b']) (some "/readme.txt".toList) = [] ∧
    fat_read_file vol_blank_line (fun _ => 'j') 1 = some ("a\n\nb\n".toList ++ [NUL]) ∧
    grep_reference [] "a\n\nb\n".toList = "a\n\nb\n\n".toList ∧
    fat_grep vol_blank_line (fun _ => 'j') (some []) (some "/readme.txt".toList) =
      "a\nb\n".toList := by
  decide

/-- C30 (amended): for a non-empty pattern, `fat_grep (pattern, file)` on a regular
file whose content has no NUL byte prints, in order and each followed by a
newline, exactly those lines of the content (the segments obtained by splitting
on `\n`) that contain `pattern` as a substring; the copy in `shell_builtins.c`
does so for every file name other than `-`. -/
theorem C30_grep_prints_matching_lines (s : fat_fs) (junk : Nat → Char)
    (stdin pat f content : List Char)
    (hres : fat_resolve_path s (some f) ≠ NOT_FOUND)
    (hfile : (s.dir_entries (fat_resolve_path s (some f))).is_dir = false)
    (hread : fat_read_file s junk (fat_resolve_path s (some f)) = some (content ++ [NUL]))
    (hn : NUL ∉ content) (hp : pat ≠ []) :
    fat_grep s junk (some pat) (some f) = grep_reference pat content ∧
    (f ≠ ['-'] →
      fat_grep_stdin s junk stdin (some pat) (some f) = grep_reference pat content) := by
  have hc : cstr (content ++ [NUL]) = content := by
    rw [cstr_append _ _ hn, cstr_nul_cons, List.append_nil]
  have hd : ¬ ((s.dir_entries (fat_resolve_path s (some f))).is_dir = true) := by
    rw [hfile]; simp
  have hloop := grep_loop_eq pat (content.length + 1) content [] hn (Nat.lt_succ_self _)
  rw [List.nil_append, grep_lines_eq_reference pat content hp] at hloop
  refine ⟨?_, ?_⟩
  · unfold fat_grep
    simp only [hres, hd, if_false, hread, hc]
    exact hloop
  · intro hf
    unfold fat_grep_stdin
    have hsel : ¬ (some f = none ∨ some f = some ['-']) := by
      intro h
      rcases h with h | h
      · cases h
      · exact hf (Option.some.inj h)
    simp only [hsel, hres, hd, if_false, hread, hc]
    exact hloop

/-- C30 (instance of the amended claim): on the initial readme the pattern `virtual`
prints only `This is a virtual FAT file system.` and the pattern `foo` prints
nothing. -/
theorem C30_grep_prints_matching_lines_witness :
    fat_grep (fat_init 0) (fun _ => 'j') (some "virtual".toList) (some "/readme.txt".toList) =
      grep_reference "virtual".toList readme_content ∧
    grep_reference "virtual".toList readme_content =
      "This is a virtual FAT file system.\n".toList ∧
    fat_grep (fat_init 0) (fun _ => 'j') (some "foo".toList) (some "/readme.txt".toList) =
      grep_reference "foo".toList readme_content ∧
    grep_reference "foo".toList readme_content = [] ∧
    fat_grep_stdin (fat_init 0) (fun _ => 'j') [] (some "virtual".toList)
      (some "/readme.txt".toList) = "This is a virtual FAT file system.\n".toList :=
  ⟨(C30_grep_prints_matching_lines (fat_init 0) (fun _ => 'j') [] "virtual".toList
      "/readme.txt".toList readme_content (by decide) (by decide) (by decide) (by decide)
      (by decide)).1,
    by decide,
    (C30_grep_prints_matching_lines (fat_init 0) (fun _ => 'j') [] "foo".toList
      "/readme.txt".toList readme_content (by decide) (by decide) (by decide) (by decide)
      (by decide)).1,
    by decide, by decide⟩

/-- C31 (defect): `readme.txt` holds the text `a`, empty line, `b`.  Its first two
lines are `a` and the empty line, so `head -n 2 /readme.txt` should print `a`,
newline, newline; `fat_head (2, "/readme.txt")` prints `a` and `b`, the first and
the third line: the loop under the comment "Split into lines and print first N"
takes its lines with `strtok`, which never yields an empty line. -/
theorem C31_head_skips_blank_lines :
    fat_resolve_path vol_blank_mid (some "/readme.txt".toList) = 1 ∧
    (vol_blank_mid.dir_entries 1).is_dir = false ∧
    fat_read_file vol_blank_mid (fun _ => 'j') 1 = some ("a\n\nb".toList ++ [NUL]) ∧
    "a\n\nb".toList.splitOn '\n' = [['a'], [], ['b']] ∧
    head_reference 2 "a\n\nb".toList = "a\n\n".toList ∧
    fat_head vol_blank_mid (fun _ => 'j') 2 (some "/readme.txt".toList) = "a\nb\n".toList ∧
    fat_head vol_blank_mid (fun _ => 'j') 2 (some "/readme.txt".toList) ≠
      head_reference 2 "a\n\nb".toList ∧
    argv_list ((parse_pipeline (some "head -n 2 /readme.txt".toList) no_cmds).cmds 0) =
      [some "head".toList, some "-n".toList, some "2".toList, some "/readme.txt".toList] ∧
    builtin_head vol_blank_mid (fun _ => 'j') 4
      ((parse_pipeline (some "head -n 2 /readme.txt".toList) no_cmds).cmds 0).argv =
      (0, "a\nb\n".toList) := by
  decide

/-- C32 (defect): `readme.txt` holds the text `a`, empty line, `b`.  Its last two
lines are the empty line and `b`, so `tail -n 2 /readme.txt` should print
newline, `b`, newline; `fat_tail (2, "/readme.txt")` prints `a` and `b`: the
loops under the comments "Count total lines first" and "Print from start_line
to end" take their lines with `strtok`, which never yields an empty line, so
the blank line is neither counted nor printed. -/
theorem C32_tail_skips_blank_lines :
    fat_resolve_path vol_blank_mid (some "/readme.txt".toList) = 1 ∧
    (vol_blank_mid.dir_entries 1).is_dir = false ∧
    fat_read_file vol_blank_mid (fun _ => 'j') 1 = some ("a\n\nb".toList ++ [NUL]) ∧
    "a\n\nb".toList.splitOn '\n' = [['a'], [], ['b']] ∧
    tail_reference 2 "a\n\nb".toList = "\nb\n".toList ∧
    fat_tail vol_blank_mid (fun _ => 'j') 2 (some "/readme.txt".toList) = "a\nb\n".toList ∧
    fat_tail vol_blank_mid (fun _ => 'j') 2 (some "/readme.txt".toList) ≠
      tail_reference 2 "a\n\nb".toList ∧
    argv_list ((parse_pipeline (some "tail -n 2 /readme.txt".toList) no_cmds).cmds 0) =
      [some "tail".toList, some "-n".toList, some "2".toList, some "/readme.txt".toList] ∧
    builtin_tail vol_blank_mid (fun _ => 'j') 4
      ((parse_pipeline (some "tail -n 2 /readme.txt".toList) no_cmds).cmds 0).argv =
      (0, "a\nb\n".toList) := by
  decide

/-- C33: size and first block stay consistent.  In every state reachable from the
fresh volume by a sequence of `fat_mkdir`, `fat_touch`, `fat_write_file`
(successful or failed), `fat_rm`, `fat_rmdir`, `fat_mv` and `fat_cd` calls, every
in-use regular file has `first_block = EOC` exactly when its size is 0, and every
directory has `first_block = EOC` and size 0.  The size of each `fat_write_file`
call is the length of a buffer, so that the rounding-up sum `size + 511` does
not wrap in `size_t` (`op_size_fits`). -/
theorem C33_size_first_block_consistent (now : Nat) (ops : List op) (s : fat_fs)
    (hrun : run (fat_init now) ops = some s) (hfit : ∀ o, o ∈ ops → op_size_fits o) :
    ∀ i,
      ((s.dir_entries i).is_used = true → (s.dir_entries i).is_dir = false →
        ((s.dir_entries i).first_block = FAT_EOC ↔ (s.dir_entries i).size = 0)) ∧
      ((s.dir_entries i).is_dir = true →
        (s.dir_entries i).first_block = FAT_EOC ∧ (s.dir_entries i).size = 0) :=
  run_size_block_ok ops (fat_init now) s hrun hfit (size_block_ok_init now)

/-- C33 (instance): the state after `mkdir /d`, `touch /d/f`, a
write of `hi` to the new entry 3, `mv /d/f /g` and `rm /readme.txt`; entry 3 is
an in-use file of size 2 whose chain starts at block 1. -/
theorem C33_size_first_block_consistent_witness :
    (vol_session.dir_entries 3).is_used = true ∧ (vol_session.dir_entries 3).size = 2 ∧
    (vol_session.dir_entries 3).first_block = 1 ∧
    ∀ i,
      ((vol_session.dir_entries i).is_used = true → (vol_session.dir_entries i).is_dir = false →
        ((vol_session.dir_entries i).first_block = FAT_EOC ↔
          (vol_session.dir_entries i).size = 0)) ∧
      ((vol_session.dir_entries i).is_dir = true →
        (vol_session.dir_entries i).first_block = FAT_EOC ∧
          (vol_session.dir_entries i).size = 0) :=
  ⟨by decide, by decide, by decide,
    C33_size_first_block_consistent 0
      [op.mkdir 0 (some "/d".toList), op.touch 0 (some "/d/f".toList),
        op.write_file 4 3 "hi".toList 2 0, op.mv 0 (some "/d/f".toList) (some "/g".toList),
        op.rm 4 (some "/readme.txt".toList)]
      vol_session rfl (by decide)⟩

/-- C34 (defect): the `is_shell_builtin` that `include/shell.h` declares for
`command_exec.c` (the one at the head of `shell_builtins.c`) returns non-zero
exactly for `cd`, `exit`, `history`, `jobs`, `ls`, `cat`, `mkdir`, `touch`, `pwd`
and `grep`: it returns 0 for `rm`, `rmdir`, `mv`, `head` and `tail`, so a stage
such as `rm /readme.txt` is handed to `execvp` on the host.  The copy of
`is_shell_builtin` in the second part of the same file returns non-zero exactly
for the fifteen names of the built-in set. -/
theorem C34_builtin_table_misses_five_names :
    (∀ c, is_shell_builtin (some c) ≠ 0 ↔
      c ∈ ["cd".toList, "exit".toList, "history".toList, "jobs".toList, "ls".toList,
        "cat".toList, "mkdir".toList, "touch".toList, "pwd".toList, "grep".toList]) ∧
    is_shell_builtin (some "rm".toList) = 0 ∧ is_shell_builtin (some "rmdir".toList) = 0 ∧
    is_shell_builtin (some "mv".toList) = 0 ∧ is_shell_builtin (some "head".toList) = 0 ∧
    is_shell_builtin (some "tail".toList) = 0 ∧
    (parse_pipeline (some "rm /readme.txt".toList) no_cmds).num_cmds = 1 ∧
    argv_list ((parse_pipeline (some "rm /readme.txt".toList) no_cmds).cmds 0) =
      [some "rm".toList, some "/readme.txt".toList] ∧
    stage_dispatch ((parse_pipeline (some "rm /readme.txt".toList) no_cmds).cmds 0) =
      stage_kind.host_execvp ∧
    (∀ c, is_shell_builtin_mysh c ≠ 0 ↔
      c ∈ ["cd".toList, "pwd".toList, "ls".toList, "cat".toList, "grep".toList,
        "mkdir".toList, "touch".toList, "rm".toList, "rmdir".toList, "mv".toList,
        "head".toList, "tail".toList, "history".toList, "jobs".toList, "exit".toList]) := by
  refine ⟨?_, by decide, by decide, by decide, by decide, by decide, by decide, by decide,
    by decide, ?_⟩
  · intro c
    unfold is_shell_builtin
    simp only [List.mem_cons, List.mem_singleton, List.not_mem_nil, or_false]
    split <;> simp_all
  · intro c
    unfold is_shell_builtin_mysh
    simp only [List.mem_cons, List.mem_singleton, List.not_mem_nil, or_false]
    split
    · rename_i h
      simp only [ne_eq, one_ne_zero, not_false_eq_true, true_iff]
      tauto
    · rename_i h
      simp only [ne_eq, not_true_eq_false, false_iff]
      tauto

/-- C35: writes are isolated.  In a state where the chains of the in-use files are
well formed (`chain i` is the chain of entry `i`) and pairwise disjoint, a call
of `fat_write_file` on entry `e` returns (0, or -1 when it fails), and for every
other entry `e2` it leaves every field of the entry unchanged and
`fat_read_file (e2)` returns the same buffer as before. -/
theorem C35_writes_are_isolated (fuel : Nat) (s : fat_fs) (e : Nat) (data : List Char)
    (size now : Nat) (junk : Nat → Char) (chain : Nat → List Nat)
    (hfuel : MAX_BLOCKS < fuel)
    (hch : ∀ i, i < s.num_entries → (s.dir_entries i).is_used = true →
      (s.dir_entries i).is_dir = false →
      is_chain s.fat_table (chain i) (s.dir_entries i).first_block)
    (hdis : ∀ i, i < s.num_entries → ∀ j, j < s.num_entries →
      (s.dir_entries i).is_used = true → (s.dir_entries i).is_dir = false →
      (s.dir_entries j).is_used = true → (s.dir_entries j).is_dir = false → i ≠ j →
      ∀ x, x ∈ chain i → x ∉ chain j) :
    ∃ r, fat_write_file fuel s e data size now = some r ∧ (r.ret = 0 ∨ r.ret = -1) ∧
      ∀ e2, e2 ≠ e →
        r.fs.dir_entries e2 = s.dir_entries e2 ∧
        fat_read_file r.fs junk e2 = fat_read_file s junk e2 := by
  by_cases hg : e ≥ s.num_entries ∨ (s.dir_entries e).is_used = false
  · refine ⟨⟨-1, none, s⟩, ?_, Or.inr rfl, fun _ _ => ⟨rfl, rfl⟩⟩
    unfold fat_write_file
    rw [if_pos hg]
  · by_cases hd : (s.dir_entries e).is_dir = true
    · refine ⟨⟨-1, none, s⟩, ?_, Or.inr rfl, fun _ _ => ⟨rfl, rfl⟩⟩
      unfold fat_write_file
      rw [if_neg hg, if_pos hd]
    · have he : e < s.num_entries := by
        by_contra hc
        exact hg (Or.inl (Nat.le_of_not_lt hc))
      have hu : (s.dir_entries e).is_used = true := by
        cases h : (s.dir_entries e).is_used
        · exact absurd (Or.inr h) hg
        · rfl
      have hd2 : (s.dir_entries e).is_dir = false := by
        cases h : (s.dir_entries e).is_dir
        · rfl
        · exact absurd h hd
      obtain ⟨r, hw, hret, hfr⟩ := fat_write_file_frame fuel s e data size now (chain e) he hu
        hd2 (hch e he hu hd2) hfuel
      obtain ⟨hnum, _, hoth, _⟩ := fat_write_file_fields fuel s e data size now r hw
      refine ⟨r, hw, hret, ?_⟩
      intro e2 hne
      refine ⟨hoth e2 hne, ?_⟩
      apply fat_read_file_frame s r.fs junk e2 (chain e2) hnum (hoth e2 hne)
      intro h2 hu2 hdir2
      refine ⟨hch e2 h2 hu2 hdir2, ?_⟩
      intro x hx
      exact hfr x (hdis e2 h2 e he hu2 hdir2 hu hd2 hne x hx)
        (is_chain_mem _ _ _ (hch e2 h2 hu2 hdir2) x hx).2

/-- C35 (instance): on the volume that holds `readme.txt` in block 0 and `/greet`
(`hello`, newline) in block 1, writing `hi` to `readme.txt` leaves `/greet` as
it was. -/
theorem C35_writes_are_isolated_witness :
    fat_read_file vol_hello (fun _ => 'j') 2 = some ("hello\n".toList ++ [NUL]) ∧
    ∃ r, fat_write_file 1025 vol_hello 1 "hi".toList 2 0 = some r ∧ (r.ret = 0 ∨ r.ret = -1) ∧
      ∀ e2, e2 ≠ 1 →
        r.fs.dir_entries e2 = vol_hello.dir_entries e2 ∧
        fat_read_file r.fs (fun _ => 'j') e2 = fat_read_file vol_hello (fun _ => 'j') e2 :=
  ⟨by decide,
    C35_writes_are_isolated 1025 vol_hello 1 "hi".toList 2 0 (fun _ => 'j')
      vol_hello_chains (by decide) (by decide)
      (by
        have hn : vol_hello.num_entries = 3 := by decide
        intro i hi j hj h1 h2 h3 h4 hne x hx
        clear h1 h2 h3 h4
        rw [hn] at hi hj
        unfold vol_hello_chains at hx ⊢
        interval_cases i <;> interval_cases j <;> simp_all)⟩

/-- C36 (defect): with the current directory `/d`, `fat_mkdir ("/x")` returns 0 and
creates entry 3 (the previous `num_entries`) under `/d`, not under the root, and
`fat_resolve_path ("/x")` immediately afterwards returns "not found"; the same
holds for `fat_touch ("/x")`, so `write_buffer_to_vfs ("/x", ..)` creates the
entry and then returns -1. -/
theorem C36_created_entry_is_not_resolved :
    vol_cd_d.fs.current_dir = 2 ∧ vol_cd_d.fs.num_entries = 3 ∧
    vol_mkdir_x.ret = 0 ∧ vol_mkdir_x.fs.num_entries = 4 ∧
    (vol_mkdir_x.fs.dir_entries 3).name = ['x'] ∧
    (vol_mkdir_x.fs.dir_entries 3).parent_entry = 2 ∧
    fat_resolve_path vol_mkdir_x.fs (some "/x".toList) = NOT_FOUND ∧
    fat_resolve_path vol_mkdir_x.fs (some "/d/x".toList) = 3 ∧
    vol_touch_x.ret = 0 ∧ vol_touch_x.fs.num_entries = 4 ∧
    (vol_touch_x.fs.dir_entries 3).parent_entry = 2 ∧
    fat_resolve_path vol_touch_x.fs (some "/x".toList) = NOT_FOUND ∧
    (write_buffer_to_vfs 4 vol_cd_d.fs 0 0 (fun _ => 'j') (some "/x".toList) ['a'] 1 0).map
      (fun r => (r.ret, r.fs.num_entries)) = some (-1, 4) := by
  decide

/-- C37: `fat_mv` moves metadata only.  For all arguments the FAT table, the block
data, `num_entries` and `current_dir` are unchanged, every entry keeps its
`size`, `first_block`, `is_dir`, `is_used` and `created`, every entry other than
the source entry (the one `fat_resolve_path (source)` returns) is unchanged
altogether, and `fat_read_file` of every entry returns the same bytes before and
after. -/
theorem C37_mv_moves_metadata_only (s : fat_fs) (now : Nat) (source dest : Option (List Char))
    (junk : Nat → Char) :
    (fat_mv s now source dest).fs.fat_table = s.fat_table ∧
    (fat_mv s now source dest).fs.blocks = s.blocks ∧
    (fat_mv s now source dest).fs.num_entries = s.num_entries ∧
    (fat_mv s now source dest).fs.current_dir = s.current_dir ∧
    (∀ i, ((fat_mv s now source dest).fs.dir_entries i).size = (s.dir_entries i).size ∧
      ((fat_mv s now source dest).fs.dir_entries i).first_block = (s.dir_entries i).first_block ∧
      ((fat_mv s now source dest).fs.dir_entries i).is_dir = (s.dir_entries i).is_dir ∧
      ((fat_mv s now source dest).fs.dir_entries i).is_used = (s.dir_entries i).is_used ∧
      ((fat_mv s now source dest).fs.dir_entries i).created = (s.dir_entries i).created) ∧
    (∀ i, i ≠ fat_resolve_path s source →
      (fat_mv s now source dest).fs.dir_entries i = s.dir_entries i) ∧
    (∀ e, fat_read_file (fat_mv s now source dest).fs junk e = fat_read_file s junk e) := by
  have key : (fat_mv s now source dest).fs = s ∨
      ∃ parent name, (fat_mv s now source dest).fs =
        mv_apply s now (fat_resolve_path s source) parent name := by
    unfold fat_mv
    cases source with
    | none => exact Or.inl rfl
    | some src =>
      cases dest with
      | none => exact Or.inl rfl
      | some dst =>
        simp only
        split
        · exact Or.inl rfl
        · split
          · exact Or.inl rfl
          · split
            · exact Or.inl rfl
            · split
              · exact Or.inl rfl
              · split
                · split
                  · split
                    · exact Or.inl rfl
                    · exact Or.inr ⟨_, _, rfl⟩
                  · exact Or.inl rfl
                · exact Or.inr ⟨_, _, rfl⟩
  rcases key with h | ⟨parent, name, h⟩
  · rw [h]
    exact ⟨rfl, rfl, rfl, rfl, fun _ => ⟨rfl, rfl, rfl, rfl, rfl⟩, fun _ _ => rfl, fun _ => rfl⟩
  · rw [h]
    have hf : ∀ i, ((mv_apply s now (fat_resolve_path s source) parent name).dir_entries i).size =
          (s.dir_entries i).size ∧
        ((mv_apply s now (fat_resolve_path s source) parent name).dir_entries i).first_block =
          (s.dir_entries i).first_block ∧
        ((mv_apply s now (fat_resolve_path s source) parent name).dir_entries i).is_dir =
          (s.dir_entries i).is_dir ∧
        ((mv_apply s now (fat_resolve_path s source) parent name).dir_entries i).is_used =
          (s.dir_entries i).is_used ∧
        ((mv_apply s now (fat_resolve_path s source) parent name).dir_entries i).created =
          (s.dir_entries i).created := by
      intro i
      unfold mv_apply set_entry store
      by_cases hi : i = fat_resolve_path s source
      · subst hi
        simp
      · simp [hi]
    refine ⟨rfl, rfl, rfl, rfl, hf, ?_, ?_⟩
    · intro i hi
      unfold mv_apply set_entry store
      simp [hi]
    · intro e
      obtain ⟨h1, h2, h3, h4, _⟩ := hf e
      unfold fat_read_file
      rw [h1, h2, h3, h4]
      have hr : ∀ (size fuel b off : Nat) (buf : Nat → Char),
          read_loop (mv_apply s now (fat_resolve_path s source) parent name) size fuel b off buf =
            read_loop s size fuel b off buf :=
        fun size =>
          read_loop_congr (mv_apply s now (fat_resolve_path s source) parent name) s rfl rfl size
      simp only [hr]
      rfl

/-- C38 (defect): the calls `mkdir /P`, `touch /P/F`, `mkdir /P/F/d`, `cd /P/F/d`,
`rm /P/F`, `rmdir /P`, `cd ../..` on the fresh volume all return 0 and leave
`current_dir = 2`, the entry of `/P`, which is a directory that is no longer in
use: `fat_mkdir` accepts the regular file `F` as parent, `fat_rm` removes `F`
although it has a child, `fat_rmdir` then finds `P` empty, and `fat_cd` tests
`is_dir` but not `is_used` on the entry that `..` leads to. -/
theorem C38_current_dir_on_removed_directory :
    run (fat_init 0)
        [op.mkdir 0 (some "/P".toList), op.touch 0 (some "/P/F".toList),
          op.mkdir 0 (some "/P/F/d".toList), op.cd (some "/P/F/d".toList),
          op.rm 2 (some "/P/F".toList), op.rmdir (some "/P".toList)] = some vol_orphan ∧
    vol_orphan.current_dir = 4 ∧ (vol_orphan.dir_entries 4).parent_entry = 3 ∧
    (vol_orphan.dir_entries 3).parent_entry = 2 ∧
    (vol_orphan.dir_entries 3).is_used = false ∧ (vol_orphan.dir_entries 2).is_used = false ∧
    fat_resolve_path vol_orphan (some "../..".toList) = 2 ∧
    vol_orphan_cd.ret = 0 ∧
    (run vol_orphan [op.cd (some "../..".toList)]).map (fun s => s.current_dir) = some 2 ∧
    vol_orphan_cd.fs.current_dir = 2 ∧ vol_orphan_cd.fs.current_dir < vol_orphan_cd.fs.num_entries ∧
    (vol_orphan_cd.fs.dir_entries vol_orphan_cd.fs.current_dir).is_dir = true ∧
    (vol_orphan_cd.fs.dir_entries vol_orphan_cd.fs.current_dir).is_used = false := by
  refine ⟨rfl, ?_⟩
  decide

/-- C39 (defect): after `mkdir /a`, `cd /a`, `mv /a /a` on the fresh volume (each
call returns 0) the current directory is entry 2 and entry 2 is its own parent,
so the loop `while (idx != 0)` of `fat_pwd` never reaches the root: `fat_pwd`
does not return, whatever the iteration budget. -/
theorem C39_pwd_does_not_terminate :
    (fat_mkdir (fat_init 0) 0 (some "/a".toList)).ret = 0 ∧
    (fat_cd (fat_mkdir (fat_init 0) 0 (some "/a".toList)).fs (some "/a".toList)).ret = 0 ∧
    (fat_mv (fat_cd (fat_mkdir (fat_init 0) 0 (some "/a".toList)).fs (some "/a".toList)).fs 0
      (some "/a".toList) (some "/a".toList)).ret = 0 ∧
    (fat_mv (fat_cd (fat_mkdir (fat_init 0) 0 (some "/a".toList)).fs (some "/a".toList)).fs 0
      (some "/a".toList) (some "/a".toList)).fs.current_dir = vol_own_parent.current_dir ∧
    vol_own_parent.current_dir = 2 ∧ (vol_own_parent.dir_entries 2).is_used = true ∧
    (vol_own_parent.dir_entries 2).is_dir = true ∧
    (vol_own_parent.dir_entries 2).parent_entry = 2 ∧
    ∀ fuel, fat_pwd fuel vol_own_parent = none := by
  have hc : vol_own_parent.current_dir = 2 := by decide
  have hp : (vol_own_parent.dir_entries 2).parent_entry = 2 := by decide
  refine ⟨by decide, by decide, by decide, by decide, hc, by decide, by decide, hp, ?_⟩
  have hloop : ∀ (fuel : Nat) (path : List Char), pwd_loop vol_own_parent fuel 2 path = none := by
    intro fuel
    induction fuel with
    | zero => intro path; rfl
    | succ n ih =>
      intro path
      unfold pwd_loop
      rw [if_pos (by decide), hp]
      exact ih _
  intro fuel
  unfold fat_pwd
  rw [hc, if_neg (by decide), hloop]
  rfl

/-- C40 (counterexample to the claim as stated): in the stage `a > x >> y` the marker
`>>` is handled (`output_file = y`, `append = 1`) and the single `>` to its left
is not, so `parse_pipeline` returns the argument strings `a`, `>`, `x`: the
token `>` is a redirection operator inside `argv`. -/
theorem C40_single_marker_left_of_append_leaks :
    (parse_pipeline (some "a > x >> y".toList) no_cmds).num_cmds = 1 ∧
    argv_list ((parse_pipeline (some "a > x >> y".toList) no_cmds).cmds 0) =
      [some ['a'], some ['>'], some ['x']] ∧
    ((parse_pipeline (some "a > x >> y".toList) no_cmds).cmds 0).argv 1 = some ['>'] ∧
    ((parse_pipeline (some "a > x >> y".toList) no_cmds).cmds 0).output_file = some ['y'] ∧
    ((parse_pipeline (some "a > x >> y".toList) no_cmds).cmds 0).append = 1 ∧
    kept_segments "a > x >> y".toList = ["a > x >> y".toList] ∧
    ¬ out_marker_handled "a > x >> y".toList := by
  decide

/-- C40 (amended): for every input line, no argument string of any stage returned by
`parse_pipeline` is empty or contains `|`, `<`, a space or a tab; and no
argument string of a stage contains `>` either, unless in the text of that stage
a single `>` stands before the leftmost `>>` with no `<` before it (that is,
unless the stage text is not `out_marker_handled`).  The texts of the returned
stages are `kept_segments line`; in particular no argument string contains `>`
when the line contains no `>>`. -/
theorem C40_markers_in_arguments (line : List Char) (cmds : Nat → command) :
    (parse_pipeline (some line) cmds).num_cmds = (kept_segments line).length ∧
    ∀ i seg, (kept_segments line)[i]? = some seg →
      ∀ j, j < ((parse_pipeline (some line) cmds).cmds i).argc →
        ∃ tok, ((parse_pipeline (some line) cmds).cmds i).argv j = some tok ∧ tok ≠ [] ∧
          '|' ∉ tok ∧ '<' ∉ tok ∧ ' ' ∉ tok ∧ '\t' ∉ tok ∧
          (out_marker_handled seg → '>' ∉ tok) ∧
          (¬ ['>', '>'] <:+: line → '>' ∉ tok) := by
  obtain ⟨h1, h2, h3⟩ := parse_pipeline_spec line cmds
  refine ⟨h1, ?_⟩
  intro i seg hseg
  obtain ⟨slot, hs⟩ := h3 i seg hseg
  have hmem : seg ∈ kept_segments line := by
    obtain ⟨hi, he⟩ := List.getElem?_eq_some.1 hseg
    exact he ▸ List.getElem_mem hi
  obtain ⟨hbar, hinf⟩ := kept_segments_chars line seg hmem
  have hnul := kept_segments_no_nul line seg hmem
  obtain ⟨hlen, hprops⟩ := stage_tokens_props seg
  have hchars := stage_tokens_chars seg
  rw [hs, parse_stage_eq]
  simp only
  intro j hj
  obtain ⟨t, ht1, ht2⟩ := fill_argv_get _ slot 0 j hj
  rw [Nat.zero_add] at ht2
  refine ⟨t, by rw [store_ne _ _ _ _ (Nat.ne_of_lt hj), ht2], (hprops t ht1).1, ?_, ?_, ?_, ?_,
    ?_, ?_⟩
  · exact fun hm => hbar _ ((hchars t ht1 _ hm).1) rfl
  · exact fun hm => (hchars t ht1 _ hm).2.1 rfl
  · exact fun hm => (hprops t ht1).2 _ hm (by simp)
  · exact fun hm => (hprops t ht1).2 _ hm (by simp)
  · exact fun hh => stage_tokens_no_out seg hnul hh t ht1
  · intro hno hm
    exact (hchars t ht1 _ hm).2.2 (fun hin => hno (hin.trans hinf)) rfl

/-- C40 (instance of the amended claim): the second stage of
`cat < in | grep a >> out`, whose first `>` begins a `>>`. -/
theorem C40_markers_in_arguments_witness :
    (parse_pipeline (some "cat < in | grep a >> out".toList) no_cmds).num_cmds = 2 ∧
    (kept_segments "cat < in | grep a >> out".toList)[1]? = some " grep a >> out".toList ∧
    out_marker_handled " grep a >> out".toList ∧
    ∃ tok,
      ((parse_pipeline (some "cat < in | grep a >> out".toList) no_cmds).cmds 1).argv 1 =
        some tok ∧ tok ≠ [] ∧ '|' ∉ tok ∧ '<' ∉ tok ∧ ' ' ∉ tok ∧ '\t' ∉ tok ∧
      (out_marker_handled " grep a >> out".toList → '>' ∉ tok) ∧
      (¬ ['>', '>'] <:+: "cat < in | grep a >> out".toList → '>' ∉ tok) :=
  ⟨by decide, by decide, by decide,
    (C40_markers_in_arguments "cat < in | grep a >> out".toList no_cmds).2 1
      " grep a >> out".toList (by decide) 1 (by decide)⟩

end OsProject
